import Mathlib

/-!
# Minimum cycle basis, support-vector algorithm (parmcb)

A shallow embedding of the rank-level main loop of `mcb::mcb_sva_mpi`
(`include/mcb/mcb_sva_signed_mpi.hpp`) and of the two minimum-odd-cycle reducers
(`cycle_min` in the same file and in `include/parmcb/sptrees.hpp`, and
`SerializableMinOddCycleMinOp` in `include/parmcb/sptrees.hpp`), and of the shortest-path
trees of `include/parmcb/sptrees.hpp`: `SPTree` with its traversals `update_parities` and
`compute_first_in_path`, `create_candidate_cycles`, `CandidateCycleBuilder` and the two
variants of `ShortestOddCycleLookup`. A tree is its node map; a pointer to a node is the
index of its vertex; loops run on fuel and return `none` when it runs out or a null pointer
is followed. The step of one iteration of the main loop (`shortest_odd_cycle_step`, lines
110-175 of `mcb_sva_signed_mpi.hpp`) is embedded with its two branches, the serialisation
of the cycles and the split of the vertices over the ranks.

The weight type is the template parameter `WeightType`: the cycle builder and the lookup
are written for any type with `+`, `<` and zero, and each theorem states the class of
weight types it is proved for; `RoundedWeight` is `double` on the non-negative integers,
with rounding addition.

The sparse GF(2) vectors, the graph, the forest index, the signed shortest-path search and
the reduce of the communicator are not among the sources; they are modelled from the
specification and marked as such. What is assumed of the forest index and of the signed
search are the contracts `forest_index_contract`, `forest_index_conversions` and
`signed_dijkstra_contract`, the latter in terms of the walks of the graph.
The definitions come first, then the lemmas and the theorems of the claims.
-/

namespace ParMCB

/-! ## Sparse vectors over GF(2) -/

/-- Modelled from the spec: `SpVecGF2` (`mcb/spvecgf2.hpp` is not among the sources) is
a finite, deduplicated set of indices read as a vector over GF(2). -/
abbrev SpVecGF2 := Finset Nat

/-- Modelled from the spec: `add(v1, v2)` is the symmetric difference (`operator+=`). -/
def SpVecGF2.add (a b : SpVecGF2) : SpVecGF2 := (a \ b) ∪ (b \ a)

/-- Modelled from the spec: `dot(v1, v2)` is the parity of `|v1 ∩ v2|` (`operator*`
against a `std::set` of indices), a value in `{0, 1}`. -/
def SpVecGF2.dot (a : SpVecGF2) (c : Finset Nat) : Nat := (a ∩ c).card % 2

/-! ## Cycle tuples and the reducers -/

/-- The tuple `std::tuple<std::set<Edge>, WeightType, bool>` (`cycle_t`). -/
structure cycle_t (Edge W : Type) where
  edges : Finset Edge
  weight : W
  found : Bool
deriving DecidableEq

/-- The lambda `cycle_min` of `mcb_sva_mpi` (lines 95-108), textually the same as the one of
`ShortestOddCycleLookup::compute_shortest_odd_cycle` (sptrees.hpp lines 638-651);
`compare` is `std::less<WeightType>`. -/
def cycle_min {Edge W : Type} [LinearOrder W] (c1 c2 : cycle_t Edge W) : cycle_t Edge W :=
  if !c1.found || !c2.found then
    if c1.found then c1 else c2
  else if !(decide (c2.weight < c1.weight)) then c1
  else c2

/-- The initial value of `best` and of the parallel reduce:
`(std::set<Edge>(), numeric_limits<WeightType>::max(), false)`; the maximum of the weight
type is a parameter. -/
def not_found (Edge : Type) {W : Type} (wmax : W) : cycle_t Edge W :=
  { edges := ∅, weight := wmax, found := false }

/-- The struct `SerializableMinOddCycle`: edges as forest indices, weight, exists. -/
structure SerializableMinOddCycle (W : Type) where
  edges : List Nat
  weight : W
  found : Bool
deriving DecidableEq

/-- The functor `SerializableMinOddCycleMinOp::operator()` (sptrees.hpp lines 454-469). -/
def SerializableMinOddCycleMinOp {W : Type} [LinearOrder W]
    (lhs rhs : SerializableMinOddCycle W) : SerializableMinOddCycle W :=
  if !lhs.found || !rhs.found then
    if lhs.found then lhs else rhs
  else if lhs.weight < rhs.weight then lhs
  else rhs

/-! ## The main loop of `mcb_sva_mpi` -/

/-- The per-rank state carried by the main loop: the support vectors, the cycles written
to `out` so far (each `std::list<Edge>` is the copy of a `std::set<Edge>`, kept here as
that set) and `mcb_weight`. -/
structure RankState (Edge W : Type) where
  support : List SpVecGF2
  out : List (Finset Edge)
  mcb_weight : W

/-- Support initialisation (lines 57-62): `support[i] = { i }` for `i` in `[0, csd)`, the
`push_back`s of the parallel loop taken in index order. -/
def init_support (csd : Nat) : List SpVecGF2 :=
  (List.range csd).map (fun i => ({i} : Finset Nat))

/-- The loop body of the support update (lines 185-189) run for `i = i0, ..., i0 + n - 1`:
`if (support[i] * cyclek == 1) support[i] += support[k]`. -/
def update_support (k : Nat) (cyclek : Finset Nat) :
    Nat → Nat → List SpVecGF2 → List SpVecGF2
  | _, 0, support => support
  | i, n + 1, support =>
    update_support k cyclek (i + 1) n
      (if SpVecGF2.dot (support.getD i ∅) cyclek = 1 then
        support.set i (SpVecGF2.add (support.getD i ∅) (support.getD k ∅))
      else support)

/-- One iteration `k` of the main loop (lines 70-201) on the given rank.
`received` is the vector broadcast by rank 0. `extract rank k s` is the tuple `best` this
rank holds after the shortest-odd-cycle step of lines 89-174 for `support[k] = s`; these
lines are embedded as `shortest_odd_cycle_step`, and the loop is written for any step so
that its own invariants are proved once. `convert_edges` maps a set of edges to their
forest indices. -/
def iteration {Edge W : Type} [Add W] (convert_edges : Finset Edge → Finset Nat)
    (extract : Nat → Nat → SpVecGF2 → cycle_t Edge W) (csd rank k : Nat)
    (received : SpVecGF2) (st : RankState Edge W) : RankState Edge W :=
  let support := if rank = 0 then st.support else st.support.set k received
  let best := extract rank k (support.getD k ∅)
  if rank = 0 then
    let cyclek := convert_edges best.edges
    { support := update_support k cyclek (k + 1) (csd - (k + 1)) support
      out := st.out ++ [best.edges]
      mcb_weight := st.mcb_weight + best.weight }
  else
    { st with support := support }

/-- The state of a rank after the first `n` iterations of the main loop, `received k` being
the vector broadcast at iteration `k`. -/
def main_loop {Edge W : Type} [Add W] [Zero W] (convert_edges : Finset Edge → Finset Nat)
    (extract : Nat → Nat → SpVecGF2 → cycle_t Edge W) (csd rank : Nat)
    (received : Nat → SpVecGF2) : Nat → RankState Edge W
  | 0 => { support := init_support csd, out := [], mcb_weight := 0 }
  | n + 1 =>
    iteration convert_edges extract csd rank n (received n)
      (main_loop convert_edges extract csd rank received n)

/-- The state of rank 0 after `n` iterations (rank 0 ignores what it receives). -/
def rank0_state {Edge W : Type} [Add W] [Zero W] (convert_edges : Finset Edge → Finset Nat)
    (extract : Nat → Nat → SpVecGF2 → cycle_t Edge W) (csd n : Nat) : RankState Edge W :=
  main_loop convert_edges extract csd 0 (fun _ => ∅) n

/-- The vector `support[k]` that rank 0 broadcasts at the start of iteration `k`. -/
def broadcast_support {Edge W : Type} [Add W] [Zero W]
    (convert_edges : Finset Edge → Finset Nat)
    (extract : Nat → Nat → SpVecGF2 → cycle_t Edge W) (csd k : Nat) : SpVecGF2 :=
  (rank0_state convert_edges extract csd k).support.getD k ∅

/-- The function `mcb_sva_mpi` on the given rank: the state when the main loop has run its
`csd` iterations; the value returned is its `mcb_weight`. -/
def mcb_sva_mpi {Edge W : Type} [Add W] [Zero W] (convert_edges : Finset Edge → Finset Nat)
    (extract : Nat → Nat → SpVecGF2 → cycle_t Edge W) (csd rank : Nat) : RankState Edge W :=
  main_loop convert_edges extract csd rank (broadcast_support convert_edges extract csd) csd

/-- The tuple `best` of rank 0 in iteration `k`. -/
def best_cycle {Edge W : Type} [Add W] [Zero W] (convert_edges : Finset Edge → Finset Nat)
    (extract : Nat → Nat → SpVecGF2 → cycle_t Edge W) (csd k : Nat) : cycle_t Edge W :=
  extract 0 k (broadcast_support convert_edges extract csd k)

/-- The set `cyclek` of iteration `k`: the characteristic vector of the `k`-th emitted
cycle over forest indices. -/
def characteristic {Edge W : Type} [Add W] [Zero W] (convert_edges : Finset Edge → Finset Nat)
    (extract : Nat → Nat → SpVecGF2 → cycle_t Edge W) (csd k : Nat) : Finset Nat :=
  convert_edges (best_cycle convert_edges extract csd k).edges

/-- The GF(2) combination of the first `n` vectors of `c` selected by the coefficients
`a`: the symmetric difference of the `c i` with `i < n` and `a i = true`. -/
def gf2_combination {α : Type} [DecidableEq α] (c : Nat → Finset α) (a : Nat → Bool) :
    Nat → Finset α
  | 0 => ∅
  | n + 1 => symmDiff (gf2_combination c a n) (if a n then c n else ∅)

/-! ## Graphs, cycle space and cycle bases -/

/-- Modelled from the spec: the input graph (the Boost graph `g`, whose type is not under
src/): a finite set of edges, each with its two endpoints; multi-edges and self-loops are
accepted. -/
structure Graph (Edge : Type) where
  edges : Finset Edge
  source : Edge → Nat
  target : Edge → Nat

/-- The degree of the vertex `v` in the edge set `F`; a self-loop counts twice. -/
def Graph.degree {Edge : Type} [DecidableEq Edge] (g : Graph Edge) (F : Finset Edge)
    (v : Nat) : Nat :=
  (F.filter (fun e => g.source e = v)).card + (F.filter (fun e => g.target e = v)).card

/-- Modelled from the spec: the cycle space of the graph, the sets of edges of the graph in
which every vertex has even degree (vertices that touch no edge of `F` have degree 0). -/
def Graph.in_cycle_space {Edge : Type} [DecidableEq Edge] (g : Graph Edge)
    (F : Finset Edge) : Prop :=
  F ⊆ g.edges ∧
    ∀ e, e ∈ F → g.degree F (g.source e) % 2 = 0 ∧ g.degree F (g.target e) % 2 = 0

instance Graph.decidable_in_cycle_space {Edge : Type} [DecidableEq Edge] (g : Graph Edge)
    (F : Finset Edge) : Decidable (g.in_cycle_space F) := by
  unfold Graph.in_cycle_space
  infer_instance

/-- Modelled from the spec: a (simple) cycle, a non-empty element of the cycle space none
of whose non-empty proper subsets is in the cycle space. -/
def Graph.is_cycle {Edge : Type} [DecidableEq Edge] (g : Graph Edge) (F : Finset Edge) :
    Prop :=
  F.Nonempty ∧ g.in_cycle_space F ∧
    ∀ F', F' ∈ F.powerset → F'.Nonempty → g.in_cycle_space F' → F' = F

instance Graph.decidable_is_cycle {Edge : Type} [DecidableEq Edge] (g : Graph Edge)
    (F : Finset Edge) : Decidable (g.is_cycle F) := by
  unfold Graph.is_cycle
  infer_instance

/-- Modelled from the spec: a cycle basis, given as the sequence `b 0, ..., b (n - 1)`:
every member is a cycle, the members are linearly independent over GF(2) and every element
of the cycle space is a GF(2) combination of them. -/
def Graph.is_cycle_basis {Edge : Type} [DecidableEq Edge] (g : Graph Edge) (n : Nat)
    (b : Nat → Finset Edge) : Prop :=
  (∀ i, i < n → g.is_cycle (b i)) ∧
    (∀ a, gf2_combination b a n = ∅ → ∀ i, i < n → a i = false) ∧
    (∀ z, g.in_cycle_space z → ∃ a, gf2_combination b a n = z)

/-- Modelled from the spec: the contract of `ForestIndex` and `convert_edges` (neither is
under src/). `tree` is the edge set of the forest, which contains no cycle; the other edges
of the graph get pairwise different indices in `[0, csd)`; and `convert_edges` sends a set
of edges to a set of indices whose part below `csd` is the set of indices of its non-tree
edges. -/
structure forest_index_contract {Edge : Type} [DecidableEq Edge] (g : Graph Edge) (csd : Nat)
    (convert_edges : Finset Edge → Finset Nat) (tree : Finset Edge) (index : Edge → Nat) :
    Prop where
  index_lt : ∀ e, e ∈ g.edges → e ∉ tree → index e < csd
  index_inj : ∀ e, e ∈ g.edges → e ∉ tree → ∀ e', e' ∈ g.edges → e' ∉ tree →
    index e = index e' → e = e'
  convert : ∀ F, F ⊆ g.edges → ∀ i, i < csd →
    (i ∈ convert_edges F ↔ ∃ e, e ∈ F ∧ e ∉ tree ∧ index e = i)
  forest : ∀ F, F ⊆ tree → g.in_cycle_space F → F = ∅

/-- The property of the tuple `best` that the shortest-odd-cycle step is to establish
(section 4.F step 3a and condition (ii)): `best` holds a cycle of the graph whose
characteristic vector has dot product 1 with the support vector `s`, its weight is the sum
of the weights of its edges, and no cycle with dot product 1 with `s` weighs less. It is
proved of `shortest_odd_cycle_step` in `shortest_odd_cycle_step_min_odd_cycle`. -/
def min_odd_cycle {Edge W : Type} [DecidableEq Edge] [OrderedAddCommMonoid W] (g : Graph Edge)
    (w : Edge → W) (convert_edges : Finset Edge → Finset Nat) (s : SpVecGF2)
    (best : cycle_t Edge W) : Prop :=
  best.found = true ∧ g.is_cycle best.edges ∧ best.weight = best.edges.sum w ∧
    SpVecGF2.dot s (convert_edges best.edges) = 1 ∧
    ∀ D, g.is_cycle D → SpVecGF2.dot s (convert_edges D) = 1 → best.weight ≤ D.sum w

/-- A family of GF(2) functionals `f k`, `k < N`, on a set `Z` of vectors closed under
symmetric difference, which is triangular on the vectors `C k` and separates `Z`. -/
structure triangular_system {α : Type} [DecidableEq α] (Z : Finset α → Prop) (N : Nat)
    (C : Nat → Finset α) (f : Nat → Finset α → Nat) : Prop where
  zero_mem : Z ∅
  add_mem : ∀ x y, Z x → Z y → Z (symmDiff x y)
  f_lt : ∀ k x, f k x < 2
  f_add : ∀ k, k < N → ∀ x y, Z x → Z y → f k (symmDiff x y) = (f k x + f k y) % 2
  C_mem : ∀ k, k < N → Z (C k)
  diag : ∀ k, k < N → f k (C k) = 1
  lower : ∀ k, k < N → ∀ j, j < k → f k (C j) = 0
  separate : ∀ z, Z z → (∀ k, k < N → f k z = 0) → z = ∅

/-- The invariant of the exchange argument after `k` exchanges: the vectors `C j`, `j < k`,
together with the `b i` whose index is not in `U` generate `Z`, and their total weight is
at most the total weight of `b`. -/
def exchange_state {α W : Type} [DecidableEq α] [OrderedAddCommMonoid W]
    (Z : Finset α → Prop) (C : Nat → Finset α) (wt : Finset α → W) (n : Nat)
    (b : Nat → Finset α) (k : Nat) (U : Finset Nat) : Prop :=
  U ⊆ Finset.range n ∧
  (∀ z, Z z → ∃ a a', (∀ i, i ∈ U → a' i = false) ∧
      symmDiff (gf2_combination C a k) (gf2_combination b a' n) = z) ∧
  (Finset.range k).sum (fun j => wt (C j)) +
      (Finset.range n \ U).sum (fun i => wt (b i)) ≤
    (Finset.range n).sum (fun i => wt (b i))

/-- The theta graph of the spec (end-to-end scenario 2): two vertices joined by three
parallel edges. -/
def theta_graph : Graph (Fin 3) :=
  { edges := Finset.univ, source := fun _ => 0, target := fun _ => 1 }

/-- The weights 2, 3, 5 of the three edges of the theta graph. -/
def theta_weight : Fin 3 → Nat := fun e => if e = 0 then 2 else if e = 1 then 3 else 5

/-- A forest index of the theta graph: edge 0 is the tree edge, edges 1 and 2 have the
indices 0 and 1. -/
def theta_index : Fin 3 → Nat := fun e => e.val - 1

/-- The conversion of an edge set of the theta graph to the indices of its non-tree
edges. -/
def theta_convert_edges (F : Finset (Fin 3)) : Finset Nat := (F.erase 0).image theta_index

/-- Example extraction used to evaluate the loop: in iteration `k` rank 0 holds the cycle
with edges `{k, k+1}` and weight `k + 1`, every other rank the not-found tuple. -/
def sample_extract : Nat → Nat → SpVecGF2 → cycle_t Nat Nat :=
  fun rank k _ =>
    if rank = 0 then { edges := {k, k + 1}, weight := k + 1, found := true }
    else not_found Nat 1000

/-! ## The split of the vertices over the ranks -/

/-- The stride of the vertex split (line 133): `ceil((double) vertices.size() / world.size())`,
taken as the exact ceiling of the quotient. -/
def stride (total size : Nat) : Nat := (total + size - 1) / size

/-- The indices of the vertices a rank keeps (lines 134-139): the loop
`for (i = istart; i < iend && i < total; i++)` with `istart = rank * stride` and
`iend = istart + stride` visits `istart, ..., min(iend, total) - 1`. -/
def local_indices (total size rank : Nat) : List Nat :=
  let istart := rank * stride total size
  let iend := istart + stride total size
  List.range' istart (min iend total - istart)

/-! ## Shortest-path trees -/

/-- The function `boost::opposite(e, v, g)`: the other endpoint of `e`; the default vertex
when `v` is not an endpoint of `e`. -/
def Graph.opposite {Edge : Type} (g : Graph Edge) (e : Edge) (v : Nat) : Nat :=
  if v = g.source e then g.target e else if v = g.target e then g.source e else 0

/-- The class `SPNode` (sptrees.hpp lines 47-101). A vertex is its vertex index; a pointer to
a child node is the index of the child in `_tree_node_map`. -/
structure SPNode (Edge W : Type) where
  vertex : Nat
  parity : Bool
  weight : W
  pred : Edge
  has_pred : Bool
  children : List Nat
deriving DecidableEq

/-- The mutable members of the class `SPTree` (lines 257-274): `_id`, `_source`,
`_tree_node_map` (`none` is the null pointer) and `_first_in_path`. The graph and the weight
map are passed to the operations; `_root` is the node stored at the index of `_source`. -/
structure SPTree (Edge W : Type) where
  id : Nat
  source : Nat
  tree_node_map : List (Option (SPNode Edge W))
  first_in_path : List Nat
deriving DecidableEq

/-- The method `SPTree::node` (lines 144-146): `_tree_node_map[_index_map[v]]`. -/
def SPTree.node {Edge W : Type} (t : SPTree Edge W) (v : Nat) : Option (SPNode Edge W) :=
  t.tree_node_map.getD v none

/-- The method `SPTree::first` (lines 160-163): `_first_in_path[vindex]`. -/
def SPTree.first {Edge W : Type} (t : SPTree Edge W) (v : Nat) : Nat :=
  t.first_in_path.getD v 0

/-- The assignment `r.root->parity() = r.info` on the node `n` stored at index `r`. -/
def SPTree.set_parity {Edge W : Type} (t : SPTree Edge W) (r : Nat) (n : SPNode Edge W)
    (info : Bool) : SPTree Edge W :=
  { t with tree_node_map := t.tree_node_map.set r (some { n with parity := info }) }

/-- The test `edges.find(c->pred()) != edges.end()` for the child stored at index `c`. -/
def SPTree.is_signed {Edge W : Type} [DecidableEq Edge] (t : SPTree Edge W)
    (edges : Finset Edge) (c : Nat) : Bool :=
  match t.node c with
  | some nc => decide (nc.pred ∈ edges)
  | none => false

/-- The loop of `SPTree::update_parities` (lines 132-141) on the stack of pairs
`(info, root)`, the head of the list being the top of the stack. The result is `none` when
the fuel runs out or a null pointer is popped. -/
def update_parities_loop {Edge W : Type} [DecidableEq Edge] (edges : Finset Edge) :
    Nat → List (Bool × Nat) → SPTree Edge W → Option (SPTree Edge W)
  | _, [], t => some t
  | 0, _ :: _, _ => none
  | fuel + 1, (info, r) :: stack, t =>
    match t.node r with
    | none => none
    | some n =>
      update_parities_loop edges fuel
        ((n.children.map (fun c => (xor info (t.is_signed edges c), c))).reverse ++ stack)
        (t.set_parity r n info)

/-- The method `SPTree::update_parities` (lines 128-142): the stack starts with
`(false, _root)`; every iteration pops one node, so the number of vertices bounds the
iterations on a tree. -/
def SPTree.update_parities {Edge W : Type} [DecidableEq Edge] (t : SPTree Edge W)
    (edges : Finset Edge) : Option (SPTree Edge W) :=
  update_parities_loop edges t.tree_node_map.length [(false, t.source)] t

/-- The vertex `c->vertex()` of the child stored at index `c`. -/
def SPTree.child_vertex {Edge W : Type} (t : SPTree Edge W) (c : Nat) : Nat :=
  match t.node c with
  | some nc => nc.vertex
  | none => 0

/-- The loop of `SPTree::compute_first_in_path` (lines 325-344) on the stack of pairs
`(info, root)`; `r.root == _root` is the test `r = t.source` on the indices. -/
def compute_first_in_path_loop {Edge W : Type} :
    Nat → List (Nat × Nat) → SPTree Edge W → Option (SPTree Edge W)
  | _, [], t => some t
  | 0, _ :: _, _ => none
  | fuel + 1, (info, r) :: stack, t =>
    match t.node r with
    | none => none
    | some n =>
      if r = t.source then
        compute_first_in_path_loop fuel
          ((n.children.map (fun c => (t.child_vertex c, c))).reverse ++ stack)
          { t with first_in_path := t.first_in_path.set n.vertex n.vertex }
      else
        compute_first_in_path_loop fuel
          ((n.children.map (fun c => (info, c))).reverse ++ stack)
          { t with first_in_path := t.first_in_path.set n.vertex info }

/-- The method `SPTree::compute_first_in_path` (lines 321-345): the stack starts with
`(_source, _root)`. -/
def SPTree.compute_first_in_path {Edge W : Type} (t : SPTree Edge W) :
    Option (SPTree Edge W) :=
  compute_first_in_path_loop t.tree_node_map.length [(t.source, t.source)] t

/-- The set `tree_edges` of `create_candidate_cycles` (lines 169-178): the predecessor edges
of the nodes of the vertices `0, ..., n - 1`. -/
def SPTree.tree_edges {Edge W : Type} [DecidableEq Edge] (t : SPTree Edge W) :
    Nat → Finset Edge
  | 0 => ∅
  | n + 1 =>
    match t.node n with
    | some nd => if nd.has_pred then insert nd.pred (t.tree_edges n) else t.tree_edges n
    | none => t.tree_edges n

/-- The class `CandidateCycle` (lines 349-389): tree, edge and weight. -/
structure CandidateCycle (Edge W : Type) where
  tree : Nat
  edge : Edge
  weight : W
deriving DecidableEq

/-- The loop over the provided edges of `SPTree::create_candidate_cycles` (lines 182-205). -/
def create_candidate_cycles_loop {Edge W : Type} [DecidableEq Edge] [Add W] (g : Graph Edge)
    (weight_map : Edge → W) (t : SPTree Edge W) (tree_edges : Finset Edge) :
    List Edge → List (CandidateCycle Edge W)
  | [] => []
  | e :: rest =>
    if e ∈ tree_edges then create_candidate_cycles_loop g weight_map t tree_edges rest
    else
      match t.node (g.source e) with
      | none => create_candidate_cycles_loop g weight_map t tree_edges rest
      | some v =>
        match t.node (g.target e) with
        | none => create_candidate_cycles_loop g weight_map t tree_edges rest
        | some u =>
          if t.first v.vertex = t.first u.vertex then
            create_candidate_cycles_loop g weight_map t tree_edges rest
          else
            { tree := t.id, edge := e, weight := weight_map e + v.weight + u.weight } ::
              create_candidate_cycles_loop g weight_map t tree_edges rest

/-- The method `SPTree::create_candidate_cycles(begin, end)` (lines 165-207); the vertices
of the graph are the indices of `_tree_node_map`. -/
def SPTree.create_candidate_cycles {Edge W : Type} [DecidableEq Edge] [Add W]
    (g : Graph Edge) (weight_map : Edge → W) (t : SPTree Edge W) (edges : List Edge) :
    List (CandidateCycle Edge W) :=
  create_candidate_cycles_loop g weight_map t (t.tree_edges t.tree_node_map.length) edges

/-- One of the two predecessor walks of `CandidateCycleBuilder::operator()` (lines 521-536
and 543-558), from the vertex `w` with the edges `result` and the weight `cycle_weight`
collected so far. It returns `valid`, the edge set and the weight when the loop is left;
`none` when the fuel runs out or a vertex without a tree node is reached. -/
def pred_walk {Edge W : Type} [DecidableEq Edge] [Add W] [LinearOrder W]
    (g : Graph Edge) (weight_map : Edge → W) (t : SPTree Edge W) (use_weight_limit : Bool)
    (weight_limit : W) : Nat → Nat → Finset Edge → W → Option (Bool × Finset Edge × W)
  | 0, _, _, _ => none
  | fuel + 1, w, result, cycle_weight =>
    match t.node w with
    | none => none
    | some ws =>
      if ws.has_pred then
        if ws.pred ∈ result then some (false, result, cycle_weight)
        else if use_weight_limit && decide (cycle_weight + weight_map ws.pred > weight_limit) then
          some (false, insert ws.pred result, cycle_weight + weight_map ws.pred)
        else
          pred_walk g weight_map t use_weight_limit weight_limit fuel (g.opposite ws.pred w)
            (insert ws.pred result) (cycle_weight + weight_map ws.pred)
      else some (true, result, cycle_weight)

/-- The tuple `std::make_tuple(std::set<Edge> { }, 0.0, false)` returned for a rejected
candidate. -/
def sentinel (Edge W : Type) [Zero W] : cycle_t Edge W :=
  { edges := ∅, weight := 0, found := false }

/-- The functor `CandidateCycleBuilder::operator()` (lines 501-567). Each walk inserts a new
edge in every iteration but its last, so the number of edges of the graph plus one bounds
its iterations. The result is `none` when the candidate names no tree, an endpoint has no
tree node or a walk returns `none`. `W` is the template parameter `WeightType` with its own
`+`, `<` and zero; the weights are added one by one in walk order, and nothing is assumed
about the addition (it may round, as for `RoundedWeight`). -/
def CandidateCycleBuilder {Edge W : Type} [DecidableEq Edge] [Add W] [Zero W]
    [LinearOrder W]
    (g : Graph Edge) (weight_map : Edge → W) (trees : List (SPTree Edge W))
    (c : CandidateCycle Edge W) (signed_edges : Finset Edge) (use_weight_limit : Bool)
    (weight_limit : W) : Option (cycle_t Edge W) :=
  match trees.get? c.tree with
  | none => none
  | some t =>
    match t.node (g.source c.edge), t.node (g.target c.edge) with
    | some v, some u =>
      if xor (xor v.parity u.parity) (decide (c.edge ∈ signed_edges)) then
        if use_weight_limit && decide (weight_map c.edge > weight_limit) then
          some (sentinel Edge W)
        else
          match pred_walk g weight_map t use_weight_limit weight_limit (g.edges.card + 1)
              (g.source c.edge) {c.edge} (weight_map c.edge) with
          | none => none
          | some (valid1, result1, weight1) =>
            if !valid1 then some (sentinel Edge W)
            else
              match pred_walk g weight_map t use_weight_limit weight_limit (g.edges.card + 1)
                  (g.target c.edge) result1 weight1 with
              | none => none
              | some (valid2, result2, weight2) =>
                if !valid2 then some (sentinel Edge W)
                else some { edges := result2, weight := weight2, found := true }
      else some (sentinel Edge W)
    | _, _ => none

/-- The loop `trees[i].update_parities(edges)` over all trees (lines 598-600, 629-634). -/
def update_all_parities {Edge W : Type} [DecidableEq Edge] (edges : Finset Edge) :
    List (SPTree Edge W) → Option (List (SPTree Edge W))
  | [] => some []
  | t :: ts =>
    match t.update_parities edges with
    | none => none
    | some t' =>
      match update_all_parities edges ts with
      | none => none
      | some ts' => some (t' :: ts')

/-- The loop over the candidates of the sequential `compute_shortest_odd_cycle`
(lines 604-622), `min` being the running minimum. -/
def sequential_scan {Edge W : Type} [DecidableEq Edge] [Add W] [Zero W] [LinearOrder W]
    (g : Graph Edge) (weight_map : Edge → W) (trees : List (SPTree Edge W))
    (edges : Finset Edge) (sorted_cycles : Bool) :
    List (CandidateCycle Edge W) → cycle_t Edge W → Option (cycle_t Edge W)
  | [], min => some min
  | c :: cs, min =>
    match CandidateCycleBuilder g weight_map trees c edges min.found min.weight with
    | none => none
    | some cc =>
      if cc.found then
        if sorted_cycles then some cc
        else if !min.found then sequential_scan g weight_map trees edges sorted_cycles cs cc
        else if cc.weight < min.weight then
          sequential_scan g weight_map trees edges sorted_cycles cs cc
        else sequential_scan g weight_map trees edges sorted_cycles cs min
      else sequential_scan g weight_map trees edges sorted_cycles cs min

/-- The sequential `ShortestOddCycleLookup::compute_shortest_odd_cycle` (lines 594-623);
`min` is default-constructed, that is `(∅, 0, false)`. -/
def compute_shortest_odd_cycle {Edge W : Type} [DecidableEq Edge]
    [Add W] [Zero W] [LinearOrder W] (g : Graph Edge) (weight_map : Edge → W)
    (trees : List (SPTree Edge W)) (cycles : List (CandidateCycle Edge W))
    (sorted_cycles : Bool) (edges : Finset Edge) : Option (cycle_t Edge W) :=
  match update_all_parities edges trees with
  | none => none
  | some trees' =>
    sequential_scan g weight_map trees' edges sorted_cycles cycles
      { edges := ∅, weight := 0, found := false }

/-- The body of the parallel reduce (lines 655-667) on one block of candidates,
`running_min` being the value it starts from. -/
def block_scan {Edge W : Type} [DecidableEq Edge] [Add W] [Zero W] [LinearOrder W]
    (g : Graph Edge) (weight_map : Edge → W) (trees : List (SPTree Edge W))
    (edges : Finset Edge) :
    List (CandidateCycle Edge W) → cycle_t Edge W → Option (cycle_t Edge W)
  | [], running_min => some running_min
  | c :: cs, running_min =>
    match CandidateCycleBuilder g weight_map trees c edges running_min.found
        running_min.weight with
    | none => none
    | some cc =>
      if cc.found && (!running_min.found || decide (cc.weight < running_min.weight)) then
        block_scan g weight_map trees edges cs cc
      else block_scan g weight_map trees edges cs running_min

/-- A way `tbb::parallel_reduce` may split a range: a block scanned sequentially from the
identity, or a split after the first `k` elements whose two results are joined. -/
inductive Split where
  | block : Split
  | join : Nat → Split → Split → Split

/-- The value of `tbb::parallel_reduce` (lines 653-668) for a given splitting of the
candidates: blocks are scanned from the identity and joined with `cycle_min`. -/
def parallel_reduce {Edge W : Type} [DecidableEq Edge] [Add W] [Zero W] [LinearOrder W]
    (g : Graph Edge) (weight_map : Edge → W) (wmax : W) (trees : List (SPTree Edge W))
    (edges : Finset Edge) : Split → List (CandidateCycle Edge W) → Option (cycle_t Edge W)
  | Split.block, cycles => block_scan g weight_map trees edges cycles (not_found Edge wmax)
  | Split.join k l r, cycles =>
    match parallel_reduce g weight_map wmax trees edges l (cycles.take k),
        parallel_reduce g weight_map wmax trees edges r (cycles.drop k) with
    | some c1, some c2 => some (cycle_min c1 c2)
    | _, _ => none

/-- The TBB `ShortestOddCycleLookup::compute_shortest_odd_cycle` (lines 625-669) for a given
splitting of the candidate range. -/
def compute_shortest_odd_cycle_tbb {Edge W : Type} [DecidableEq Edge]
    [Add W] [Zero W] [LinearOrder W] (g : Graph Edge) (weight_map : Edge → W) (wmax : W)
    (trees : List (SPTree Edge W)) (cycles : List (CandidateCycle Edge W)) (split : Split)
    (edges : Finset Edge) : Option (cycle_t Edge W) :=
  match update_all_parities edges trees with
  | none => none
  | some trees' => parallel_reduce g weight_map wmax trees' edges split cycles

/-- The cycle a candidate reconstructs to: the result of the builder without weight
limit. -/
def reconstruct {Edge W : Type} [DecidableEq Edge] [Add W] [Zero W] [LinearOrder W]
    (g : Graph Edge) (weight_map : Edge → W) (trees : List (SPTree Edge W))
    (edges : Finset Edge) (c : CandidateCycle Edge W) : Option (cycle_t Edge W) :=
  CandidateCycleBuilder g weight_map trees c edges false 0

/-- The update of the running minimum by a cycle `cc` (lines 613-619 and 660-664): `cc`
replaces the running minimum when it exists and the running minimum does not exist or
weighs more. -/
def keep_min {Edge W : Type} [LinearOrder W] (running_min cc : cycle_t Edge W) :
    cycle_t Edge W :=
  if cc.found && (!running_min.found || decide (cc.weight < running_min.weight)) then cc
  else running_min

/-- The node weights of the tree are the sums of the weights of the predecessor edges to
the root: a node without predecessor has weight zero, and a node with a predecessor edge
weighs the node at the other end of that edge plus the edge. -/
def SPTree.weight_consistent {Edge W : Type} [Add W] [Zero W] (g : Graph Edge)
    (weight_map : Edge → W) (t : SPTree Edge W) : Prop :=
  ∀ v, v < t.tree_node_map.length → ∀ n, n ∈ t.node v →
    (n.has_pred = true → ∃ p, p ∈ t.node (g.opposite n.pred v) ∧
      n.weight = p.weight + weight_map n.pred) ∧
    (n.has_pred = false → n.weight = 0)

instance SPTree.decidable_weight_consistent {Edge W : Type} [Add W] [Zero W] [DecidableEq W]
    (g : Graph Edge) (weight_map : Edge → W) (t : SPTree Edge W) :
    Decidable (t.weight_consistent g weight_map) := by
  unfold SPTree.weight_consistent
  infer_instance

/-- A sample graph on the vertices 0, 1, 2, 3 with the edges 0 = (0,1), 1 = (0,2),
2 = (1,2), 3 = (2,3), 4 = (1,3) and 5 = (2,3). -/
def sample_graph : Graph (Fin 6) :=
  { edges := Finset.univ
    source := fun e =>
      if e = 0 then 0 else if e = 1 then 0 else if e = 2 then 1 else if e = 3 then 2
      else if e = 4 then 1 else 2
    target := fun e =>
      if e = 0 then 1 else if e = 1 then 2 else if e = 2 then 2 else 3 }

/-- The weights of the sample graph: 3 for the edges 4 and 5, 1 for the others. -/
def sample_weight : Fin 6 → Nat := fun e => if e = 4 then 3 else if e = 5 then 3 else 1

/-- The shortest-path tree of the sample graph from vertex 0 as the constructor leaves it:
vertex 1 hangs on edge 0, vertex 2 on edge 1 and vertex 3 on edge 3; all parities are
false. -/
def sample_tree : SPTree (Fin 6) Nat :=
  { id := 0
    source := 0
    tree_node_map :=
      [some ⟨0, false, 0, 0, false, [1, 2]⟩, some ⟨1, false, 1, 0, true, []⟩,
        some ⟨2, false, 1, 1, true, [3]⟩, some ⟨3, false, 2, 3, true, []⟩]
    first_in_path := [0, 1, 2, 2] }

/-- The sample tree after `update_parities` with the signed edge 1. -/
def sample_tree_signed : SPTree (Fin 6) Nat :=
  { id := 0
    source := 0
    tree_node_map :=
      [some ⟨0, false, 0, 0, false, [1, 2]⟩, some ⟨1, false, 1, 0, true, []⟩,
        some ⟨2, true, 1, 1, true, [3]⟩, some ⟨3, true, 2, 3, true, []⟩]
    first_in_path := [0, 1, 2, 2] }

/-! ## The shape of a shortest-path tree -/

/-- A finite forest on vertex indices: `cons v children siblings` is the tree with root `v`
and the subtrees `children`, followed by the trees `siblings`. -/
inductive Forest where
  | nil : Forest
  | cons (v : Nat) (children siblings : Forest) : Forest
deriving DecidableEq

/-- The roots of the trees of a forest, in order. -/
def Forest.roots : Forest → List Nat
  | Forest.nil => []
  | Forest.cons v _ siblings => v :: siblings.roots

/-- The vertices of a forest. -/
def Forest.vertices : Forest → List Nat
  | Forest.nil => []
  | Forest.cons v children siblings => v :: (children.vertices ++ siblings.vertices)

/-- The trees of a forest: root and subtrees of each. -/
def Forest.trees : Forest → List (Nat × Forest)
  | Forest.nil => []
  | Forest.cons v children siblings => (v, children) :: siblings.trees

/-- The number of levels of a forest. -/
def Forest.height : Forest → Nat
  | Forest.nil => 0
  | Forest.cons _ children siblings => max (children.height + 1) siblings.height

/-- The child pointers of the tree follow the forest: every vertex of the forest has a tree
node whose `children()` are the roots of its subtrees, in order. -/
def SPTree.shape {Edge W : Type} (t : SPTree Edge W) : Forest → Prop
  | Forest.nil => True
  | Forest.cons v children siblings =>
    (∃ n, n ∈ t.node v ∧ n.children = children.roots) ∧ t.shape children ∧ t.shape siblings

instance SPTree.decidable_shape {Edge W : Type} (t : SPTree Edge W) :
    ∀ f, Decidable (t.shape f)
  | Forest.nil => isTrue trivial
  | Forest.cons v children siblings =>
    have := SPTree.decidable_shape t children
    have := SPTree.decidable_shape t siblings
    inferInstanceAs (Decidable ((∃ n, n ∈ t.node v ∧ n.children = children.roots) ∧
      t.shape children ∧ t.shape siblings))

/-- The tree as `SPTree::initialize` (lines 276-319) builds it, with the forest `f` of its
child pointers: one tree rooted at the source that lists every vertex once and contains
every tree node; the root has no predecessor edge; a child has a predecessor edge whose
other end is its parent (lines 305-315); the node of a vertex carries that vertex
(lines 293-301); `_first_in_path` has one entry per vertex (line 125). -/
structure SPTree.well_formed {Edge W : Type} (g : Graph Edge) (t : SPTree Edge W)
    (f : Forest) : Prop where
  shape : t.shape f
  roots : f.roots = [t.source]
  nodup : f.vertices.Nodup
  cover : ∀ v, v < t.tree_node_map.length → (t.node v).isSome = true → v ∈ f.vertices
  root_pred : ∀ n, n ∈ t.node t.source → n.has_pred = false
  link : ∀ v, v < t.tree_node_map.length → ∀ n, n ∈ t.node v → ∀ c, c ∈ n.children →
    ∃ nc, nc ∈ t.node c ∧ nc.has_pred = true ∧ g.opposite nc.pred c = v
  vertex : ∀ v, v < t.tree_node_map.length → ∀ n, n ∈ t.node v → n.vertex = v
  first_length : t.first_in_path.length = t.tree_node_map.length

/-- The predecessor edges on the tree path from the vertex `v` to the root, `v` first;
`none` when the fuel runs out or a vertex without tree node is reached. -/
def SPTree.path_to_root {Edge W : Type} (g : Graph Edge) (t : SPTree Edge W) :
    Nat → Nat → Option (List Edge)
  | 0, _ => none
  | fuel + 1, v =>
    match t.node v with
    | none => none
    | some n =>
      if n.has_pred then
        (t.path_to_root g fuel (g.opposite n.pred v)).map (fun path => n.pred :: path)
      else some []

/-- The parity of the number of entries of `path` that lie in `edges`. -/
def signed_parity {Edge : Type} [DecidableEq Edge] (edges : Finset Edge) (path : List Edge) :
    Bool :=
  decide ((path.filter (fun e => decide (e ∈ edges))).length % 2 = 1)

/-- The tree with all stored parities reset: what is left of a tree when the parities are
ignored. -/
def SPTree.clear_parities {Edge W : Type} (t : SPTree Edge W) : SPTree Edge W :=
  { t with tree_node_map :=
      t.tree_node_map.map (Option.map (fun n => { n with parity := false })) }

/-- The parities of the tree are those of a traversal with the set `edges`: a node without
predecessor edge has parity 0 and a node with a predecessor edge has the parity of the node
at the other end, flipped when the edge is in `edges`. -/
def SPTree.parity_consistent {Edge W : Type} [DecidableEq Edge] (g : Graph Edge)
    (edges : Finset Edge) (t : SPTree Edge W) : Prop :=
  ∀ v, v < t.tree_node_map.length → ∀ n, n ∈ t.node v →
    (n.has_pred = true → ∃ p, p ∈ t.node (g.opposite n.pred v) ∧
      n.parity = xor p.parity (decide (n.pred ∈ edges))) ∧
    (n.has_pred = false → n.parity = false)

/-- The parities a traversal assigns to the vertices of a forest below a node of parity
`p`, `signed c` telling whether the predecessor edge of `c` is signed. -/
def Forest.parities (signed : Nat → Bool) : Bool → Forest → List (Nat × Bool)
  | _, Forest.nil => []
  | p, Forest.cons c children siblings =>
    (c, xor p (signed c)) ::
      (Forest.parities signed (xor p (signed c)) children ++ Forest.parities signed p siblings)

/-- The vertices below the entries of a traversal stack. -/
def stack_vertices {I : Type} : List (I × Nat × Forest) → List Nat
  | [] => []
  | e :: st => e.2.1 :: (e.2.2.vertices ++ stack_vertices st)

/-- The forest of the sample tree. -/
def sample_forest : Forest :=
  Forest.cons 0 (Forest.cons 1 Forest.nil (Forest.cons 2 (Forest.cons 3 Forest.nil Forest.nil)
    Forest.nil)) Forest.nil

/-- The vertices on the tree path from the vertex `v` to the root, `v` first and the root
last; `none` when the fuel runs out or a vertex without tree node is reached. -/
def SPTree.vertices_to_root {Edge W : Type} (g : Graph Edge) (t : SPTree Edge W) :
    Nat → Nat → Option (List Nat)
  | 0, _ => none
  | fuel + 1, v =>
    match t.node v with
    | none => none
    | some n =>
      if n.has_pred then
        (t.vertices_to_root g fuel (g.opposite n.pred v)).map (fun path => v :: path)
      else some [v]

/-! ## Serialisation of cycles and candidates -/

/-- The construction of `local_min_odd_cycle` (mcb_sva_signed_mpi.hpp lines 161-165): the
edges of the tuple converted to forest indices by `convert_edges`, here `to_indices`, with
the weight and the exists flag of the tuple. -/
def serialize {Edge W : Type} (to_indices : Finset Edge → List Nat) (c : cycle_t Edge W) :
    SerializableMinOddCycle W :=
  { edges := to_indices c.edges, weight := c.weight, found := c.found }

/-- The struct `SerializableCandidateCycle` (sptrees.hpp lines 391-410): source vertex of
the tree and forest index of the edge. -/
structure SerializableCandidateCycle where
  v : Nat
  e : Nat
deriving DecidableEq

/-- The loop over the edges of the graph of `SPTree::create_serializable_candidate_cycles`
(lines 230-250). -/
def create_serializable_candidate_cycles_loop {Edge W : Type} [DecidableEq Edge]
    (g : Graph Edge) (t : SPTree Edge W) (tree_edges : Finset Edge)
    (forest_index : Edge → Nat) : List Edge → List SerializableCandidateCycle
  | [] => []
  | e :: rest =>
    if e ∈ tree_edges then
      create_serializable_candidate_cycles_loop g t tree_edges forest_index rest
    else
      match t.node (g.source e) with
      | none => create_serializable_candidate_cycles_loop g t tree_edges forest_index rest
      | some v =>
        match t.node (g.target e) with
        | none => create_serializable_candidate_cycles_loop g t tree_edges forest_index rest
        | some u =>
          if t.first v.vertex = t.first u.vertex then
            create_serializable_candidate_cycles_loop g t tree_edges forest_index rest
          else
            { v := t.source, e := forest_index e } ::
              create_serializable_candidate_cycles_loop g t tree_edges forest_index rest

/-- The method `SPTree::create_serializable_candidate_cycles` (lines 214-254);
`graph_edges` is the sequence `boost::edges(_g)`. -/
def SPTree.create_serializable_candidate_cycles {Edge W : Type} [DecidableEq Edge]
    (g : Graph Edge) (t : SPTree Edge W) (forest_index : Edge → Nat)
    (graph_edges : List Edge) : List SerializableCandidateCycle :=
  create_serializable_candidate_cycles_loop g t (t.tree_edges t.tree_node_map.length)
    forest_index graph_edges

/-- The functor `CandidateCycleToSerializableConverter::operator()` (lines 473-488);
`trees.at(cycle.tree())` throws when the index is out of range, which is `none`. -/
def CandidateCycleToSerializableConverter {Edge W : Type} (trees : List (SPTree Edge W))
    (forest_index : Edge → Nat) (cycle : CandidateCycle Edge W) :
    Option SerializableCandidateCycle :=
  match trees.get? cycle.tree with
  | none => none
  | some t => some { v := t.source, e := forest_index cycle.edge }

/-- A graph on the vertices 0, 1, 2 with the edges 0 = (0,1), 1 = (1,2), 2 = (2,0) and
3 = (0,1). -/
def cyclic_graph : Graph (Fin 4) :=
  { edges := Finset.univ
    source := fun e => if e = 0 then 0 else if e = 1 then 1 else if e = 2 then 2 else 0
    target := fun e => if e = 0 then 1 else if e = 1 then 2 else if e = 2 then 0 else 1 }

/-- A node map on the cyclic graph whose predecessor pointers form a loop: the predecessor
edge of vertex 0 leads to 1, the one of 1 to 2 and the one of 2 back to 0. -/
def cyclic_tree : SPTree (Fin 4) Nat :=
  { id := 0
    source := 0
    tree_node_map :=
      [some ⟨0, false, 0, 0, true, []⟩, some ⟨1, false, 0, 1, true, []⟩,
        some ⟨2, false, 0, 2, true, []⟩]
    first_in_path := [0, 0, 0] }

/-! ## The shortest-odd-cycle step of `mcb_sva_mpi` -/

/-- The type of `bidirectional_signed_dijkstra` (`mcb/signed_dijkstra.hpp`, not among the
sources) once the graph and the weight map are fixed. The arguments are those of the two
calls, in call order: the two edge sets (signed edges, hidden edges), `use_hidden_edges`,
the first vertex and its flag, the second vertex and its flag, whether a weight bound is in
force, and the bound. -/
abbrev SignedSearch (Edge W : Type) :=
  Finset Edge → Finset Edge → Bool → Nat → Bool → Nat → Bool → Bool → W → cycle_t Edge W

/-- The branch `signed_edges.size() == 1` (lines 110-125) for the edge `se` that
`*signed_edges.begin()` returns; `best` starts as the not-found tuple of lines 92-93 and
only rank 0 searches. -/
def single_edge_step {Edge W : Type} [DecidableEq Edge] [LinearOrder W] [Add W]
    (g : Graph Edge) (weight_map : Edge → W) (wmax : W) (search : SignedSearch Edge W)
    (rank : Nat) (signed_edges : Finset Edge) (se : Edge) : cycle_t Edge W :=
  let best := not_found Edge wmax
  if rank = 0 then
    let res := search ∅ signed_edges true (g.source se) true (g.target se) true best.found
      best.weight
    if res.found && decide (se ∉ res.edges) then
      let res1 : cycle_t Edge W := { res with weight := res.weight + weight_map se }
      if !best.found || decide (res1.weight < best.weight) then
        { res1 with edges := insert se res1.edges }
      else best
    else best
  else best

/-- The body of the parallel reduce over the local vertices (lines 144-157) on one block,
`running_min` being the value it starts from. -/
def vertex_scan {Edge W : Type} [LinearOrder W] (search : SignedSearch Edge W)
    (signed_edges : Finset Edge) : List Nat → cycle_t Edge W → cycle_t Edge W
  | [], running_min => running_min
  | v :: vs, running_min =>
    let res := search signed_edges ∅ false v true v false running_min.found running_min.weight
    if res.found && (!running_min.found || decide (res.weight < running_min.weight)) then
      vertex_scan search signed_edges vs res
    else vertex_scan search signed_edges vs running_min

/-- The value `best_local_cycle` of `tbb::parallel_reduce` (lines 141-158) for a given
splitting of the local vertices: blocks are scanned from the identity and joined with
`cycle_min`. -/
def vertex_reduce {Edge W : Type} [LinearOrder W] (search : SignedSearch Edge W)
    (signed_edges : Finset Edge) (wmax : W) : Split → List Nat → cycle_t Edge W
  | Split.block, vs => vertex_scan search signed_edges vs (not_found Edge wmax)
  | Split.join k l r, vs =>
    cycle_min (vertex_reduce search signed_edges wmax l (vs.take k))
      (vertex_reduce search signed_edges wmax r (vs.drop k))

/-- The vector `localVertices` of a rank (lines 132-139). -/
def local_vertices (vertices : List Nat) (size rank : Nat) : List Nat :=
  (local_indices vertices.length size rank).map (fun i => vertices.getD i 0)

/-- The value `local_min_odd_cycle` of a rank (lines 141-165), `split rank` being the way
the parallel reduce of that rank splits its vertices. -/
def local_min_odd_cycle {Edge W : Type} [LinearOrder W] (wmax : W)
    (to_indices : Finset Edge → List Nat) (search : SignedSearch Edge W)
    (vertices : List Nat) (size : Nat) (split : Nat → Split) (signed_edges : Finset Edge)
    (rank : Nat) : SerializableMinOddCycle W :=
  serialize to_indices
    (vertex_reduce search signed_edges wmax (split rank) (local_vertices vertices size rank))

/-- Modelled from the spec: the value `boost::mpi::reduce` leaves at the root (the library
is not among the sources): the values of the ranks `0, ..., size - 1` combined with `op` in
rank order. -/
def mpi_reduce {T : Type} (op : T → T → T) (value : Nat → T) (size : Nat) : T :=
  (List.range (size - 1)).foldl (fun acc r => op acc (value (r + 1))) (value 0)

/-- The branch `signed_edges.size() != 1` (lines 130-174): the tuple `best` of a rank after
the reduce over the communicator. On the ranks other than the root `global_min_odd_cycle`
stays default-constructed: no edges, exists = false and a weight that is not initialised,
here `indeterminate`. `of_indices` is `convert_edges` from forest indices to edges. -/
def distributed_step {Edge W : Type} [LinearOrder W] (wmax indeterminate : W)
    (to_indices : Finset Edge → List Nat) (of_indices : List Nat → Finset Edge)
    (search : SignedSearch Edge W) (vertices : List Nat) (size : Nat) (split : Nat → Split)
    (signed_edges : Finset Edge) (rank : Nat) : cycle_t Edge W :=
  let global_min_odd_cycle : SerializableMinOddCycle W :=
    if rank = 0 then
      mpi_reduce SerializableMinOddCycleMinOp
        (local_min_odd_cycle wmax to_indices search vertices size split signed_edges) size
    else { edges := [], weight := indeterminate, found := false }
  { edges := of_indices global_min_odd_cycle.edges
    weight := global_min_odd_cycle.weight
    found := global_min_odd_cycle.found }

/-- The shortest-odd-cycle step of iteration `k` on a rank (lines 89-174) for the vector
`s = support[k]`. `to_edges s` is the set `signed_edges` that `convert_edges` fills, as the
sequence in which the `std::set` iterates. -/
def shortest_odd_cycle_step {Edge W : Type} [DecidableEq Edge] [LinearOrder W] [Add W]
    (g : Graph Edge) (weight_map : Edge → W) (wmax indeterminate : W)
    (to_edges : SpVecGF2 → List Edge) (to_indices : Finset Edge → List Nat)
    (of_indices : List Nat → Finset Edge) (search : SignedSearch Edge W)
    (vertices : List Nat) (size : Nat) (split : Nat → Split) (rank : Nat) (_k : Nat)
    (s : SpVecGF2) : cycle_t Edge W :=
  match to_edges s with
  | [se] => single_edge_step g weight_map wmax search rank {se} se
  | signed_edges =>
    distributed_step wmax indeterminate to_indices of_indices search vertices size split
      signed_edges.toFinset rank

/-- Modelled from the spec: the contract of the signed search in the per-vertex calls
(section 4.C). `m v` is the weight of a minimum closed walk at `v` with an odd number of
signed edges, `none` when there is none. A found result weighs `m v`; the search finds a
walk when one exists and no bound is in force or the minimum is below the bound. -/
def signed_search_contract {Edge W : Type} [LT W] (search : SignedSearch Edge W)
    (signed_edges : Finset Edge) (m : Nat → Option W) : Prop :=
  ∀ v use_limit limit,
    ((search signed_edges ∅ false v true v false use_limit limit).found = true →
      m v = some (search signed_edges ∅ false v true v false use_limit limit).weight) ∧
    (∀ x, m v = some x → (use_limit = false ∨ x < limit) →
      (search signed_edges ∅ false v true v false use_limit limit).found = true)

/-- The tuple with the flag `found` and the weight `weight` is a minimum of `m` over the
vertices `vs`: it exists iff `m` is defined at some vertex, and then its weight is a value
of `m` and at most every value of `m`. -/
def min_over {W : Type} [LE W] (m : Nat → Option W) (vs : List Nat) (found : Bool)
    (weight : W) : Prop :=
  (found = true ↔ ∃ v, v ∈ vs ∧ (m v).isSome = true) ∧
    (found = true → (∃ v, v ∈ vs ∧ m v = some weight) ∧
      ∀ v, v ∈ vs → ∀ x, m v = some x → weight ≤ x)

/-- A signed search on the theta graph: the path from vertex 0 to vertex 1 that avoids the
hidden edges is the edge 0 of weight 2 unless that edge is hidden. -/
def theta_search : SignedSearch (Fin 3) Nat :=
  fun _ hidden _ _ _ _ _ _ _ =>
    if (0 : Fin 3) ∈ hidden then { edges := ∅, weight := 0, found := false }
    else { edges := {0}, weight := 2, found := true }

/-- The edges of the theta graph with the forest indices in `s`, in increasing order. -/
def theta_to_edges (s : SpVecGF2) : List (Fin 3) :=
  (if 0 ∈ s then [(1 : Fin 3)] else []) ++ (if 1 ∈ s then [(2 : Fin 3)] else [])

/-- A signed search on the theta graph for the per-vertex calls: a closed walk of weight 5
at the vertices 0 and 1, none elsewhere, not reported when a bound below 5 is in force. -/
def theta_vertex_search : SignedSearch (Fin 3) Nat :=
  fun _ _ _ v _ _ _ use_limit limit =>
    if (v = 0 ∨ v = 1) ∧ ¬ (use_limit = true ∧ limit < 5) then
      { edges := {0, 1}, weight := 5, found := true }
    else { edges := ∅, weight := 0, found := false }

/-- The weights of the minimum odd closed walks of `theta_vertex_search`. -/
def theta_walk_weight (v : Nat) : Option Nat := if v = 0 ∨ v = 1 then some 5 else none

/-- The predecessor edge of every tree node is incident to the vertex of the node, as the
predecessor map of the shortest-path search gives it. -/
def SPTree.pred_incident {Edge W : Type} (g : Graph Edge) (t : SPTree Edge W) : Prop :=
  ∀ v, v < t.tree_node_map.length → ∀ n, n ∈ t.node v → n.has_pred = true →
    (g.source n.pred = v ∨ g.target n.pred = v)

instance SPTree.decidable_pred_incident {Edge W : Type} (g : Graph Edge) (t : SPTree Edge W) :
    Decidable (t.pred_incident g) := by
  unfold SPTree.pred_incident
  infer_instance

/-- A graph on the vertices 0 and 1 with the edge 0 = (0,1) and the self-loop 1 = (0,0). -/
def loop_graph : Graph (Fin 2) :=
  { edges := Finset.univ
    source := fun _ => 0
    target := fun e => if e = 0 then 1 else 0 }

/-- The shortest-path tree of the loop graph from vertex 0. -/
def loop_tree : SPTree (Fin 2) Nat :=
  { id := 0
    source := 0
    tree_node_map := [some ⟨0, false, 0, 0, false, [1]⟩, some ⟨1, false, 1, 0, true, []⟩]
    first_in_path := [0, 1] }

/-- Weights on the sample graph with two candidate cycles of the same weight: 2 for the
edge 2, 3 for the edge 5 and 1 for the others. -/
def tie_weight : Fin 6 → Nat := fun e => if e = 2 then 2 else if e = 5 then 3 else 1

/-! ## A weight type with rounding addition -/

/-- The number of low bits that a natural number loses when it is stored with 53
significant bits; the first argument bounds the recursion. -/
def excess_bits : Nat → Nat → Nat
  | 0, _ => 0
  | fuel + 1, n => if n < 2 ^ 53 then 0 else excess_bits fuel (n / 2) + 1

/-- The natural number `n` rounded to 53 significant bits, to nearest and on a tie to the
even significand: the rounding of the type `double`. -/
def round_to_double (n : Nat) : Nat :=
  let k := excess_bits n n
  if k = 0 then n
  else
    let q := n / 2 ^ k
    let r := n % 2 ^ k
    if r < 2 ^ (k - 1) then q * 2 ^ k
    else if 2 ^ (k - 1) < r then (q + 1) * 2 ^ k
    else if q % 2 = 0 then q * 2 ^ k
    else (q + 1) * 2 ^ k

/-- The values of `WeightType = double` that are non-negative integers. The sum of two of
them is the exact sum rounded to 53 significant bits, as the addition of `double` gives it;
the order is the order of the numbers. -/
structure RoundedWeight where
  val : Nat
deriving DecidableEq

instance RoundedWeight.instAdd : Add RoundedWeight :=
  ⟨fun a b => ⟨round_to_double (a.val + b.val)⟩⟩

instance RoundedWeight.instZero : Zero RoundedWeight := ⟨⟨0⟩⟩

instance RoundedWeight.instLinearOrder : LinearOrder RoundedWeight :=
  LinearOrder.lift' RoundedWeight.val
    (fun a b h => by cases a; cases b; simp only at h; rw [h])

/-- A graph on the vertices 0 to 3: the edges 0 = (0,1), 1 = (1,2) and 2 = (0,3) and the
two edges 3 = (3,0) and 4 = (2,0) back to vertex 0. -/
def rounding_graph : Graph (Fin 5) :=
  { edges := Finset.univ
    source := fun e =>
      if e = 0 then 0 else if e = 1 then 1 else if e = 2 then 0 else if e = 3 then 3 else 2
    target := fun e =>
      if e = 0 then 1 else if e = 1 then 2 else if e = 2 then 3 else 0 }

/-- Weights of the rounding graph: 1, 1 and 2 for the edges 0, 1 and 2, and 2^53 for the
edges 3 and 4. -/
def rounding_weight : Fin 5 → RoundedWeight := fun e =>
  if e = 0 then ⟨1⟩ else if e = 1 then ⟨1⟩ else if e = 2 then ⟨2⟩ else ⟨9007199254740992⟩

/-- The shortest-path tree of the rounding graph from vertex 0: vertex 1 hangs on edge 0,
vertex 2 below it on edge 1, and vertex 3 on edge 2; the node weights are the distances
1, 2 and 2. -/
def rounding_tree : SPTree (Fin 5) RoundedWeight :=
  { id := 0
    source := 0
    tree_node_map :=
      [some ⟨0, false, 0, 0, false, [1, 3]⟩, some ⟨1, false, ⟨1⟩, 0, true, [2]⟩,
        some ⟨2, false, ⟨2⟩, 1, true, []⟩, some ⟨3, false, ⟨2⟩, 2, true, []⟩]
    first_in_path := [0, 1, 1, 3] }

/-- The forest shape of the rounding tree. -/
def rounding_forest : Forest :=
  Forest.cons 0
    (Forest.cons 1 (Forest.cons 2 Forest.nil Forest.nil)
      (Forest.cons 3 Forest.nil Forest.nil))
    Forest.nil

/-! ## Walks and the contracts of the external components -/

/-- A walk of the graph from `u` to `v` along the edges of the list, each edge being left
at its other endpoint. -/
def Graph.walk {Edge : Type} (g : Graph Edge) : Nat → List Edge → Nat → Prop
  | u, [], v => u = v
  | u, e :: es, v =>
    e ∈ g.edges ∧ (g.source e = u ∨ g.target e = u) ∧ g.walk (g.opposite e u) es v

instance Graph.decidable_walk {Edge : Type} [DecidableEq Edge] (g : Graph Edge) :
    ∀ (u : Nat) (p : List Edge) (v : Nat), Decidable (g.walk u p v)
  | u, [], v => by unfold Graph.walk; infer_instance
  | u, e :: es, v => by
    unfold Graph.walk
    have := Graph.decidable_walk g (g.opposite e u) es v
    infer_instance

/-- The edges that occur an odd number of times in a list. -/
def odd_edges {Edge : Type} [DecidableEq Edge] : List Edge → Finset Edge
  | [] => ∅
  | e :: es => symmDiff {e} (odd_edges es)

/-- Modelled from the spec: the contract of `bidirectional_signed_dijkstra`
(`mcb/signed_dijkstra.hpp` is not among the sources; sections 4.C and 4.F step 3a) for the
two kinds of calls of `mcb_sva_mpi`. A per-vertex call (lines 148-150) looks for a closed
walk at `v` with an odd number of signed edges: when it reports a walk, this is such a walk,
given by its edge set and its weight, and no such walk at `v` weighs less; and it reports a
walk when there is one and no bound is in force or the walk weighs less than the bound. The
call of the single-edge branch (lines 115-116) looks in the same way for a walk from `a` to
`b` that avoids the hidden edges. -/
structure signed_dijkstra_contract {Edge W : Type} [DecidableEq Edge]
    [LinearOrderedCancelAddCommMonoid W] (g : Graph Edge) (w : Edge → W)
    (search : SignedSearch Edge W) : Prop where
  closed_sound : ∀ S v use_limit limit,
    (search S ∅ false v true v false use_limit limit).found = true →
    ∃ p, g.walk v p v ∧ signed_parity S p = true ∧
      (search S ∅ false v true v false use_limit limit).edges = p.toFinset ∧
      (search S ∅ false v true v false use_limit limit).weight = (p.map w).sum ∧
      ∀ q, g.walk v q v → signed_parity S q = true →
        (search S ∅ false v true v false use_limit limit).weight ≤ (q.map w).sum
  closed_complete : ∀ S v use_limit limit q, g.walk v q v → signed_parity S q = true →
    (use_limit = false ∨ (q.map w).sum < limit) →
    (search S ∅ false v true v false use_limit limit).found = true
  path_sound : ∀ H a b use_limit limit,
    (search ∅ H true a true b true use_limit limit).found = true →
    ∃ p, g.walk a p b ∧ (∀ e, e ∈ p → e ∉ H) ∧
      (search ∅ H true a true b true use_limit limit).edges = p.toFinset ∧
      (search ∅ H true a true b true use_limit limit).weight = (p.map w).sum ∧
      ∀ q, g.walk a q b → (∀ e, e ∈ q → e ∉ H) →
        (search ∅ H true a true b true use_limit limit).weight ≤ (q.map w).sum
  path_complete : ∀ H a b use_limit limit q, g.walk a q b → (∀ e, e ∈ q → e ∉ H) →
    (use_limit = false ∨ (q.map w).sum < limit) →
    (search ∅ H true a true b true use_limit limit).found = true

/-- Modelled from the spec: the rest of the contract of `ForestIndex` and of the overloads
of `convert_edges` (section 3 and 4.A; none is under src/). The forest is a spanning forest
of the graph: its edges are edges of the graph and the two ends of every other edge are
joined by a walk in the forest. Every index below `csd` is the index of an edge outside the
forest. `to_edges s` lists, without repetition, the edges outside the forest whose index is
in `s`; and converting a set of edges of the graph to indices and back gives the set. -/
structure forest_index_conversions {Edge : Type} [DecidableEq Edge] (g : Graph Edge)
    (csd : Nat) (tree : Finset Edge) (index : Edge → Nat) (to_edges : SpVecGF2 → List Edge)
    (to_indices : Finset Edge → List Nat) (of_indices : List Nat → Finset Edge) : Prop where
  tree_sub : tree ⊆ g.edges
  index_surj : ∀ i, i < csd → ∃ e, e ∈ g.edges ∧ e ∉ tree ∧ index e = i
  spanning : ∀ e, e ∈ g.edges → e ∉ tree →
    ∃ p, g.walk (g.source e) p (g.target e) ∧ ∀ f, f ∈ p → f ∈ tree
  to_edges_nodup : ∀ s, (to_edges s).Nodup
  to_edges_mem : ∀ s, s ⊆ Finset.range csd →
    ∀ e, e ∈ to_edges s ↔ e ∈ g.edges ∧ e ∉ tree ∧ index e ∈ s
  round_trip : ∀ F, F ⊆ g.edges → of_indices (to_indices F) = F

/-- A second forest index of the theta graph: the heaviest edge 2 is the tree edge, and
every edge has its own number as index, so that the edges 0 and 1 outside the forest have
the indices 0 and 1. -/
def theta_edge_index : Fin 3 → Nat := fun e => e.val

/-- The conversion of an edge set of the theta graph to the set of the indices of its edges
outside the forest `{2}`. -/
def theta_cycle_indices (F : Finset (Fin 3)) : Finset Nat :=
  (F.erase 2).image theta_edge_index

/-- The edges of the theta graph outside the forest `{2}` with an index in `s`, in
increasing order. -/
def theta_signed_edges (s : SpVecGF2) : List (Fin 3) :=
  ([0, 1] : List (Fin 3)).filter (fun e => decide (theta_edge_index e ∈ s))

/-- The conversion of an edge set of the theta graph to the list of its indices. -/
def theta_to_indices (F : Finset (Fin 3)) : List Nat :=
  (([0, 1, 2] : List (Fin 3)).filter (fun e => decide (e ∈ F))).map theta_edge_index

/-- The conversion of a list of indices to the edge set of the theta graph. -/
def theta_of_indices (l : List Nat) : Finset (Fin 3) :=
  Finset.univ.filter (fun e => theta_edge_index e ∈ l)

/-- The closed walks of the theta graph with an odd number of signed edges: the lightest
pair of edges of which exactly one is signed, `{0, 1}` of weight 5 or else `{0, 2}` of
weight 7; there is none when all edges or no edge are signed. -/
def theta_closed (signed : Finset (Fin 3)) : cycle_t (Fin 3) Nat :=
  if (decide ((0 : Fin 3) ∈ signed) != decide ((1 : Fin 3) ∈ signed)) then
    { edges := {0, 1}, weight := 5, found := true }
  else if (decide ((0 : Fin 3) ∈ signed) != decide ((2 : Fin 3) ∈ signed)) then
    { edges := {0, 2}, weight := 7, found := true }
  else { edges := ∅, weight := 0, found := false }

/-- A signed search on the theta graph that meets the contract. With hidden edges it returns
the empty walk from a vertex to itself and the lightest edge that is not hidden between the
two vertices; without, the lightest closed walk with an odd number of signed edges at the
vertices 0 and 1. It never uses the bound. -/
def theta_dijkstra : SignedSearch (Fin 3) Nat :=
  fun signed hidden use_hidden v _ u _ _ _ =>
    if use_hidden then
      if v = u then { edges := ∅, weight := 0, found := true }
      else if (v = 0 ∧ u = 1) ∨ (v = 1 ∧ u = 0) then
        if (0 : Fin 3) ∉ hidden then { edges := {0}, weight := 2, found := true }
        else if (1 : Fin 3) ∉ hidden then { edges := {1}, weight := 3, found := true }
        else if (2 : Fin 3) ∉ hidden then { edges := {2}, weight := 5, found := true }
        else { edges := ∅, weight := 0, found := false }
      else { edges := ∅, weight := 0, found := false }
    else if v = 0 ∨ v = 1 then theta_closed signed
    else { edges := ∅, weight := 0, found := false }

/-- Weights of the loop graph: 0 for the edge 0 = (0,1) and 1 for the self-loop 1. -/
def lollipop_weight : Fin 2 → Nat := fun e => if e = 0 then 0 else 1

/-- A forest index of the loop graph: the edge 0 is the tree edge and the self-loop 1 has
the index 0. -/
def lollipop_index : Fin 2 → Nat := fun e => e.val - 1

/-- The conversion of an edge set of the loop graph to the indices of its non-tree
edges. -/
def lollipop_convert_edges (F : Finset (Fin 2)) : Finset Nat :=
  (F.erase 0).image lollipop_index

/-- The edges of the loop graph with the forest indices in `s`. -/
def lollipop_to_edges (s : SpVecGF2) : List (Fin 2) := if 0 ∈ s then [1] else []

/-- The index of every edge of the loop graph: 0 for the self-loop, 1 for the tree edge. -/
def lollipop_full_index : Fin 2 → Nat := fun e => if e = 0 then 1 else 0

/-- The conversion of an edge set of the loop graph to the list of its indices. -/
def lollipop_to_indices (F : Finset (Fin 2)) : List Nat :=
  (([0, 1] : List (Fin 2)).filter (fun e => decide (e ∈ F))).map lollipop_full_index

/-- The conversion of a list of indices to the edge set of the loop graph. -/
def lollipop_of_indices (l : List Nat) : Finset (Fin 2) :=
  Finset.univ.filter (fun e => lollipop_full_index e ∈ l)

/-- A signed search on the loop graph with the weights 0 and 1 that meets the contract and
prefers walks over the edge of weight 0: from a vertex to itself it returns the walk that
goes along the edge 0 and back, of weight 0, when that edge is not hidden; the closed walk
with an odd number of signed edges at the vertex 1 goes to the vertex 0, around the
self-loop and back. -/
def lollipop_search : SignedSearch (Fin 2) Nat :=
  fun signed hidden use_hidden v _ u _ _ _ =>
    if use_hidden then
      if v = u then
        if (v = 0 ∨ v = 1) ∧ (0 : Fin 2) ∉ hidden then
          { edges := {0}, weight := 0, found := true }
        else { edges := ∅, weight := 0, found := true }
      else if ((v = 0 ∧ u = 1) ∨ (v = 1 ∧ u = 0)) ∧ (0 : Fin 2) ∉ hidden then
        { edges := {0}, weight := 0, found := true }
      else { edges := ∅, weight := 0, found := false }
    else if (1 : Fin 2) ∈ signed then
      if v = 0 then { edges := {1}, weight := 1, found := true }
      else if v = 1 then { edges := {0, 1}, weight := 1, found := true }
      else { edges := ∅, weight := 0, found := false }
    else { edges := ∅, weight := 0, found := false }

/-! ## Algebra of the GF(2) dot product -/

theorem SpVecGF2.dot_lt_two (a : SpVecGF2) (c : Finset Nat) : SpVecGF2.dot a c < 2 := by
  unfold SpVecGF2.dot
  omega

theorem SpVecGF2.dot_empty_left (c : Finset Nat) : SpVecGF2.dot ∅ c = 0 := by
  simp [SpVecGF2.dot]

theorem SpVecGF2.dot_empty_right (a : SpVecGF2) : SpVecGF2.dot a ∅ = 0 := by
  simp [SpVecGF2.dot]

theorem SpVecGF2.add_empty (a : SpVecGF2) : SpVecGF2.add a ∅ = a := by
  simp [SpVecGF2.add]

theorem SpVecGF2.add_eq_symmDiff (a b : SpVecGF2) : SpVecGF2.add a b = symmDiff a b := rfl

theorem SpVecGF2.card_add (x y : Finset Nat) :
    (SpVecGF2.add x y).card + 2 * (x ∩ y).card = x.card + y.card := by
  have hd : Disjoint (x \ y) (y \ x) := by
    rw [Finset.disjoint_left]
    intro i hi hj
    simp only [Finset.mem_sdiff] at hi hj
    exact hi.2 hj.1
  have h1 := Finset.card_sdiff_add_card_inter x y
  have h2 := Finset.card_sdiff_add_card_inter y x
  rw [Finset.inter_comm y x] at h2
  unfold SpVecGF2.add
  rw [Finset.card_union_of_disjoint hd]
  omega

theorem SpVecGF2.dot_add_left (a b : SpVecGF2) (c : Finset Nat) :
    SpVecGF2.dot (SpVecGF2.add a b) c = (SpVecGF2.dot a c + SpVecGF2.dot b c) % 2 := by
  have he : SpVecGF2.add a b ∩ c = SpVecGF2.add (a ∩ c) (b ∩ c) := by
    ext i
    simp only [SpVecGF2.add, Finset.mem_inter, Finset.mem_union, Finset.mem_sdiff]
    tauto
  have hc := SpVecGF2.card_add (a ∩ c) (b ∩ c)
  unfold SpVecGF2.dot
  rw [he]
  omega

theorem SpVecGF2.dot_add_right (a : SpVecGF2) (c d : Finset Nat) :
    SpVecGF2.dot a (SpVecGF2.add c d) = (SpVecGF2.dot a c + SpVecGF2.dot a d) % 2 := by
  have h := SpVecGF2.dot_add_left c d a
  unfold SpVecGF2.dot at h ⊢
  rw [Finset.inter_comm a, Finset.inter_comm a c, Finset.inter_comm a d]
  exact h

/-! ## The support update, entry by entry -/

theorem update_support_length (k : Nat) (cyclek : Finset Nat) (n : Nat) :
    ∀ (i : Nat) (support : List SpVecGF2),
      (update_support k cyclek i n support).length = support.length := by
  induction n with
  | zero => intro i support; rfl
  | succ n ih =>
    intro i support
    rw [update_support, ih]
    split <;> simp

theorem getD_set_support (support : List SpVecGF2) (i j : Nat) (v : SpVecGF2)
    (hi : i < support.length) :
    (support.set i v).getD j ∅ = if i = j then v else support.getD j ∅ := by
  simp only [List.getD_eq_getElem?_getD, List.getElem?_set, hi, if_true]
  split <;> simp

theorem update_support_getD (k : Nat) (cyclek : Finset Nat) (n : Nat) :
    ∀ (i : Nat) (support : List SpVecGF2) (j : Nat), k < i →
      (update_support k cyclek i n support).getD j ∅ =
        if i ≤ j ∧ j < i + n ∧ SpVecGF2.dot (support.getD j ∅) cyclek = 1 then
          SpVecGF2.add (support.getD j ∅) (support.getD k ∅)
        else support.getD j ∅ := by
  induction n with
  | zero =>
    intro i support j _
    have h : ¬ (i ≤ j ∧ j < i + 0 ∧ SpVecGF2.dot (support.getD j ∅) cyclek = 1) := by omega
    rw [update_support, if_neg h]
  | succ n ih =>
    intro i support j hk
    rw [update_support, ih (i + 1) _ j (by omega)]
    by_cases hd : SpVecGF2.dot (support.getD i ∅) cyclek = 1
    · have hi : i < support.length := by
        by_contra hlen
        have hnone : support.getD i ∅ = ∅ := by
          simp only [List.getD_eq_getElem?_getD]
          rw [List.getElem?_eq_none (by omega)]
          rfl
        rw [hnone, SpVecGF2.dot_empty_left] at hd
        omega
      rw [if_pos hd, getD_set_support _ _ _ _ hi, getD_set_support _ _ _ _ hi]
      have hik : ¬ i = k := by omega
      rw [if_neg hik]
      by_cases hij : i = j
      · subst hij
        have h1 : ¬ (i + 1 ≤ i ∧ i < i + 1 + n ∧
            SpVecGF2.dot (if i = i then SpVecGF2.add (support.getD i ∅) (support.getD k ∅)
              else support.getD i ∅) cyclek = 1) := by omega
        have h2 : i ≤ i ∧ i < i + (n + 1) ∧ SpVecGF2.dot (support.getD i ∅) cyclek = 1 :=
          ⟨le_refl i, by omega, hd⟩
        rw [if_neg h1, if_pos h2, if_pos rfl]
      · rw [if_neg hij]
        by_cases hc : SpVecGF2.dot (support.getD j ∅) cyclek = 1
        · by_cases hr : i + 1 ≤ j ∧ j < i + 1 + n
          · rw [if_pos ⟨hr.1, hr.2, hc⟩, if_pos ⟨by omega, by omega, hc⟩]
          · have h1 : ¬ (i + 1 ≤ j ∧ j < i + 1 + n ∧
                SpVecGF2.dot (support.getD j ∅) cyclek = 1) := fun h => hr ⟨h.1, h.2.1⟩
            have h2 : ¬ (i ≤ j ∧ j < i + (n + 1) ∧
                SpVecGF2.dot (support.getD j ∅) cyclek = 1) := fun h => hr ⟨by omega, by omega⟩
            rw [if_neg h1, if_neg h2]
        · have h1 : ¬ (i + 1 ≤ j ∧ j < i + 1 + n ∧
              SpVecGF2.dot (support.getD j ∅) cyclek = 1) := fun h => hc h.2.2
          have h2 : ¬ (i ≤ j ∧ j < i + (n + 1) ∧
              SpVecGF2.dot (support.getD j ∅) cyclek = 1) := fun h => hc h.2.2
          rw [if_neg h1, if_neg h2]
    · rw [if_neg hd]
      by_cases hij : i = j
      · subst hij
        have h1 : ¬ (i + 1 ≤ i ∧ i < i + 1 + n ∧
            SpVecGF2.dot (support.getD i ∅) cyclek = 1) := by omega
        have h2 : ¬ (i ≤ i ∧ i < i + (n + 1) ∧
            SpVecGF2.dot (support.getD i ∅) cyclek = 1) := fun h => hd h.2.2
        rw [if_neg h1, if_neg h2]
      · by_cases hc : i + 1 ≤ j ∧ j < i + 1 + n ∧ SpVecGF2.dot (support.getD j ∅) cyclek = 1
        · rw [if_pos hc, if_pos ⟨by omega, by omega, hc.2.2⟩]
        · have h2 : ¬ (i ≤ j ∧ j < i + (n + 1) ∧
              SpVecGF2.dot (support.getD j ∅) cyclek = 1) :=
            fun h => hc ⟨by omega, by omega, h.2.2⟩
          rw [if_neg hc, if_neg h2]

/-! ## Invariants of the main loop on rank 0 -/

section Loop

variable {Edge W : Type} [Add W] [Zero W]
variable (convert_edges : Finset Edge → Finset Nat)
variable (extract : Nat → Nat → SpVecGF2 → cycle_t Edge W)

theorem main_loop_rank0 (csd : Nat) (received : Nat → SpVecGF2) (n : Nat) :
    main_loop convert_edges extract csd 0 received n =
      rank0_state convert_edges extract csd n := by
  induction n with
  | zero => rfl
  | succ n ih =>
    unfold rank0_state at ih ⊢
    simp only [main_loop, ih, iteration, if_true]

theorem rank0_state_succ (csd n : Nat) :
    rank0_state convert_edges extract csd (n + 1) =
      { support := update_support n (characteristic convert_edges extract csd n) (n + 1)
          (csd - (n + 1)) (rank0_state convert_edges extract csd n).support
        out := (rank0_state convert_edges extract csd n).out ++
          [(best_cycle convert_edges extract csd n).edges]
        mcb_weight := (rank0_state convert_edges extract csd n).mcb_weight +
          (best_cycle convert_edges extract csd n).weight } := by
  simp only [rank0_state, main_loop, iteration, if_true, characteristic, best_cycle,
    broadcast_support]

theorem rank0_support_length (csd n : Nat) :
    (rank0_state convert_edges extract csd n).support.length = csd := by
  induction n with
  | zero => simp [rank0_state, main_loop, init_support]
  | succ n ih =>
    rw [rank0_state_succ]
    simp only
    rw [update_support_length, ih]

theorem support_orthogonal (csd n : Nat)
    (hodd : ∀ j, j < n → SpVecGF2.dot (broadcast_support convert_edges extract csd j)
      (characteristic convert_edges extract csd j) = 1) :
    ∀ i, n ≤ i → ∀ j, j < n →
      SpVecGF2.dot ((rank0_state convert_edges extract csd n).support.getD i ∅)
        (characteristic convert_edges extract csd j) = 0 := by
  induction n with
  | zero => intro i _ j hj; omega
  | succ n ih =>
    intro i hi j hj
    have ih1 := ih (fun j hj => hodd j (by omega))
    rw [rank0_state_succ]
    simp only
    rw [update_support_getD _ _ _ _ _ _ (Nat.lt_succ_self n)]
    have hn := hodd n (Nat.lt_succ_self n)
    unfold broadcast_support at hn
    by_cases hjn : n = j
    · subst hjn
      by_cases hc : n + 1 ≤ i ∧ i < n + 1 + (csd - (n + 1)) ∧
          SpVecGF2.dot ((rank0_state convert_edges extract csd n).support.getD i ∅)
            (characteristic convert_edges extract csd n) = 1
      · rw [if_pos hc, SpVecGF2.dot_add_left, hc.2.2, hn]
      · rw [if_neg hc]
        have hlt := SpVecGF2.dot_lt_two
          ((rank0_state convert_edges extract csd n).support.getD i ∅)
          (characteristic convert_edges extract csd n)
        by_cases hr : i < n + 1 + (csd - (n + 1))
        · have hne : ¬ SpVecGF2.dot
              ((rank0_state convert_edges extract csd n).support.getD i ∅)
              (characteristic convert_edges extract csd n) = 1 := fun h => hc ⟨hi, hr, h⟩
          omega
        · have hlen : (rank0_state convert_edges extract csd n).support.length ≤ i := by
            rw [rank0_support_length]
            omega
          have hnone : (rank0_state convert_edges extract csd n).support.getD i ∅ = ∅ := by
            simp only [List.getD_eq_getElem?_getD]
            rw [List.getElem?_eq_none hlen]
            rfl
          rw [hnone, SpVecGF2.dot_empty_left]
    · have hj1 : j < n := by omega
      have hi0 := ih1 i (by omega) j hj1
      have hn0 := ih1 n (le_refl n) j hj1
      split
      · rw [SpVecGF2.dot_add_left, hi0, hn0]
      · exact hi0

end Loop

/-! ## Linear independence of the emitted cycles -/

theorem combination_orthogonal (s : SpVecGF2) (c : Nat → Finset Nat) (a : Nat → Bool)
    (n : Nat) (h : ∀ j, j < n → SpVecGF2.dot s (c j) = 0) :
    SpVecGF2.dot s (gf2_combination c a n) = 0 := by
  induction n with
  | zero => exact SpVecGF2.dot_empty_right s
  | succ n ih =>
    rw [gf2_combination, ← SpVecGF2.add_eq_symmDiff, SpVecGF2.dot_add_right,
      ih (fun j hj => h j (by omega))]
    cases a n
    · simp [SpVecGF2.dot_empty_right]
    · simp [h n (Nat.lt_succ_self n)]

theorem independent_of_triangular (c : Nat → Finset Nat) (s : Nat → SpVecGF2)
    (a : Nat → Bool) (n : Nat)
    (h1 : ∀ m, m < n → SpVecGF2.dot (s m) (c m) = 1)
    (h0 : ∀ m, m < n → ∀ j, j < m → SpVecGF2.dot (s m) (c j) = 0)
    (hz : gf2_combination c a n = ∅) : ∀ j, j < n → a j = false := by
  induction n with
  | zero => intro j hj; omega
  | succ n ih =>
    have hdot : SpVecGF2.dot (s n) (gf2_combination c a (n + 1)) = 0 := by
      rw [hz]
      exact SpVecGF2.dot_empty_right _
    rw [gf2_combination, ← SpVecGF2.add_eq_symmDiff, SpVecGF2.dot_add_right,
      combination_orthogonal (s n) c a n (h0 n (Nat.lt_succ_self n))] at hdot
    have han : a n = false := by
      cases hb : a n
      · rfl
      · rw [hb] at hdot
        simp only [if_true] at hdot
        rw [h1 n (Nat.lt_succ_self n)] at hdot
        omega
    have hz1 : gf2_combination c a n = ∅ := by
      rw [gf2_combination, han, ← SpVecGF2.add_eq_symmDiff] at hz
      simpa [SpVecGF2.add_empty] using hz
    intro j hj
    by_cases hjn : j = n
    · rw [hjn]
      exact han
    · exact ih (fun m hm => h1 m (by omega)) (fun m hm => h0 m (by omega)) hz1 j (by omega)

/-! ## Emission and weight accumulation -/

theorem rank0_out_length {Edge W : Type} [Add W] [Zero W]
    (convert_edges : Finset Edge → Finset Nat)
    (extract : Nat → Nat → SpVecGF2 → cycle_t Edge W) (csd n : Nat) :
    (rank0_state convert_edges extract csd n).out.length = n := by
  induction n with
  | zero => rfl
  | succ n ih =>
    rw [rank0_state_succ]
    simp [ih]

theorem other_rank_idle {Edge W : Type} [Add W] [Zero W]
    (convert_edges : Finset Edge → Finset Nat)
    (extract : Nat → Nat → SpVecGF2 → cycle_t Edge W) (csd rank : Nat) (hr : rank ≠ 0)
    (received : Nat → SpVecGF2) (n : Nat) :
    (main_loop convert_edges extract csd rank received n).mcb_weight = 0 ∧
      (main_loop convert_edges extract csd rank received n).out = [] := by
  induction n with
  | zero => exact ⟨rfl, rfl⟩
  | succ n ih =>
    simp only [main_loop, iteration, if_neg hr]
    exact ih

/-! ## Claims about the main loop -/

/-- C1 (orthogonality of the support update). On rank 0, if every extracted cycle `C_j`,
`j ≤ k`, had dot product 1 with `support[j]` at its turn, then at the end of iteration `k`
every `support[i]` with `k < i < csd` has dot product 0 with the characteristic vector of
every `C_j`, `j ≤ k`. -/
theorem mcb_sva_mpi_orthogonality {Edge W : Type} [Add W] [Zero W]
    (convert_edges : Finset Edge → Finset Nat)
    (extract : Nat → Nat → SpVecGF2 → cycle_t Edge W) (csd k : Nat)
    (hodd : ∀ j, j ≤ k → SpVecGF2.dot (broadcast_support convert_edges extract csd j)
      (characteristic convert_edges extract csd j) = 1) :
    ∀ i, k < i → i < csd → ∀ j, j ≤ k →
      SpVecGF2.dot
        ((main_loop convert_edges extract csd 0 (broadcast_support convert_edges extract csd)
          (k + 1)).support.getD i ∅)
        (characteristic convert_edges extract csd j) = 0 := by
  intro i hi _ j hj
  rw [main_loop_rank0]
  exact support_orthogonal convert_edges extract csd (k + 1)
    (fun j hj => hodd j (by omega)) i (by omega) j (by omega)

/-- Witness of C1: three support vectors, the sample extraction, end of iteration 1. -/
theorem mcb_sva_mpi_orthogonality_witness :
    (∀ j, j ≤ 1 → SpVecGF2.dot (broadcast_support id sample_extract 3 j)
      (characteristic id sample_extract 3 j) = 1) ∧
    (∀ i, 1 < i → i < 3 → ∀ j, j ≤ 1 →
      SpVecGF2.dot
        ((main_loop id sample_extract 3 0 (broadcast_support id sample_extract 3)
          (1 + 1)).support.getD i ∅)
        (characteristic id sample_extract 3 j) = 0) :=
  have h : ∀ j, j ≤ 1 → SpVecGF2.dot (broadcast_support id sample_extract 3 j)
      (characteristic id sample_extract 3 j) = 1 := by
    intro j hj
    interval_cases j <;> decide
  ⟨h, mcb_sva_mpi_orthogonality id sample_extract 3 1 h⟩

/-- C2 (independence). On rank 0, if every extraction up to iteration `k` returned a cycle
with dot product 1 with `support[j]` at its turn, the characteristic vectors of
`C_0, ..., C_k` are linearly independent over GF(2): a combination of them that is the
zero vector has all its coefficients zero. -/
theorem mcb_sva_mpi_independence {Edge W : Type} [Add W] [Zero W]
    (convert_edges : Finset Edge → Finset Nat)
    (extract : Nat → Nat → SpVecGF2 → cycle_t Edge W) (csd k : Nat)
    (hodd : ∀ j, j ≤ k → SpVecGF2.dot (broadcast_support convert_edges extract csd j)
      (characteristic convert_edges extract csd j) = 1) :
    ∀ a : Nat → Bool,
      gf2_combination (characteristic convert_edges extract csd) a (k + 1) = ∅ →
      ∀ j, j ≤ k → a j = false := by
  intro a hz j hj
  refine independent_of_triangular (characteristic convert_edges extract csd)
    (broadcast_support convert_edges extract csd) a (k + 1)
    (fun m hm => hodd m (by omega)) ?_ hz j (by omega)
  intro m hm i hi
  exact support_orthogonal convert_edges extract csd m
    (fun j hj => hodd j (by omega)) m (le_refl m) i hi

/-- Witness of C2: the three cycles of the sample extraction. -/
theorem mcb_sva_mpi_independence_witness :
    (∀ j, j ≤ 2 → SpVecGF2.dot (broadcast_support id sample_extract 3 j)
      (characteristic id sample_extract 3 j) = 1) ∧
    (∀ a : Nat → Bool,
      gf2_combination (characteristic id sample_extract 3) a (2 + 1) = ∅ →
      ∀ j, j ≤ 2 → a j = false) :=
  have h : ∀ j, j ≤ 2 → SpVecGF2.dot (broadcast_support id sample_extract 3 j)
      (characteristic id sample_extract 3 j) = 1 := by
    intro j hj
    interval_cases j <;> decide
  ⟨h, mcb_sva_mpi_independence id sample_extract 3 2 h⟩

/-- C4 (dimension). On rank 0 `mcb_sva_mpi` writes exactly `csd` cycles to `out`; when
`csd = 0` it writes nothing and returns 0. -/
theorem mcb_sva_mpi_dimension {Edge W : Type} [Add W] [Zero W]
    (convert_edges : Finset Edge → Finset Nat)
    (extract : Nat → Nat → SpVecGF2 → cycle_t Edge W) (csd : Nat) :
    (mcb_sva_mpi convert_edges extract csd 0).out.length = csd ∧
      (mcb_sva_mpi convert_edges extract 0 0).out = [] ∧
      (mcb_sva_mpi convert_edges extract 0 0).mcb_weight = 0 := by
  refine ⟨?_, rfl, rfl⟩
  unfold mcb_sva_mpi
  rw [main_loop_rank0]
  exact rank0_out_length convert_edges extract csd csd

/-- C6, counterexample: with three cycles of weights 1, 2, 3 rank 0 returns 6 and rank 1
returns 0. -/
theorem mcb_sva_mpi_other_rank_counterexample :
    (mcb_sva_mpi id sample_extract 3 0).mcb_weight = 6 ∧
      (mcb_sva_mpi id sample_extract 3 1).mcb_weight = 0 ∧
      (mcb_sva_mpi id sample_extract 3 1).mcb_weight ≠
        (mcb_sva_mpi id sample_extract 3 0).mcb_weight := by
  decide

/-- C6, amended. On every rank other than 0 `mcb_sva_mpi` returns `WeightType()`, that is
zero, and writes nothing to `out`, whatever the cycles found. -/
theorem mcb_sva_mpi_other_rank {Edge W : Type} [Add W] [Zero W]
    (convert_edges : Finset Edge → Finset Nat)
    (extract : Nat → Nat → SpVecGF2 → cycle_t Edge W) (csd rank : Nat) (hr : rank ≠ 0) :
    (mcb_sva_mpi convert_edges extract csd rank).mcb_weight = 0 ∧
      (mcb_sva_mpi convert_edges extract csd rank).out = [] :=
  other_rank_idle convert_edges extract csd rank hr _ csd

/-- Witness of the amended C6: rank 1 of a run with three cycles. -/
theorem mcb_sva_mpi_other_rank_witness :
    (1 : Nat) ≠ 0 ∧ (mcb_sva_mpi id sample_extract 3 1).mcb_weight = 0 ∧
      (mcb_sva_mpi id sample_extract 3 1).out = [] :=
  ⟨by decide, mcb_sva_mpi_other_rank id sample_extract 3 1 (by decide)⟩

/-! ## Claims about the reducers -/

/-- C7, counterexample: two existing cycles of equal weight and different edges; each
reducer returns a different tuple when its arguments are swapped. -/
theorem reducer_commutative_counterexample :
    SerializableMinOddCycleMinOp (⟨[0], 1, true⟩ : SerializableMinOddCycle Nat) ⟨[1], 1, true⟩ ≠
        SerializableMinOddCycleMinOp ⟨[1], 1, true⟩ ⟨[0], 1, true⟩ ∧
      cycle_min (⟨{0}, 1, true⟩ : cycle_t Nat Nat) ⟨{1}, 1, true⟩ ≠
        cycle_min ⟨{1}, 1, true⟩ ⟨{0}, 1, true⟩ := by
  decide

/-- C7, amended. Both reducers are commutative on two cycles of which at least one exists
and which, when both exist, have different weights. -/
theorem reducer_commutative {Edge W : Type} [LinearOrder W]
    (a b : SerializableMinOddCycle W) (c1 c2 : cycle_t Edge W)
    (hab : a.found = true ∨ b.found = true)
    (hw : a.found = true → b.found = true → a.weight ≠ b.weight)
    (hc : c1.found = true ∨ c2.found = true)
    (hv : c1.found = true → c2.found = true → c1.weight ≠ c2.weight) :
    SerializableMinOddCycleMinOp a b = SerializableMinOddCycleMinOp b a ∧
      cycle_min c1 c2 = cycle_min c2 c1 := by
  constructor
  · obtain ⟨ea, wa, fa⟩ := a
    obtain ⟨eb, wb, fb⟩ := b
    cases fa <;> cases fb <;> simp_all [SerializableMinOddCycleMinOp]
    rcases lt_trichotomy wa wb with h | h | h
    · simp [h, not_lt_of_lt h]
    · exact absurd h hw
    · simp [h, not_lt_of_lt h]
  · obtain ⟨e1, w1, f1⟩ := c1
    obtain ⟨e2, w2, f2⟩ := c2
    cases f1 <;> cases f2 <;> simp_all [cycle_min]
    rcases lt_trichotomy w1 w2 with h | h | h
    · rw [if_pos (le_of_lt h), if_neg (not_le_of_lt h)]
    · exact absurd h hv
    · rw [if_neg (not_le_of_lt h), if_pos (le_of_lt h)]

/-- Witness of the amended C7: an existing cycle of weight 1 against one of weight 2. -/
theorem reducer_commutative_witness :
    SerializableMinOddCycleMinOp (⟨[0], 1, true⟩ : SerializableMinOddCycle Nat) ⟨[1], 2, true⟩ =
        SerializableMinOddCycleMinOp ⟨[1], 2, true⟩ ⟨[0], 1, true⟩ ∧
      cycle_min (⟨{0}, 1, true⟩ : cycle_t Nat Nat) ⟨{1}, 2, true⟩ =
        cycle_min ⟨{1}, 2, true⟩ ⟨{0}, 1, true⟩ :=
  reducer_commutative ⟨[0], 1, true⟩ ⟨[1], 2, true⟩ ⟨{0}, 1, true⟩ ⟨{1}, 2, true⟩
    (Or.inl rfl) (fun _ _ => by decide) (Or.inl rfl) (fun _ _ => by decide)

/-- C8 (associativity). For weights from a linearly ordered type, `cycle_min` and
`SerializableMinOddCycleMinOp` are associative. -/
theorem reducer_associative {Edge W : Type} [LinearOrder W] :
    (∀ c1 c2 c3 : cycle_t Edge W,
      cycle_min (cycle_min c1 c2) c3 = cycle_min c1 (cycle_min c2 c3)) ∧
    (∀ c1 c2 c3 : SerializableMinOddCycle W,
      SerializableMinOddCycleMinOp (SerializableMinOddCycleMinOp c1 c2) c3 =
        SerializableMinOddCycleMinOp c1 (SerializableMinOddCycleMinOp c2 c3)) := by
  constructor
  · intro c1 c2 c3
    obtain ⟨e1, w1, f1⟩ := c1
    obtain ⟨e2, w2, f2⟩ := c2
    obtain ⟨e3, w3, f3⟩ := c3
    cases f1 <;> cases f2 <;> cases f3 <;> simp [cycle_min]
    all_goals (split_ifs <;> simp_all)
    all_goals
      rename_i h1 h2 h3
      first
        | exact absurd (lt_of_lt_of_le h2 (le_trans h1 h3)) (lt_irrefl _)
        | exact absurd (lt_of_lt_of_le (lt_trans h2 h1) h3) (lt_irrefl _)
  · intro c1 c2 c3
    obtain ⟨e1, w1, f1⟩ := c1
    obtain ⟨e2, w2, f2⟩ := c2
    obtain ⟨e3, w3, f3⟩ := c3
    cases f1 <;> cases f2 <;> cases f3 <;> simp [SerializableMinOddCycleMinOp]
    all_goals (split_ifs <;> simp_all)
    all_goals
      rename_i h1 h2 h3
      first
        | exact absurd (lt_of_lt_of_le h3 (le_trans h2 (le_of_lt h1))) (lt_irrefl _)
        | exact absurd (lt_of_lt_of_le h3 (le_trans h2 h1)) (lt_irrefl _)

/-- C9, counterexample: the sentinel `(∅, 0, false)` of the cycle builder combined with the
not-found tuple on its right gives the not-found tuple, not the sentinel. -/
theorem cycle_min_identity_counterexample :
    cycle_min (⟨∅, 0, false⟩ : cycle_t Nat Nat) (not_found Nat 1000) ≠ ⟨∅, 0, false⟩ := by
  decide

/-- C9, amended. The not-found tuple is a left identity of `cycle_min`; on the right it
leaves every existing cycle unchanged and turns every non-existing tuple into the
not-found tuple itself. -/
theorem cycle_min_identity {Edge W : Type} [LinearOrder W] (wmax : W) (c : cycle_t Edge W) :
    cycle_min (not_found Edge wmax) c = c ∧
      cycle_min c (not_found Edge wmax) = if c.found then c else not_found Edge wmax := by
  obtain ⟨e, w, f⟩ := c
  cases f <;> simp [cycle_min, not_found]

/-- C10, counterexample: two existing cycles of weight 1; the reducer returns its right
argument, whose edge sequence `[1]` is lexicographically larger than `[0]`. -/
theorem tie_break_counterexample :
    SerializableMinOddCycleMinOp (⟨[0], 1, true⟩ : SerializableMinOddCycle Nat) ⟨[1], 1, true⟩ =
        ⟨[1], 1, true⟩ ∧ ([0] : List Nat) < [1] := by
  decide

/-- C10, amended. For two existing cycles of equal weight `SerializableMinOddCycleMinOp`
returns its right-hand argument, whatever the edge sequences. -/
theorem tie_break_right {W : Type} [LinearOrder W] (a b : SerializableMinOddCycle W)
    (ha : a.found = true) (hb : b.found = true) (hw : a.weight = b.weight) :
    SerializableMinOddCycleMinOp a b = b := by
  simp [SerializableMinOddCycleMinOp, ha, hb, hw]

/-- Witness of the amended C10: the smaller edge sequence on the right, then on the left. -/
theorem tie_break_right_witness :
    SerializableMinOddCycleMinOp (⟨[1], 1, true⟩ : SerializableMinOddCycle Nat) ⟨[0], 1, true⟩ =
      ⟨[0], 1, true⟩ :=
  tie_break_right ⟨[1], 1, true⟩ ⟨[0], 1, true⟩ rfl rfl rfl

/-! ## GF(2) combinations and triangular systems -/

section Algebra

variable {α : Type} [DecidableEq α]

theorem symmDiff_empty_right (x : Finset α) : symmDiff x ∅ = x := by
  ext e; simp [Finset.mem_symmDiff]

theorem gf2_combination_congr (c : Nat → Finset α) (a b : Nat → Bool) (n : Nat)
    (h : ∀ i, i < n → a i = b i) : gf2_combination c a n = gf2_combination c b n := by
  induction n with
  | zero => rfl
  | succ n ih =>
    rw [gf2_combination, gf2_combination, ih (fun i hi => h i (by omega)),
      h n (Nat.lt_succ_self n)]

theorem gf2_combination_mem (Z : Finset α → Prop) (hz : Z ∅)
    (hadd : ∀ x y, Z x → Z y → Z (symmDiff x y)) (c : Nat → Finset α) (a : Nat → Bool)
    (n : Nat) (hc : ∀ i, i < n → Z (c i)) : Z (gf2_combination c a n) := by
  induction n with
  | zero => exact hz
  | succ n ih =>
    rw [gf2_combination]
    refine hadd _ _ (ih (fun i hi => hc i (by omega))) ?_
    cases a n
    · exact hz
    · exact hc n (Nat.lt_succ_self n)

theorem gf2_combination_xor (c : Nat → Finset α) (a b : Nat → Bool) (n : Nat) :
    gf2_combination c (fun i => xor (a i) (b i)) n =
      symmDiff (gf2_combination c a n) (gf2_combination c b n) := by
  induction n with
  | zero => ext e; simp [gf2_combination, Finset.mem_symmDiff]
  | succ n ih =>
    rw [gf2_combination, gf2_combination, gf2_combination, ih]
    ext e
    cases a n <;> cases b n <;> simp [Finset.mem_symmDiff] <;> tauto

theorem gf2_combination_single (c : Nat → Finset α) (i n : Nat) (hi : i < n) :
    gf2_combination c (fun j => decide (j = i)) n = c i := by
  induction n with
  | zero => omega
  | succ n ih =>
    rw [gf2_combination]
    by_cases h : i = n
    · subst h
      have h0 : gf2_combination c (fun j => decide (j = i)) i = ∅ := by
        have : ∀ m, m ≤ i → gf2_combination c (fun j => decide (j = i)) m = ∅ := by
          intro m
          induction m with
          | zero => intro _; rfl
          | succ m ihm =>
            intro hm
            rw [gf2_combination, ihm (by omega)]
            have : decide (m = i) = false := by simp; omega
            rw [this]
            ext e; simp [Finset.mem_symmDiff]
        exact this i (le_refl i)
      rw [h0]
      ext e; simp [Finset.mem_symmDiff]
    · rw [ih (by omega)]
      have : decide (n = i) = false := by simp; omega
      rw [this]
      ext e; simp [Finset.mem_symmDiff]

theorem gf2_combination_split (c : Nat → Finset α) (a : Nat → Bool) (i n : Nat)
    (hi : i < n) (ha : a i = true) :
    gf2_combination c a n =
      symmDiff (c i) (gf2_combination c (fun j => if j = i then false else a j) n) := by
  have hx : ∀ j, j < n →
      a j = xor (decide (j = i)) (if j = i then false else a j) := by
    intro j _
    by_cases h : j = i
    · subst h
      simp [ha]
    · simp [h]
  rw [gf2_combination_congr c a _ n hx,
    gf2_combination_xor c (fun j => decide (j = i)) (fun j => if j = i then false else a j) n,
    gf2_combination_single c i n hi]

variable {Z : Finset α → Prop} {N : Nat} {C : Nat → Finset α} {f : Nat → Finset α → Nat}

theorem triangular_system.f_empty (hs : triangular_system Z N C f) (k : Nat) (hk : k < N) :
    f k ∅ = 0 := by
  have h := hs.f_add k hk ∅ ∅ hs.zero_mem hs.zero_mem
  have he : symmDiff (∅ : Finset α) ∅ = ∅ := symmDiff_empty_right ∅
  rw [he] at h
  have := hs.f_lt k ∅
  omega

theorem triangular_system.f_combination_zero (hs : triangular_system Z N C f) (k : Nat)
    (hk : k < N) (c : Nat → Finset α) (a : Nat → Bool) (n : Nat)
    (hc : ∀ i, i < n → Z (c i)) (h0 : ∀ i, i < n → a i = true → f k (c i) = 0) :
    f k (gf2_combination c a n) = 0 := by
  induction n with
  | zero => exact hs.f_empty k hk
  | succ n ih =>
    have hmem := gf2_combination_mem Z hs.zero_mem hs.add_mem c a n
      (fun i hi => hc i (by omega))
    have ih1 := ih (fun i hi => hc i (by omega)) (fun i hi => h0 i (by omega))
    rw [gf2_combination]
    cases han : a n
    · simp only [Bool.false_eq_true, if_false]
      rw [symmDiff_empty_right]
      exact ih1
    · simp only [if_true]
      rw [hs.f_add k hk _ _ hmem (hc n (Nat.lt_succ_self n)), ih1,
        h0 n (Nat.lt_succ_self n) han]

theorem triangular_system.f_combination_one (hs : triangular_system Z N C f) (k : Nat)
    (hk : k < N) (c : Nat → Finset α) (a : Nat → Bool) (n : Nat)
    (hc : ∀ i, i < n → Z (c i)) (h1 : f k (gf2_combination c a n) = 1) :
    ∃ i, i < n ∧ a i = true ∧ f k (c i) = 1 := by
  by_contra hne
  have h0 : ∀ i, i < n → a i = true → f k (c i) = 0 := by
    intro i hi hai
    have hlt := hs.f_lt k (c i)
    have hne1 : ¬ f k (c i) = 1 := fun h => hne ⟨i, hi, hai, h⟩
    omega
  rw [hs.f_combination_zero k hk c a n hc h0] at h1
  omega

/-- The vectors of a triangular system are linearly independent over GF(2). -/
theorem triangular_system.independent (hs : triangular_system Z N C f) (a : Nat → Bool) :
    ∀ n, n ≤ N → gf2_combination C a n = ∅ → ∀ j, j < n → a j = false := by
  intro n
  induction n with
  | zero => intro _ _ j hj; omega
  | succ n ih =>
    intro hn hz
    have hk : n < N := by omega
    have hmem := gf2_combination_mem Z hs.zero_mem hs.add_mem C a n
      (fun i hi => hs.C_mem i (by omega))
    have h0 := hs.f_combination_zero n hk C a n (fun i hi => hs.C_mem i (by omega))
      (fun i hi _ => hs.lower n hk i hi)
    have han : a n = false := by
      cases hb : a n
      · rfl
      · rw [gf2_combination, hb] at hz
        simp only [if_true] at hz
        have h1 := hs.f_add n hk _ _ hmem (hs.C_mem n hk)
        rw [hz, hs.f_empty n hk, h0, hs.diag n hk] at h1
        omega
    have hz1 : gf2_combination C a n = ∅ := by
      rw [gf2_combination, han] at hz
      simp only [Bool.false_eq_true, if_false] at hz
      rw [symmDiff_empty_right] at hz
      exact hz
    intro j hj
    by_cases hjn : j = n
    · rw [hjn]; exact han
    · exact ih (by omega) hz1 j (by omega)

/-- The vectors of a triangular system span `Z`. -/
theorem triangular_system.spanning (hs : triangular_system Z N C f) :
    ∀ m, m ≤ N → ∀ z, Z z → (∀ k, m ≤ k → k < N → f k z = 0) →
      ∃ a, gf2_combination C a m = z := by
  intro m
  induction m with
  | zero =>
    intro _ z hz h0
    exact ⟨fun _ => false, (hs.separate z hz (fun k hk => h0 k (Nat.zero_le k) hk)).symm⟩
  | succ m ih =>
    intro hm z hz h0
    have hk : m < N := by omega
    by_cases ht : f m z = 1
    · have hz1 : Z (symmDiff z (C m)) := hs.add_mem _ _ hz (hs.C_mem m hk)
      obtain ⟨a, ha⟩ := ih (by omega) (symmDiff z (C m)) hz1 (by
        intro k hmk hkN
        rw [hs.f_add k hkN _ _ hz (hs.C_mem m hk)]
        by_cases hkm : k = m
        · subst hkm
          rw [ht, hs.diag k hkN]
        · rw [h0 k (by omega) hkN, hs.lower k hkN m (by omega)])
      refine ⟨fun j => if j = m then true else a j, ?_⟩
      rw [gf2_combination, gf2_combination_congr C _ a m (fun i hi => by
        have : ¬ i = m := by omega
        simp [this]), ha]
      simp only [if_true]
      ext e
      simp only [Finset.mem_symmDiff]
      tauto
    · have ht0 : f m z = 0 := by
        have := hs.f_lt m z
        omega
      obtain ⟨a, ha⟩ := ih (by omega) z hz (by
        intro k hmk hkN
        by_cases hkm : k = m
        · subst hkm; exact ht0
        · exact h0 k (by omega) hkN)
      refine ⟨fun j => if j = m then false else a j, ?_⟩
      rw [gf2_combination, gf2_combination_congr C _ a m (fun i hi => by
        have : ¬ i = m := by omega
        simp [this]), ha]
      simp only [if_true, Bool.false_eq_true, if_false]
      exact symmDiff_empty_right z

theorem symmDiff_exchange (x1 x2 d y4 y5 : Finset α) :
    symmDiff (symmDiff (symmDiff x1 x2) (symmDiff x2 (symmDiff d y4))) (symmDiff y4 y5) =
      symmDiff x1 (symmDiff d y5) := by
  ext e
  simp only [Finset.mem_symmDiff]
  by_cases h1 : e ∈ x1 <;> by_cases h2 : e ∈ x2 <;> by_cases h3 : e ∈ d <;>
    by_cases h4 : e ∈ y4 <;> by_cases h5 : e ∈ y5 <;> simp [h1, h2, h3, h4, h5]

theorem triangular_system.exchange {W : Type} [OrderedAddCommMonoid W]
    (hs : triangular_system Z N C f) (P : Finset α → Prop) (wt : Finset α → W)
    (hmin : ∀ k, k < N → ∀ D, P D → Z D → f k D = 1 → wt (C k) ≤ wt D)
    (n' : Nat) (b : Nat → Finset α) (hbP : ∀ i, i < n' → P (b i))
    (hbZ : ∀ i, i < n' → Z (b i))
    (hspan : ∀ z, Z z → ∃ a, gf2_combination b a n' = z) :
    ∀ k, k ≤ N → ∃ U, exchange_state Z C wt n' b k U := by
  intro k
  induction k with
  | zero =>
    intro _
    refine ⟨∅, Finset.empty_subset _, ?_, ?_⟩
    · intro z hz
      obtain ⟨a, ha⟩ := hspan z hz
      refine ⟨fun _ => false, a, fun i hi => absurd hi (Finset.not_mem_empty i), ?_⟩
      rw [ha]
      ext e
      simp [gf2_combination, Finset.mem_symmDiff]
    · simp
  | succ k ih =>
    intro hk1
    have hk : k < N := by omega
    obtain ⟨U, hU, hsp, hwt⟩ := ih (by omega)
    have hCmem : ∀ a, Z (gf2_combination C a k) := fun a =>
      gf2_combination_mem Z hs.zero_mem hs.add_mem C a k (fun i hi => hs.C_mem i (by omega))
    have hbmem : ∀ a, Z (gf2_combination b a n') := fun a =>
      gf2_combination_mem Z hs.zero_mem hs.add_mem b a n' hbZ
    obtain ⟨a, a', ha'U, hCk⟩ := hsp (C k) (hs.C_mem k hk)
    have hf0 : f k (gf2_combination C a k) = 0 :=
      hs.f_combination_zero k hk C a k (fun i hi => hs.C_mem i (by omega))
        (fun i hi _ => hs.lower k hk i hi)
    have hf1 : f k (gf2_combination b a' n') = 1 := by
      have h := hs.f_add k hk _ _ (hCmem a) (hbmem a')
      rw [hCk, hs.diag k hk, hf0] at h
      have := hs.f_lt k (gf2_combination b a' n')
      omega
    obtain ⟨i, hin, hai, hfi⟩ := hs.f_combination_one k hk b a' n' hbZ hf1
    have hiU : i ∉ U := fun h => by
      rw [ha'U i h] at hai
      exact Bool.false_ne_true hai
    have hle : wt (C k) ≤ wt (b i) := hmin k hk (b i) (hbP i hin) (hbZ i hin) hfi
    have hsplit := gf2_combination_split b a' i n' hin hai
    refine ⟨insert i U, ?_, ?_, ?_⟩
    · intro j hj
      rcases Finset.mem_insert.mp hj with h | h
      · rw [h]; exact Finset.mem_range.mpr hin
      · exact hU h
    · intro z hz
      obtain ⟨c, c', hc'U, hzc⟩ := hsp z hz
      by_cases hci : c' i = true
      · have hsplit2 := gf2_combination_split b c' i n' hin hci
        refine ⟨fun j => if j = k then true else xor (c j) (a j),
          fun j => xor (if j = i then false else a' j) (if j = i then false else c' j), ?_, ?_⟩
        · intro j hj
          rcases Finset.mem_insert.mp hj with h | h
          · simp [h]
          · have hji : ¬ j = i := fun h1 => hiU (h1 ▸ h)
            simp [hji, ha'U j h, hc'U j h]
        · rw [gf2_combination, gf2_combination_congr C _ (fun j => xor (c j) (a j)) k
            (fun j hj => by
              have : ¬ j = k := by omega
              simp [this]),
            gf2_combination_xor C c a k,
            gf2_combination_xor b (fun j => if j = i then false else a' j)
              (fun j => if j = i then false else c' j) n']
          simp only [if_true]
          rw [← hzc, hsplit2]
          rw [hsplit] at hCk
          rw [← hCk]
          exact symmDiff_exchange _ _ _ _ _
      · have hci0 : c' i = false := by
          cases h : c' i
          · rfl
          · exact absurd h hci
        refine ⟨fun j => if j = k then false else c j, c', ?_, ?_⟩
        · intro j hj
          rcases Finset.mem_insert.mp hj with h | h
          · rw [h]; exact hci0
          · exact hc'U j h
        · rw [gf2_combination, gf2_combination_congr C _ c k (fun j hj => by
              have : ¬ j = k := by omega
              simp [this])]
          simp only [if_true, Bool.false_eq_true, if_false]
          rw [symmDiff_empty_right]
          exact hzc
    · have hmem : i ∈ Finset.range n' \ U :=
        Finset.mem_sdiff.mpr ⟨Finset.mem_range.mpr hin, hiU⟩
      have herase : Finset.range n' \ insert i U = (Finset.range n' \ U).erase i := by
        ext j
        simp only [Finset.mem_sdiff, Finset.mem_insert, Finset.mem_erase, Finset.mem_range]
        tauto
      have hsum := Finset.add_sum_erase (Finset.range n' \ U) (fun i => wt (b i)) hmem
      rw [Finset.sum_range_succ, herase]
      calc (Finset.range k).sum (fun j => wt (C j)) + wt (C k) +
              ((Finset.range n' \ U).erase i).sum (fun i => wt (b i))
          ≤ (Finset.range k).sum (fun j => wt (C j)) + wt (b i) +
              ((Finset.range n' \ U).erase i).sum (fun i => wt (b i)) :=
            add_le_add_right (add_le_add_left hle _) _
        _ = (Finset.range k).sum (fun j => wt (C j)) +
              (Finset.range n' \ U).sum (fun i => wt (b i)) := by
            rw [add_assoc, hsum]
        _ ≤ (Finset.range n').sum (fun i => wt (b i)) := hwt

/-- The total weight of a triangular system whose vectors are minimal is at most the total
weight of any family of vectors of `P` that spans `Z`. -/
theorem triangular_system.minimum {W : Type} [OrderedAddCommMonoid W]
    (hs : triangular_system Z N C f) (P : Finset α → Prop) (wt : Finset α → W)
    (hmin : ∀ k, k < N → ∀ D, P D → Z D → f k D = 1 → wt (C k) ≤ wt D)
    (n' : Nat) (b : Nat → Finset α) (hbP : ∀ i, i < n' → P (b i))
    (hbZ : ∀ i, i < n' → Z (b i)) (hb0 : ∀ i, i < n' → 0 ≤ wt (b i))
    (hspan : ∀ z, Z z → ∃ a, gf2_combination b a n' = z) :
    (Finset.range N).sum (fun j => wt (C j)) ≤ (Finset.range n').sum (fun i => wt (b i)) := by
  obtain ⟨U, _, _, hwt⟩ := hs.exchange P wt hmin n' b hbP hbZ hspan N (le_refl N)
  have hnn : 0 ≤ (Finset.range n' \ U).sum (fun i => wt (b i)) :=
    Finset.sum_nonneg (fun i hi =>
      hb0 i (Finset.mem_range.mp (Finset.mem_sdiff.mp hi).1))
  calc (Finset.range N).sum (fun j => wt (C j))
      = (Finset.range N).sum (fun j => wt (C j)) + 0 := (add_zero _).symm
    _ ≤ (Finset.range N).sum (fun j => wt (C j)) +
          (Finset.range n' \ U).sum (fun i => wt (b i)) := add_le_add_left hnn _
    _ ≤ (Finset.range n').sum (fun i => wt (b i)) := hwt

end Algebra

/-! ## The cycle space of a graph -/

section CycleSpace

variable {Edge : Type} [DecidableEq Edge]

theorem card_symmDiff_add {α : Type} [DecidableEq α] (x y : Finset α) :
    (symmDiff x y).card + 2 * (x ∩ y).card = x.card + y.card := by
  have hd : Disjoint (x \ y) (y \ x) := by
    rw [Finset.disjoint_left]
    intro i hi hj
    simp only [Finset.mem_sdiff] at hi hj
    exact hi.2 hj.1
  have h1 := Finset.card_sdiff_add_card_inter x y
  have h2 := Finset.card_sdiff_add_card_inter y x
  rw [Finset.inter_comm y x] at h2
  have he : symmDiff x y = (x \ y) ∪ (y \ x) := rfl
  rw [he, Finset.card_union_of_disjoint hd]
  omega

theorem filter_symmDiff_eq {α : Type} [DecidableEq α] (p : α → Prop) [DecidablePred p]
    (x y : Finset α) :
    (symmDiff x y).filter p = symmDiff (x.filter p) (y.filter p) := by
  ext e
  simp only [Finset.mem_filter, Finset.mem_symmDiff]
  tauto

theorem Graph.degree_symmDiff (g : Graph Edge) (F F' : Finset Edge) (v : Nat) :
    g.degree (symmDiff F F') v % 2 = (g.degree F v + g.degree F' v) % 2 := by
  unfold Graph.degree
  rw [filter_symmDiff_eq, filter_symmDiff_eq]
  have h1 := card_symmDiff_add (F.filter (fun e => g.source e = v))
    (F'.filter (fun e => g.source e = v))
  have h2 := card_symmDiff_add (F.filter (fun e => g.target e = v))
    (F'.filter (fun e => g.target e = v))
  omega

theorem Graph.in_cycle_space_iff (g : Graph Edge) (F : Finset Edge) :
    g.in_cycle_space F ↔ F ⊆ g.edges ∧ ∀ v, g.degree F v % 2 = 0 := by
  constructor
  · rintro ⟨hsub, h⟩
    refine ⟨hsub, fun v => ?_⟩
    by_cases hs : ∃ e, e ∈ F ∧ g.source e = v
    · obtain ⟨e, he, hev⟩ := hs
      rw [← hev]
      exact (h e he).1
    · by_cases ht : ∃ e, e ∈ F ∧ g.target e = v
      · obtain ⟨e, he, hev⟩ := ht
        rw [← hev]
        exact (h e he).2
      · have h1 : F.filter (fun e => g.source e = v) = ∅ :=
          Finset.filter_eq_empty_iff.mpr (fun e he hev => hs ⟨e, he, hev⟩)
        have h2 : F.filter (fun e => g.target e = v) = ∅ :=
          Finset.filter_eq_empty_iff.mpr (fun e he hev => ht ⟨e, he, hev⟩)
        unfold Graph.degree
        rw [h1, h2]
        rfl
  · rintro ⟨hsub, h⟩
    exact ⟨hsub, fun e _ => ⟨h _, h _⟩⟩

theorem Graph.in_cycle_space_empty (g : Graph Edge) : g.in_cycle_space ∅ :=
  ⟨Finset.empty_subset _, fun e he => absurd he (Finset.not_mem_empty e)⟩

theorem Graph.in_cycle_space_symmDiff (g : Graph Edge) (F F' : Finset Edge)
    (hF : g.in_cycle_space F) (hF' : g.in_cycle_space F') :
    g.in_cycle_space (symmDiff F F') := by
  rw [Graph.in_cycle_space_iff] at hF hF' ⊢
  refine ⟨?_, fun v => ?_⟩
  · intro e he
    rcases Finset.mem_symmDiff.mp he with h | h
    · exact hF.1 h.1
    · exact hF'.1 h.1
  · rw [Graph.degree_symmDiff]
    have h1 := hF.2 v
    have h2 := hF'.2 v
    omega

theorem dot_convert_symmDiff (g : Graph Edge) (csd : Nat)
    (convert_edges : Finset Edge → Finset Nat) (tree : Finset Edge) (index : Edge → Nat)
    (hfi : forest_index_contract g csd convert_edges tree index) (s : SpVecGF2)
    (hs : s ⊆ Finset.range csd) (F F' : Finset Edge) (hF : F ⊆ g.edges)
    (hF' : F' ⊆ g.edges) :
    SpVecGF2.dot s (convert_edges (symmDiff F F')) =
      (SpVecGF2.dot s (convert_edges F) + SpVecGF2.dot s (convert_edges F')) % 2 := by
  have hsub : symmDiff F F' ⊆ g.edges := by
    intro e he
    rcases Finset.mem_symmDiff.mp he with h | h
    · exact hF h.1
    · exact hF' h.1
  have he : s ∩ convert_edges (symmDiff F F') =
      symmDiff (s ∩ convert_edges F) (s ∩ convert_edges F') := by
    ext i
    simp only [Finset.mem_inter, Finset.mem_symmDiff]
    by_cases his : i ∈ s
    · have hi : i < csd := Finset.mem_range.mp (hs his)
      rw [hfi.convert _ hsub i hi, hfi.convert _ hF i hi, hfi.convert _ hF' i hi]
      constructor
      · rintro ⟨_, e, he, hnt, hidx⟩
        rcases Finset.mem_symmDiff.mp he with h | h
        · left
          refine ⟨⟨his, e, h.1, hnt, hidx⟩, ?_⟩
          rintro ⟨_, e', he', hnt', hidx'⟩
          have : e = e' := hfi.index_inj e (hF h.1) hnt e' (hF' he') hnt' (by rw [hidx, hidx'])
          exact h.2 (this ▸ he')
        · right
          refine ⟨⟨his, e, h.1, hnt, hidx⟩, ?_⟩
          rintro ⟨_, e', he', hnt', hidx'⟩
          have : e = e' := hfi.index_inj e (hF' h.1) hnt e' (hF he') hnt' (by rw [hidx, hidx'])
          exact h.2 (this ▸ he')
      · rintro (⟨⟨_, e, he, hnt, hidx⟩, hno⟩ | ⟨⟨_, e, he, hnt, hidx⟩, hno⟩)
        · refine ⟨his, e, Finset.mem_symmDiff.mpr (Or.inl ⟨he, fun h => ?_⟩), hnt, hidx⟩
          exact hno ⟨his, e, h, hnt, hidx⟩
        · refine ⟨his, e, Finset.mem_symmDiff.mpr (Or.inr ⟨he, fun h => ?_⟩), hnt, hidx⟩
          exact hno ⟨his, e, h, hnt, hidx⟩
    · simp [his]
  have hc := card_symmDiff_add (s ∩ convert_edges F) (s ∩ convert_edges F')
  unfold SpVecGF2.dot
  rw [he]
  omega

end CycleSpace

/-! ## The support vectors as a basis of the dual space -/

section Dual

variable {Edge W : Type} [Add W] [Zero W]
variable (convert_edges : Finset Edge → Finset Nat)
variable (extract : Nat → Nat → SpVecGF2 → cycle_t Edge W)

theorem init_support_getD (csd i : Nat) :
    (init_support csd).getD i ∅ = if i < csd then {i} else ∅ := by
  unfold init_support
  simp only [List.getD_eq_getElem?_getD, List.getElem?_map]
  by_cases h : i < csd
  · rw [List.getElem?_range h, if_pos h]
    rfl
  · rw [List.getElem?_eq_none (by simpa using h), if_neg h]
    rfl

theorem SpVecGF2.add_subset (a b : SpVecGF2) (s : Finset Nat) (ha : a ⊆ s) (hb : b ⊆ s) :
    SpVecGF2.add a b ⊆ s := by
  intro i hi
  unfold SpVecGF2.add at hi
  rcases Finset.mem_union.mp hi with h | h
  · exact ha (Finset.mem_sdiff.mp h).1
  · exact hb (Finset.mem_sdiff.mp h).1

theorem SpVecGF2.dot_singleton (i : Nat) (x : Finset Nat) :
    SpVecGF2.dot {i} x = if i ∈ x then 1 else 0 := by
  unfold SpVecGF2.dot
  by_cases h : i ∈ x
  · rw [if_pos h, Finset.singleton_inter_of_mem h]
    rfl
  · rw [if_neg h, Finset.singleton_inter_of_not_mem h]
    rfl

theorem support_subset_range (csd n : Nat) :
    ∀ i, (rank0_state convert_edges extract csd n).support.getD i ∅ ⊆ Finset.range csd := by
  induction n with
  | zero =>
    intro i
    show (init_support csd).getD i ∅ ⊆ Finset.range csd
    rw [init_support_getD]
    split
    · intro j hj
      rw [Finset.mem_singleton] at hj
      rw [hj]
      exact Finset.mem_range.mpr (by assumption)
    · exact Finset.empty_subset _
  | succ n ih =>
    intro i
    rw [rank0_state_succ]
    simp only
    rw [update_support_getD _ _ _ _ _ _ (Nat.lt_succ_self n)]
    split
    · exact SpVecGF2.add_subset _ _ _ (ih i) (ih n)
    · exact ih i

theorem support_eq_singleton_dot (csd n : Nat) (x : Finset Nat)
    (h0 : ∀ j, j < n → SpVecGF2.dot (broadcast_support convert_edges extract csd j) x = 0) :
    ∀ i, n ≤ i → i < csd →
      SpVecGF2.dot ((rank0_state convert_edges extract csd n).support.getD i ∅) x =
        SpVecGF2.dot {i} x := by
  induction n with
  | zero =>
    intro i _ hi
    show SpVecGF2.dot ((init_support csd).getD i ∅) x = SpVecGF2.dot {i} x
    rw [init_support_getD, if_pos hi]
  | succ n ih =>
    intro i hni hi
    have ih1 := ih (fun j hj => h0 j (by omega))
    have hn := h0 n (Nat.lt_succ_self n)
    unfold broadcast_support at hn
    rw [rank0_state_succ]
    simp only
    rw [update_support_getD _ _ _ _ _ _ (Nat.lt_succ_self n)]
    split
    · rw [SpVecGF2.dot_add_left, hn, ih1 i (by omega) hi]
      have := SpVecGF2.dot_lt_two {i} x
      omega
    · exact ih1 i (by omega) hi

theorem support_separation (csd : Nat) (x : Finset Nat)
    (h0 : ∀ k, k < csd → SpVecGF2.dot (broadcast_support convert_edges extract csd k) x = 0) :
    ∀ i, i < csd → i ∉ x := by
  intro i hi hix
  have h := support_eq_singleton_dot convert_edges extract csd i x
    (fun j hj => h0 j (by omega)) i (le_refl i) hi
  have hb := h0 i hi
  unfold broadcast_support at hb
  rw [hb, SpVecGF2.dot_singleton, if_pos hix] at h
  omega

theorem rank0_out_getD (csd n k : Nat) (hk : k < n) :
    (rank0_state convert_edges extract csd n).out.getD k ∅ =
      (best_cycle convert_edges extract csd k).edges := by
  induction n with
  | zero => omega
  | succ n ih =>
    rw [rank0_state_succ]
    simp only
    have hlen := rank0_out_length convert_edges extract csd n
    by_cases hkn : k = n
    · subst hkn
      simp [List.getD_eq_getElem?_getD, List.getElem?_append_right, hlen]
    · have hlt : k < (rank0_state convert_edges extract csd n).out.length := by omega
      rw [← ih (by omega)]
      simp [List.getD_eq_getElem?_getD, List.getElem?_append_left hlt]

end Dual

/-! ## Minimum cycle basis -/

theorem rank0_weight_sum {Edge W : Type} [AddCommMonoid W]
    (convert_edges : Finset Edge → Finset Nat)
    (extract : Nat → Nat → SpVecGF2 → cycle_t Edge W) (csd n : Nat) :
    (rank0_state convert_edges extract csd n).mcb_weight =
      (Finset.range n).sum (fun k => (best_cycle convert_edges extract csd k).weight) := by
  induction n with
  | zero => rfl
  | succ n ih =>
    rw [rank0_state_succ, Finset.sum_range_succ, ← ih]

section Minimum

variable {Edge W : Type} [DecidableEq Edge] [OrderedAddCommMonoid W]

theorem gf2_combination_congr_vectors {α : Type} [DecidableEq α] (c c' : Nat → Finset α)
    (a : Nat → Bool) (n : Nat) (h : ∀ i, i < n → c i = c' i) :
    gf2_combination c a n = gf2_combination c' a n := by
  induction n with
  | zero => rfl
  | succ n ih =>
    rw [gf2_combination, gf2_combination, ih (fun i hi => h i (by omega)),
      h n (Nat.lt_succ_self n)]

/-- Under the contracts of the forest index and of the shortest-odd-cycle step, the support
vectors at their turn and the emitted cycles form a triangular system on the cycle space. -/
theorem mcb_triangular_system (g : Graph Edge) (w : Edge → W)
    (convert_edges : Finset Edge → Finset Nat)
    (extract : Nat → Nat → SpVecGF2 → cycle_t Edge W) (csd : Nat) (tree : Finset Edge)
    (index : Edge → Nat) (hfi : forest_index_contract g csd convert_edges tree index)
    (hex : ∀ k, k < csd → min_odd_cycle g w convert_edges
      (broadcast_support convert_edges extract csd k)
      (best_cycle convert_edges extract csd k)) :
    triangular_system g.in_cycle_space csd
      (fun k => (best_cycle convert_edges extract csd k).edges)
      (fun k z => SpVecGF2.dot (broadcast_support convert_edges extract csd k)
        (convert_edges z)) where
  zero_mem := g.in_cycle_space_empty
  add_mem := g.in_cycle_space_symmDiff
  f_lt := fun k x => SpVecGF2.dot_lt_two _ _
  f_add := fun k _ x y hx hy =>
    dot_convert_symmDiff g csd convert_edges tree index hfi _
      (support_subset_range convert_edges extract csd k k) x y hx.1 hy.1
  C_mem := fun k hk => (hex k hk).2.1.2.1
  diag := fun k hk => (hex k hk).2.2.2.1
  lower := fun k hk j hj =>
    support_orthogonal convert_edges extract csd k
      (fun i hi => (hex i (by omega)).2.2.2.1) k (le_refl k) j hj
  separate := by
    intro z hz h0
    have hsep := support_separation convert_edges extract csd (convert_edges z) h0
    have hsub : z ⊆ tree := by
      intro e he
      by_contra hnt
      have hlt := hfi.index_lt e (hz.1 he) hnt
      exact hsep (index e) hlt ((hfi.convert z hz.1 (index e) hlt).mpr ⟨e, he, hnt, rfl⟩)
    exact hfi.forest z hsub hz

/-- When every shortest-odd-cycle step returns a minimum-weight cycle with dot product 1
with `support[k]`, the `csd` cycles written to `out` by rank 0 form a cycle basis of the
graph, the returned value is the total weight of this basis, and it is at most the total
weight of any cycle basis of the graph. -/
theorem minimum_cycle_basis_of_steps (g : Graph Edge) (w : Edge → W)
    (hw : ∀ e, e ∈ g.edges → 0 ≤ w e) (convert_edges : Finset Edge → Finset Nat)
    (extract : Nat → Nat → SpVecGF2 → cycle_t Edge W) (csd : Nat) (tree : Finset Edge)
    (index : Edge → Nat) (hfi : forest_index_contract g csd convert_edges tree index)
    (hex : ∀ k, k < csd → min_odd_cycle g w convert_edges
      (broadcast_support convert_edges extract csd k)
      (best_cycle convert_edges extract csd k)) :
    g.is_cycle_basis csd (fun k => (mcb_sva_mpi convert_edges extract csd 0).out.getD k ∅) ∧
      (mcb_sva_mpi convert_edges extract csd 0).mcb_weight =
        (Finset.range csd).sum
          (fun k => ((mcb_sva_mpi convert_edges extract csd 0).out.getD k ∅).sum w) ∧
      ∀ n b, g.is_cycle_basis n b →
        (mcb_sva_mpi convert_edges extract csd 0).mcb_weight ≤
          (Finset.range n).sum (fun i => (b i).sum w) := by
  have hts := mcb_triangular_system g w convert_edges extract csd tree index hfi hex
  have hout : ∀ k, k < csd → (mcb_sva_mpi convert_edges extract csd 0).out.getD k ∅ =
      (best_cycle convert_edges extract csd k).edges := by
    intro k hk
    unfold mcb_sva_mpi
    rw [main_loop_rank0]
    exact rank0_out_getD convert_edges extract csd csd k hk
  have hwt : (mcb_sva_mpi convert_edges extract csd 0).mcb_weight =
      (Finset.range csd).sum (fun k => (best_cycle convert_edges extract csd k).edges.sum w) := by
    unfold mcb_sva_mpi
    rw [main_loop_rank0, rank0_weight_sum]
    exact Finset.sum_congr rfl (fun k hk => (hex k (Finset.mem_range.mp hk)).2.2.1)
  refine ⟨⟨?_, ?_, ?_⟩, ?_, ?_⟩
  · intro i hi
    show g.is_cycle ((mcb_sva_mpi convert_edges extract csd 0).out.getD i ∅)
    rw [hout i hi]
    exact (hex i hi).2.1
  · intro a ha
    rw [gf2_combination_congr_vectors _ _ a csd hout] at ha
    exact hts.independent a csd (le_refl csd) ha
  · intro z hz
    obtain ⟨a, ha⟩ := hts.spanning csd (le_refl csd) z hz (fun k hk hk' => by omega)
    exact ⟨a, by rw [gf2_combination_congr_vectors _ _ a csd hout]; exact ha⟩
  · rw [hwt]
    exact Finset.sum_congr rfl (fun k hk => by rw [hout k (Finset.mem_range.mp hk)])
  · intro n b hb
    rw [hwt]
    refine hts.minimum g.is_cycle (fun F => F.sum w) ?_ n b hb.1
      (fun i hi => (hb.1 i hi).2.1)
      (fun i hi => Finset.sum_nonneg (fun e he => hw e ((hb.1 i hi).2.1.1 he))) hb.2.2
    intro k hk D hD _ hf
    show (best_cycle convert_edges extract csd k).edges.sum w ≤ D.sum w
    rw [← (hex k hk).2.2.1]
    exact (hex k hk).2.2.2.2 D hD hf

end Minimum

/-! ## The split of the vertices over the ranks: claim -/

theorem mem_local_indices (total size rank i : Nat) :
    i ∈ local_indices total size rank ↔
      rank * stride total size ≤ i ∧ i < rank * stride total size + stride total size ∧
        i < total := by
  unfold local_indices
  simp only [List.mem_range'_1]
  omega

theorem le_size_mul_stride (total size : Nat) (hs : 1 ≤ size) :
    total ≤ size * stride total size := by
  unfold stride
  have h := Nat.div_add_mod (total + size - 1) size
  have hm := Nat.mod_lt (total + size - 1) (show 0 < size by omega)
  omega

/-- C11 (rank partition). For every number of vertices and every communicator size at least
1, every vertex index below the total lies in the index range of exactly one rank, the
ranges contain only indices below the total, and no range lists an index twice. -/
theorem rank_partition (total size : Nat) (hs : 1 ≤ size) :
    (∀ i, i < total → ∃ r, r < size ∧ i ∈ local_indices total size r ∧
      ∀ r', r' < size → i ∈ local_indices total size r' → r' = r) ∧
    (∀ r i, i ∈ local_indices total size r → i < total) ∧
    (∀ r, (local_indices total size r).Nodup) := by
  refine ⟨?_, ?_, ?_⟩
  · intro i hi
    have hle := le_size_mul_stride total size hs
    have hpos : 0 < stride total size := by
      by_contra h
      have : stride total size = 0 := by omega
      rw [this] at hle
      omega
    refine ⟨i / stride total size, ?_, ?_, ?_⟩
    · rw [Nat.div_lt_iff_lt_mul hpos]
      calc i < total := hi
        _ ≤ size * stride total size := hle
    · rw [mem_local_indices]
      have h1 := Nat.div_mul_le_self i (stride total size)
      have h2 := Nat.lt_div_mul_add hpos (a := i)
      omega
    · intro r' _ hr'
      rw [mem_local_indices] at hr'
      symm
      apply Nat.div_eq_of_lt_le hr'.1
      rw [Nat.succ_mul]
      exact hr'.2.1
  · intro r i hi
    rw [mem_local_indices] at hi
    exact hi.2.2
  · intro r
    unfold local_indices
    exact List.nodup_range' _ _

/-- Witness of C11: ten vertices on three ranks, in blocks of four, four and two. -/
theorem rank_partition_witness :
    (1 : Nat) ≤ 3 ∧ local_indices 10 3 0 = [0, 1, 2, 3] ∧ local_indices 10 3 1 = [4, 5, 6, 7] ∧
      local_indices 10 3 2 = [8, 9] ∧
      (∀ i, i < 10 → ∃ r, r < 3 ∧ i ∈ local_indices 10 3 r ∧
        ∀ r', r' < 3 → i ∈ local_indices 10 3 r' → r' = r) :=
  ⟨by decide, by decide, by decide, by decide, (rank_partition 10 3 (by decide)).1⟩

/-! ## The predecessor walks of the cycle builder -/

section Builder

variable {Edge W : Type} [DecidableEq Edge] [LinearOrderedAddCommMonoid W]
variable (g : Graph Edge) (weight_map : Edge → W)

theorem pred_walk_mono (hw : ∀ e, 0 ≤ weight_map e) (t : SPTree Edge W) (b : Bool) (limit : W)
    (fuel : Nat) : ∀ (w : Nat) (result : Finset Edge) (cw : W) (result' : Finset Edge)
      (cw' : W) (valid : Bool),
      pred_walk g weight_map t b limit fuel w result cw = some (valid, result', cw') →
        cw ≤ cw' := by
  induction fuel with
  | zero => intro w result cw result' cw' valid h; simp [pred_walk] at h
  | succ fuel ih =>
    intro w result cw result' cw' valid h
    rw [pred_walk] at h
    split at h
    · exact absurd h (by simp)
    · rename_i ws hws
      split at h
      · split at h
        · simp only [Option.some.injEq, Prod.mk.injEq] at h
          rw [← h.2.2]
        · split at h
          · simp only [Option.some.injEq, Prod.mk.injEq] at h
            rw [← h.2.2]
            exact le_add_of_nonneg_right (hw _)
          · exact le_trans (le_add_of_nonneg_right (hw _)) (ih _ _ _ _ _ _ h)
      · simp only [Option.some.injEq, Prod.mk.injEq] at h
        rw [← h.2.2]

/-- With non-negative weights a walk under a weight limit that it meets on entry behaves as
the walk without limit when that one ends valid within the limit, and is rejected
otherwise. -/
theorem pred_walk_limit (hw : ∀ e, 0 ≤ weight_map e) (t : SPTree Edge W) (limit limit0 : W)
    (fuel : Nat) : ∀ (w : Nat) (result : Finset Edge) (cw : W) (result' : Finset Edge)
      (cw' : W) (valid : Bool), cw ≤ limit →
      pred_walk g weight_map t false limit0 fuel w result cw = some (valid, result', cw') →
        (valid = true → cw' ≤ limit →
          pred_walk g weight_map t true limit fuel w result cw = some (true, result', cw')) ∧
        (¬ (valid = true ∧ cw' ≤ limit) →
          ∃ r c, pred_walk g weight_map t true limit fuel w result cw = some (false, r, c)) := by
  induction fuel with
  | zero => intro w result cw result' cw' valid _ h; simp [pred_walk] at h
  | succ fuel ih =>
    intro w result cw result' cw' valid hcw h
    rw [pred_walk] at h
    rw [pred_walk]
    split at h
    · exact absurd h (by simp)
    · rename_i ws hws
      split at h
      · rename_i hp
        simp only [hp, if_true]
        split at h
        · rename_i hmem
          simp only [Option.some.injEq, Prod.mk.injEq] at h
          simp only [hmem, if_true]
          refine ⟨fun hv => ?_, fun _ => ⟨_, _, rfl⟩⟩
          rw [← h.1] at hv
          exact absurd hv (by simp)
        · rename_i hmem
          simp only [hmem, if_false]
          simp only [Bool.false_and, Bool.false_eq_true, if_false] at h
          by_cases hgt : cw + weight_map ws.pred > limit
          · simp only [Bool.true_and, decide_eq_true_eq, hgt, if_true]
            refine ⟨fun hv hle => ?_, fun _ => ⟨_, _, rfl⟩⟩
            have hm := pred_walk_mono g weight_map hw t false limit0 fuel _ _ _ _ _ _ h
            exact absurd (lt_of_lt_of_le hgt hm) (not_lt_of_le hle)
          · simp only [Bool.true_and, decide_eq_true_eq, hgt, if_false]
            exact ih _ _ _ _ _ _ (not_lt.mp hgt) h
      · rename_i hp
        simp only [hp]
        simp only [Option.some.injEq, Prod.mk.injEq] at h
        refine ⟨fun _ _ => ?_, fun hn => ?_⟩
        · simp [← h.2.1, ← h.2.2]
        · exfalso
          apply hn
          rw [← h.1, ← h.2.2]
          exact ⟨rfl, hcw⟩

theorem pred_walk_no_limit (t : SPTree Edge W) (l1 l2 : W) (fuel : Nat) :
    ∀ (w : Nat) (result : Finset Edge) (cw : W),
      pred_walk g weight_map t false l1 fuel w result cw =
        pred_walk g weight_map t false l2 fuel w result cw := by
  induction fuel with
  | zero => intro w result cw; rfl
  | succ fuel ih =>
    intro w result cw
    rw [pred_walk, pred_walk]
    simp only [Bool.false_and, Bool.false_eq_true, if_false]
    split
    · rfl
    · split
      · split
        · rfl
        · exact ih _ _ _
      · rfl

theorem builder_no_limit (trees : List (SPTree Edge W)) (c : CandidateCycle Edge W)
    (signed_edges : Finset Edge) (l1 l2 : W) :
    CandidateCycleBuilder g weight_map trees c signed_edges false l1 =
      CandidateCycleBuilder g weight_map trees c signed_edges false l2 := by
  unfold CandidateCycleBuilder
  simp only [Bool.false_and, Bool.false_eq_true, if_false]
  split
  · rfl
  · rename_i t _
    split
    · split
      · rw [pred_walk_no_limit g weight_map t l1 l2]
        split
        · rfl
        · split
          · rfl
          · rw [pred_walk_no_limit g weight_map t l1 l2]
      · rfl
    · rfl

/-- With non-negative weights the builder under a weight limit returns the cycle of the
builder without limit when that cycle exists and weighs at most the limit, and the sentinel
otherwise. -/
theorem builder_limit (hw : ∀ e, 0 ≤ weight_map e) (trees : List (SPTree Edge W))
    (c : CandidateCycle Edge W) (signed_edges : Finset Edge) (limit limit0 : W)
    (R : cycle_t Edge W)
    (h : CandidateCycleBuilder g weight_map trees c signed_edges false limit0 = some R) :
    CandidateCycleBuilder g weight_map trees c signed_edges true limit =
      some (if R.found = true ∧ R.weight ≤ limit then R else sentinel Edge W) := by
  unfold CandidateCycleBuilder at h ⊢
  simp only [Bool.false_and, Bool.false_eq_true, if_false] at h
  simp only [Bool.true_and, decide_eq_true_eq]
  split at h
  · exact absurd h (by simp)
  · rename_i t _
    split at h
    · split at h
      · -- odd parity
        rename_i hpar
        rw [if_pos hpar]
        split at h
        · exact absurd h (by simp)
        · rename_i valid1 result1 weight1 hwalk1
          have hm1 := pred_walk_mono g weight_map hw t false limit0 _ _ _ _ _ _ _ hwalk1
          by_cases hgt : weight_map c.edge > limit
          · simp only [hgt, if_true]
            have hR : ¬ (R.found = true ∧ R.weight ≤ limit) := by
              rintro ⟨hf, hle⟩
              split at h
              · simp only [Option.some.injEq] at h
                rw [← h] at hf
                exact absurd hf (by simp [sentinel])
              · split at h
                · exact absurd h (by simp)
                · rename_i valid2 result2 weight2 hwalk2
                  have hm2 := pred_walk_mono g weight_map hw t false limit0 _ _ _ _ _ _ _ hwalk2
                  split at h
                  · simp only [Option.some.injEq] at h
                    rw [← h] at hf
                    exact absurd hf (by simp [sentinel])
                  · simp only [Option.some.injEq] at h
                    rw [← h] at hle
                    exact absurd (lt_of_lt_of_le hgt (le_trans hm1 hm2)) (not_lt_of_le hle)
            rw [if_neg hR]
          · simp only [hgt, if_false]
            have hle0 : weight_map c.edge ≤ limit := not_lt.mp hgt
            have hl1 := pred_walk_limit g weight_map hw t limit limit0 _ _ _ _ _ _ _ hle0 hwalk1
            by_cases hv1 : valid1 = true ∧ weight1 ≤ limit
            · rw [hl1.1 hv1.1 hv1.2]
              simp only [hv1.1, Bool.not_true, Bool.false_eq_true, if_false] at h ⊢
              split at h
              · exact absurd h (by simp)
              · rename_i valid2 result2 weight2 hwalk2
                have hl2 := pred_walk_limit g weight_map hw t limit limit0 _ _ _ _ _ _ _
                  hv1.2 hwalk2
                by_cases hv2 : valid2 = true ∧ weight2 ≤ limit
                · rw [hl2.1 hv2.1 hv2.2]
                  simp only [hv2.1, Bool.not_true, Bool.false_eq_true, if_false] at h ⊢
                  simp only [Option.some.injEq] at h
                  rw [← h]
                  simp [hv2.2]
                · obtain ⟨r, cc, hr⟩ := hl2.2 hv2
                  rw [hr]
                  simp only [Bool.not_false, if_true]
                  have hR : ¬ (R.found = true ∧ R.weight ≤ limit) := by
                    rintro ⟨hf, hle⟩
                    split at h
                    · simp only [Option.some.injEq] at h
                      rw [← h] at hf
                      exact absurd hf (by simp [sentinel])
                    · rename_i hnv
                      simp only [Option.some.injEq] at h
                      rw [← h] at hle
                      apply hv2
                      refine ⟨?_, hle⟩
                      simpa using hnv
                  rw [if_neg hR]
            · obtain ⟨r, cc, hr⟩ := hl1.2 hv1
              rw [hr]
              simp only [Bool.not_false, if_true]
              have hR : ¬ (R.found = true ∧ R.weight ≤ limit) := by
                rintro ⟨hf, hle⟩
                split at h
                · simp only [Option.some.injEq] at h
                  rw [← h] at hf
                  exact absurd hf (by simp [sentinel])
                · rename_i hnv1
                  split at h
                  · exact absurd h (by simp)
                  · rename_i valid2 result2 weight2 hwalk2
                    have hm2 := pred_walk_mono g weight_map hw t false limit0 _ _ _ _ _ _ _
                      hwalk2
                    split at h
                    · simp only [Option.some.injEq] at h
                      rw [← h] at hf
                      exact absurd hf (by simp [sentinel])
                    · simp only [Option.some.injEq] at h
                      rw [← h] at hle
                      apply hv1
                      refine ⟨by simpa using hnv1, le_trans hm2 hle⟩
              rw [if_neg hR]
      · rename_i hpar
        rw [if_neg hpar]
        simp only [Option.some.injEq] at h
        rw [← h]
        simp [sentinel]
    · exact absurd h (by simp)

/-- One step of a scan: with non-negative weights, the builder called with the running
minimum as weight limit updates the running minimum as the cycle without limit does. -/
theorem builder_step (hw : ∀ e, 0 ≤ weight_map e) (trees : List (SPTree Edge W))
    (signed_edges : Finset Edge) (c : CandidateCycle Edge W) (R r : cycle_t Edge W)
    (h : reconstruct g weight_map trees signed_edges c = some R) :
    ∃ cc, CandidateCycleBuilder g weight_map trees c signed_edges r.found r.weight = some cc ∧
      (cc.found = true → cc = R) ∧
      (if cc.found && (!r.found || decide (cc.weight < r.weight)) then cc else r) =
        keep_min r R := by
  unfold reconstruct at h
  cases hr : r.found
  · refine ⟨R, ?_, fun _ => rfl, ?_⟩
    · rw [builder_no_limit g weight_map trees c signed_edges r.weight 0]
      exact h
    · simp [keep_min, hr]
  · rw [builder_limit g weight_map hw trees c signed_edges r.weight 0 R h]
    refine ⟨_, rfl, ?_, ?_⟩
    · intro hf
      by_cases hc : R.found = true ∧ R.weight ≤ r.weight
      · rw [if_pos hc]
      · rw [if_neg hc] at hf
        exact absurd hf (by simp [sentinel])
    · by_cases hc : R.found = true ∧ R.weight ≤ r.weight
      · rw [if_pos hc]
        simp [keep_min, hr]
      · rw [if_neg hc]
        have hlt : ¬ (R.found = true ∧ R.weight < r.weight) :=
          fun h => hc ⟨h.1, le_of_lt h.2⟩
        simp only [keep_min, hr, sentinel, Bool.false_and, Bool.false_eq_true, if_false,
          Bool.not_true, Bool.false_or]
        by_cases hf : R.found = true
        · have : ¬ R.weight < r.weight := fun h => hlt ⟨hf, h⟩
          simp [hf, this]
        · simp [hf]

theorem block_scan_eq (hw : ∀ e, 0 ≤ weight_map e) (trees : List (SPTree Edge W))
    (signed_edges : Finset Edge) (B : CandidateCycle Edge W → cycle_t Edge W)
    (cs : List (CandidateCycle Edge W))
    (hB : ∀ c, c ∈ cs → reconstruct g weight_map trees signed_edges c = some (B c)) :
    ∀ r, block_scan g weight_map trees signed_edges cs r =
      some (cs.foldl (fun m c => keep_min m (B c)) r) := by
  induction cs with
  | nil => intro r; rfl
  | cons c cs ih =>
    intro r
    obtain ⟨cc, hcc, _, hstep⟩ := builder_step g weight_map hw trees signed_edges c (B c) r
      (hB c (List.mem_cons_self c cs))
    have ih1 := ih (fun c' hc' => hB c' (List.mem_cons_of_mem c hc'))
    rw [block_scan, hcc, List.foldl_cons, ← hstep]
    simp only
    split
    · exact ih1 cc
    · exact ih1 r

theorem sequential_scan_unsorted_eq (hw : ∀ e, 0 ≤ weight_map e)
    (trees : List (SPTree Edge W)) (signed_edges : Finset Edge)
    (B : CandidateCycle Edge W → cycle_t Edge W) (cs : List (CandidateCycle Edge W))
    (hB : ∀ c, c ∈ cs → reconstruct g weight_map trees signed_edges c = some (B c)) :
    ∀ r, sequential_scan g weight_map trees signed_edges false cs r =
      some (cs.foldl (fun m c => keep_min m (B c)) r) := by
  induction cs with
  | nil => intro r; rfl
  | cons c cs ih =>
    intro r
    obtain ⟨cc, hcc, _, hstep⟩ := builder_step g weight_map hw trees signed_edges c (B c) r
      (hB c (List.mem_cons_self c cs))
    have ih1 := ih (fun c' hc' => hB c' (List.mem_cons_of_mem c hc'))
    rw [sequential_scan, hcc, List.foldl_cons, ← hstep]
    simp only [Bool.false_eq_true, if_false]
    by_cases hf : cc.found = true
    · by_cases hr : r.found = true
      · by_cases hlt : cc.weight < r.weight
        · simp only [hf, hr, hlt, if_true, Bool.not_true, Bool.false_eq_true, if_false,
            Bool.true_and, Bool.false_or, decide_True]
          exact ih1 cc
        · simp only [hf, hr, hlt, if_true, Bool.not_true, Bool.false_eq_true, if_false,
            Bool.true_and, Bool.false_or, decide_False]
          exact ih1 r
      · have hr0 : r.found = false := by simpa using hr
        simp only [hf, hr0, if_true, Bool.not_false, Bool.true_and, Bool.true_or]
        exact ih1 cc
    · have hf0 : cc.found = false := by simpa using hf
      simp only [hf0, Bool.false_eq_true, if_false, Bool.false_and]
      exact ih1 r

theorem sequential_scan_sorted_eq (trees : List (SPTree Edge W))
    (signed_edges : Finset Edge) (B : CandidateCycle Edge W → cycle_t Edge W)
    (cs : List (CandidateCycle Edge W))
    (hB : ∀ c, c ∈ cs → reconstruct g weight_map trees signed_edges c = some (B c))
    (r : cycle_t Edge W) (hr : r.found = false) :
    sequential_scan g weight_map trees signed_edges true cs r =
      some (match cs.find? (fun c => (B c).found) with
        | some c => B c
        | none => r) := by
  induction cs with
  | nil => rfl
  | cons c cs ih =>
    have hc := hB c (List.mem_cons_self c cs)
    unfold reconstruct at hc
    rw [builder_no_limit g weight_map trees c signed_edges 0 r.weight] at hc
    rw [sequential_scan, hr, hc, List.find?_cons]
    simp only [if_true]
    cases hf : (B c).found
    · simp only [Bool.false_eq_true, if_false]
      exact ih (fun c' hc' => hB c' (List.mem_cons_of_mem c hc'))
    · simp only [if_true]

end Builder
/-! ## The running minimum -/

section RunningMin

variable {Edge W : Type} [LinearOrder W]

theorem keep_min_not_found (a y : cycle_t Edge W) (hy : y.found = false) :
    keep_min a y = a := by
  simp [keep_min, hy]

theorem keep_min_of_not_found (i y : cycle_t Edge W) (hi : i.found = false)
    (hy : y.found = true) : keep_min i y = y := by
  simp [keep_min, hi, hy]

theorem keep_min_assoc (a y z : cycle_t Edge W) :
    keep_min (keep_min a y) z = keep_min a (keep_min y z) := by
  obtain ⟨ea, wa, fa⟩ := a
  obtain ⟨ey, wy, fy⟩ := y
  obtain ⟨ez, wz, fz⟩ := z
  cases fa <;> cases fy <;> cases fz <;> simp [keep_min]
  all_goals (split_ifs <;> simp_all)
  all_goals
    rename_i h1 h2 h3
    first
      | exact absurd (lt_of_lt_of_le (lt_trans h2 h1) h3) (lt_irrefl _)
      | exact absurd (lt_of_lt_of_le h2 (le_trans h1 h3)) (lt_irrefl _)

theorem cycle_min_eq_keep_min (a b : cycle_t Edge W)
    (h : a.found = true ∨ b.found = true ∨ a = b) : cycle_min a b = keep_min a b := by
  obtain ⟨ea, wa, fa⟩ := a
  obtain ⟨eb, wb, fb⟩ := b
  cases fa <;> cases fb <;> simp_all [cycle_min, keep_min]
  by_cases hlt : wb < wa
  · rw [if_neg (not_le_of_lt hlt), if_pos hlt]
  · rw [if_pos (not_lt.mp hlt), if_neg hlt]

/-- The fold of `keep_min` over the cycles `B c` of a list of candidates. -/
theorem foldl_keep_min_init {C : Type} (B : C → cycle_t Edge W) (cs : List C) :
    ∀ (a i : cycle_t Edge W), i.found = false →
      cs.foldl (fun m c => keep_min m (B c)) a =
        keep_min a (cs.foldl (fun m c => keep_min m (B c)) i) := by
  induction cs with
  | nil =>
    intro a i hi
    exact (keep_min_not_found a i hi).symm
  | cons c cs ih =>
    intro a i hi
    rw [List.foldl_cons, List.foldl_cons, ih (keep_min a (B c)) i hi]
    cases hy : (B c).found
    · rw [keep_min_not_found a (B c) hy, keep_min_not_found i (B c) hy]
    · rw [keep_min_of_not_found i (B c) hi hy, ih (B c) i hi, keep_min_assoc]

theorem foldl_keep_min_spec {C : Type} (B : C → cycle_t Edge W) (cs : List C) :
    ∀ (m : cycle_t Edge W),
      (cs.foldl (fun m c => keep_min m (B c)) m = m ∨
        ∃ c, c ∈ cs ∧ (B c).found = true ∧ cs.foldl (fun m c => keep_min m (B c)) m = B c) ∧
      ((cs.foldl (fun m c => keep_min m (B c)) m).found = true ↔
        (m.found = true ∨ ∃ c, c ∈ cs ∧ (B c).found = true)) ∧
      ((cs.foldl (fun m c => keep_min m (B c)) m).found = true →
        (∀ c, c ∈ cs → (B c).found = true →
          (cs.foldl (fun m c => keep_min m (B c)) m).weight ≤ (B c).weight) ∧
        (m.found = true → (cs.foldl (fun m c => keep_min m (B c)) m).weight ≤ m.weight)) := by
  induction cs with
  | nil =>
    intro m
    simp
  | cons c cs ih =>
    intro m
    rw [List.foldl_cons]
    obtain ⟨h1, h2, h3⟩ := ih (keep_min m (B c))
    have hk : (keep_min m (B c) = m ∧ ((B c).found = true → m.found = true ∧
          m.weight ≤ (B c).weight)) ∨
        (keep_min m (B c) = B c ∧ (B c).found = true ∧
          (m.found = true → (B c).weight ≤ m.weight)) := by
      unfold keep_min
      by_cases hc : ((B c).found && (!m.found || decide ((B c).weight < m.weight))) = true
      · rw [if_pos hc]
        right
        simp only [Bool.and_eq_true, Bool.or_eq_true, Bool.not_eq_true', decide_eq_true_eq] at hc
        refine ⟨rfl, hc.1, fun hm => ?_⟩
        rcases hc.2 with h | h
        · rw [hm] at h; exact absurd h (by simp)
        · exact le_of_lt h
      · rw [if_neg hc]
        left
        simp only [Bool.and_eq_true, Bool.or_eq_true, Bool.not_eq_true', decide_eq_true_eq,
          not_and, not_or] at hc
        refine ⟨rfl, fun hf => ?_⟩
        have := hc hf
        refine ⟨by simpa using this.1, not_lt.mp this.2⟩
    refine ⟨?_, ?_, ?_⟩
    · rcases h1 with h | ⟨c', hc', hf', he'⟩
      · rw [h]
        rcases hk with hk | hk
        · left; exact hk.1
        · right; exact ⟨c, List.mem_cons_self c cs, hk.2.1, hk.1⟩
      · right
        exact ⟨c', List.mem_cons_of_mem c hc', hf', he'⟩
    · rw [h2]
      constructor
      · rintro (h | ⟨c', hc', hf'⟩)
        · rcases hk with hk | hk
          · left; rw [← hk.1]; exact h
          · right; exact ⟨c, List.mem_cons_self c cs, hk.2.1⟩
        · right; exact ⟨c', List.mem_cons_of_mem c hc', hf'⟩
      · rintro (h | ⟨c', hc', hf'⟩)
        · left
          rcases hk with hk | hk
          · rw [hk.1]; exact h
          · rw [hk.1]; exact hk.2.1
        · rcases List.mem_cons.mp hc' with he | hmem
          · left
            rcases hk with hk | hk
            · rw [hk.1]; exact (hk.2 (he ▸ hf')).1
            · rw [hk.1]; exact hk.2.1
          · right; exact ⟨c', hmem, hf'⟩
    · intro hf
      obtain ⟨h3a, h3b⟩ := h3 hf
      refine ⟨?_, ?_⟩
      · intro c' hc' hf'
        rcases List.mem_cons.mp hc' with he | hmem
        · subst he
          rcases hk with hk | hk
          · have hm := hk.2 hf'
            exact le_trans (h3b (by rw [hk.1]; exact hm.1)) (by rw [hk.1]; exact hm.2)
          · exact le_trans (h3b (by rw [hk.1]; exact hk.2.1)) (le_of_eq (by rw [hk.1]))
        · exact h3a c' hmem hf'
      · intro hm
        rcases hk with hk | hk
        · exact le_trans (h3b (by rw [hk.1]; exact hm)) (le_of_eq (by rw [hk.1]))
        · exact le_trans (le_trans (h3b (by rw [hk.1]; exact hk.2.1))
            (le_of_eq (by rw [hk.1]))) (hk.2.2 hm)

end RunningMin

/-! ## Candidate cycles and their weights -/

section Candidates

variable {Edge W : Type} [DecidableEq Edge] [LinearOrderedAddCommMonoid W]
variable (g : Graph Edge) (weight_map : Edge → W)

omit [DecidableEq Edge] [LinearOrderedAddCommMonoid W] in
theorem SPTree.node_lt (t : SPTree Edge W) (v : Nat) (n : SPNode Edge W)
    (h : t.node v = some n) : v < t.tree_node_map.length := by
  by_contra hlt
  unfold SPTree.node at h
  rw [List.getD_eq_getElem?_getD, List.getElem?_eq_none (by omega)] at h
  simp at h

omit [DecidableEq Edge] in
theorem SPTree.weight_consistent.apply {t : SPTree Edge W}
    (hcons : t.weight_consistent g weight_map) (v : Nat) (n : SPNode Edge W)
    (h : t.node v = some n) :
    (n.has_pred = true → ∃ p, t.node (g.opposite n.pred v) = some p ∧
      n.weight = p.weight + weight_map n.pred) ∧
    (n.has_pred = false → n.weight = 0) := by
  have := hcons v (t.node_lt v n h) n (by rw [h]; rfl)
  exact ⟨fun hp => by
    obtain ⟨p, hp1, hp2⟩ := this.1 hp
    exact ⟨p, hp1, hp2⟩, this.2⟩

theorem pred_walk_weight (t : SPTree Edge W) (hcons : t.weight_consistent g weight_map)
    (b : Bool) (limit : W) (fuel : Nat) :
    ∀ (w : Nat) (result : Finset Edge) (cw : W) (result' : Finset Edge) (cw' : W),
      pred_walk g weight_map t b limit fuel w result cw = some (true, result', cw') →
        ∃ n, t.node w = some n ∧ cw' = cw + n.weight := by
  induction fuel with
  | zero => intro w result cw result' cw' h; simp [pred_walk] at h
  | succ fuel ih =>
    intro w result cw result' cw' h
    rw [pred_walk] at h
    split at h
    · exact absurd h (by simp)
    · rename_i ws hws
      refine ⟨ws, hws, ?_⟩
      split at h
      · rename_i hp
        split at h
        · simp at h
        · split at h
          · simp at h
          · obtain ⟨p, hp1, hp2⟩ := ih _ _ _ _ _ h
            obtain ⟨p', hp1', hp2'⟩ := (hcons.apply g weight_map w ws hws).1 hp
            rw [hp1'] at hp1
            simp only [Option.some.injEq] at hp1
            rw [hp2, hp2', ← hp1, add_assoc, add_comm (weight_map ws.pred)]
      · rename_i hp
        simp only [Option.some.injEq, Prod.mk.injEq, true_and] at h
        rw [← h.2, (hcons.apply g weight_map w ws hws).2 (by simpa using hp), add_zero]

theorem mem_create_candidate_cycles_loop (t : SPTree Edge W) (tree_edges : Finset Edge)
    (edges : List Edge) (c : CandidateCycle Edge W)
    (hc : c ∈ create_candidate_cycles_loop g weight_map t tree_edges edges) :
    c.tree = t.id ∧ c.edge ∈ edges ∧ c.edge ∉ tree_edges ∧
      ∃ v u, t.node (g.source c.edge) = some v ∧ t.node (g.target c.edge) = some u ∧
        t.first v.vertex ≠ t.first u.vertex ∧
        c.weight = weight_map c.edge + v.weight + u.weight := by
  induction edges with
  | nil => simp [create_candidate_cycles_loop] at hc
  | cons e rest ih =>
    have hrest : c ∈ create_candidate_cycles_loop g weight_map t tree_edges rest →
        c.tree = t.id ∧ c.edge ∈ e :: rest ∧ c.edge ∉ tree_edges ∧
          ∃ v u, t.node (g.source c.edge) = some v ∧ t.node (g.target c.edge) = some u ∧
            t.first v.vertex ≠ t.first u.vertex ∧
            c.weight = weight_map c.edge + v.weight + u.weight := by
      intro h
      obtain ⟨h1, h2, h3⟩ := ih h
      exact ⟨h1, List.mem_cons_of_mem e h2, h3⟩
    rw [create_candidate_cycles_loop] at hc
    split at hc
    · exact hrest hc
    · rename_i hte
      split at hc
      · exact hrest hc
      · rename_i v hv
        split at hc
        · exact hrest hc
        · rename_i u hu
          split at hc
          · exact hrest hc
          · rename_i hfirst
            rcases List.mem_cons.mp hc with h | h
            · subst h
              exact ⟨rfl, List.mem_cons_self _ _, hte, v, u, hv, hu, hfirst, rfl⟩
            · exact hrest h

/-- On a tree with consistent node weights the weight of a reconstructed cycle is the
weight of its candidate. -/
theorem builder_weight_eq_nodes (trees : List (SPTree Edge W)) (t : SPTree Edge W)
    (c : CandidateCycle Edge W) (signed_edges : Finset Edge)
    (b : Bool) (limit : W) (R : cycle_t Edge W) (v u : SPNode Edge W)
    (hcons : t.weight_consistent g weight_map) (ht : trees.get? c.tree = some t)
    (hv : t.node (g.source c.edge) = some v) (hu : t.node (g.target c.edge) = some u)
    (hcw : c.weight = weight_map c.edge + v.weight + u.weight)
    (hR : CandidateCycleBuilder g weight_map trees c signed_edges b limit = some R)
    (hf : R.found = true) : R.weight = c.weight := by
  unfold CandidateCycleBuilder at hR
  rw [ht] at hR
  simp only [hv, hu] at hR
  split at hR
  · split at hR
    · simp only [Option.some.injEq] at hR
      rw [← hR] at hf
      exact absurd hf (by simp [sentinel])
    · split at hR
      · exact absurd hR (by simp)
      · rename_i valid1 result1 weight1 hwalk1
        split at hR
        · simp only [Option.some.injEq] at hR
          rw [← hR] at hf
          exact absurd hf (by simp [sentinel])
        · rename_i hv1
          have hv1' : valid1 = true := by simpa using hv1
          subst hv1'
          obtain ⟨n1, hn1, hw1⟩ := pred_walk_weight g weight_map t hcons _ _ _ _ _ _ _ _ hwalk1
          split at hR
          · exact absurd hR (by simp)
          · rename_i valid2 result2 weight2 hwalk2
            split at hR
            · simp only [Option.some.injEq] at hR
              rw [← hR] at hf
              exact absurd hf (by simp [sentinel])
            · rename_i hv2
              have hv2' : valid2 = true := by simpa using hv2
              subst hv2'
              obtain ⟨n2, hn2, hw2⟩ :=
                pred_walk_weight g weight_map t hcons _ _ _ _ _ _ _ _ hwalk2
              rw [hv] at hn1
              rw [hu] at hn2
              simp only [Option.some.injEq] at hn1 hn2 hR
              rw [← hR, hcw, hw2, hw1, hn1, hn2]
  · simp only [Option.some.injEq] at hR
    rw [← hR] at hf
    exact absurd hf (by simp [sentinel])

/-- The same for a candidate of `create_candidate_cycles`. -/
theorem builder_weight_eq (trees : List (SPTree Edge W)) (t : SPTree Edge W)
    (c : CandidateCycle Edge W) (edges : List Edge) (signed_edges : Finset Edge)
    (b : Bool) (limit : W) (R : cycle_t Edge W)
    (hcons : t.weight_consistent g weight_map) (ht : trees.get? c.tree = some t)
    (hc : c ∈ t.create_candidate_cycles g weight_map edges)
    (hR : CandidateCycleBuilder g weight_map trees c signed_edges b limit = some R)
    (hf : R.found = true) : R.weight = c.weight := by
  obtain ⟨_, _, _, v, u, hv, hu, _, hcw⟩ :=
    mem_create_candidate_cycles_loop g weight_map t _ edges c hc
  exact builder_weight_eq_nodes g weight_map trees t c signed_edges b limit R v u hcons ht
    hv hu hcw hR hf

theorem parallel_reduce_eq (hw : ∀ e, 0 ≤ weight_map e) (wmax : W)
    (trees : List (SPTree Edge W)) (signed_edges : Finset Edge)
    (B : CandidateCycle Edge W → cycle_t Edge W) (split : Split) :
    ∀ (cs : List (CandidateCycle Edge W)),
      (∀ c, c ∈ cs → reconstruct g weight_map trees signed_edges c = some (B c)) →
      parallel_reduce g weight_map wmax trees signed_edges split cs =
        some (cs.foldl (fun m c => keep_min m (B c)) (not_found Edge wmax)) := by
  induction split with
  | block =>
    intro cs hB
    exact block_scan_eq g weight_map hw trees signed_edges B cs hB _
  | join k l r ihl ihr =>
    intro cs hB
    rw [parallel_reduce, ihl (cs.take k) (fun c hc => hB c (List.mem_of_mem_take hc)),
      ihr (cs.drop k) (fun c hc => hB c (List.mem_of_mem_drop hc))]
    simp only
    have hid : (not_found Edge wmax).found = false := rfl
    have hsplit : cs.foldl (fun m c => keep_min m (B c)) (not_found Edge wmax) =
        (cs.drop k).foldl (fun m c => keep_min m (B c))
          ((cs.take k).foldl (fun m c => keep_min m (B c)) (not_found Edge wmax)) := by
      rw [← List.foldl_append, List.take_append_drop]
    rw [hsplit, foldl_keep_min_init B (cs.drop k)
      ((cs.take k).foldl (fun m c => keep_min m (B c)) (not_found Edge wmax))
      (not_found Edge wmax) hid]
    congr 1
    apply cycle_min_eq_keep_min
    have h1 := (foldl_keep_min_spec B (cs.take k) (not_found Edge wmax)).1
    have h2 := (foldl_keep_min_spec B (cs.drop k) (not_found Edge wmax)).1
    rcases h1 with h1 | ⟨c1, _, hf1, he1⟩
    · rcases h2 with h2 | ⟨c2, _, hf2, he2⟩
      · right; right
        rw [h1, h2]
      · right; left
        rw [he2]; exact hf2
    · left
      rw [he1]; exact hf1

end Candidates
/-! ## Claims about the cycle builder and the lookup -/

section LookupClaims

variable {Edge W : Type} [DecidableEq Edge] [LinearOrderedAddCommMonoid W]

/-- The unsorted sequential lookup when its calls return: with non-negative weights, when
the parity refresh returns and every candidate reconstructs without fault, the lookup
returns a tuple that exists iff some candidate reconstructs to an existing cycle; then it is
the cycle of one of the candidates and no existing reconstructed cycle weighs less. -/
theorem unsorted_scan_min (g : Graph Edge) (weight_map : Edge → W)
    (hw : ∀ e, 0 ≤ weight_map e) (trees trees' : List (SPTree Edge W))
    (cycles : List (CandidateCycle Edge W)) (signed_edges : Finset Edge)
    (hupd : update_all_parities signed_edges trees = some trees')
    (hrec : ∀ c, c ∈ cycles →
      (reconstruct g weight_map trees' signed_edges c).isSome = true) :
    ∃ R, compute_shortest_odd_cycle g weight_map trees cycles false signed_edges = some R ∧
      (R.found = true ↔ ∃ c, c ∈ cycles ∧ ∃ Rc,
        reconstruct g weight_map trees' signed_edges c = some Rc ∧ Rc.found = true) ∧
      (R.found = true →
        (∃ c, c ∈ cycles ∧ reconstruct g weight_map trees' signed_edges c = some R) ∧
        ∀ c, c ∈ cycles → ∀ Rc, reconstruct g weight_map trees' signed_edges c = some Rc →
          Rc.found = true → R.weight ≤ Rc.weight) := by
  have hB : ∀ c, c ∈ cycles → reconstruct g weight_map trees' signed_edges c =
      some ((reconstruct g weight_map trees' signed_edges c).getD (sentinel Edge W)) := by
    intro c hc
    obtain ⟨R, hR⟩ := Option.isSome_iff_exists.mp (hrec c hc)
    rw [hR]
    rfl
  have hscan := sequential_scan_unsorted_eq g weight_map hw trees' signed_edges _ cycles hB
    { edges := ∅, weight := 0, found := false }
  have hspec := foldl_keep_min_spec
    (fun c => (reconstruct g weight_map trees' signed_edges c).getD (sentinel Edge W)) cycles
    { edges := ∅, weight := 0, found := false }
  simp only at hspec
  generalize List.foldl (fun m c => keep_min m
    ((reconstruct g weight_map trees' signed_edges c).getD (sentinel Edge W)))
    { edges := ∅, weight := 0, found := false } cycles = R at hscan hspec
  refine ⟨R, ?_, ?_, ?_⟩
  · unfold compute_shortest_odd_cycle
    rw [hupd]
    exact hscan
  · rw [hspec.2.1]
    constructor
    · rintro (h | ⟨c, hc, hf⟩)
      · exact absurd h (by simp)
      · exact ⟨c, hc, _, hB c hc, hf⟩
    · rintro ⟨c, hc, Rc, hRc, hf⟩
      right
      refine ⟨c, hc, ?_⟩
      rw [hRc]
      exact hf
  · intro hf
    refine ⟨?_, ?_⟩
    · rcases hspec.1 with h | ⟨c, hc, _, he⟩
      · rw [h] at hf
        exact absurd hf (by simp)
      · refine ⟨c, hc, ?_⟩
        rw [he]
        exact hB c hc
    · intro c hc Rc hRc hfc
      have := (hspec.2.2 hf).1 c hc (by rw [hRc]; exact hfc)
      rw [hRc] at this
      exact this

/-- C18, amended (lower bound). For a weight type whose addition is exact (an ordered
commutative monoid, such as integers that do not overflow), on a tree whose node weights
are the sums of the predecessor-edge weights to the root, a cycle returned by the builder
for a candidate of `create_candidate_cycles` weighs at least the weight of the
candidate. -/
theorem builder_weight_lower_bound (g : Graph Edge) (weight_map : Edge → W)
    (trees : List (SPTree Edge W)) (t : SPTree Edge W) (c : CandidateCycle Edge W)
    (edges : List Edge) (signed_edges : Finset Edge) (use_weight_limit : Bool)
    (weight_limit : W) (R : cycle_t Edge W)
    (hcons : t.weight_consistent g weight_map) (ht : trees.get? c.tree = some t)
    (hc : c ∈ t.create_candidate_cycles g weight_map edges)
    (hR : CandidateCycleBuilder g weight_map trees c signed_edges use_weight_limit
      weight_limit = some R)
    (hf : R.found = true) : c.weight ≤ R.weight :=
  le_of_eq (builder_weight_eq g weight_map trees t c edges signed_edges use_weight_limit
    weight_limit R hcons ht hc hR hf).symm

/-- C19 (a cycle within the bound is accepted). With non-negative weights, a candidate whose
reconstruction without limit exists is returned unchanged by the builder under a weight
limit when its weight is at most the limit, equality included, and is rejected when its
weight is strictly greater. -/
theorem builder_accepts_within_limit (g : Graph Edge) (weight_map : Edge → W)
    (hw : ∀ e, 0 ≤ weight_map e) (trees : List (SPTree Edge W))
    (c : CandidateCycle Edge W) (signed_edges : Finset Edge) (weight_limit : W)
    (R : cycle_t Edge W) (hR : reconstruct g weight_map trees signed_edges c = some R)
    (hf : R.found = true) :
    (R.weight ≤ weight_limit →
      CandidateCycleBuilder g weight_map trees c signed_edges true weight_limit = some R) ∧
    (weight_limit < R.weight →
      CandidateCycleBuilder g weight_map trees c signed_edges true weight_limit =
        some (sentinel Edge W)) := by
  have h := builder_limit g weight_map hw trees c signed_edges weight_limit 0 R hR
  refine ⟨fun hle => ?_, fun hlt => ?_⟩
  · rw [h, if_pos ⟨hf, hle⟩]
  · rw [h, if_neg (fun hc => absurd hlt (not_lt_of_le hc.2))]

omit [DecidableEq Edge] [LinearOrderedAddCommMonoid W] in
/-- The element found by `find?` is preceded only by elements that fail the test. -/
theorem find_first_split {C : Type} (p : C → Bool) :
    ∀ (l : List C) (a : C), l.find? p = some a →
      ∃ l1 l2, l = l1 ++ a :: l2 ∧ ∀ x, x ∈ l1 → p x = false := by
  intro l
  induction l with
  | nil => intro a h; simp at h
  | cons b l ih =>
    intro a h
    rw [List.find?_cons] at h
    cases hb : p b
    · rw [hb] at h
      obtain ⟨l1, l2, hl, hx⟩ := ih a h
      refine ⟨b :: l1, l2, by rw [hl]; rfl, ?_⟩
      intro x hx1
      rcases List.mem_cons.mp hx1 with h1 | h1
      · rw [h1]; exact hb
      · exact hx x h1
    · rw [hb] at h
      injection h with h
      exact ⟨[], l, by rw [h]; rfl, fun x hx => by simp at hx⟩

/-- The sorted lookup when its calls return: with non-negative weights, for candidates
whose weight is the weight of the edge plus the node weights of its endpoints, on trees with
consistent node weights and sorted by ascending candidate weight, the lookup with
`sorted_cycles = true` and the full scan return tuples with the same exists flag and the
same weight. -/
theorem sorted_scan_fast_path (g : Graph Edge) (weight_map : Edge → W)
    (hw : ∀ e, 0 ≤ weight_map e) (trees trees' : List (SPTree Edge W))
    (cycles : List (CandidateCycle Edge W)) (signed_edges : Finset Edge)
    (hupd : update_all_parities signed_edges trees = some trees')
    (hrec : ∀ c, c ∈ cycles →
      (reconstruct g weight_map trees' signed_edges c).isSome = true)
    (hcons : ∀ t, t ∈ trees' → t.weight_consistent g weight_map)
    (hprod : ∀ c, c ∈ cycles → ∃ t, t ∈ trees'.get? c.tree ∧ ∃ v u,
      t.node (g.source c.edge) = some v ∧ t.node (g.target c.edge) = some u ∧
      c.weight = weight_map c.edge + v.weight + u.weight)
    (hsorted : cycles.Pairwise (fun a b => a.weight ≤ b.weight)) :
    ∃ Rs Ru,
      compute_shortest_odd_cycle g weight_map trees cycles true signed_edges = some Rs ∧
      compute_shortest_odd_cycle g weight_map trees cycles false signed_edges = some Ru ∧
      Rs.found = Ru.found ∧ Rs.weight = Ru.weight := by
  have hB : ∀ c, c ∈ cycles → reconstruct g weight_map trees' signed_edges c =
      some ((reconstruct g weight_map trees' signed_edges c).getD (sentinel Edge W)) := by
    intro c hc
    obtain ⟨R, hR⟩ := Option.isSome_iff_exists.mp (hrec c hc)
    rw [hR]
    rfl
  have hweight : ∀ c, c ∈ cycles →
      ((reconstruct g weight_map trees' signed_edges c).getD (sentinel Edge W)).found = true →
      ((reconstruct g weight_map trees' signed_edges c).getD (sentinel Edge W)).weight =
        c.weight := by
    intro c hc hf
    obtain ⟨t, ht, v, u, hv, hu, hcw⟩ := hprod c hc
    have htm : t ∈ trees' := List.get?_mem ht
    exact builder_weight_eq_nodes g weight_map trees' t c signed_edges false 0 _ v u
      (hcons t htm) ht hv hu hcw (hB c hc) hf
  have hu := sequential_scan_unsorted_eq g weight_map hw trees' signed_edges _ cycles hB
    { edges := ∅, weight := 0, found := false }
  have hs := sequential_scan_sorted_eq g weight_map trees' signed_edges _ cycles hB
    { edges := ∅, weight := 0, found := false } rfl
  have hspec := foldl_keep_min_spec
    (fun c => (reconstruct g weight_map trees' signed_edges c).getD (sentinel Edge W)) cycles
    { edges := ∅, weight := 0, found := false }
  simp only at hspec
  generalize List.foldl (fun m c => keep_min m
    ((reconstruct g weight_map trees' signed_edges c).getD (sentinel Edge W)))
    { edges := ∅, weight := 0, found := false } cycles = Ru at hu hspec
  have hcs : compute_shortest_odd_cycle g weight_map trees cycles true signed_edges =
      sequential_scan g weight_map trees' signed_edges true cycles
        { edges := ∅, weight := 0, found := false } := by
    unfold compute_shortest_odd_cycle
    rw [hupd]
  have hcu : compute_shortest_odd_cycle g weight_map trees cycles false signed_edges =
      sequential_scan g weight_map trees' signed_edges false cycles
        { edges := ∅, weight := 0, found := false } := by
    unfold compute_shortest_odd_cycle
    rw [hupd]
  rw [hcs, hcu, hs, hu]
  cases hfind : cycles.find?
      (fun c => ((reconstruct g weight_map trees' signed_edges c).getD (sentinel Edge W)).found)
  · -- no candidate is valid
    have hnone : ¬ ∃ c, c ∈ cycles ∧
        ((reconstruct g weight_map trees' signed_edges c).getD (sentinel Edge W)).found =
          true := by
      rintro ⟨c, hc, hf⟩
      have := List.find?_eq_none.mp hfind c hc
      exact this hf
    have hRu : Ru = { edges := ∅, weight := 0, found := false } := by
      rcases hspec.1 with h | ⟨c, hc, hf, _⟩
      · exact h
      · exact absurd ⟨c, hc, hf⟩ hnone
    exact ⟨_, Ru, rfl, rfl, by rw [hRu], by rw [hRu]⟩
  · rename_i c0
    have hc0 : c0 ∈ cycles := List.mem_of_find?_eq_some hfind
    have hf0 : ((reconstruct g weight_map trees' signed_edges c0).getD
        (sentinel Edge W)).found = true := by
      have := List.find?_some hfind
      simpa using this
    have hRuf : Ru.found = true := hspec.2.1.mpr (Or.inr ⟨c0, hc0, hf0⟩)
    refine ⟨_, Ru, rfl, rfl, ?_, ?_⟩
    · show ((reconstruct g weight_map trees' signed_edges c0).getD
        (sentinel Edge W)).found = Ru.found
      rw [hf0, hRuf]
    show ((reconstruct g weight_map trees' signed_edges c0).getD
      (sentinel Edge W)).weight = Ru.weight
    apply le_antisymm
    · -- the first valid candidate is the lightest among the valid ones
      rcases hspec.1 with h | ⟨c, hc, hf, he⟩
      · rw [h] at hRuf
        exact absurd hRuf (by simp)
      · rw [he, hweight c0 hc0 hf0, hweight c hc hf]
        by_cases hcc : c = c0
        · rw [hcc]
        · obtain ⟨l1, l2, hl, hbefore⟩ := find_first_split _ cycles c0 hfind
          rw [hl] at hc hsorted
          rcases List.mem_append.mp hc with h1 | h1
          · rw [hbefore c h1] at hf
            exact absurd hf (by simp)
          · rcases List.mem_cons.mp h1 with h2 | h2
            · exact absurd h2 hcc
            · have hp := (List.pairwise_append.mp hsorted).2.1
              exact (List.pairwise_cons.mp hp).1 c h2
    · exact (hspec.2.2 hRuf).1 c0 hc0 hf0

/-- C20, counterexample: one candidate and no signed edge, so that no candidate is valid;
the parallel lookup returns the weight `wmax = 1000` of its identity, the sequential lookup
the weight 0 of its default tuple. -/
theorem tbb_lookup_counterexample :
    (compute_shortest_odd_cycle_tbb sample_graph sample_weight 1000 [sample_tree]
        [⟨0, 2, 3⟩] Split.block ∅).map (fun R => (R.weight, R.found)) = some (1000, false) ∧
      (compute_shortest_odd_cycle sample_graph sample_weight [sample_tree]
        [⟨0, 2, 3⟩] false ∅).map (fun R => (R.weight, R.found)) = some (0, false) := by
  decide

/-- The parallel lookup when its calls return: with non-negative weights, when the parity
refresh returns and every candidate reconstructs without fault, the parallel lookup returns
the same tuple for every splitting of the candidates; it is the tuple of the sequential
unsorted lookup when a valid candidate exists, and otherwise the parallel lookup returns
`(∅, wmax, false)` and the sequential lookup `(∅, 0, false)`. -/
theorem tbb_scan_deterministic (g : Graph Edge) (weight_map : Edge → W)
    (hw : ∀ e, 0 ≤ weight_map e) (wmax : W) (trees trees' : List (SPTree Edge W))
    (cycles : List (CandidateCycle Edge W)) (signed_edges : Finset Edge)
    (hupd : update_all_parities signed_edges trees = some trees')
    (hrec : ∀ c, c ∈ cycles →
      (reconstruct g weight_map trees' signed_edges c).isSome = true) :
    ∃ Rt Rs,
      (∀ split, compute_shortest_odd_cycle_tbb g weight_map wmax trees cycles split
        signed_edges = some Rt) ∧
      compute_shortest_odd_cycle g weight_map trees cycles false signed_edges = some Rs ∧
      Rt.found = Rs.found ∧
      (Rs.found = true → Rt = Rs) ∧
      (Rs.found = false →
        Rt = not_found Edge wmax ∧ Rs = { edges := ∅, weight := 0, found := false }) := by
  have hB : ∀ c, c ∈ cycles → reconstruct g weight_map trees' signed_edges c =
      some ((reconstruct g weight_map trees' signed_edges c).getD (sentinel Edge W)) := by
    intro c hc
    obtain ⟨R, hR⟩ := Option.isSome_iff_exists.mp (hrec c hc)
    rw [hR]
    rfl
  have hu := sequential_scan_unsorted_eq g weight_map hw trees' signed_edges _ cycles hB
    { edges := ∅, weight := 0, found := false }
  have hinit := foldl_keep_min_init
    (fun c => (reconstruct g weight_map trees' signed_edges c).getD (sentinel Edge W)) cycles
    { edges := ∅, weight := 0, found := false } (not_found Edge wmax) rfl
  have hspec := foldl_keep_min_spec
    (fun c => (reconstruct g weight_map trees' signed_edges c).getD (sentinel Edge W)) cycles
    (not_found Edge wmax)
  have hpar := fun split => parallel_reduce_eq g weight_map hw wmax trees' signed_edges
    (fun c => (reconstruct g weight_map trees' signed_edges c).getD (sentinel Edge W)) split
    cycles hB
  simp only at hspec hinit hpar
  rw [hinit] at hu
  generalize List.foldl (fun m c => keep_min m
    ((reconstruct g weight_map trees' signed_edges c).getD (sentinel Edge W)))
    (not_found Edge wmax) cycles = Rt at hu hspec hpar
  refine ⟨Rt, keep_min { edges := ∅, weight := 0, found := false } Rt, ?_, ?_, ?_, ?_, ?_⟩
  · intro split
    unfold compute_shortest_odd_cycle_tbb
    rw [hupd]
    exact hpar split
  · unfold compute_shortest_odd_cycle
    rw [hupd]
    exact hu
  · cases hf : Rt.found <;> simp [keep_min, hf]
  · intro h
    cases hf : Rt.found
    · simp [keep_min, hf] at h
    · simp [keep_min, hf]
  · intro h
    cases hf : Rt.found
    · refine ⟨?_, by simp [keep_min, hf]⟩
      rcases hspec.1 with h1 | ⟨c, _, hfc, he⟩
      · exact h1
      · rw [he] at hf
        rw [hf] at hfc
        exact absurd hfc (by simp)
    · simp [keep_min, hf] at h

end LookupClaims
/-! ## The lookup on the sample tree -/

theorem sample_update_all_parities :
    update_all_parities {1} [sample_tree] = some [sample_tree_signed] := by
  decide

theorem sample_weight_consistent : sample_tree_signed.weight_consistent sample_graph
    sample_weight := by
  decide

theorem sample_candidates :
    sample_tree_signed.create_candidate_cycles sample_graph sample_weight [0, 1, 2, 3, 4, 5] =
      [⟨0, 2, 3⟩, ⟨0, 4, 6⟩] := by
  decide

theorem sample_reconstruct_2 :
    reconstruct sample_graph sample_weight [sample_tree_signed] {1} ⟨0, 2, 3⟩ =
      some ⟨{1, 0, 2}, 3, true⟩ := by
  decide

theorem sample_reconstruct_4 :
    reconstruct sample_graph sample_weight [sample_tree_signed] {1} ⟨0, 4, 6⟩ =
      some ⟨{1, 3, 0, 4}, 6, true⟩ := by
  decide

theorem builder_weight_lower_bound_witness :
    CandidateCycleBuilder sample_graph sample_weight [sample_tree_signed] ⟨0, 4, 6⟩ {1}
        false 0 = some ⟨{1, 3, 0, 4}, 6, true⟩ ∧
      (6 : Nat) ≤ (⟨{1, 3, 0, 4}, 6, true⟩ : cycle_t (Fin 6) Nat).weight :=
  ⟨by decide, builder_weight_lower_bound sample_graph sample_weight [sample_tree_signed]
    sample_tree_signed ⟨0, 4, 6⟩ [0, 1, 2, 3, 4, 5] {1} false 0 ⟨{1, 3, 0, 4}, 6, true⟩
    (by decide) rfl (by decide) (by decide) rfl⟩

theorem builder_accepts_within_limit_witness :
    CandidateCycleBuilder sample_graph sample_weight [sample_tree_signed] ⟨0, 4, 6⟩ {1}
        true 6 = some ⟨{1, 3, 0, 4}, 6, true⟩ ∧
      CandidateCycleBuilder sample_graph sample_weight [sample_tree_signed] ⟨0, 4, 6⟩ {1}
        true 5 = some (sentinel (Fin 6) Nat) :=
  ⟨(builder_accepts_within_limit sample_graph sample_weight (fun e => Nat.zero_le _)
      [sample_tree_signed] ⟨0, 4, 6⟩ {1} 6 ⟨{1, 3, 0, 4}, 6, true⟩ (by decide) rfl).1
      (le_refl 6),
    (builder_accepts_within_limit sample_graph sample_weight (fun e => Nat.zero_le _)
      [sample_tree_signed] ⟨0, 4, 6⟩ {1} 5 ⟨{1, 3, 0, 4}, 6, true⟩ (by decide) rfl).2
      (by decide)⟩

/-! ## Traversals of a shortest-path tree -/

section Traversal

variable {Edge W : Type}

theorem SPTree.node_set_parity_self (t : SPTree Edge W) (r : Nat) (n : SPNode Edge W)
    (info : Bool) (h : t.node r = some n) :
    (t.set_parity r n info).node r = some { n with parity := info } := by
  have hr := SPTree.node_lt t r n h
  unfold SPTree.node SPTree.set_parity
  simp only [List.getD_eq_getElem?_getD]
  rw [List.getElem?_set_self hr]
  rfl

theorem SPTree.node_set_parity_ne (t : SPTree Edge W) (r u : Nat) (n : SPNode Edge W)
    (info : Bool) (h : u ≠ r) : (t.set_parity r n info).node u = t.node u := by
  unfold SPTree.node SPTree.set_parity
  simp only [List.getD_eq_getElem?_getD]
  rw [List.getElem?_set_ne (Ne.symm h)]

theorem SPTree.node_clear_parities (t : SPTree Edge W) (v : Nat) :
    t.clear_parities.node v = (t.node v).map (fun n => { n with parity := false }) := by
  unfold SPTree.node SPTree.clear_parities
  simp only [List.getD_eq_getElem?_getD, List.getElem?_map]
  cases t.tree_node_map[v]? <;> rfl

theorem SPTree.clear_parities_set_parity (t : SPTree Edge W) (r : Nat) (n : SPNode Edge W)
    (info : Bool) (h : t.node r = some n) :
    (t.set_parity r n info).clear_parities = t.clear_parities := by
  have hr := SPTree.node_lt t r n h
  unfold SPTree.clear_parities SPTree.set_parity
  simp only
  congr 1
  apply List.ext_getElem?
  intro i
  simp only [List.getElem?_map]
  by_cases hi : i = r
  · subst hi
    rw [List.getElem?_set_self hr]
    unfold SPTree.node at h
    rw [List.getD_eq_getElem?_getD] at h
    cases hx : t.tree_node_map[i]? with
    | none => rw [hx] at h; simp at h
    | some x =>
      rw [hx] at h
      simp only [Option.getD_some] at h
      rw [h]
      rfl
  · rw [List.getElem?_set_ne (Ne.symm hi)]

/-- Two trees that differ only in the parities have the same nodes up to the parities. -/
theorem SPTree.node_of_clear_eq {t1 t2 : SPTree Edge W}
    (h : t1.clear_parities = t2.clear_parities) (v : Nat) (n1 : SPNode Edge W)
    (h1 : t1.node v = some n1) :
    ∃ n2, t2.node v = some n2 ∧ n2.vertex = n1.vertex ∧ n2.weight = n1.weight ∧
      n2.pred = n1.pred ∧ n2.has_pred = n1.has_pred ∧ n2.children = n1.children := by
  have hv := congrArg (fun t => t.node v) h
  simp only [SPTree.node_clear_parities, h1, Option.map_some'] at hv
  cases h2 : t2.node v with
  | none => rw [h2] at hv; simp at hv
  | some n2 =>
    rw [h2] at hv
    simp only [Option.map_some', Option.some.injEq, SPNode.mk.injEq] at hv
    exact ⟨n2, rfl, hv.1.symm, hv.2.2.1.symm, hv.2.2.2.1.symm, hv.2.2.2.2.1.symm,
      hv.2.2.2.2.2.symm⟩

theorem SPTree.shape_of_clear_eq {t1 t2 : SPTree Edge W}
    (h : t1.clear_parities = t2.clear_parities) :
    ∀ f, t1.shape f → t2.shape f := by
  intro f
  induction f with
  | nil => intro _; trivial
  | cons v ch sib ihc ihs =>
    rintro ⟨⟨n, hn, hch⟩, h1, h2⟩
    obtain ⟨n2, hn2, _, _, _, _, hc2⟩ := SPTree.node_of_clear_eq h v n hn
    exact ⟨⟨n2, hn2, by rw [hc2, hch]⟩, ihc h1, ihs h2⟩

theorem SPTree.is_signed_of_clear_eq [DecidableEq Edge] {t1 t2 : SPTree Edge W}
    (h : t1.clear_parities = t2.clear_parities) (edges : Finset Edge) (c : Nat) :
    t1.is_signed edges c = t2.is_signed edges c := by
  unfold SPTree.is_signed
  cases h1 : t1.node c with
  | some n1 =>
    obtain ⟨n2, hn2, _, _, hp, _, _⟩ := SPTree.node_of_clear_eq h c n1 h1
    rw [hn2]
    simp only [hp]
  | none =>
    cases h2 : t2.node c with
    | none => rfl
    | some n2 =>
      obtain ⟨n1, hn1, _⟩ := SPTree.node_of_clear_eq h.symm c n2 h2
      rw [hn1] at h1
      exact absurd h1 (by simp)

theorem Forest.roots_eq_trees (f : Forest) : f.roots = f.trees.map Prod.fst := by
  induction f with
  | nil => rfl
  | cons v ch sib _ ihs => simp [Forest.roots, Forest.trees, ihs]

theorem SPTree.shape_tree (t : SPTree Edge W) :
    ∀ f, t.shape f → ∀ p, p ∈ f.trees → t.shape (Forest.cons p.1 p.2 Forest.nil) := by
  intro f
  induction f with
  | nil => intro _ p hp; simp [Forest.trees] at hp
  | cons v ch sib _ ihs =>
    rintro ⟨hn, h1, h2⟩ p hp
    rcases List.mem_cons.mp hp with h | h
    · rw [h]
      exact ⟨hn, h1, trivial⟩
    · exact ihs h2 p h

/-- The vertices below the entries pushed for the children of a node are the vertices of
its subtrees. -/
theorem stack_vertices_append {I : Type} (a b : List (I × Nat × Forest)) :
    stack_vertices (a ++ b) = stack_vertices a ++ stack_vertices b := by
  induction a with
  | nil => rfl
  | cons e a ih => simp [stack_vertices, ih]

theorem stack_vertices_children {I : Type} (info : Nat → I) :
    ∀ f : Forest, List.Perm
      (stack_vertices ((f.trees.map (fun p => (info p.1, p.1, p.2))).reverse)) f.vertices := by
  intro f
  induction f with
  | nil => exact List.Perm.refl _
  | cons v ch sib _ ihs =>
    simp only [Forest.trees, List.map_cons, List.reverse_cons, stack_vertices_append,
      stack_vertices, Forest.vertices, List.append_nil]
    refine List.Perm.trans List.perm_append_comm ?_
    simp only [List.cons_append]
    exact List.Perm.cons _ (List.Perm.append_left _ ihs)

theorem Forest.mem_parities (signed : Nat → Bool) (u : Nat) (b : Bool) :
    ∀ (f : Forest) (p : Bool), (u, b) ∈ Forest.parities signed p f ↔
      ∃ q, q ∈ f.trees ∧ ((u, b) = (q.1, xor p (signed q.1)) ∨
        (u, b) ∈ Forest.parities signed (xor p (signed q.1)) q.2) := by
  intro f
  induction f with
  | nil => intro p; simp [Forest.parities, Forest.trees]
  | cons v ch sib _ ihs =>
    intro p
    simp only [Forest.parities, Forest.trees, List.mem_cons, List.mem_append, ihs p,
      exists_eq_or_imp]
    constructor
    · rintro (h | h | h)
      · exact Or.inl (Or.inl h)
      · exact Or.inl (Or.inr h)
      · exact Or.inr h
    · rintro ((h | h) | h)
      · exact Or.inl h
      · exact Or.inr (Or.inl h)
      · exact Or.inr (Or.inr h)

end Traversal
section ParityTraversal

variable {Edge W : Type} [DecidableEq Edge]

/-- The loop of `update_parities` on a stack whose entries are roots of disjoint subtrees:
with one unit of fuel per vertex below the stack the loop returns; it changes nothing but
parities, leaves the vertices outside the subtrees alone, gives every stack entry its
`info` and the vertices below it the parities of `Forest.parities`. -/
theorem update_parities_loop_spec (edges : Finset Edge) :
    ∀ (fuel : Nat) (st : List (Bool × Nat × Forest)) (t : SPTree Edge W),
      (∀ e, e ∈ st → t.shape (Forest.cons e.2.1 e.2.2 Forest.nil)) →
      (stack_vertices st).Nodup → (stack_vertices st).length ≤ fuel →
      ∃ t', update_parities_loop edges fuel (st.map (fun e => (e.1, e.2.1))) t = some t' ∧
        t'.clear_parities = t.clear_parities ∧
        (∀ u, u ∉ stack_vertices st → t'.node u = t.node u) ∧
        (∀ e, e ∈ st →
          ∀ u b, ((u, b) = (e.2.1, e.1) ∨ (u, b) ∈ Forest.parities (t.is_signed edges) e.1 e.2.2) →
            ∃ n, t'.node u = some n ∧ n.parity = b) := by
  intro fuel
  induction fuel with
  | zero =>
    intro st t _ _ hlen
    cases st with
    | nil =>
      exact ⟨t, rfl, rfl, fun _ _ => rfl, fun e he => absurd he (List.not_mem_nil e)⟩
    | cons e st => simp [stack_vertices] at hlen
  | succ fuel ih =>
    intro st t hshape hnodup hlen
    cases st with
    | nil =>
      exact ⟨t, rfl, rfl, fun _ _ => rfl, fun e he => absurd he (List.not_mem_nil e)⟩
    | cons e rest =>
      obtain ⟨info, v, ch⟩ := e
      obtain ⟨⟨n, hn, hch⟩, hshape_ch, _⟩ := hshape (info, v, ch) (List.mem_cons_self _ _)
      have hn : t.node v = some n := hn
      simp only [stack_vertices, List.nodup_cons, List.length_cons, List.mem_append,
        not_or] at hnodup hlen
      obtain ⟨⟨hv_ch, hv_rest⟩, hnd⟩ := hnodup
      have hclear := SPTree.clear_parities_set_parity t v n info hn
      -- the stack after the iteration
      have hperm := stack_vertices_children (fun c => xor info (t.is_signed edges c)) ch
      have hperm2 : List.Perm
          (stack_vertices ((ch.trees.map
            (fun p => (xor info (t.is_signed edges p.1), p.1, p.2))).reverse ++ rest))
          (ch.vertices ++ stack_vertices rest) := by
        rw [stack_vertices_append]
        exact List.Perm.append_right _ hperm
      obtain ⟨t', hrun, hclr, hout, hin⟩ := ih
        ((ch.trees.map (fun p => (xor info (t.is_signed edges p.1), p.1, p.2))).reverse ++ rest)
        (t.set_parity v n info)
        (by
          intro e he
          apply SPTree.shape_of_clear_eq hclear.symm
          rcases List.mem_append.mp he with h | h
          · rw [List.mem_reverse, List.mem_map] at h
            obtain ⟨p, hp, hpe⟩ := h
            rw [← hpe]
            exact SPTree.shape_tree t ch hshape_ch p hp
          · exact hshape e (List.mem_cons_of_mem _ h))
        (hperm2.nodup_iff.mpr hnd)
        (by rw [hperm2.length_eq]; omega)
      have hv_new : v ∉ stack_vertices ((ch.trees.map
          (fun p => (xor info (t.is_signed edges p.1), p.1, p.2))).reverse ++ rest) := by
        intro hmem
        rcases List.mem_append.mp (hperm2.mem_iff.mp hmem) with h | h
        · exact hv_ch h
        · exact hv_rest h
      have hsigned : (t.set_parity v n info).is_signed edges = t.is_signed edges :=
        funext (fun c => SPTree.is_signed_of_clear_eq hclear edges c)
      refine ⟨t', ?_, hclr.trans hclear, ?_, ?_⟩
      · rw [← hrun]
        simp only [List.map_cons, update_parities_loop, hn, hch, Forest.roots_eq_trees,
          List.map_append, List.map_reverse, List.map_map]
        rfl
      · intro u hu
        simp only [stack_vertices, List.mem_cons, List.mem_append, not_or] at hu
        rw [hout u (fun hmem => by
          rcases List.mem_append.mp (hperm2.mem_iff.mp hmem) with h | h
          · exact hu.2.1 h
          · exact hu.2.2 h)]
        exact SPTree.node_set_parity_ne t v u n info hu.1
      · intro e he u b hub
        rcases List.mem_cons.mp he with h | h
        · rw [h] at hub
          simp only at hub
          rcases hub with h1 | h1
          · -- the popped node
            simp only [Prod.mk.injEq] at h1
            rw [h1.1, h1.2, hout v hv_new, SPTree.node_set_parity_self t v n info hn]
            exact ⟨_, rfl, rfl⟩
          · -- a vertex below the popped node
            obtain ⟨q, hq, hq2⟩ := (Forest.mem_parities _ u b ch info).mp h1
            apply hin (xor info (t.is_signed edges q.1), q.1, q.2)
              (List.mem_append_left _ (List.mem_reverse.mpr (List.mem_map.mpr ⟨q, hq, rfl⟩)))
            rw [hsigned]
            exact hq2
        · apply hin e (List.mem_append_right _ h)
          rw [hsigned]
          exact hub

end ParityTraversal
section TreeShape

variable {Edge W : Type}

theorem Forest.eq_of_roots_singleton (f : Forest) (s : Nat) (h : f.roots = [s]) :
    ∃ ch, f = Forest.cons s ch Forest.nil := by
  cases f with
  | nil => simp [Forest.roots] at h
  | cons v ch sib =>
    simp only [Forest.roots, List.cons.injEq] at h
    cases sib with
    | nil => exact ⟨ch, by rw [h.1]⟩
    | cons _ _ _ => simp [Forest.roots] at h

theorem Forest.height_le (f : Forest) : f.height ≤ f.vertices.length := by
  induction f with
  | nil => exact Nat.le_refl _
  | cons v ch sib ihc ihs =>
    simp only [Forest.height, Forest.vertices, List.length_cons, List.length_append]
    omega

theorem SPTree.shape_node (t : SPTree Edge W) :
    ∀ f, t.shape f → ∀ v, v ∈ f.vertices → ∃ n, t.node v = some n := by
  intro f
  induction f with
  | nil => intro _ v hv; simp [Forest.vertices] at hv
  | cons x ch sib ihc ihs =>
    rintro ⟨⟨n, hn, _⟩, h1, h2⟩ v hv
    simp only [Forest.vertices, List.mem_cons, List.mem_append] at hv
    rcases hv with h | h | h
    · exact ⟨n, by rw [h]; exact hn⟩
    · exact ihc h1 v h
    · exact ihs h2 v h

/-- A tree has at most as many vertices as `_tree_node_map` has entries. -/
theorem SPTree.shape_length (t : SPTree Edge W) (f : Forest) (h : t.shape f)
    (hnodup : f.vertices.Nodup) : f.vertices.length ≤ t.tree_node_map.length := by
  have hsub : f.vertices.toFinset ⊆ Finset.range t.tree_node_map.length := by
    intro v hv
    obtain ⟨n, hn⟩ := SPTree.shape_node t f h v (List.mem_toFinset.mp hv)
    exact Finset.mem_range.mpr (SPTree.node_lt t v n hn)
  have := Finset.card_le_card hsub
  rwa [List.toFinset_card_of_nodup hnodup, Finset.card_range] at this

/-- Induction from the roots of a forest down to its vertices, with the depth. -/
theorem SPTree.depth_induction (t : SPTree Edge W) (P : Nat → Nat → Prop)
    (hstep : ∀ u n c d, t.node u = some n → c ∈ n.children → P u d → P c (d + 1)) :
    ∀ (f : Forest) (k : Nat), t.shape f → (∀ r, r ∈ f.roots → P r k) →
      ∀ v, v ∈ f.vertices → ∃ d, d < k + f.height ∧ P v d := by
  intro f
  induction f with
  | nil => intro _ _ _ v hv; simp [Forest.vertices] at hv
  | cons x ch sib ihc ihs =>
    rintro k ⟨⟨n, hn, hch⟩, h1, h2⟩ hroots v hv
    have hx : P x k := hroots x (by simp [Forest.roots])
    simp only [Forest.vertices, List.mem_cons, List.mem_append] at hv
    simp only [Forest.height]
    rcases hv with h | h | h
    · exact ⟨k, by omega, by rw [h]; exact hx⟩
    · obtain ⟨d, hd, hP⟩ := ihc (k + 1) h1
        (fun r hr => hstep x n r k hn (by rw [hch]; exact hr) hx) v h
      exact ⟨d, by omega, hP⟩
    · obtain ⟨d, hd, hP⟩ := ihs k h2
        (fun r hr => hroots r (by simp [Forest.roots, hr])) v h
      exact ⟨d, by omega, hP⟩

theorem SPTree.length_of_clear_eq {t1 t2 : SPTree Edge W}
    (h : t1.clear_parities = t2.clear_parities) :
    t1.tree_node_map.length = t2.tree_node_map.length := by
  have := congrArg (fun t => t.tree_node_map.length) h
  simpa [SPTree.clear_parities] using this

theorem SPTree.source_of_clear_eq {t1 t2 : SPTree Edge W}
    (h : t1.clear_parities = t2.clear_parities) : t1.source = t2.source :=
  congrArg (fun t => t.source) h

theorem SPTree.first_of_clear_eq {t1 t2 : SPTree Edge W}
    (h : t1.clear_parities = t2.clear_parities) : t1.first_in_path = t2.first_in_path :=
  congrArg (fun t => t.first_in_path) h

theorem SPTree.id_of_clear_eq {t1 t2 : SPTree Edge W}
    (h : t1.clear_parities = t2.clear_parities) : t1.id = t2.id :=
  congrArg (fun t => t.id) h

/-- Well-formedness does not depend on the stored parities. -/
theorem SPTree.well_formed_of_clear_eq {g : Graph Edge} {t1 t2 : SPTree Edge W} {f : Forest}
    (h : t1.clear_parities = t2.clear_parities) (hwf : t1.well_formed g f) :
    t2.well_formed g f := by
  have hlen := SPTree.length_of_clear_eq h
  refine ⟨SPTree.shape_of_clear_eq h f hwf.shape, ?_, hwf.nodup, ?_, ?_, ?_, ?_, ?_⟩
  · rw [← SPTree.source_of_clear_eq h]
    exact hwf.roots
  · intro v hv hs
    obtain ⟨n2, hn2⟩ := Option.isSome_iff_exists.mp hs
    obtain ⟨n1, hn1, _⟩ := SPTree.node_of_clear_eq h.symm v n2 hn2
    exact hwf.cover v (by omega) (by rw [hn1]; rfl)
  · intro n2 hn2
    obtain ⟨n1, hn1, _, _, _, hp, _⟩ := SPTree.node_of_clear_eq h.symm _ n2 hn2
    rw [← SPTree.source_of_clear_eq h] at hn1
    rw [← hp]
    exact hwf.root_pred n1 hn1
  · intro v hv n2 hn2 c hc
    obtain ⟨n1, hn1, _, _, _, _, hch⟩ := SPTree.node_of_clear_eq h.symm v n2 hn2
    obtain ⟨nc, hnc, hp, ho⟩ := hwf.link v (by omega) n1 hn1 c (by rw [hch]; exact hc)
    obtain ⟨nc2, hnc2, _, _, hpred, hhas, _⟩ := SPTree.node_of_clear_eq h c nc hnc
    exact ⟨nc2, hnc2, by rw [hhas]; exact hp, by rw [hpred]; exact ho⟩
  · intro v hv n2 hn2
    obtain ⟨n1, hn1, hvx, _⟩ := SPTree.node_of_clear_eq h.symm v n2 hn2
    rw [← hvx]
    exact hwf.vertex v (by omega) n1 hn1
  · rw [← SPTree.first_of_clear_eq h, ← hlen]
    exact hwf.first_length

/-- On a well-formed tree the predecessor walk from every tree vertex reaches the root
within as many steps as `_tree_node_map` has entries. -/
theorem SPTree.path_to_root_isSome {g : Graph Edge} {t : SPTree Edge W} {f : Forest}
    (hwf : t.well_formed g f) (v : Nat) (hv : v ∈ f.vertices) :
    (t.path_to_root g t.tree_node_map.length v).isSome = true := by
  obtain ⟨d, hd, hP⟩ := SPTree.depth_induction t
    (fun v d => ∀ fuel, d < fuel → (t.path_to_root g fuel v).isSome = true)
    (by
      intro u n c d hn hc hu fuel hfuel
      obtain ⟨nc, hnc, hp, ho⟩ := hwf.link u (SPTree.node_lt t u n hn) n hn c hc
      have hnc : t.node c = some nc := hnc
      obtain ⟨fuel', rfl⟩ : ∃ fuel', fuel = fuel' + 1 := ⟨fuel - 1, by omega⟩
      simp only [SPTree.path_to_root, hnc, hp, if_true, ho, Option.isSome_map']
      exact hu fuel' (by omega))
    f 0 hwf.shape
    (by
      intro r hr fuel hfuel
      rw [hwf.roots, List.mem_singleton] at hr
      obtain ⟨n0, hn0⟩ := SPTree.shape_node t f hwf.shape r (by
        obtain ⟨ch, hf⟩ := Forest.eq_of_roots_singleton f _ hwf.roots
        rw [hf, hr]
        simp [Forest.vertices])
      obtain ⟨fuel', rfl⟩ : ∃ fuel', fuel = fuel' + 1 := ⟨fuel - 1, by omega⟩
      have h0 := hwf.root_pred n0 (by rw [← hr]; exact hn0)
      simp [SPTree.path_to_root, hn0, h0])
    v hv
  have h1 := Forest.height_le f
  have h2 := SPTree.shape_length t f hwf.shape hwf.nodup
  exact hP _ (by omega)

end TreeShape
section ParityResult

variable {Edge W : Type} [DecidableEq Edge]

omit [DecidableEq Edge] in
theorem SPTree.path_to_root_of_clear_eq (g : Graph Edge) {t1 t2 : SPTree Edge W}
    (h : t1.clear_parities = t2.clear_parities) :
    ∀ fuel v, t1.path_to_root g fuel v = t2.path_to_root g fuel v := by
  intro fuel
  induction fuel with
  | zero => intro v; rfl
  | succ fuel ih =>
    intro v
    cases h1 : t1.node v with
    | none =>
      cases h2 : t2.node v with
      | none => simp [SPTree.path_to_root, h1, h2]
      | some n2 =>
        obtain ⟨n1, hn1, _⟩ := SPTree.node_of_clear_eq h.symm v n2 h2
        rw [hn1] at h1
        exact absurd h1 (by simp)
    | some n1 =>
      obtain ⟨n2, hn2, _, _, hp, hh, _⟩ := SPTree.node_of_clear_eq h v n1 h1
      simp only [SPTree.path_to_root, h1, hn2, hp, hh, ih]

theorem signed_parity_nil (edges : Finset Edge) : signed_parity edges [] = false := by
  simp [signed_parity]

theorem signed_parity_cons (edges : Finset Edge) (e : Edge) (path : List Edge) :
    signed_parity edges (e :: path) = xor (decide (e ∈ edges)) (signed_parity edges path) := by
  unfold signed_parity
  by_cases he : e ∈ edges
  · simp only [List.filter_cons, he, decide_True, if_true, List.length_cons, Bool.true_xor]
    rcases Nat.mod_two_eq_zero_or_one
      (List.filter (fun e => decide (e ∈ edges)) path).length with h | h
    · rw [Nat.succ_mod_two_eq_one_iff.mpr h, h]
      decide
    · rw [Nat.succ_mod_two_eq_zero_iff.mpr h, h]
      decide
  · simp [List.filter_cons, he]

theorem signed_parity_append (edges : Finset Edge) (p q : List Edge) :
    signed_parity edges (p ++ q) = xor (signed_parity edges p) (signed_parity edges q) := by
  induction p with
  | nil => simp [signed_parity_nil]
  | cons e p ih => rw [List.cons_append, signed_parity_cons, signed_parity_cons, ih,
      Bool.xor_assoc]

/-- On a tree with consistent parities the parity of a node is the parity of the number of
signed edges on its path to the root. -/
theorem SPTree.parity_of_path {g : Graph Edge} {edges : Finset Edge} {t : SPTree Edge W}
    (hcons : t.parity_consistent g edges) :
    ∀ fuel v n path, t.node v = some n → t.path_to_root g fuel v = some path →
      n.parity = signed_parity edges path := by
  intro fuel
  induction fuel with
  | zero => intro v n path _ h; simp [SPTree.path_to_root] at h
  | succ fuel ih =>
    intro v n path hn h
    obtain ⟨h1, h2⟩ := hcons v (SPTree.node_lt t v n hn) n hn
    simp only [SPTree.path_to_root, hn] at h
    cases hp : n.has_pred
    · rw [hp] at h
      simp only [Bool.false_eq_true, if_false, Option.some.injEq] at h
      rw [← h, signed_parity_nil]
      exact h2 hp
    · rw [hp] at h
      simp only [if_true, Option.map_eq_some'] at h
      obtain ⟨path', hpath', he⟩ := h
      obtain ⟨p, hpn, hpar⟩ := h1 hp
      rw [← he, signed_parity_cons, hpar, ih _ p path' hpn hpath', Bool.xor_comm]

omit [DecidableEq Edge] in
/-- Two trees with the same nodes up to the parities and the same parities are equal. -/
theorem SPTree.eq_of_clear_eq {t1 t2 : SPTree Edge W}
    (h : t1.clear_parities = t2.clear_parities)
    (hpar : ∀ v n1 n2, t1.node v = some n1 → t2.node v = some n2 → n1.parity = n2.parity) :
    t1 = t2 := by
  have hid := SPTree.id_of_clear_eq h
  have hsrc := SPTree.source_of_clear_eq h
  have hfirst := SPTree.first_of_clear_eq h
  have hmap : t1.tree_node_map = t2.tree_node_map := by
    apply List.ext_getElem?
    intro i
    have hi := congrArg (fun t => t.tree_node_map[i]?) h
    simp only [SPTree.clear_parities, List.getElem?_map] at hi
    have hp := hpar i
    unfold SPTree.node at hp
    simp only [List.getD_eq_getElem?_getD] at hp
    cases h1 : t1.tree_node_map[i]? with
    | none =>
      cases h2 : t2.tree_node_map[i]? with
      | none => rfl
      | some y => rw [h1, h2] at hi; simp at hi
    | some x =>
      cases h2 : t2.tree_node_map[i]? with
      | none => rw [h1, h2] at hi; simp at hi
      | some y =>
        rw [h1, h2] at hi hp
        simp only [Option.map_some', Option.some.injEq, Option.getD_some] at hi hp
        cases x with
        | none =>
          cases y with
          | none => rfl
          | some ny => simp at hi
        | some nx =>
          cases y with
          | none => simp at hi
          | some ny =>
            have hq := hp nx ny rfl rfl
            simp only [Option.map_some', Option.some.injEq, SPNode.mk.injEq] at hi
            obtain ⟨a, b, c, d, e, f⟩ := nx
            obtain ⟨a2, b2, c2, d2, e2, f2⟩ := ny
            simp only at hi hq
            simp only [Option.some.injEq, SPNode.mk.injEq]
            exact ⟨hi.1, hq, hi.2.2.1, hi.2.2.2.1, hi.2.2.2.2.1, hi.2.2.2.2.2⟩
  cases t1
  cases t2
  simp only at hid hsrc hfirst hmap
  simp only [SPTree.mk.injEq]
  exact ⟨hid, hsrc, hmap, hfirst⟩

omit [DecidableEq Edge] in
/-- The parities of `Forest.parities` at the vertices of a forest hanging below the node
`u`: every vertex has a parent whose parity it continues. -/
theorem SPTree.parities_children (t : SPTree Edge W) (signed : Nat → Bool) :
    ∀ (f : Forest) (p : Bool) (u : Nat) (nu : SPNode Edge W), t.shape f →
      t.node u = some nu → nu.parity = p → (∀ r, r ∈ f.roots → r ∈ nu.children) →
      (∀ x b, (x, b) ∈ Forest.parities signed p f → ∃ n, t.node x = some n ∧ n.parity = b) →
      ∀ x, x ∈ f.vertices → ∃ y ny nx, t.node y = some ny ∧ x ∈ ny.children ∧
        t.node x = some nx ∧ nx.parity = xor ny.parity (signed x) := by
  intro f
  induction f with
  | nil => intro _ _ _ _ _ _ _ _ x hx; simp [Forest.vertices] at hx
  | cons c ch sib ihc ihs =>
    rintro p u nu ⟨⟨nc, hnc, hch⟩, h1, h2⟩ hu hp hroots hpar x hx
    have hnc : t.node c = some nc := hnc
    obtain ⟨nc', hnc', hparc⟩ := hpar c (xor p (signed c)) (by simp [Forest.parities])
    rw [hnc] at hnc'
    injection hnc' with hnc'
    subst hnc'
    simp only [Forest.vertices, List.mem_cons, List.mem_append] at hx
    rcases hx with h | h | h
    · rw [h]
      exact ⟨u, nu, nc, hu, hroots c (by simp [Forest.roots]), hnc, by rw [hparc, hp]⟩
    · exact ihc (xor p (signed c)) c nc h1 hnc hparc (by rw [hch]; exact fun r hr => hr)
        (fun y b hy => hpar y b (by simp [Forest.parities, hy])) x h
    · exact ihs p u nu h2 hu hp (fun r hr => hroots r (by simp [Forest.roots, hr]))
        (fun y b hy => hpar y b (by simp [Forest.parities, hy])) x h

/-- The result of `update_parities` on a well-formed tree: the call returns, changes nothing
but parities, and leaves consistent parities. -/
theorem SPTree.update_parities_result {g : Graph Edge} {t : SPTree Edge W} {f : Forest}
    (edges : Finset Edge) (hwf : t.well_formed g f) :
    ∃ t', t.update_parities edges = some t' ∧ t'.clear_parities = t.clear_parities ∧
      t'.parity_consistent g edges := by
  obtain ⟨ch, hf⟩ := Forest.eq_of_roots_singleton f _ hwf.roots
  have hshape := hwf.shape
  have hnodup := hwf.nodup
  have hlen := SPTree.shape_length t f hwf.shape hwf.nodup
  rw [hf] at hshape hnodup hlen
  obtain ⟨t', hrun, hclr, _, hin⟩ := update_parities_loop_spec edges t.tree_node_map.length
    [(false, t.source, ch)] t
    (by
      intro e he
      rw [List.mem_singleton.mp he]
      exact hshape)
    (by simpa [stack_vertices, Forest.vertices] using hnodup)
    (by simpa [stack_vertices, Forest.vertices] using hlen)
  refine ⟨t', hrun, hclr, ?_⟩
  have hwf' : t'.well_formed g f := SPTree.well_formed_of_clear_eq hclr.symm hwf
  have hsrc : t'.source = t.source := SPTree.source_of_clear_eq hclr
  obtain ⟨n0, hn0, hpar0⟩ := hin (false, t.source, ch) (List.mem_singleton.mpr rfl)
    t.source false (Or.inl rfl)
  have hshape' : t'.shape (Forest.cons t.source ch Forest.nil) := by
    rw [← hf]; exact hwf'.shape
  obtain ⟨⟨n0', hn0', hch0⟩, hshape_ch, _⟩ := hshape'
  have hn0' : t'.node t.source = some n0' := hn0'
  rw [hn0] at hn0'
  injection hn0' with hn0'
  subst hn0'
  intro v hv n hn
  have hn : t'.node v = some n := hn
  have hvf := hwf'.cover v hv (by rw [hn]; rfl)
  rw [hf] at hvf
  simp only [Forest.vertices, List.append_nil, List.mem_cons] at hvf
  rcases hvf with h | h
  · -- the root
    rw [h, hn0] at hn
    injection hn with hn
    have hroot := hwf'.root_pred n0 (by rw [hsrc]; exact hn0)
    rw [← hn]
    exact ⟨fun hp => absurd hp (by rw [hroot]; simp), fun _ => hpar0⟩
  · obtain ⟨y, ny, nx, hy, hxy, hx, hpar⟩ := SPTree.parities_children t'
      (t.is_signed edges) ch false t.source n0 hshape_ch hn0 hpar0
      (by rw [hch0]; exact fun r hr => hr)
      (fun x b hxb => hin (false, t.source, ch) (List.mem_singleton.mpr rfl) x b (Or.inr hxb))
      v h
    rw [hn] at hx
    injection hx with hx
    subst hx
    obtain ⟨nc, hnc, hp, ho⟩ := hwf'.link y (SPTree.node_lt t' y ny hy) ny hy v hxy
    have hnc : t'.node v = some nc := hnc
    rw [hn] at hnc
    injection hnc with hnc
    subst hnc
    refine ⟨fun _ => ⟨ny, by rw [ho]; exact hy, ?_⟩, fun hp' => absurd hp (by rw [hp']; simp)⟩
    rw [hpar, ← SPTree.is_signed_of_clear_eq hclr edges v]
    unfold SPTree.is_signed
    rw [hn]

end ParityResult
/-! ## Claims about the traversals -/

section TraversalClaims

variable {Edge W : Type} [DecidableEq Edge]

/-- C12 (update_parities). On a tree as the constructor builds it, with any stored parities,
`update_parities(S)` returns and changes nothing but parities; afterwards the root has
parity 0, every child has the parity of its parent flipped when its predecessor edge is in
`S`, every tree node has the parity of the number of edges of `S` on its tree path to the
root, and a tree that differs only in the stored parities gives the same result. -/
theorem update_parities_spec (g : Graph Edge) (t : SPTree Edge W) (f : Forest)
    (edges : Finset Edge) (hwf : t.well_formed g f) :
    ∃ t', t.update_parities edges = some t' ∧ t'.clear_parities = t.clear_parities ∧
      (∃ n, t'.node t.source = some n ∧ n.parity = false) ∧
      (∀ v n c nc, t'.node v = some n → c ∈ n.children → t'.node c = some nc →
        nc.parity = xor n.parity (decide (nc.pred ∈ edges))) ∧
      (∀ v n, t'.node v = some n → ∃ path,
        t.path_to_root g t.tree_node_map.length v = some path ∧
          n.parity = signed_parity edges path) ∧
      (∀ t2 : SPTree Edge W, t2.clear_parities = t.clear_parities →
        t2.update_parities edges = some t') := by
  obtain ⟨t', hrun, hclr, hcons⟩ := SPTree.update_parities_result edges hwf
  have hwf' : t'.well_formed g f := SPTree.well_formed_of_clear_eq hclr.symm hwf
  have hlen := SPTree.length_of_clear_eq hclr
  have hsrc : t'.source = t.source := SPTree.source_of_clear_eq hclr
  have hpath : ∀ v n, t'.node v = some n → ∃ path,
      t.path_to_root g t.tree_node_map.length v = some path ∧
        n.parity = signed_parity edges path := by
    intro v n hn
    have hv := hwf'.cover v (SPTree.node_lt t' v n hn) (by rw [hn]; rfl)
    obtain ⟨path, hp⟩ := Option.isSome_iff_exists.mp (SPTree.path_to_root_isSome hwf' v hv)
    refine ⟨path, ?_, SPTree.parity_of_path hcons _ v n path hn hp⟩
    rw [← SPTree.path_to_root_of_clear_eq g hclr, ← hlen]
    exact hp
  refine ⟨t', hrun, hclr, ?_, ?_, hpath, ?_⟩
  · obtain ⟨ch, hf⟩ := Forest.eq_of_roots_singleton f _ hwf'.roots
    obtain ⟨n0, hn0⟩ := SPTree.shape_node t' f hwf'.shape t'.source (by
      rw [hf]; simp [Forest.vertices])
    refine ⟨n0, by rw [← hsrc]; exact hn0, ?_⟩
    exact (hcons _ (SPTree.node_lt t' _ n0 hn0) n0 hn0).2 (hwf'.root_pred n0 hn0)
  · intro v n c nc hn hc hnc
    obtain ⟨nc', hnc', hp, ho⟩ := hwf'.link v (SPTree.node_lt t' v n hn) n hn c hc
    have hnc' : t'.node c = some nc' := hnc'
    rw [hnc] at hnc'
    injection hnc' with hnc'
    subst hnc'
    obtain ⟨p, hpn, hpar⟩ := (hcons c (SPTree.node_lt t' c nc hnc) nc hnc).1 hp
    have hpn : t'.node (g.opposite nc.pred c) = some p := hpn
    rw [ho, hn] at hpn
    injection hpn with hpn
    rw [hpar, hpn]
  · intro t2 h2
    have hwf2 : t2.well_formed g f := SPTree.well_formed_of_clear_eq h2.symm hwf
    obtain ⟨t2', hrun2, hclr2, hcons2⟩ := SPTree.update_parities_result edges hwf2
    rw [hrun2]
    congr 1
    apply SPTree.eq_of_clear_eq (hclr2.trans (h2.trans hclr.symm))
    intro v n1 n2 hn1 hn2
    obtain ⟨path, hp, hpar⟩ := hpath v n2 hn2
    have hwf2' : t2'.well_formed g f := SPTree.well_formed_of_clear_eq hclr2.symm hwf2
    have hp2 : t2'.path_to_root g t.tree_node_map.length v = some path := by
      rw [SPTree.path_to_root_of_clear_eq g (hclr2.trans h2)]
      exact hp
    rw [hpar]
    exact SPTree.parity_of_path hcons2 _ v n1 path hn1 hp2

theorem update_parities_spec_witness :
    sample_tree.well_formed sample_graph sample_forest ∧
      sample_tree_signed.well_formed sample_graph sample_forest ∧
      sample_tree.update_parities {1} = some sample_tree_signed ∧
      sample_tree_signed.update_parities ∅ = some sample_tree ∧
      ∃ t', sample_tree_signed.update_parities {1} = some t' ∧
        t'.clear_parities = sample_tree_signed.clear_parities ∧
        (∃ n, t'.node sample_tree_signed.source = some n ∧ n.parity = false) ∧
        (∀ v n c nc, t'.node v = some n → c ∈ n.children → t'.node c = some nc →
          nc.parity = xor n.parity (decide (nc.pred ∈ ({1} : Finset (Fin 6))))) ∧
        (∀ v n, t'.node v = some n → ∃ path,
          sample_tree_signed.path_to_root sample_graph
            sample_tree_signed.tree_node_map.length v = some path ∧
            n.parity = signed_parity {1} path) ∧
        (∀ t2 : SPTree (Fin 6) Nat, t2.clear_parities = sample_tree_signed.clear_parities →
          t2.update_parities {1} = some t') :=
  ⟨⟨by decide, by decide, by decide, by decide, by decide, by decide, by decide, by decide⟩,
    ⟨by decide, by decide, by decide, by decide, by decide, by decide, by decide, by decide⟩,
    by decide, by decide,
    update_parities_spec sample_graph sample_tree_signed sample_forest {1}
      ⟨by decide, by decide, by decide, by decide, by decide, by decide, by decide, by decide⟩⟩

end TraversalClaims
section FirstTraversal

variable {Edge W : Type}

theorem SPTree.shape_of_map_eq {t1 t2 : SPTree Edge W}
    (h : t1.tree_node_map = t2.tree_node_map) : ∀ f, t1.shape f → t2.shape f := by
  have hnode : ∀ v, t1.node v = t2.node v := fun v => by unfold SPTree.node; rw [h]
  intro f
  induction f with
  | nil => intro _; trivial
  | cons v ch sib ihc ihs =>
    rintro ⟨⟨n, hn, hch⟩, h1, h2⟩
    exact ⟨⟨n, by rw [← hnode v]; exact hn, hch⟩, ihc h1, ihs h2⟩

theorem getD_set_first (l : List Nat) (v x u : Nat) (hv : v < l.length) :
    (l.set v x).getD u 0 = if u = v then x else l.getD u 0 := by
  simp only [List.getD_eq_getElem?_getD]
  by_cases h : u = v
  · rw [if_pos h, h, List.getElem?_set_self hv]
    rfl
  · rw [if_neg h, List.getElem?_set_ne (Ne.symm h)]

theorem Forest.tree_sublist :
    ∀ (f : Forest) q, q ∈ f.trees → List.Sublist (q.1 :: q.2.vertices) f.vertices := by
  intro f
  induction f with
  | nil => intro q hq; simp [Forest.trees] at hq
  | cons v ch sib _ ihs =>
    intro q hq
    rcases List.mem_cons.mp hq with h | h
    · rw [h]
      exact List.Sublist.cons₂ _ (List.sublist_append_left _ _)
    · exact List.Sublist.cons _ ((ihs q h).trans (List.sublist_append_right _ _))

theorem Forest.mem_vertices_trees :
    ∀ (f : Forest) v, v ∈ f.vertices → ∃ q, q ∈ f.trees ∧ v ∈ q.1 :: q.2.vertices := by
  intro f
  induction f with
  | nil => intro v hv; simp [Forest.vertices] at hv
  | cons x ch sib _ ihs =>
    intro v hv
    simp only [Forest.vertices, List.mem_cons, List.mem_append] at hv
    rcases hv with h | h | h
    · exact ⟨(x, ch), by simp [Forest.trees], by simp [h]⟩
    · exact ⟨(x, ch), by simp [Forest.trees], by simp [h]⟩
    · obtain ⟨q, hq, hv⟩ := ihs v h
      exact ⟨q, List.mem_cons_of_mem _ hq, hv⟩

/-- The loop of `compute_first_in_path` on a stack of subtrees that do not contain the
root: every vertex below a stack entry gets the `info` of that entry. -/
theorem compute_first_in_path_loop_spec :
    ∀ (fuel : Nat) (st : List (Nat × Nat × Forest)) (t : SPTree Edge W),
      (∀ e, e ∈ st → t.shape (Forest.cons e.2.1 e.2.2 Forest.nil)) →
      (∀ v n, t.node v = some n → n.vertex = v) →
      t.first_in_path.length = t.tree_node_map.length →
      (stack_vertices st).Nodup → t.source ∉ stack_vertices st →
      (stack_vertices st).length ≤ fuel →
      ∃ t', compute_first_in_path_loop fuel (st.map (fun e => (e.1, e.2.1))) t = some t' ∧
        t'.tree_node_map = t.tree_node_map ∧ t'.id = t.id ∧ t'.source = t.source ∧
        t'.first_in_path.length = t.first_in_path.length ∧
        (∀ u, u ∉ stack_vertices st → t'.first u = t.first u) ∧
        (∀ e, e ∈ st → ∀ u, u ∈ e.2.1 :: e.2.2.vertices → t'.first u = e.1) := by
  intro fuel
  induction fuel with
  | zero =>
    intro st t _ _ _ _ _ hlen
    cases st with
    | nil =>
      exact ⟨t, rfl, rfl, rfl, rfl, rfl, fun _ _ => rfl,
        fun e he => absurd he (List.not_mem_nil e)⟩
    | cons e st => simp [stack_vertices] at hlen
  | succ fuel ih =>
    intro st t hshape hvertex hfirst hnodup hsrc hlen
    cases st with
    | nil =>
      exact ⟨t, rfl, rfl, rfl, rfl, rfl, fun _ _ => rfl,
        fun e he => absurd he (List.not_mem_nil e)⟩
    | cons e rest =>
      obtain ⟨info, v, ch⟩ := e
      obtain ⟨⟨n, hn, hch⟩, hshape_ch, _⟩ := hshape (info, v, ch) (List.mem_cons_self _ _)
      have hn : t.node v = some n := hn
      have hnv := hvertex v n hn
      have hvlt : v < t.first_in_path.length := by
        rw [hfirst]; exact SPTree.node_lt t v n hn
      simp only [stack_vertices, List.nodup_cons, List.length_cons, List.mem_append,
        List.mem_cons, not_or] at hnodup hlen hsrc
      obtain ⟨⟨hv_ch, hv_rest⟩, hnd⟩ := hnodup
      have hperm := stack_vertices_children (fun _ : Nat => info) ch
      have hperm2 : List.Perm
          (stack_vertices ((ch.trees.map (fun p => (info, p.1, p.2))).reverse ++ rest))
          (ch.vertices ++ stack_vertices rest) := by
        rw [stack_vertices_append]
        exact List.Perm.append_right _ hperm
      have hmem2 : ∀ u, u ∈ stack_vertices
          ((ch.trees.map (fun p => (info, p.1, p.2))).reverse ++ rest) →
          u ∈ ch.vertices ∨ u ∈ stack_vertices rest :=
        fun u hu => List.mem_append.mp (hperm2.mem_iff.mp hu)
      obtain ⟨t', hrun, hmap, hid, hsource, hlength, hout, hin⟩ := ih
        ((ch.trees.map (fun p => (info, p.1, p.2))).reverse ++ rest)
        { t with first_in_path := t.first_in_path.set v info }
        (by
          intro e he
          refine @SPTree.shape_of_map_eq Edge W t
            { t with first_in_path := t.first_in_path.set v info } rfl _ ?_
          rcases List.mem_append.mp he with h | h
          · rw [List.mem_reverse, List.mem_map] at h
            obtain ⟨p, hp, hpe⟩ := h
            rw [← hpe]
            exact SPTree.shape_tree t ch hshape_ch p hp
          · exact hshape e (List.mem_cons_of_mem _ h))
        hvertex
        (by simp only [List.length_set]; exact hfirst)
        (hperm2.nodup_iff.mpr hnd)
        (by
          intro hmem
          rcases hmem2 _ hmem with h | h
          · exact hsrc.2.1 h
          · exact hsrc.2.2 h)
        (by rw [hperm2.length_eq]; omega)
      refine ⟨t', ?_, hmap, hid, hsource, by rw [hlength]; simp, ?_, ?_⟩
      · rw [← hrun]
        simp only [List.map_cons, compute_first_in_path_loop, hn, hch, hnv,
          Forest.roots_eq_trees, List.map_append, List.map_reverse, List.map_map,
          if_neg (Ne.symm hsrc.1)]
        rfl
      · intro u hu
        simp only [stack_vertices, List.mem_cons, List.mem_append, not_or] at hu
        rw [hout u (fun hmem => by
          rcases hmem2 _ hmem with h | h
          · exact hu.2.1 h
          · exact hu.2.2 h)]
        unfold SPTree.first
        simp only
        rw [getD_set_first _ _ _ _ hvlt, if_neg hu.1]
      · intro e he u hu
        rcases List.mem_cons.mp he with h | h
        · rw [h] at hu
          simp only at hu
          rw [h]
          simp only
          rcases List.mem_cons.mp hu with h1 | h1
          · -- the popped node
            rw [h1, hout v (fun hmem => by
              rcases hmem2 _ hmem with h | h
              · exact hv_ch h
              · exact hv_rest h)]
            unfold SPTree.first
            simp only
            rw [getD_set_first _ _ _ _ hvlt, if_pos rfl]
          · obtain ⟨q, hq, hq2⟩ := Forest.mem_vertices_trees ch u h1
            exact hin (info, q.1, q.2)
              (List.mem_append_left _ (List.mem_reverse.mpr (List.mem_map.mpr ⟨q, hq, rfl⟩)))
              u hq2
        · exact hin e (List.mem_append_right _ h) u hu

end FirstTraversal
section FirstResult

variable {Edge W : Type}

/-- On a well-formed tree, the path to the root from a vertex of the subtree of a child `c`
of the source ends with `c` and the source. -/
theorem SPTree.vertices_to_root_subtree {g : Graph Edge} {t : SPTree Edge W} {ch : Forest}
    (hwf : t.well_formed g (Forest.cons t.source ch Forest.nil)) (q : Nat × Forest)
    (hq : q ∈ ch.trees) (u : Nat) (hu : u ∈ q.1 :: q.2.vertices) :
    ∃ pre, t.vertices_to_root g t.tree_node_map.length u = some (pre ++ [q.1, t.source]) := by
  obtain ⟨⟨n0, hn0, hch0⟩, hshape_ch, _⟩ := hwf.shape
  have hn0 : t.node t.source = some n0 := hn0
  have hroot := hwf.root_pred n0 hn0
  obtain ⟨d, hd, pre, hP⟩ := SPTree.depth_induction t
    (fun u d => ∃ pre, ∀ fuel, d < fuel →
      t.vertices_to_root g fuel u = some (pre ++ [q.1, t.source]))
    (by
      rintro u n x d hn hx ⟨pre, hpre⟩
      obtain ⟨nx, hnx, hp, ho⟩ := hwf.link u (SPTree.node_lt t u n hn) n hn x hx
      have hnx : t.node x = some nx := hnx
      refine ⟨x :: pre, fun fuel hfuel => ?_⟩
      obtain ⟨fuel', rfl⟩ : ∃ fuel', fuel = fuel' + 1 := ⟨fuel - 1, by omega⟩
      simp only [SPTree.vertices_to_root, hnx, hp, if_true, ho, hpre fuel' (by omega),
        Option.map_some', List.cons_append])
    (Forest.cons q.1 q.2 Forest.nil) 1 (SPTree.shape_tree t ch hshape_ch q hq)
    (by
      intro r hr
      simp only [Forest.roots, List.mem_singleton] at hr
      refine ⟨[], fun fuel hfuel => ?_⟩
      obtain ⟨fuel', rfl⟩ : ∃ fuel', fuel = fuel' + 2 := ⟨fuel - 2, by omega⟩
      have hqroot : q.1 ∈ n0.children := by
        rw [hch0, Forest.roots_eq_trees]
        exact List.mem_map.mpr ⟨q, hq, rfl⟩
      obtain ⟨nc, hnc, hp, ho⟩ := hwf.link t.source (SPTree.node_lt t _ n0 hn0) n0 hn0 q.1
        hqroot
      have hnc : t.node q.1 = some nc := hnc
      rw [hr]
      simp [SPTree.vertices_to_root, hnc, hp, ho, hn0, hroot])
    u (by simpa [Forest.vertices] using hu)
  refine ⟨pre, hP _ ?_⟩
  have h1 := Forest.height_le q.2
  have h2 := (Forest.tree_sublist ch q hq).length_le
  have h3 := SPTree.shape_length t _ hwf.shape hwf.nodup
  simp only [Forest.height, Forest.vertices, List.length_cons, List.append_nil] at hd h2 h3
  omega

/-- The result of `compute_first_in_path` on a well-formed tree. -/
theorem SPTree.compute_first_in_path_result {g : Graph Edge} {t : SPTree Edge W}
    {ch : Forest} (hwf : t.well_formed g (Forest.cons t.source ch Forest.nil)) :
    ∃ t', t.compute_first_in_path = some t' ∧ t'.tree_node_map = t.tree_node_map ∧
      t'.id = t.id ∧ t'.source = t.source ∧
      t'.first_in_path.length = t.first_in_path.length ∧
      t'.first t.source = t.source ∧
      ∀ q, q ∈ ch.trees → ∀ u, u ∈ q.1 :: q.2.vertices → t'.first u = q.1 := by
  obtain ⟨⟨n0, hn0, hch0⟩, hshape_ch, _⟩ := hwf.shape
  have hn0 : t.node t.source = some n0 := hn0
  have hlt := SPTree.node_lt t _ n0 hn0
  have hvertex : ∀ v n, t.node v = some n → n.vertex = v :=
    fun v n hn => hwf.vertex v (SPTree.node_lt t v n hn) n hn
  have hnv := hvertex _ n0 hn0
  have hlen := SPTree.shape_length t _ hwf.shape hwf.nodup
  have hnodup := hwf.nodup
  simp only [Forest.vertices, List.append_nil, List.length_cons, List.nodup_cons]
    at hlen hnodup
  obtain ⟨fuel, hfuel⟩ : ∃ fuel, t.tree_node_map.length = fuel + 1 :=
    ⟨t.tree_node_map.length - 1, by omega⟩
  have hslt : t.source < t.first_in_path.length := by rw [hwf.first_length]; exact hlt
  have hperm := stack_vertices_children (fun c : Nat => c) ch
  obtain ⟨t', hrun, hmap, hid, hsource, hlength, hout, hin⟩ :=
    compute_first_in_path_loop_spec fuel
      ((ch.trees.map (fun p => (p.1, p.1, p.2))).reverse)
      { t with first_in_path := t.first_in_path.set t.source t.source }
      (by
        intro e he
        refine @SPTree.shape_of_map_eq Edge W t
          { t with first_in_path := t.first_in_path.set t.source t.source } rfl _ ?_
        rw [List.mem_reverse, List.mem_map] at he
        obtain ⟨p, hp, hpe⟩ := he
        rw [← hpe]
        exact SPTree.shape_tree t ch hshape_ch p hp)
      hvertex
      (by simp only [List.length_set]; exact hwf.first_length)
      (hperm.nodup_iff.mpr hnodup.2)
      (fun hmem => hnodup.1 (hperm.mem_iff.mp hmem))
      (by rw [hperm.length_eq]; omega)
  refine ⟨t', ?_, hmap, hid, hsource, by rw [hlength]; simp, ?_, ?_⟩
  · rw [← hrun]
    unfold SPTree.compute_first_in_path
    rw [hfuel]
    simp only [compute_first_in_path_loop, hn0, if_true, hnv, hch0, List.append_nil,
      List.map_reverse, List.map_map, Forest.roots_eq_trees]
    congr 2
    apply List.map_congr_left
    intro p hp
    obtain ⟨⟨np, hnp, _⟩, _, _⟩ := SPTree.shape_tree t ch hshape_ch p hp
    have hnp : t.node p.1 = some np := hnp
    simp only [Function.comp, SPTree.child_vertex, hnp, hvertex p.1 np hnp]
  · rw [hout _ (fun hmem => hnodup.1 (hperm.mem_iff.mp hmem))]
    unfold SPTree.first
    simp only
    rw [getD_set_first _ _ _ _ hslt, if_pos rfl]
  · intro q hq u hu
    exact hin (q.1, q.1, q.2) (List.mem_reverse.mpr (List.mem_map.mpr ⟨q, hq, rfl⟩)) u hu

end FirstResult
section FirstClaim

variable {Edge W : Type}

/-- C13 (compute_first_in_path). On a tree as the constructor links it, whatever
`_first_in_path` holds before, `compute_first_in_path` returns and changes nothing but
`_first_in_path`; afterwards the entry of the source is the source, and the entry of every
other vertex `v` with a tree node is a child of the source and is the vertex next to the
source on the tree path from `v` to the source. -/
theorem compute_first_in_path_spec (g : Graph Edge) (t : SPTree Edge W) (f : Forest)
    (hwf : t.well_formed g f) :
    ∃ t', t.compute_first_in_path = some t' ∧ t'.tree_node_map = t.tree_node_map ∧
      t'.id = t.id ∧ t'.source = t.source ∧
      t'.first t.source = t.source ∧
      ∀ v, v ≠ t.source → (t.node v).isSome = true →
        (∃ n0, t.node t.source = some n0 ∧ t'.first v ∈ n0.children) ∧
        ∃ pre, t.vertices_to_root g t.tree_node_map.length v =
          some (pre ++ [t'.first v, t.source]) := by
  obtain ⟨ch, hf⟩ := Forest.eq_of_roots_singleton f _ hwf.roots
  subst hf
  obtain ⟨t', hrun, hmap, hid, hsource, _, hroot, hsub⟩ :=
    SPTree.compute_first_in_path_result hwf
  refine ⟨t', hrun, hmap, hid, hsource, hroot, ?_⟩
  intro v hv hnode
  obtain ⟨n, hn⟩ := Option.isSome_iff_exists.mp hnode
  have hvf := hwf.cover v (SPTree.node_lt t v n hn) hnode
  simp only [Forest.vertices, List.append_nil, List.mem_cons] at hvf
  rcases hvf with h | h
  · exact absurd h hv
  · obtain ⟨q, hq, hvq⟩ := Forest.mem_vertices_trees ch v h
    rw [hsub q hq v hvq]
    obtain ⟨⟨n0, hn0, hch0⟩, _, _⟩ := hwf.shape
    refine ⟨⟨n0, hn0, ?_⟩, SPTree.vertices_to_root_subtree hwf q hq v hvq⟩
    rw [hch0, Forest.roots_eq_trees]
    exact List.mem_map.mpr ⟨q, hq, rfl⟩

theorem compute_first_in_path_spec_witness :
    SPTree.compute_first_in_path { sample_tree with first_in_path := [7, 7, 7, 7] } =
        some sample_tree ∧
      sample_tree.vertices_to_root sample_graph 4 3 = some [3, 2, 0] ∧
      ∃ t', SPTree.compute_first_in_path { sample_tree with first_in_path := [7, 7, 7, 7] } =
          some t' ∧
        t'.tree_node_map = sample_tree.tree_node_map ∧ t'.id = 0 ∧ t'.source = 0 ∧
        t'.first 0 = 0 ∧
        ∀ v, v ≠ 0 → (sample_tree.node v).isSome = true →
          (∃ n0, sample_tree.node 0 = some n0 ∧ t'.first v ∈ n0.children) ∧
          ∃ pre, sample_tree.vertices_to_root sample_graph 4 v =
            some (pre ++ [t'.first v, 0]) :=
  ⟨by decide, by decide,
    compute_first_in_path_spec sample_graph
      { sample_tree with first_in_path := [7, 7, 7, 7] } sample_forest
      ⟨by decide, by decide, by decide, by decide, by decide, by decide, by decide, by decide⟩⟩

end FirstClaim

/-! ## The candidates of a tree -/

section CandidateClaim

variable {Edge W : Type} [DecidableEq Edge]

/-- The set `tree_edges` holds the predecessor edges of the tree nodes. -/
theorem SPTree.mem_tree_edges (t : SPTree Edge W) (e : Edge) :
    ∀ k, e ∈ t.tree_edges k ↔
      ∃ v, v < k ∧ ∃ n, n ∈ t.node v ∧ n.has_pred = true ∧ n.pred = e := by
  intro k
  induction k with
  | zero => simp [SPTree.tree_edges]
  | succ k ih =>
    have hstep : (∃ v, v < k + 1 ∧ ∃ n, n ∈ t.node v ∧ n.has_pred = true ∧ n.pred = e) ↔
        ((∃ v, v < k ∧ ∃ n, n ∈ t.node v ∧ n.has_pred = true ∧ n.pred = e) ∨
          ∃ n, n ∈ t.node k ∧ n.has_pred = true ∧ n.pred = e) := by
      constructor
      · rintro ⟨v, hv, h⟩
        by_cases hvk : v = k
        · right; rw [← hvk]; exact h
        · left; exact ⟨v, by omega, h⟩
      · rintro (⟨v, hv, h⟩ | h)
        · exact ⟨v, by omega, h⟩
        · exact ⟨k, by omega, h⟩
    rw [hstep, ← ih]
    have hsucc : t.tree_edges (k + 1) =
        (match t.node k with
          | some nd => if nd.has_pred then insert nd.pred (t.tree_edges k) else t.tree_edges k
          | none => t.tree_edges k) := rfl
    rw [hsucc]
    cases hn : t.node k with
    | none => simp
    | some nd =>
      cases hp : nd.has_pred
      · simp [hp]
      · simp only [if_true, Finset.mem_insert, Option.mem_def, Option.some.injEq,
          exists_eq_left', hp, true_and]
        constructor
        · rintro (h | h)
          · exact Or.inr h.symm
          · exact Or.inl h
        · rintro (h | h)
          · exact Or.inr h
          · exact Or.inl h.symm

/-- C14 (create_candidate_cycles). When the node of every vertex carries that vertex, the
edges of the candidates are, in input order and with repetitions, the input edges that are
not the predecessor edge of a tree node, have a tree node at both endpoints and have
different `_first_in_path` entries at the endpoints; every candidate carries the id of the
tree and the weight of its edge plus the node weights of the two endpoints. -/
theorem create_candidate_cycles_spec [Add W] (g : Graph Edge) (weight_map : Edge → W)
    (t : SPTree Edge W) (edges : List Edge)
    (hvertex : ∀ v, v < t.tree_node_map.length → ∀ n, n ∈ t.node v → n.vertex = v) :
    (t.create_candidate_cycles g weight_map edges).map (fun c => c.edge) =
        edges.filter (fun e => decide (
          (¬ ∃ v, v < t.tree_node_map.length ∧ ∃ n, n ∈ t.node v ∧ n.has_pred = true ∧
            n.pred = e) ∧
          (t.node (g.source e)).isSome = true ∧ (t.node (g.target e)).isSome = true ∧
          t.first (g.source e) ≠ t.first (g.target e))) ∧
      ∀ c, c ∈ t.create_candidate_cycles g weight_map edges →
        c.tree = t.id ∧ ∃ x y, t.node (g.source c.edge) = some x ∧
          t.node (g.target c.edge) = some y ∧
          c.weight = weight_map c.edge + x.weight + y.weight := by
  have hvx : ∀ v n, t.node v = some n → n.vertex = v := fun v n hn =>
    hvertex v (by
      by_contra hlt
      unfold SPTree.node at hn
      rw [List.getD_eq_getElem?_getD, List.getElem?_eq_none (by omega)] at hn
      simp at hn) n hn
  unfold SPTree.create_candidate_cycles
  constructor
  · induction edges with
    | nil => rfl
    | cons e rest ih =>
      rw [create_candidate_cycles_loop, List.filter_cons]
      have hte := SPTree.mem_tree_edges t e t.tree_node_map.length
      by_cases h1 : e ∈ t.tree_edges t.tree_node_map.length
      · rw [if_pos h1, ih, if_neg]
        simp only [decide_eq_true_eq]
        exact fun h => h.1 (hte.mp h1)
      · rw [if_neg h1]
        cases hs : t.node (g.source e) with
        | none =>
          simp only [ih]
          rw [if_neg]
          simp
        | some x =>
          cases htg : t.node (g.target e) with
          | none =>
            simp only [ih]
            rw [if_neg]
            simp
          | some y =>
            simp only [hvx _ x hs, hvx _ y htg]
            by_cases hf : t.first (g.source e) = t.first (g.target e)
            · rw [if_pos hf, ih, if_neg]
              simp [hf]
            · rw [if_neg hf, List.map_cons, ih, if_pos]
              simp only [decide_eq_true_eq]
              exact ⟨fun h => h1 (hte.mpr h), rfl, rfl, hf⟩
  · intro c hc
    induction edges with
    | nil => simp [create_candidate_cycles_loop] at hc
    | cons e rest ih =>
      rw [create_candidate_cycles_loop] at hc
      split at hc
      · exact ih hc
      · split at hc
        · exact ih hc
        · rename_i x hx
          split at hc
          · exact ih hc
          · rename_i y hy
            split at hc
            · exact ih hc
            · rcases List.mem_cons.mp hc with h | h
              · subst h
                exact ⟨rfl, x, y, hx, hy, rfl⟩
              · exact ih h

theorem create_candidate_cycles_spec_witness :
    sample_tree.create_candidate_cycles sample_graph sample_weight [0, 1, 2, 3, 4, 5, 2] =
        [⟨0, 2, 3⟩, ⟨0, 4, 6⟩, ⟨0, 2, 3⟩] ∧
      (sample_tree.create_candidate_cycles sample_graph sample_weight
        [0, 1, 2, 3, 4, 5, 2]).map (fun c => c.edge) =
        [0, 1, 2, 3, 4, 5, 2].filter (fun e => decide (
          (¬ ∃ v, v < sample_tree.tree_node_map.length ∧ ∃ n, n ∈ sample_tree.node v ∧
            n.has_pred = true ∧ n.pred = e) ∧
          (sample_tree.node (sample_graph.source e)).isSome = true ∧
          (sample_tree.node (sample_graph.target e)).isSome = true ∧
          sample_tree.first (sample_graph.source e) ≠
            sample_tree.first (sample_graph.target e))) :=
  ⟨by decide,
    (create_candidate_cycles_spec sample_graph sample_weight sample_tree
      [0, 1, 2, 3, 4, 5, 2] (by decide)).1⟩

end CandidateClaim
/-! ## The parity test of the cycle builder -/

section ParityTest

variable {Edge W : Type} [DecidableEq Edge]

theorem signed_parity_reverse (edges : Finset Edge) (p : List Edge) :
    signed_parity edges p.reverse = signed_parity edges p := by
  unfold signed_parity
  rw [List.filter_reverse, List.length_reverse]

theorem odd_inter_singleton (edges : Finset Edge) (e : Edge) :
    decide ((({e} : Finset Edge) ∩ edges).card % 2 = 1) = decide (e ∈ edges) := by
  by_cases he : e ∈ edges
  · rw [Finset.singleton_inter_of_mem he]
    simp [he]
  · rw [Finset.singleton_inter_of_not_mem he]
    simp [he]

theorem odd_inter_insert (edges result : Finset Edge) (a : Edge) (ha : a ∉ result) :
    decide (((insert a result) ∩ edges).card % 2 = 1) =
      xor (decide (a ∈ edges)) (decide ((result ∩ edges).card % 2 = 1)) := by
  by_cases he : a ∈ edges
  · rw [Finset.insert_inter_of_mem he,
      Finset.card_insert_of_not_mem (fun h => ha (Finset.mem_inter.mp h).1)]
    simp only [he, decide_True, Bool.true_xor]
    rcases Nat.mod_two_eq_zero_or_one (result ∩ edges).card with h | h
    · rw [Nat.succ_mod_two_eq_one_iff.mpr h, h]
      decide
    · rw [Nat.succ_mod_two_eq_zero_iff.mpr h, h]
      decide
  · rw [Finset.insert_inter_of_not_mem he]
    simp [he]

/-- A predecessor walk that ends valid has followed the tree path to the root and has added
its edges, none of them present before, to the edge set. -/
theorem pred_walk_path [LinearOrderedAddCommMonoid W] (g : Graph Edge) (weight_map : Edge → W)
    (t : SPTree Edge W) (edges : Finset Edge) (b : Bool) (limit : W) (fuel : Nat) :
    ∀ (w : Nat) (result : Finset Edge) (cw : W) (result' : Finset Edge) (cw' : W),
      pred_walk g weight_map t b limit fuel w result cw = some (true, result', cw') →
        ∃ path, t.path_to_root g fuel w = some path ∧
          decide ((result' ∩ edges).card % 2 = 1) =
            xor (decide ((result ∩ edges).card % 2 = 1)) (signed_parity edges path) := by
  induction fuel with
  | zero => intro w result cw result' cw' h; simp [pred_walk] at h
  | succ fuel ih =>
    intro w result cw result' cw' h
    rw [pred_walk] at h
    split at h
    · exact absurd h (by simp)
    · rename_i ws hws
      split at h
      · rename_i hp
        split at h
        · simp at h
        · rename_i hmem
          split at h
          · simp at h
          · obtain ⟨path, hpath, hodd⟩ := ih _ _ _ _ _ h
            refine ⟨ws.pred :: path, ?_, ?_⟩
            · simp only [SPTree.path_to_root, hws, hp, if_true, hpath, Option.map_some']
            · rw [hodd, odd_inter_insert edges result ws.pred hmem, signed_parity_cons]
              cases decide (ws.pred ∈ edges) <;>
                cases decide ((result ∩ edges).card % 2 = 1) <;>
                cases signed_parity edges path <;> rfl
      · rename_i hp
        simp only [Option.some.injEq, Prod.mk.injEq, true_and] at h
        refine ⟨[], ?_, ?_⟩
        · simp [SPTree.path_to_root, hws, hp]
        · rw [← h.1, signed_parity_nil, Bool.xor_false]

/-- On a tree with consistent parities, a cycle returned by the builder contains an odd
number of signed edges. -/
theorem builder_odd [LinearOrderedAddCommMonoid W] (g : Graph Edge) (weight_map : Edge → W)
    (trees : List (SPTree Edge W)) (t : SPTree Edge W) (c : CandidateCycle Edge W)
    (signed_edges : Finset Edge) (b : Bool) (limit : W) (R : cycle_t Edge W)
    (hcons : t.parity_consistent g signed_edges) (ht : trees.get? c.tree = some t)
    (hR : CandidateCycleBuilder g weight_map trees c signed_edges b limit = some R)
    (hf : R.found = true) : (R.edges ∩ signed_edges).card % 2 = 1 := by
  unfold CandidateCycleBuilder at hR
  rw [ht] at hR
  simp only at hR
  split at hR
  · rename_i v u hv hu
    split at hR
    · rename_i htest
      split at hR
      · simp only [Option.some.injEq] at hR
        rw [← hR] at hf
        exact absurd hf (by simp [sentinel])
      · split at hR
        · exact absurd hR (by simp)
        · rename_i valid1 result1 weight1 hwalk1
          split at hR
          · simp only [Option.some.injEq] at hR
            rw [← hR] at hf
            exact absurd hf (by simp [sentinel])
          · rename_i hv1
            have hv1' : valid1 = true := by simpa using hv1
            subst hv1'
            obtain ⟨p1, hp1, hodd1⟩ :=
              pred_walk_path g weight_map t signed_edges _ _ _ _ _ _ _ _ hwalk1
            split at hR
            · exact absurd hR (by simp)
            · rename_i valid2 result2 weight2 hwalk2
              split at hR
              · simp only [Option.some.injEq] at hR
                rw [← hR] at hf
                exact absurd hf (by simp [sentinel])
              · rename_i hv2
                have hv2' : valid2 = true := by simpa using hv2
                subst hv2'
                obtain ⟨p2, hp2, hodd2⟩ :=
                  pred_walk_path g weight_map t signed_edges _ _ _ _ _ _ _ _ hwalk2
                simp only [Option.some.injEq] at hR
                rw [← hR]
                simp only
                have h1 := SPTree.parity_of_path hcons _ _ v p1 hv hp1
                have h2 := SPTree.parity_of_path hcons _ _ u p2 hu hp2
                rw [hodd1, odd_inter_singleton, ← h1, ← h2] at hodd2
                have : decide ((result2 ∩ signed_edges).card % 2 = 1) = true := by
                  rw [hodd2, ← htest]
                  cases decide (c.edge ∈ signed_edges) <;> cases v.parity <;>
                    cases u.parity <;> rfl
                exact of_decide_eq_true this
    · simp only [Option.some.injEq] at hR
      rw [← hR] at hf
      exact absurd hf (by simp [sentinel])
  · exact absurd hR (by simp)

end ParityTest
section ParityTestClaim

variable {Edge W : Type} [DecidableEq Edge] [LinearOrderedAddCommMonoid W]

/-- C17 (parity test). After `update_parities(S)` on a tree as the constructor builds it,
for a candidate `(t, e = (x, y))` whose endpoints have tree nodes, the test
`parity(x) XOR parity(y) XOR [e in S]` of the builder is the parity of the number of edges
of `S` on the closed walk made of the tree path from the root to `x`, the edge `e` and the
tree path from `y` to the root; and every cycle the builder returns with exists = true,
with or without weight limit, contains an odd number of edges of `S`. -/
theorem builder_parity_test (g : Graph Edge) (weight_map : Edge → W)
    (trees : List (SPTree Edge W)) (t0 t : SPTree Edge W) (f : Forest)
    (c : CandidateCycle Edge W) (signed_edges : Finset Edge) (x y : SPNode Edge W)
    (hwf : t0.well_formed g f) (hupd : t0.update_parities signed_edges = some t)
    (ht : trees.get? c.tree = some t)
    (hx : t.node (g.source c.edge) = some x) (hy : t.node (g.target c.edge) = some y) :
    (∃ px py, t.path_to_root g t.tree_node_map.length (g.source c.edge) = some px ∧
      t.path_to_root g t.tree_node_map.length (g.target c.edge) = some py ∧
      xor (xor x.parity y.parity) (decide (c.edge ∈ signed_edges)) =
        signed_parity signed_edges (px.reverse ++ c.edge :: py)) ∧
    ∀ use_weight_limit weight_limit R,
      CandidateCycleBuilder g weight_map trees c signed_edges use_weight_limit
        weight_limit = some R →
      R.found = true → (R.edges ∩ signed_edges).card % 2 = 1 := by
  obtain ⟨t', hrun, hclr, hcons⟩ := SPTree.update_parities_result signed_edges hwf
  rw [hupd] at hrun
  injection hrun with hrun
  subst hrun
  have hwf' : t.well_formed g f := SPTree.well_formed_of_clear_eq hclr.symm hwf
  refine ⟨?_, fun b limit R hR hf =>
    builder_odd g weight_map trees t c signed_edges b limit R hcons ht hR hf⟩
  have hxv := hwf'.cover _ (SPTree.node_lt t _ x hx) (by rw [hx]; rfl)
  have hyv := hwf'.cover _ (SPTree.node_lt t _ y hy) (by rw [hy]; rfl)
  obtain ⟨px, hpx⟩ := Option.isSome_iff_exists.mp (SPTree.path_to_root_isSome hwf' _ hxv)
  obtain ⟨py, hpy⟩ := Option.isSome_iff_exists.mp (SPTree.path_to_root_isSome hwf' _ hyv)
  refine ⟨px, py, hpx, hpy, ?_⟩
  rw [signed_parity_append, signed_parity_reverse, signed_parity_cons,
    ← SPTree.parity_of_path hcons _ _ x px hx hpx,
    ← SPTree.parity_of_path hcons _ _ y py hy hpy]
  cases decide (c.edge ∈ signed_edges) <;> cases x.parity <;> cases y.parity <;> rfl

theorem builder_parity_test_witness :
    sample_tree.update_parities {1} = some sample_tree_signed ∧
      CandidateCycleBuilder sample_graph sample_weight [sample_tree_signed] ⟨0, 2, 3⟩ {1}
        false 0 = some ⟨{1, 0, 2}, 3, true⟩ ∧
      ((({1, 0, 2} : Finset (Fin 6)) ∩ {1}).card % 2 = 1) ∧
      (∃ px py, sample_tree_signed.path_to_root sample_graph 4 1 = some px ∧
        sample_tree_signed.path_to_root sample_graph 4 2 = some py ∧
        xor (xor false true) (decide ((2 : Fin 6) ∈ ({1} : Finset (Fin 6)))) =
          signed_parity {1} (px.reverse ++ 2 :: py)) :=
  ⟨by decide, by decide,
    (builder_parity_test sample_graph sample_weight [sample_tree_signed] sample_tree
      sample_tree_signed sample_forest ⟨0, 2, 3⟩ {1}
      ⟨1, false, 1, 0, true, []⟩ ⟨2, true, 1, 1, true, [3]⟩
      ⟨by decide, by decide, by decide, by decide, by decide, by decide, by decide, by decide⟩
      (by decide) rfl (by decide) (by decide)).2 false 0 ⟨{1, 0, 2}, 3, true⟩ (by decide) rfl,
    (builder_parity_test sample_graph sample_weight [sample_tree_signed] sample_tree
      sample_tree_signed sample_forest ⟨0, 2, 3⟩ {1}
      ⟨1, false, 1, 0, true, []⟩ ⟨2, true, 1, 1, true, [3]⟩
      ⟨by decide, by decide, by decide, by decide, by decide, by decide, by decide, by decide⟩
      (by decide) rfl (by decide) (by decide)).1⟩

end ParityTestClaim

/-! ## The lookup on well-formed trees -/

section Totality

variable {Edge W : Type} [DecidableEq Edge] [LinearOrderedAddCommMonoid W]

/-- A predecessor walk returns when every node with a predecessor edge has a parent node,
the predecessor edges are edges of the graph and the fuel exceeds the number of edges of
the graph not yet collected. -/
theorem pred_walk_isSome (g : Graph Edge) (weight_map : Edge → W) (t : SPTree Edge W)
    (b : Bool) (limit : W)
    (hparent : ∀ v n, t.node v = some n → n.has_pred = true →
      (t.node (g.opposite n.pred v)).isSome = true)
    (hpred : ∀ v n, t.node v = some n → n.has_pred = true → n.pred ∈ g.edges) :
    ∀ (fuel w : Nat) (result : Finset Edge) (cw : W), (t.node w).isSome = true →
      (g.edges \ result).card < fuel →
      (pred_walk g weight_map t b limit fuel w result cw).isSome = true := by
  intro fuel
  induction fuel with
  | zero => intro w result cw _ h; exact absurd h (Nat.not_lt_zero _)
  | succ fuel ih =>
    intro w result cw hw hcard
    obtain ⟨ws, hws⟩ := Option.isSome_iff_exists.mp hw
    rw [pred_walk]
    simp only [hws]
    split
    · rename_i hp
      split
      · rfl
      · rename_i hmem
        split
        · rfl
        · apply ih _ _ _ (hparent w ws hws hp)
          have hin : ws.pred ∈ g.edges \ result :=
            Finset.mem_sdiff.mpr ⟨hpred w ws hws hp, hmem⟩
          have hlt : (g.edges \ insert ws.pred result).card < (g.edges \ result).card := by
            apply Finset.card_lt_card
            refine ⟨?_, ?_⟩
            · intro a ha
              rw [Finset.mem_sdiff] at ha ⊢
              exact ⟨ha.1, fun h => ha.2 (Finset.mem_insert_of_mem h)⟩
            · intro hsub
              have := hsub hin
              rw [Finset.mem_sdiff] at this
              exact this.2 (Finset.mem_insert_self _ _)
          omega
    · rfl

/-- The builder returns on a tree in which every node with a predecessor edge has a parent
node and the predecessor edges are edges of the graph, for a candidate whose endpoints
have tree nodes. -/
theorem builder_isSome (g : Graph Edge) (weight_map : Edge → W)
    (trees : List (SPTree Edge W)) (t : SPTree Edge W) (c : CandidateCycle Edge W)
    (signed_edges : Finset Edge) (b : Bool) (limit : W)
    (ht : trees.get? c.tree = some t)
    (hx : (t.node (g.source c.edge)).isSome = true)
    (hy : (t.node (g.target c.edge)).isSome = true)
    (hparent : ∀ v n, t.node v = some n → n.has_pred = true →
      (t.node (g.opposite n.pred v)).isSome = true)
    (hpred : ∀ v n, t.node v = some n → n.has_pred = true → n.pred ∈ g.edges) :
    (CandidateCycleBuilder g weight_map trees c signed_edges b limit).isSome = true := by
  obtain ⟨x, hx'⟩ := Option.isSome_iff_exists.mp hx
  obtain ⟨y, hy'⟩ := Option.isSome_iff_exists.mp hy
  have hfuel : ∀ result : Finset Edge, (g.edges \ result).card < g.edges.card + 1 :=
    fun result => Nat.lt_succ_of_le (Finset.card_le_card Finset.sdiff_subset)
  unfold CandidateCycleBuilder
  rw [ht]
  simp only [hx', hy']
  split
  · split
    · rfl
    · obtain ⟨r1, hr1⟩ := Option.isSome_iff_exists.mp
        (pred_walk_isSome g weight_map t b limit hparent hpred (g.edges.card + 1)
          (g.source c.edge) {c.edge} (weight_map c.edge) hx (hfuel _))
      obtain ⟨valid1, result1, weight1⟩ := r1
      rw [hr1]
      simp only
      split
      · rfl
      · obtain ⟨r2, hr2⟩ := Option.isSome_iff_exists.mp
          (pred_walk_isSome g weight_map t b limit hparent hpred (g.edges.card + 1)
            (g.target c.edge) result1 weight1 hy (hfuel _))
        obtain ⟨valid2, result2, weight2⟩ := r2
        rw [hr2]
        simp only
        split <;> rfl
  · rfl

omit [LinearOrderedAddCommMonoid W] in
/-- The parity refresh of all trees returns on well-formed trees; tree by tree the result
differs from the input in the parities only and has consistent parities. -/
theorem update_all_parities_result (g : Graph Edge) (signed_edges : Finset Edge) :
    ∀ trees : List (SPTree Edge W), (∀ t, t ∈ trees → ∃ f, t.well_formed g f) →
      ∃ trees', update_all_parities signed_edges trees = some trees' ∧
        List.Forall₂ (fun t t' => t'.clear_parities = t.clear_parities ∧
          t'.parity_consistent g signed_edges) trees trees' := by
  intro trees
  induction trees with
  | nil => intro _; exact ⟨[], rfl, List.Forall₂.nil⟩
  | cons t ts ih =>
    intro hwf
    obtain ⟨f, hf⟩ := hwf t (List.mem_cons_self _ _)
    obtain ⟨t', hrun, hclr, hcons⟩ := SPTree.update_parities_result signed_edges hf
    obtain ⟨ts', hruns, hall⟩ := ih (fun u hu => hwf u (List.mem_cons_of_mem _ hu))
    refine ⟨t' :: ts', ?_, List.Forall₂.cons ⟨hclr, hcons⟩ hall⟩
    simp only [update_all_parities, hrun, hruns]

omit [DecidableEq Edge] [LinearOrderedAddCommMonoid W] in
theorem forall2_get_left {A B : Type} {R : A → B → Prop} :
    ∀ {l1 : List A} {l2 : List B}, List.Forall₂ R l1 l2 → ∀ i a, l1.get? i = some a →
      ∃ b, l2.get? i = some b ∧ R a b := by
  intro l1 l2 h
  induction h with
  | nil => intro i a ha; simp at ha
  | cons hab _ ih =>
    intro i a ha
    cases i with
    | zero =>
      simp only [List.get?_cons_zero, Option.some.injEq] at ha
      exact ⟨_, rfl, by rw [← ha]; exact hab⟩
    | succ i => exact ih i a (by simpa using ha)

omit [DecidableEq Edge] [LinearOrderedAddCommMonoid W] in
theorem forall2_mem_right {A B : Type} {R : A → B → Prop} :
    ∀ {l1 : List A} {l2 : List B}, List.Forall₂ R l1 l2 → ∀ b, b ∈ l2 →
      ∃ a, a ∈ l1 ∧ R a b := by
  intro l1 l2 h
  induction h with
  | nil => intro b hb; simp at hb
  | cons hab _ ih =>
    intro b hb
    rcases List.mem_cons.mp hb with h | h
    · exact ⟨_, List.mem_cons_self _ _, by rw [h]; exact hab⟩
    · obtain ⟨a, ha, hr⟩ := ih b h
      exact ⟨a, List.mem_cons_of_mem _ ha, hr⟩

omit [DecidableEq Edge] in
theorem SPTree.weight_consistent_of_clear_eq {g : Graph Edge} {weight_map : Edge → W}
    {t1 t2 : SPTree Edge W} (h : t1.clear_parities = t2.clear_parities)
    (hcons : t1.weight_consistent g weight_map) : t2.weight_consistent g weight_map := by
  intro v hv n2 hn2
  obtain ⟨n1, hn1, _, hw1, hp1, hh1, _⟩ := SPTree.node_of_clear_eq h.symm v n2 hn2
  have hlen := SPTree.length_of_clear_eq h
  obtain ⟨ha, hb⟩ := hcons v (by omega) n1 hn1
  refine ⟨fun hp => ?_, fun hp => ?_⟩
  · obtain ⟨p, hp', hwp⟩ := ha (by rw [hh1]; exact hp)
    obtain ⟨p2, hp2, _, hw2, _⟩ := SPTree.node_of_clear_eq h _ p hp'
    refine ⟨p2, by rw [← hp1]; exact hp2, ?_⟩
    rw [← hw1, hwp, hw2, hp1]
  · rw [← hw1]
    exact hb (by rw [hh1]; exact hp)

/-- On well-formed trees whose predecessor edges are edges of the graph, and for candidates
whose endpoints have tree nodes, the parity refresh returns and every candidate
reconstructs without fault. -/
theorem lookup_returns (g : Graph Edge) (weight_map : Edge → W)
    (trees : List (SPTree Edge W)) (cycles : List (CandidateCycle Edge W))
    (signed_edges : Finset Edge)
    (hwf : ∀ t, t ∈ trees → ∃ f, t.well_formed g f)
    (hpred : ∀ t, t ∈ trees → ∀ v, v < t.tree_node_map.length → ∀ n, n ∈ t.node v →
      n.has_pred = true → n.pred ∈ g.edges)
    (hcand : ∀ c, c ∈ cycles → ∃ t, t ∈ trees.get? c.tree ∧
      (t.node (g.source c.edge)).isSome = true ∧ (t.node (g.target c.edge)).isSome = true) :
    ∃ trees', update_all_parities signed_edges trees = some trees' ∧
      List.Forall₂ (fun t t' => t'.clear_parities = t.clear_parities ∧
        t'.parity_consistent g signed_edges) trees trees' ∧
      ∀ c, c ∈ cycles → (reconstruct g weight_map trees' signed_edges c).isSome = true := by
  obtain ⟨trees', hupd, hall⟩ := update_all_parities_result g signed_edges trees hwf
  refine ⟨trees', hupd, hall, ?_⟩
  intro c hc
  obtain ⟨t, ht, hx, hy⟩ := hcand c hc
  obtain ⟨t', ht', hclr, hcons⟩ := forall2_get_left hall c.tree t ht
  obtain ⟨x, hx⟩ := Option.isSome_iff_exists.mp hx
  obtain ⟨y, hy⟩ := Option.isSome_iff_exists.mp hy
  obtain ⟨x', hx', _⟩ := SPTree.node_of_clear_eq hclr.symm _ x hx
  obtain ⟨y', hy', _⟩ := SPTree.node_of_clear_eq hclr.symm _ y hy
  apply builder_isSome g weight_map trees' t' c signed_edges false 0 ht'
    (by rw [hx']; rfl) (by rw [hy']; rfl)
  · intro v n hn hp
    obtain ⟨p, hp', _⟩ := (hcons v (SPTree.node_lt t' v n hn) n hn).1 hp
    have hp' : t'.node (g.opposite n.pred v) = some p := hp'
    rw [hp']
    rfl
  · intro v n hn hp
    obtain ⟨n1, hn1, _, _, hpr, hhas, _⟩ := SPTree.node_of_clear_eq hclr v n hn
    rw [← hpr]
    exact hpred t (List.get?_mem ht) v (SPTree.node_lt t v n1 hn1) n1 hn1
      (by rw [hhas]; exact hp)

end Totality

/-! ## Claims about the lookup -/

section LookupTotalClaims

variable {Edge W : Type} [DecidableEq Edge] [LinearOrderedAddCommMonoid W]

/-- C15 (unsorted sequential lookup). With non-negative weights, on trees as the constructor
builds them whose predecessor edges are edges of the graph, and for candidates whose
endpoints have tree nodes, the lookup with `sorted_cycles = false` returns a tuple that
exists iff some candidate reconstructs (on the trees with refreshed parities, without weight
limit) to an existing cycle; then it is the cycle of one of the candidates and no existing
reconstructed cycle weighs less. -/
theorem shortest_odd_cycle_unsorted (g : Graph Edge) (weight_map : Edge → W)
    (hw : ∀ e, 0 ≤ weight_map e) (trees : List (SPTree Edge W))
    (cycles : List (CandidateCycle Edge W)) (signed_edges : Finset Edge)
    (hwf : ∀ t, t ∈ trees → ∃ f, t.well_formed g f)
    (hpred : ∀ t, t ∈ trees → ∀ v, v < t.tree_node_map.length → ∀ n, n ∈ t.node v →
      n.has_pred = true → n.pred ∈ g.edges)
    (hcand : ∀ c, c ∈ cycles → ∃ t, t ∈ trees.get? c.tree ∧
      (t.node (g.source c.edge)).isSome = true ∧ (t.node (g.target c.edge)).isSome = true) :
    ∃ trees' R, update_all_parities signed_edges trees = some trees' ∧
      compute_shortest_odd_cycle g weight_map trees cycles false signed_edges = some R ∧
      (R.found = true ↔ ∃ c, c ∈ cycles ∧ ∃ Rc,
        reconstruct g weight_map trees' signed_edges c = some Rc ∧ Rc.found = true) ∧
      (R.found = true →
        (∃ c, c ∈ cycles ∧ reconstruct g weight_map trees' signed_edges c = some R) ∧
        ∀ c, c ∈ cycles → ∀ Rc, reconstruct g weight_map trees' signed_edges c = some Rc →
          Rc.found = true → R.weight ≤ Rc.weight) := by
  obtain ⟨trees', hupd, _, hrec⟩ :=
    lookup_returns g weight_map trees cycles signed_edges hwf hpred hcand
  obtain ⟨R, h1, h2, h3⟩ :=
    unsorted_scan_min g weight_map hw trees trees' cycles signed_edges hupd hrec
  exact ⟨trees', R, hupd, h1, h2, h3⟩

theorem shortest_odd_cycle_unsorted_witness :
    update_all_parities {1} [sample_tree] = some [sample_tree_signed] ∧
      ((compute_shortest_odd_cycle sample_graph sample_weight [sample_tree]
        [⟨0, 4, 6⟩, ⟨0, 2, 3⟩] false {1}).map (fun R => (R.weight, R.found)) =
          some (3, true)) ∧
      ∃ trees' R, update_all_parities {1} [sample_tree] = some trees' ∧
        compute_shortest_odd_cycle sample_graph sample_weight [sample_tree]
          [⟨0, 4, 6⟩, ⟨0, 2, 3⟩] false {1} = some R ∧
        (R.found = true ↔
          ∃ c, c ∈ [(⟨0, 4, 6⟩ : CandidateCycle (Fin 6) Nat), ⟨0, 2, 3⟩] ∧ ∃ Rc,
            reconstruct sample_graph sample_weight trees' {1} c = some Rc ∧
              Rc.found = true) ∧
        (R.found = true →
          (∃ c, c ∈ [(⟨0, 4, 6⟩ : CandidateCycle (Fin 6) Nat), ⟨0, 2, 3⟩] ∧
            reconstruct sample_graph sample_weight trees' {1} c = some R) ∧
          ∀ c, c ∈ [(⟨0, 4, 6⟩ : CandidateCycle (Fin 6) Nat), ⟨0, 2, 3⟩] → ∀ Rc,
            reconstruct sample_graph sample_weight trees' {1} c = some Rc →
            Rc.found = true → R.weight ≤ Rc.weight) :=
  ⟨by decide, by decide,
    shortest_odd_cycle_unsorted sample_graph sample_weight (fun e => Nat.zero_le _)
      [sample_tree] [⟨0, 4, 6⟩, ⟨0, 2, 3⟩] {1}
      (fun t ht => ⟨sample_forest, by
        rw [List.mem_singleton.mp ht]
        exact ⟨by decide, by decide, by decide, by decide, by decide, by decide, by decide,
          by decide⟩⟩)
      (by decide) (by decide)⟩

/-- C16, amended (sorted-cycles fast path). For a weight type whose addition is exact (an
ordered commutative monoid, such as integers that do not overflow) and non-negative
weights, on trees as the constructor builds them with consistent node weights and
predecessor edges in the graph, for a candidate list produced by `create_candidate_cycles`
of the trees and sorted by ascending candidate weight, the lookup with
`sorted_cycles = true` and the full scan with `sorted_cycles = false` both return, with the
same exists flag and the same weight. -/
theorem sorted_cycles_fast_path (g : Graph Edge) (weight_map : Edge → W)
    (hw : ∀ e, 0 ≤ weight_map e) (trees : List (SPTree Edge W))
    (cycles : List (CandidateCycle Edge W)) (edges : List Edge) (signed_edges : Finset Edge)
    (hwf : ∀ t, t ∈ trees → ∃ f, t.well_formed g f)
    (hpred : ∀ t, t ∈ trees → ∀ v, v < t.tree_node_map.length → ∀ n, n ∈ t.node v →
      n.has_pred = true → n.pred ∈ g.edges)
    (hcons : ∀ t, t ∈ trees → t.weight_consistent g weight_map)
    (hprod : ∀ c, c ∈ cycles → ∃ t, t ∈ trees.get? c.tree ∧
      c ∈ t.create_candidate_cycles g weight_map edges)
    (hsorted : cycles.Pairwise (fun a b => a.weight ≤ b.weight)) :
    ∃ Rs Ru,
      compute_shortest_odd_cycle g weight_map trees cycles true signed_edges = some Rs ∧
      compute_shortest_odd_cycle g weight_map trees cycles false signed_edges = some Ru ∧
      Rs.found = Ru.found ∧ Rs.weight = Ru.weight := by
  have hnodes : ∀ c, c ∈ cycles → ∃ t, t ∈ trees.get? c.tree ∧ ∃ v u,
      t.node (g.source c.edge) = some v ∧ t.node (g.target c.edge) = some u ∧
      c.weight = weight_map c.edge + v.weight + u.weight := by
    intro c hc
    obtain ⟨t, ht, hct⟩ := hprod c hc
    obtain ⟨_, _, _, v, u, hv, hu, _, hcw⟩ :=
      mem_create_candidate_cycles_loop g weight_map t _ edges c hct
    exact ⟨t, ht, v, u, hv, hu, hcw⟩
  obtain ⟨trees', hupd, hall, hrec⟩ :=
    lookup_returns g weight_map trees cycles signed_edges hwf hpred (by
      intro c hc
      obtain ⟨t, ht, v, u, hv, hu, _⟩ := hnodes c hc
      exact ⟨t, ht, by rw [hv]; rfl, by rw [hu]; rfl⟩)
  apply sorted_scan_fast_path g weight_map hw trees trees' cycles signed_edges hupd hrec
  · intro t' ht'
    obtain ⟨t, ht, hclr, _⟩ := forall2_mem_right hall t' ht'
    exact SPTree.weight_consistent_of_clear_eq hclr.symm (hcons t ht)
  · intro c hc
    obtain ⟨t, ht, v, u, hv, hu, hcw⟩ := hnodes c hc
    obtain ⟨t', ht', hclr, _⟩ := forall2_get_left hall c.tree t ht
    obtain ⟨v', hv', _, hwv, _⟩ := SPTree.node_of_clear_eq hclr.symm _ v hv
    obtain ⟨u', hu', _, hwu, _⟩ := SPTree.node_of_clear_eq hclr.symm _ u hu
    exact ⟨t', ht', v', u', hv', hu', by rw [hcw, hwv, hwu]⟩
  · exact hsorted

theorem sorted_cycles_fast_path_witness :
    ((compute_shortest_odd_cycle sample_graph sample_weight [sample_tree]
        [⟨0, 2, 3⟩, ⟨0, 4, 6⟩] true {1}).map (fun R => (R.weight, R.found)) =
          some (3, true)) ∧
      ∃ Rs Ru,
        compute_shortest_odd_cycle sample_graph sample_weight [sample_tree]
          [⟨0, 2, 3⟩, ⟨0, 4, 6⟩] true {1} = some Rs ∧
        compute_shortest_odd_cycle sample_graph sample_weight [sample_tree]
          [⟨0, 2, 3⟩, ⟨0, 4, 6⟩] false {1} = some Ru ∧
        Rs.found = Ru.found ∧ Rs.weight = Ru.weight :=
  ⟨by decide,
    sorted_cycles_fast_path sample_graph sample_weight (fun e => Nat.zero_le _)
      [sample_tree] [⟨0, 2, 3⟩, ⟨0, 4, 6⟩] [0, 1, 2, 3, 4, 5] {1}
      (fun t ht => ⟨sample_forest, by
        rw [List.mem_singleton.mp ht]
        exact ⟨by decide, by decide, by decide, by decide, by decide, by decide, by decide,
          by decide⟩⟩)
      (by decide) (by decide) (by decide) (by decide)⟩

/-- C20, amended. With non-negative weights, on trees as the constructor builds them whose
predecessor edges are edges of the graph, and for candidates whose endpoints have tree
nodes, the parallel lookup returns the same tuple for every splitting of the candidates into
consecutive blocks; it is the tuple of the sequential unsorted lookup when a valid candidate
exists, and otherwise the parallel lookup returns `(∅, wmax, false)` and the sequential
lookup `(∅, 0, false)`. -/
theorem tbb_lookup_deterministic (g : Graph Edge) (weight_map : Edge → W)
    (hw : ∀ e, 0 ≤ weight_map e) (wmax : W) (trees : List (SPTree Edge W))
    (cycles : List (CandidateCycle Edge W)) (signed_edges : Finset Edge)
    (hwf : ∀ t, t ∈ trees → ∃ f, t.well_formed g f)
    (hpred : ∀ t, t ∈ trees → ∀ v, v < t.tree_node_map.length → ∀ n, n ∈ t.node v →
      n.has_pred = true → n.pred ∈ g.edges)
    (hcand : ∀ c, c ∈ cycles → ∃ t, t ∈ trees.get? c.tree ∧
      (t.node (g.source c.edge)).isSome = true ∧ (t.node (g.target c.edge)).isSome = true) :
    ∃ Rt Rs,
      (∀ split, compute_shortest_odd_cycle_tbb g weight_map wmax trees cycles split
        signed_edges = some Rt) ∧
      compute_shortest_odd_cycle g weight_map trees cycles false signed_edges = some Rs ∧
      Rt.found = Rs.found ∧
      (Rs.found = true → Rt = Rs) ∧
      (Rs.found = false →
        Rt = not_found Edge wmax ∧ Rs = { edges := ∅, weight := 0, found := false }) := by
  obtain ⟨trees', hupd, _, hrec⟩ :=
    lookup_returns g weight_map trees cycles signed_edges hwf hpred hcand
  exact tbb_scan_deterministic g weight_map hw wmax trees trees' cycles signed_edges hupd hrec

theorem tbb_lookup_deterministic_witness :
    ((compute_shortest_odd_cycle_tbb sample_graph sample_weight 1000 [sample_tree]
        [⟨0, 4, 6⟩, ⟨0, 2, 3⟩] (Split.join 1 Split.block Split.block) {1}).map
          (fun R => (R.weight, R.found)) = some (3, true)) ∧
      ∃ Rt Rs,
        (∀ split, compute_shortest_odd_cycle_tbb sample_graph sample_weight 1000 [sample_tree]
          [⟨0, 4, 6⟩, ⟨0, 2, 3⟩] split {1} = some Rt) ∧
        compute_shortest_odd_cycle sample_graph sample_weight [sample_tree]
          [⟨0, 4, 6⟩, ⟨0, 2, 3⟩] false {1} = some Rs ∧
        Rt.found = Rs.found ∧
        (Rs.found = true → Rt = Rs) ∧
        (Rs.found = false →
          Rt = not_found (Fin 6) 1000 ∧ Rs = { edges := ∅, weight := 0, found := false }) :=
  ⟨by decide,
    tbb_lookup_deterministic sample_graph sample_weight (fun e => Nat.zero_le _) 1000
      [sample_tree] [⟨0, 4, 6⟩, ⟨0, 2, 3⟩] {1}
      (fun t ht => ⟨sample_forest, by
        rw [List.mem_singleton.mp ht]
        exact ⟨by decide, by decide, by decide, by decide, by decide, by decide, by decide,
          by decide⟩⟩)
      (by decide) (by decide)⟩

end LookupTotalClaims

/-! ## The support vectors stay linearly independent -/

section SupportIndependence

variable {Edge W : Type} [Add W] [Zero W]
variable (convert_edges : Finset Edge → Finset Nat)
variable (extract : Nat → Nat → SpVecGF2 → cycle_t Edge W)

/-- On rank 0 the support vectors stay lower unitriangular, whatever the extraction returns:
`support[i]` contains `i` and no larger index. -/
theorem support_unitriangular (csd n : Nat) :
    ∀ i, i < csd → i ∈ (rank0_state convert_edges extract csd n).support.getD i ∅ ∧
      (rank0_state convert_edges extract csd n).support.getD i ∅ ⊆ Finset.range (i + 1) := by
  induction n with
  | zero =>
    intro i hi
    show i ∈ (init_support csd).getD i ∅ ∧ (init_support csd).getD i ∅ ⊆ Finset.range (i + 1)
    rw [init_support_getD, if_pos hi]
    refine ⟨Finset.mem_singleton_self i, ?_⟩
    intro j hj
    rw [Finset.mem_singleton.mp hj]
    exact Finset.mem_range.mpr (Nat.lt_succ_self i)
  | succ n ih =>
    intro i hi
    rw [rank0_state_succ]
    simp only
    rw [update_support_getD _ _ _ _ _ _ (Nat.lt_succ_self n)]
    split
    · rename_i hcond
      have hn := ih n (by omega)
      have hi' := ih i hi
      constructor
      · unfold SpVecGF2.add
        apply Finset.mem_union_left
        rw [Finset.mem_sdiff]
        refine ⟨hi'.1, fun h => ?_⟩
        have := Finset.mem_range.mp (hn.2 h)
        omega
      · apply SpVecGF2.add_subset _ _ _ hi'.2
        intro j hj
        have := Finset.mem_range.mp (hn.2 hj)
        exact Finset.mem_range.mpr (by omega)
    · exact ih i hi

omit [Add W] [Zero W] in
/-- Lower unitriangular vectors are linearly independent over GF(2). -/
theorem independent_of_unitriangular (v : Nat → Finset Nat) (a : Nat → Bool) :
    ∀ N, (∀ i, i < N → i ∈ v i ∧ v i ⊆ Finset.range (i + 1)) →
      gf2_combination v a N = ∅ → ∀ i, i < N → a i = false := by
  intro N
  induction N with
  | zero => intro _ _ i hi; omega
  | succ N ih =>
    intro hv hz
    have hsub : gf2_combination v a N ⊆ Finset.range N :=
      gf2_combination_mem (fun x => x ⊆ Finset.range N) (Finset.empty_subset _)
        (fun x y hx hy e he => by
          rcases Finset.mem_symmDiff.mp he with h | h
          · exact hx h.1
          · exact hy h.1)
        v a N
        (fun i hi e he => Finset.mem_range.mpr (by
          have := Finset.mem_range.mp ((hv i (by omega)).2 he)
          omega))
    have haN : a N = false := by
      cases h : a N
      · rfl
      · exfalso
        rw [gf2_combination, h] at hz
        have hmem : N ∈ symmDiff (gf2_combination v a N) (v N) := by
          rw [Finset.mem_symmDiff]
          right
          exact ⟨(hv N (Nat.lt_succ_self N)).1, fun hc => by
            have := Finset.mem_range.mp (hsub hc)
            omega⟩
        rw [if_pos rfl] at hz
        rw [hz] at hmem
        exact absurd hmem (Finset.not_mem_empty N)
    rw [gf2_combination, haN] at hz
    simp only [Bool.false_eq_true, if_false, symmDiff_empty_right] at hz
    intro i hi
    by_cases hiN : i = N
    · rw [hiN]; exact haN
    · exact ih (fun j hj => hv j (by omega)) hz i (by omega)

/-- C22 (no support vector becomes zero). On rank 0, after any number `n` of iterations of
the main loop and whatever tuples the extraction step returns, the vectors `support[0..csd)`
are linearly independent over GF(2): a GF(2) combination of them is zero only when all its
coefficients are zero; and the vector `support[k]` broadcast at the start of iteration `k`
is not zero. -/
theorem support_independent (csd n : Nat) :
    (∀ a : Nat → Bool,
      gf2_combination (fun i => (main_loop convert_edges extract csd 0
        (broadcast_support convert_edges extract csd) n).support.getD i ∅) a csd = ∅ →
      ∀ i, i < csd → a i = false) ∧
    (∀ i, i < csd → (main_loop convert_edges extract csd 0
        (broadcast_support convert_edges extract csd) n).support.getD i ∅ ≠ ∅) ∧
    (∀ k, k < csd → broadcast_support convert_edges extract csd k ≠ ∅) := by
  rw [main_loop_rank0]
  refine ⟨fun a hz => ?_, fun i hi h => ?_, fun k hk h => ?_⟩
  · exact independent_of_unitriangular _ a csd
      (support_unitriangular convert_edges extract csd n) hz
  · have := (support_unitriangular convert_edges extract csd n i hi).1
    rw [h] at this
    exact absurd this (Finset.not_mem_empty i)
  · have := (support_unitriangular convert_edges extract csd k k hk).1
    unfold broadcast_support at h
    rw [h] at this
    exact absurd this (Finset.not_mem_empty k)

end SupportIndependence

theorem support_independent_witness :
    (2 : Nat) < 3 ∧ broadcast_support id sample_extract 3 2 ≠ ∅ ∧
      (main_loop id sample_extract 3 0 (broadcast_support id sample_extract 3) 2).support =
        [{0}, {0, 1}, {0, 1, 2}] :=
  ⟨by decide, (support_independent id sample_extract 3 2).2.2 2 (by decide), by decide⟩
/-! ## The two reducers under serialisation -/

/-- C27, counterexample: two existing cycles of equal weight. `cycle_min` keeps the first,
`SerializableMinOddCycleMinOp` the second. -/
theorem reducer_serialize_counterexample :
    serialize (fun F : Finset Nat => (List.range 2).filter (fun i => decide (i ∈ F)))
        (cycle_min (⟨{0}, 1, true⟩ : cycle_t Nat Nat) ⟨{1}, 1, true⟩) = ⟨[0], 1, true⟩ ∧
      SerializableMinOddCycleMinOp
        (serialize (fun F : Finset Nat => (List.range 2).filter (fun i => decide (i ∈ F)))
          (⟨{0}, 1, true⟩ : cycle_t Nat Nat))
        (serialize (fun F : Finset Nat => (List.range 2).filter (fun i => decide (i ∈ F)))
          (⟨{1}, 1, true⟩ : cycle_t Nat Nat)) = ⟨[1], 1, true⟩ := by
  decide

/-- C27, amended. Serialising `cycle_min(c1, c2)` gives a tuple with the weight and the
exists flag of `SerializableMinOddCycleMinOp` applied to the serialisations; the two are
the same tuple unless both cycles exist with equal weights, and then `cycle_min` selects
`c1` and `SerializableMinOddCycleMinOp` the serialisation of `c2`. -/
theorem reducer_serialize {Edge W : Type} [LinearOrder W]
    (to_indices : Finset Edge → List Nat) (c1 c2 : cycle_t Edge W) :
    (serialize to_indices (cycle_min c1 c2)).weight =
        (SerializableMinOddCycleMinOp (serialize to_indices c1)
          (serialize to_indices c2)).weight ∧
      (serialize to_indices (cycle_min c1 c2)).found =
        (SerializableMinOddCycleMinOp (serialize to_indices c1)
          (serialize to_indices c2)).found ∧
      (¬ (c1.found = true ∧ c2.found = true ∧ c1.weight = c2.weight) →
        serialize to_indices (cycle_min c1 c2) =
          SerializableMinOddCycleMinOp (serialize to_indices c1) (serialize to_indices c2)) ∧
      (c1.found = true → c2.found = true → c1.weight = c2.weight →
        serialize to_indices (cycle_min c1 c2) = serialize to_indices c1 ∧
        SerializableMinOddCycleMinOp (serialize to_indices c1) (serialize to_indices c2) =
          serialize to_indices c2) := by
  obtain ⟨e1, w1, f1⟩ := c1
  obtain ⟨e2, w2, f2⟩ := c2
  cases f1 <;> cases f2 <;>
    simp only [cycle_min, SerializableMinOddCycleMinOp, serialize, Bool.not_true,
      Bool.not_false, Bool.or_false, Bool.or_true, Bool.false_or, Bool.true_or, if_true,
      if_false, Bool.false_eq_true, decide_eq_true_eq, Bool.not_eq_true', decide_eq_false_iff_not,
      not_lt, true_and, false_and, and_true, and_false, not_false_eq_true, not_true_eq_false,
      forall_true_left, implies_true, IsEmpty.forall_iff]
  rcases lt_trichotomy w1 w2 with h | h | h
  · have h1 : w1 ≤ w2 := le_of_lt h
    simp only [h1, h, if_true, ne_of_lt h, not_false_eq_true, forall_true_left, and_self,
      IsEmpty.forall_iff, true_and]
  · subst h
    simp only [le_refl, lt_irrefl, if_true, if_false, not_true_eq_false, IsEmpty.forall_iff,
      forall_true_left, and_self, true_and]
  · have h1 : ¬ w1 ≤ w2 := not_le_of_lt h
    have h2 : ¬ w1 < w2 := not_lt_of_lt h
    simp only [h1, h2, if_false, ne_of_gt h, not_false_eq_true, forall_true_left, and_self,
      IsEmpty.forall_iff, true_and]

theorem reducer_serialize_witness :
    serialize (fun F : Finset Nat => (List.range 3).filter (fun i => decide (i ∈ F)))
        (cycle_min (⟨{0, 2}, 3, true⟩ : cycle_t Nat Nat) ⟨{1}, 2, true⟩) =
      SerializableMinOddCycleMinOp
        (serialize (fun F : Finset Nat => (List.range 3).filter (fun i => decide (i ∈ F)))
          (⟨{0, 2}, 3, true⟩ : cycle_t Nat Nat))
        (serialize (fun F : Finset Nat => (List.range 3).filter (fun i => decide (i ∈ F)))
          (⟨{1}, 2, true⟩ : cycle_t Nat Nat)) :=
  (reducer_serialize (fun F : Finset Nat => (List.range 3).filter (fun i => decide (i ∈ F)))
    (⟨{0, 2}, 3, true⟩ : cycle_t Nat Nat) ⟨{1}, 2, true⟩).2.2.1 (by decide)
/-! ## Serialisable candidates -/

/-- C29 (create_serializable_candidate_cycles). For a tree stored at position `t.id()` of
the vector of trees, the serialisable candidates of the tree are, in the same order, the
images under `CandidateCycleToSerializableConverter` of the candidates that
`create_candidate_cycles()` returns for the edges of the graph; each image is the source of
the tree with the forest index of the edge. -/
theorem create_serializable_candidate_cycles_spec {Edge W : Type} [DecidableEq Edge] [Add W]
    (g : Graph Edge) (weight_map : Edge → W) (trees : List (SPTree Edge W))
    (t : SPTree Edge W) (forest_index : Edge → Nat) (graph_edges : List Edge)
    (ht : trees.get? t.id = some t) :
    (t.create_candidate_cycles g weight_map graph_edges).map
        (CandidateCycleToSerializableConverter trees forest_index) =
      (t.create_serializable_candidate_cycles g forest_index graph_edges).map some ∧
    (t.create_serializable_candidate_cycles g forest_index graph_edges) =
      (t.create_candidate_cycles g weight_map graph_edges).map
        (fun c => { v := t.source, e := forest_index c.edge }) := by
  unfold SPTree.create_candidate_cycles SPTree.create_serializable_candidate_cycles
  generalize t.tree_edges t.tree_node_map.length = tree_edges
  induction graph_edges with
  | nil => exact ⟨rfl, rfl⟩
  | cons e rest ih =>
    rw [create_candidate_cycles_loop, create_serializable_candidate_cycles_loop]
    split
    · exact ih
    · split
      · exact ih
      · split
        · exact ih
        · split
          · exact ih
          · simp only [List.map_cons, CandidateCycleToSerializableConverter, ht]
            exact ⟨by rw [ih.1], by rw [ih.2]⟩

theorem create_serializable_candidate_cycles_spec_witness :
    sample_tree.create_serializable_candidate_cycles sample_graph
        (fun e : Fin 6 => e.val + 10) [0, 1, 2, 3, 4, 5] = [⟨0, 12⟩, ⟨0, 14⟩] ∧
      (sample_tree.create_candidate_cycles sample_graph sample_weight
        [0, 1, 2, 3, 4, 5]).map
        (CandidateCycleToSerializableConverter [sample_tree] (fun e : Fin 6 => e.val + 10)) =
      (sample_tree.create_serializable_candidate_cycles sample_graph
        (fun e : Fin 6 => e.val + 10) [0, 1, 2, 3, 4, 5]).map some :=
  ⟨by decide,
    (create_serializable_candidate_cycles_spec sample_graph sample_weight [sample_tree]
      sample_tree (fun e : Fin 6 => e.val + 10) [0, 1, 2, 3, 4, 5] rfl).1⟩
/-! ## Termination of the predecessor walks -/

section WalkTermination

variable {Edge W : Type} [DecidableEq Edge] [LinearOrderedAddCommMonoid W]

/-- A predecessor walk only adds edges to the set it starts from. -/
theorem pred_walk_subset (g : Graph Edge) (weight_map : Edge → W) (t : SPTree Edge W)
    (b : Bool) (limit : W) (fuel : Nat) :
    ∀ (w : Nat) (result : Finset Edge) (cw : W) (valid : Bool) (result' : Finset Edge)
      (cw' : W), pred_walk g weight_map t b limit fuel w result cw =
        some (valid, result', cw') → result ⊆ result' := by
  induction fuel with
  | zero => intro w result cw valid result' cw' h; simp [pred_walk] at h
  | succ fuel ih =>
    intro w result cw valid result' cw' h
    rw [pred_walk] at h
    split at h
    · exact absurd h (by simp)
    · split at h
      · split at h
        · simp only [Option.some.injEq, Prod.mk.injEq] at h
          rw [← h.2.1]
        · split at h
          · simp only [Option.some.injEq, Prod.mk.injEq] at h
            rw [← h.2.1]
            exact Finset.subset_insert _ _
          · exact (Finset.subset_insert _ _).trans (ih _ _ _ _ _ _ h)
      · simp only [Option.some.injEq, Prod.mk.injEq] at h
        rw [← h.2.1]

/-- More fuel does not change the result of a predecessor walk that returns. -/
theorem pred_walk_fuel_le (g : Graph Edge) (weight_map : Edge → W) (t : SPTree Edge W)
    (b : Bool) (limit : W) (fuel : Nat) :
    ∀ (w : Nat) (result : Finset Edge) (cw : W) (r : Bool × Finset Edge × W),
      pred_walk g weight_map t b limit fuel w result cw = some r →
      ∀ fuel', fuel ≤ fuel' → pred_walk g weight_map t b limit fuel' w result cw = some r := by
  induction fuel with
  | zero => intro w result cw r h; simp [pred_walk] at h
  | succ fuel ih =>
    intro w result cw r h fuel' hle
    obtain ⟨k, rfl⟩ : ∃ k, fuel' = k + 1 := ⟨fuel' - 1, by omega⟩
    rw [pred_walk] at h ⊢
    cases hn : t.node w with
    | none => rw [hn] at h; simp at h
    | some ws =>
      rw [hn] at h
      simp only at h ⊢
      split_ifs at h ⊢
      · exact h
      · exact h
      · exact ih _ _ _ _ h k (by omega)
      · exact h

/-- C30 (termination of the cycle reconstruction). For a candidate edge `e` of the graph
and a predecessor assignment, loops included, in which the predecessor edges are edges of
the graph and every vertex reached has a tree node, each of the two predecessor walks of
the builder returns within `|E|` evaluations of its loop condition, hence after at most
`|E|` iterations: the set of collected edges contains `e` from the start and every
iteration but the last adds an edge of the graph that was not in it. More fuel gives the
same results. -/
theorem pred_walks_terminate (g : Graph Edge) (weight_map : Edge → W) (t : SPTree Edge W)
    (e : Edge) (b : Bool) (limit : W)
    (hparent : ∀ v n, t.node v = some n → n.has_pred = true →
      (t.node (g.opposite n.pred v)).isSome = true)
    (hpred : ∀ v n, t.node v = some n → n.has_pred = true → n.pred ∈ g.edges)
    (he : e ∈ g.edges)
    (hx : (t.node (g.source e)).isSome = true) (hy : (t.node (g.target e)).isSome = true) :
    ∃ valid1 result1 weight1 r2,
      pred_walk g weight_map t b limit g.edges.card (g.source e) {e} (weight_map e) =
        some (valid1, result1, weight1) ∧
      pred_walk g weight_map t b limit g.edges.card (g.target e) result1 weight1 = some r2 ∧
      ∀ fuel, g.edges.card ≤ fuel →
        pred_walk g weight_map t b limit fuel (g.source e) {e} (weight_map e) =
          some (valid1, result1, weight1) ∧
        pred_walk g weight_map t b limit fuel (g.target e) result1 weight1 = some r2 := by
  have hfuel : ∀ result : Finset Edge, e ∈ result → (g.edges \ result).card < g.edges.card := by
    intro result her
    apply Finset.card_lt_card
    refine ⟨Finset.sdiff_subset, fun hsub => ?_⟩
    exact (Finset.mem_sdiff.mp (hsub he)).2 her
  obtain ⟨r1, hr1⟩ := Option.isSome_iff_exists.mp
    (pred_walk_isSome g weight_map t b limit hparent hpred g.edges.card (g.source e) {e}
      (weight_map e) hx (hfuel _ (Finset.mem_singleton_self e)))
  obtain ⟨valid1, result1, weight1⟩ := r1
  have hsub := pred_walk_subset g weight_map t b limit _ _ _ _ _ _ _ hr1
  obtain ⟨r2, hr2⟩ := Option.isSome_iff_exists.mp
    (pred_walk_isSome g weight_map t b limit hparent hpred g.edges.card (g.target e) result1
      weight1 hy (hfuel _ (hsub (Finset.mem_singleton_self e))))
  exact ⟨valid1, result1, weight1, r2, hr1, hr2, fun fuel hle =>
    ⟨pred_walk_fuel_le g weight_map t b limit _ _ _ _ _ hr1 fuel hle,
      pred_walk_fuel_le g weight_map t b limit _ _ _ _ _ hr2 fuel hle⟩⟩

theorem pred_walks_terminate_witness :
    pred_walk cyclic_graph (fun _ => 1) cyclic_tree false 0 4 0 {3} 1 =
        some (false, {2, 1, 0, 3}, 4) ∧
      pred_walk cyclic_graph (fun _ => 1) cyclic_tree false 0 3 0 {3} 1 = none ∧
      ∃ valid1 result1 weight1 r2,
        pred_walk cyclic_graph (fun _ => (1 : Nat)) cyclic_tree false 0 cyclic_graph.edges.card
          (cyclic_graph.source 3) {3} 1 = some (valid1, result1, weight1) ∧
        pred_walk cyclic_graph (fun _ => (1 : Nat)) cyclic_tree false 0 cyclic_graph.edges.card
          (cyclic_graph.target 3) result1 weight1 = some r2 ∧
        ∀ fuel, cyclic_graph.edges.card ≤ fuel →
          pred_walk cyclic_graph (fun _ => (1 : Nat)) cyclic_tree false 0 fuel
            (cyclic_graph.source 3) {3} 1 = some (valid1, result1, weight1) ∧
          pred_walk cyclic_graph (fun _ => (1 : Nat)) cyclic_tree false 0 fuel
            (cyclic_graph.target 3) result1 weight1 = some r2 :=
  ⟨by decide, by decide,
    pred_walks_terminate cyclic_graph (fun _ => (1 : Nat)) cyclic_tree 3 false 0
      (fun v n hn _ => by
        have hv : v < 3 := SPTree.node_lt cyclic_tree v n hn
        have : ∀ v, v < 3 → ∀ n, n ∈ cyclic_tree.node v →
            (cyclic_tree.node (cyclic_graph.opposite n.pred v)).isSome = true := by decide
        exact this v hv n hn)
      (fun v n _ _ => Finset.mem_univ _) (Finset.mem_univ _) (by decide) (by decide)⟩

end WalkTermination

/-! ## The branch with a single signed edge -/

section SingleEdge

variable {Edge W : Type} [DecidableEq Edge] [LinearOrder W] [Add W] [Zero W]

/-- C28 (single signed edge). When `support[k]` converts to the single edge `se = (a, b)`
and the signed search from `a` to `b` with `se` hidden returns a found path that does not
contain `se`, the tuple `best` of rank 0 in iteration `k` is the path with `se` added,
marked existing, with the weight of the path plus `w(se)`; its edge set is the `k`-th
cycle written to `out` and its weight is what the iteration adds to `mcb_weight`. -/
theorem single_signed_edge_cycle (g : Graph Edge) (weight_map : Edge → W)
    (wmax indeterminate : W) (to_edges : SpVecGF2 → List Edge)
    (to_indices : Finset Edge → List Nat) (of_indices : List Nat → Finset Edge)
    (search : SignedSearch Edge W) (vertices : List Nat) (size : Nat) (split : Nat → Split)
    (convert_edges : Finset Edge → Finset Nat) (csd k : Nat) (se : Edge)
    (res : cycle_t Edge W) (hk : k < csd)
    (hse : to_edges (broadcast_support convert_edges
      (shortest_odd_cycle_step g weight_map wmax indeterminate to_edges to_indices of_indices
        search vertices size split) csd k) = [se])
    (hres : search ∅ {se} true (g.source se) true (g.target se) true false wmax = res)
    (hf : res.found = true) (hnot : se ∉ res.edges) :
    best_cycle convert_edges
        (shortest_odd_cycle_step g weight_map wmax indeterminate to_edges to_indices of_indices
          search vertices size split) csd k =
        { edges := insert se res.edges, weight := res.weight + weight_map se, found := true } ∧
      (mcb_sva_mpi convert_edges
        (shortest_odd_cycle_step g weight_map wmax indeterminate to_edges to_indices of_indices
          search vertices size split) csd 0).out.getD k ∅ = insert se res.edges ∧
      (main_loop convert_edges
        (shortest_odd_cycle_step g weight_map wmax indeterminate to_edges to_indices of_indices
          search vertices size split) csd 0 (fun _ => ∅) (k + 1)).mcb_weight =
        (main_loop convert_edges
          (shortest_odd_cycle_step g weight_map wmax indeterminate to_edges to_indices
            of_indices search vertices size split) csd 0 (fun _ => ∅) k).mcb_weight +
          (res.weight + weight_map se) := by
  have hbest : best_cycle convert_edges
      (shortest_odd_cycle_step g weight_map wmax indeterminate to_edges to_indices of_indices
        search vertices size split) csd k =
      { edges := insert se res.edges, weight := res.weight + weight_map se,
        found := true } := by
    unfold best_cycle
    rw [shortest_odd_cycle_step, hse]
    simp only [single_edge_step, not_found, if_true, hres, hf, hnot, not_false_eq_true,
      decide_True, Bool.and_self, Bool.not_false, Bool.true_or]
  refine ⟨hbest, ?_, ?_⟩
  · unfold mcb_sva_mpi
    rw [main_loop_rank0, rank0_out_getD _ _ _ _ _ hk, hbest]
  · rw [main_loop_rank0, main_loop_rank0, rank0_state_succ, hbest]

theorem single_signed_edge_cycle_witness :
    best_cycle theta_convert_edges
        (shortest_odd_cycle_step theta_graph theta_weight 1000 0 theta_to_edges
          (fun _ => []) (fun _ => ∅) theta_search [0, 1] 1 (fun _ => Split.block)) 2 0 =
        { edges := insert 1 {0}, weight := 2 + theta_weight 1, found := true } ∧
      (mcb_sva_mpi theta_convert_edges
        (shortest_odd_cycle_step theta_graph theta_weight 1000 0 theta_to_edges
          (fun _ => []) (fun _ => ∅) theta_search [0, 1] 1 (fun _ => Split.block)) 2 0).out.getD
          0 ∅ = insert 1 {0} :=
  ⟨(single_signed_edge_cycle theta_graph theta_weight 1000 0 theta_to_edges
      (fun _ => []) (fun _ => ∅) theta_search [0, 1] 1 (fun _ => Split.block)
      theta_convert_edges 2 0 1 ⟨{0}, 2, true⟩ (by decide) (by decide) (by decide) rfl
      (by decide)).1,
    (single_signed_edge_cycle theta_graph theta_weight 1000 0 theta_to_edges
      (fun _ => []) (fun _ => ∅) theta_search [0, 1] 1 (fun _ => Split.block)
      theta_convert_edges 2 0 1 ⟨{0}, 2, true⟩ (by decide) (by decide) (by decide) rfl
      (by decide)).2.1⟩

end SingleEdge
/-! ## The distributed minimum over the vertices -/

section DistributedMinimum

variable {Edge W : Type} [LinearOrder W]

omit [LinearOrder W] in
theorem min_over_congr [LE W] (m : Nat → Option W) (vs vs' : List Nat) (found : Bool)
    (weight : W) (h : ∀ v, v ∈ vs ↔ v ∈ vs') (hm : min_over m vs found weight) :
    min_over m vs' found weight := by
  obtain ⟨h1, h2⟩ := hm
  refine ⟨?_, fun hf => ?_⟩
  · rw [h1]
    constructor
    · rintro ⟨v, hv, hs⟩
      exact ⟨v, (h v).mp hv, hs⟩
    · rintro ⟨v, hv, hs⟩
      exact ⟨v, (h v).mpr hv, hs⟩
  · obtain ⟨⟨v, hv, he⟩, hle⟩ := h2 hf
    exact ⟨⟨v, (h v).mp hv, he⟩, fun u hu x hx => hle u ((h u).mpr hu) x hx⟩

/-- Combining two minima with a reducer that returns the existing argument when only one
exists and an argument of least weight when both exist gives a minimum over both lists. -/
theorem min_over_append (m : Nat → Option W) (vs1 vs2 : List Nat) (f1 f2 f : Bool)
    (w1 w2 w : W) (h1 : min_over m vs1 f1 w1) (h2 : min_over m vs2 f2 w2)
    (hf : f = (f1 || f2))
    (hw : (f1 = true → f2 = false → w = w1) ∧ (f1 = false → f2 = true → w = w2) ∧
      (f1 = true → f2 = true → (w = w1 ∧ w1 ≤ w2) ∨ (w = w2 ∧ w2 ≤ w1))) :
    min_over m (vs1 ++ vs2) f w := by
  obtain ⟨h1a, h1b⟩ := h1
  obtain ⟨h2a, h2b⟩ := h2
  have hnone1 : f1 = false → ∀ v, v ∈ vs1 → ∀ x, m v = some x → False := by
    intro hf1 v hv x hx
    have : f1 = true := h1a.mpr ⟨v, hv, by rw [hx]; rfl⟩
    rw [hf1] at this
    exact absurd this (by simp)
  have hnone2 : f2 = false → ∀ v, v ∈ vs2 → ∀ x, m v = some x → False := by
    intro hf2 v hv x hx
    have : f2 = true := h2a.mpr ⟨v, hv, by rw [hx]; rfl⟩
    rw [hf2] at this
    exact absurd this (by simp)
  subst hf
  refine ⟨?_, fun hfound => ?_⟩
  · rw [Bool.or_eq_true, h1a, h2a]
    constructor
    · rintro (⟨v, hv, hs⟩ | ⟨v, hv, hs⟩)
      · exact ⟨v, List.mem_append_left _ hv, hs⟩
      · exact ⟨v, List.mem_append_right _ hv, hs⟩
    · rintro ⟨v, hv, hs⟩
      rcases List.mem_append.mp hv with h | h
      · exact Or.inl ⟨v, h, hs⟩
      · exact Or.inr ⟨v, h, hs⟩
  · cases hf1 : f1 <;> cases hf2 : f2
    · rw [hf1, hf2] at hfound
      exact absurd hfound (by simp)
    · obtain ⟨⟨v, hv, he⟩, hle⟩ := h2b hf2
      rw [hw.2.1 hf1 hf2]
      refine ⟨⟨v, List.mem_append_right _ hv, he⟩, fun u hu x hx => ?_⟩
      rcases List.mem_append.mp hu with h | h
      · exact absurd (hnone1 hf1 u h x hx) id
      · exact hle u h x hx
    · obtain ⟨⟨v, hv, he⟩, hle⟩ := h1b hf1
      rw [hw.1 hf1 hf2]
      refine ⟨⟨v, List.mem_append_left _ hv, he⟩, fun u hu x hx => ?_⟩
      rcases List.mem_append.mp hu with h | h
      · exact hle u h x hx
      · exact absurd (hnone2 hf2 u h x hx) id
    · obtain ⟨⟨v1, hv1, he1⟩, hle1⟩ := h1b hf1
      obtain ⟨⟨v2, hv2, he2⟩, hle2⟩ := h2b hf2
      rcases hw.2.2 hf1 hf2 with ⟨hww, hle⟩ | ⟨hww, hle⟩
      · rw [hww]
        refine ⟨⟨v1, List.mem_append_left _ hv1, he1⟩, fun u hu x hx => ?_⟩
        rcases List.mem_append.mp hu with h | h
        · exact hle1 u h x hx
        · exact le_trans hle (hle2 u h x hx)
      · rw [hww]
        refine ⟨⟨v2, List.mem_append_right _ hv2, he2⟩, fun u hu x hx => ?_⟩
        rcases List.mem_append.mp hu with h | h
        · exact le_trans hle (hle1 u h x hx)
        · exact hle2 u h x hx

theorem min_over_cycle_min (m : Nat → Option W) (vs1 vs2 : List Nat) (c1 c2 : cycle_t Edge W)
    (h1 : min_over m vs1 c1.found c1.weight) (h2 : min_over m vs2 c2.found c2.weight) :
    min_over m (vs1 ++ vs2) (cycle_min c1 c2).found (cycle_min c1 c2).weight := by
  apply min_over_append m vs1 vs2 c1.found c2.found _ c1.weight c2.weight _ h1 h2
  · unfold cycle_min
    cases hf1 : c1.found <;> cases hf2 : c2.found <;> simp [hf1, hf2]
    split <;> simp [hf1, hf2]
  · unfold cycle_min
    refine ⟨fun hf1 hf2 => by simp [hf1, hf2], fun hf1 hf2 => by simp [hf1, hf2],
      fun hf1 hf2 => ?_⟩
    simp only [hf1, hf2, Bool.not_true, Bool.or_self, Bool.false_eq_true, if_false,
      Bool.not_eq_true', decide_eq_false_iff_not, not_lt]
    by_cases hle : c1.weight ≤ c2.weight
    · rw [if_pos hle]
      exact Or.inl ⟨rfl, hle⟩
    · rw [if_neg hle]
      exact Or.inr ⟨rfl, le_of_lt (not_le.mp hle)⟩

theorem min_over_min_op (m : Nat → Option W) (vs1 vs2 : List Nat)
    (c1 c2 : SerializableMinOddCycle W)
    (h1 : min_over m vs1 c1.found c1.weight) (h2 : min_over m vs2 c2.found c2.weight) :
    min_over m (vs1 ++ vs2) (SerializableMinOddCycleMinOp c1 c2).found
      (SerializableMinOddCycleMinOp c1 c2).weight := by
  apply min_over_append m vs1 vs2 c1.found c2.found _ c1.weight c2.weight _ h1 h2
  · unfold SerializableMinOddCycleMinOp
    cases hf1 : c1.found <;> cases hf2 : c2.found <;> simp [hf1, hf2]
    split <;> simp [hf1, hf2]
  · unfold SerializableMinOddCycleMinOp
    refine ⟨fun hf1 hf2 => by simp [hf1, hf2], fun hf1 hf2 => by simp [hf1, hf2],
      fun hf1 hf2 => ?_⟩
    simp only [hf1, hf2, Bool.not_true, Bool.or_self, Bool.false_eq_true, if_false]
    by_cases hlt : c1.weight < c2.weight
    · rw [if_pos hlt]
      exact Or.inl ⟨rfl, le_of_lt hlt⟩
    · rw [if_neg hlt]
      exact Or.inr ⟨rfl, not_lt.mp hlt⟩

/-- The scan of one block keeps a minimum: from a minimum over `vs0` it returns a minimum
over `vs0` and the block. -/
theorem vertex_scan_min (search : SignedSearch Edge W) (signed_edges : Finset Edge)
    (m : Nat → Option W) (hc : signed_search_contract search signed_edges m) :
    ∀ (vs vs0 : List Nat) (running_min : cycle_t Edge W),
      min_over m vs0 running_min.found running_min.weight →
      min_over m (vs0 ++ vs) (vertex_scan search signed_edges vs running_min).found
        (vertex_scan search signed_edges vs running_min).weight := by
  intro vs
  induction vs with
  | nil =>
    intro vs0 running_min h
    rw [List.append_nil]
    exact h
  | cons v vs ih =>
    intro vs0 running_min h
    have hstep : min_over m (vs0 ++ [v])
        (if (search signed_edges ∅ false v true v false running_min.found
            running_min.weight).found &&
            (!running_min.found || decide ((search signed_edges ∅ false v true v false
              running_min.found running_min.weight).weight < running_min.weight))
          then search signed_edges ∅ false v true v false running_min.found running_min.weight
          else running_min).found
        (if (search signed_edges ∅ false v true v false running_min.found
            running_min.weight).found &&
            (!running_min.found || decide ((search signed_edges ∅ false v true v false
              running_min.found running_min.weight).weight < running_min.weight))
          then search signed_edges ∅ false v true v false running_min.found running_min.weight
          else running_min).weight := by
      obtain ⟨hc1, hc2⟩ := hc v running_min.found running_min.weight
      generalize search signed_edges ∅ false v true v false running_min.found
        running_min.weight = res at hc1 hc2
      have hv : min_over m [v] (res.found || (m v).isSome)
          (if res.found then res.weight else (m v).getD res.weight) := by
        cases hres : res.found
        · cases hmv : m v with
          | none =>
            refine ⟨by simp [hmv], fun hf => absurd hf (by simp)⟩
          | some x =>
            simp only [Bool.false_or, Option.isSome_some, Bool.false_eq_true, if_false,
              Option.getD_some]
            exact ⟨by simp [hmv], fun _ => ⟨⟨v, List.mem_singleton_self v, hmv⟩,
              fun u hu y hy => by
                rw [List.mem_singleton.mp hu, hmv] at hy
                injection hy with hy
                rw [hy]⟩⟩
        · have hmv := hc1 hres
          simp only [Bool.true_or, if_true]
          exact ⟨by simp [hmv], fun _ => ⟨⟨v, List.mem_singleton_self v, hmv⟩,
            fun u hu y hy => by
              rw [List.mem_singleton.mp hu, hmv] at hy
              injection hy with hy
              rw [hy]⟩⟩
      apply min_over_append m vs0 [v] running_min.found (res.found || (m v).isSome) _
        running_min.weight (if res.found then res.weight else (m v).getD res.weight) _ h hv
      · cases hrm : running_min.found <;> cases hres : res.found
        · -- nothing found so far and no bound: the search fails only when there is no walk
          cases hmv : m v with
          | none => simp [hrm, hres]
          | some x =>
            have := hc2 x hmv (Or.inl hrm)
            rw [hres] at this
            exact absurd this (by simp)
        · simp [hrm, hres]
        · simp [hrm, hres]
        · by_cases hlt : res.weight < running_min.weight <;> simp [hlt, hrm, hres]
      · cases hrm : running_min.found <;> cases hres : res.found
        · refine ⟨fun h => absurd h (by simp), fun _ hmv => ?_, fun h => absurd h (by simp)⟩
          simp only [Bool.false_or] at hmv
          obtain ⟨x, hx⟩ := Option.isSome_iff_exists.mp hmv
          have := hc2 x hx (Or.inl hrm)
          rw [hres] at this
          exact absurd this (by simp)
        · refine ⟨fun h => absurd h (by simp), fun _ _ => by simp [hrm, hres],
            fun h => absurd h (by simp)⟩
        · refine ⟨fun _ _ => by simp [hrm, hres], fun h => absurd h (by simp), fun _ hmv => ?_⟩
          simp only [Bool.false_and, Bool.false_eq_true, if_false]
          left
          refine ⟨trivial, ?_⟩
          simp only [Bool.false_or] at hmv
          obtain ⟨x, hx⟩ := Option.isSome_iff_exists.mp hmv
          rw [hx, Option.getD_some]
          by_contra hnle
          have := hc2 x hx (Or.inr (not_le.mp hnle))
          rw [hres] at this
          exact absurd this (by simp)
        · refine ⟨fun _ h => absurd h (by simp), fun h => absurd h (by simp), fun _ _ => ?_⟩
          simp only [Bool.true_and, Bool.not_true, Bool.false_or, decide_eq_true_eq, if_true,
            hrm]
          by_cases hlt : res.weight < running_min.weight
          · rw [if_pos hlt]
            exact Or.inr ⟨rfl, le_of_lt hlt⟩
          · rw [if_neg hlt]
            exact Or.inl ⟨rfl, not_lt.mp hlt⟩
    have hnext := ih (vs0 ++ [v]) _ hstep
    rw [List.append_assoc, List.singleton_append] at hnext
    rw [vertex_scan]
    split
    · rename_i hcond
      rw [if_pos hcond] at hnext
      exact hnext
    · rename_i hcond
      rw [if_neg hcond] at hnext
      exact hnext

omit [LinearOrder W] in
theorem min_over_nil [LE W] (m : Nat → Option W) (weight : W) :
    min_over m [] false weight :=
  ⟨by simp, fun h => absurd h (by simp)⟩

theorem vertex_reduce_min (search : SignedSearch Edge W) (signed_edges : Finset Edge)
    (wmax : W) (m : Nat → Option W) (hc : signed_search_contract search signed_edges m)
    (split : Split) :
    ∀ vs : List Nat, min_over m vs (vertex_reduce search signed_edges wmax split vs).found
      (vertex_reduce search signed_edges wmax split vs).weight := by
  induction split with
  | block =>
    intro vs
    have := vertex_scan_min search signed_edges m hc vs [] (not_found Edge wmax)
      (min_over_nil m wmax)
    rwa [List.nil_append] at this
  | join k l r ihl ihr =>
    intro vs
    have := min_over_cycle_min m _ _ _ _ (ihl (vs.take k)) (ihr (vs.drop k))
    rwa [List.take_append_drop] at this

/-- The reduce over the communicator gives a minimum over the vertices of all ranks. -/
theorem mpi_reduce_min (m : Nat → Option W) (value : Nat → SerializableMinOddCycle W)
    (vs : Nat → List Nat) (h : ∀ r, min_over m (vs r) (value r).found (value r).weight) :
    ∀ n, min_over m ((List.range (n + 1)).flatMap vs)
      (mpi_reduce SerializableMinOddCycleMinOp value (n + 1)).found
      (mpi_reduce SerializableMinOddCycleMinOp value (n + 1)).weight := by
  intro n
  induction n with
  | zero =>
    have h0 : min_over m (vs 0) (mpi_reduce SerializableMinOddCycleMinOp value (0 + 1)).found
        (mpi_reduce SerializableMinOddCycleMinOp value (0 + 1)).weight := by
      simpa [mpi_reduce] using h 0
    exact min_over_congr m _ _ _ _ (fun v => by simp) h0
  | succ n ih =>
    have hstep := min_over_min_op m _ _ _ _ ih (h (n + 1))
    have hred : mpi_reduce SerializableMinOddCycleMinOp value (n + 1 + 1) =
        SerializableMinOddCycleMinOp (mpi_reduce SerializableMinOddCycleMinOp value (n + 1))
          (value (n + 1)) := by
      unfold mpi_reduce
      simp only [Nat.add_sub_cancel]
      rw [List.range_succ, List.foldl_append]
      rfl
    rw [hred]
    apply min_over_congr m _ _ _ _ _ hstep
    intro v
    rw [List.range_succ (n + 1), List.flatMap_append]
    simp

omit [LinearOrder W] in
/-- Every vertex is a local vertex of some rank, and the local vertices are vertices. -/
theorem mem_local_vertices (vertices : List Nat) (size : Nat) (hs : 1 ≤ size) (v : Nat) :
    v ∈ (List.range size).flatMap (local_vertices vertices size) ↔ v ∈ vertices := by
  simp only [List.mem_flatMap, List.mem_range, local_vertices, List.mem_map]
  constructor
  · rintro ⟨r, _, i, hi, hv⟩
    rw [mem_local_indices] at hi
    rw [← hv, List.getD_eq_getElem _ _ hi.2.2]
    exact List.getElem_mem _
  · intro hv
    obtain ⟨i, hi, hget⟩ := List.getElem_of_mem hv
    have hle := le_size_mul_stride vertices.length size hs
    have hpos : 0 < stride vertices.length size := by
      by_contra h
      have : stride vertices.length size = 0 := by omega
      rw [this] at hle
      omega
    refine ⟨i / stride vertices.length size, ?_, i, ?_, ?_⟩
    · rw [Nat.div_lt_iff_lt_mul hpos]
      omega
    · rw [mem_local_indices]
      have h1 := Nat.div_mul_le_self i (stride vertices.length size)
      have h2 : i < i / stride vertices.length size * stride vertices.length size +
          stride vertices.length size := Nat.lt_div_mul_add hpos
      omega
    · rw [List.getD_eq_getElem _ _ hi, hget]

/-- The tuple `best` of rank 0 after the reduce is a minimum over all vertices. -/
theorem distributed_step_min (wmax indeterminate : W) (to_indices : Finset Edge → List Nat)
    (of_indices : List Nat → Finset Edge) (search : SignedSearch Edge W)
    (vertices : List Nat) (size : Nat) (split : Nat → Split) (signed_edges : Finset Edge)
    (m : Nat → Option W) (hs : 1 ≤ size)
    (hc : signed_search_contract search signed_edges m) :
    min_over m vertices
      (distributed_step wmax indeterminate to_indices of_indices search vertices size split
        signed_edges 0).found
      (distributed_step wmax indeterminate to_indices of_indices search vertices size split
        signed_edges 0).weight := by
  obtain ⟨n, rfl⟩ : ∃ n, size = n + 1 := ⟨size - 1, by omega⟩
  have h := mpi_reduce_min m
    (local_min_odd_cycle wmax to_indices search vertices (n + 1) split signed_edges)
    (local_vertices vertices (n + 1))
    (fun r => vertex_reduce_min search signed_edges wmax m hc (split r) _) n
  simp only [distributed_step, if_true]
  exact min_over_congr m _ _ _ _ (mem_local_vertices vertices (n + 1) hs) h

end DistributedMinimum

section DistributedClaim

variable {Edge W : Type} [DecidableEq Edge] [LinearOrder W] [Add W]

/-- When `signed_edges.size() != 1` the step is the distributed branch. -/
theorem shortest_odd_cycle_step_distributed (g : Graph Edge) (weight_map : Edge → W)
    (wmax indeterminate : W) (to_edges : SpVecGF2 → List Edge)
    (to_indices : Finset Edge → List Nat) (of_indices : List Nat → Finset Edge)
    (search : SignedSearch Edge W) (vertices : List Nat) (size : Nat) (split : Nat → Split)
    (rank k : Nat) (s : SpVecGF2) (hne : (to_edges s).length ≠ 1) :
    shortest_odd_cycle_step g weight_map wmax indeterminate to_edges to_indices of_indices
        search vertices size split rank k s =
      distributed_step wmax indeterminate to_indices of_indices search vertices size split
        (to_edges s).toFinset rank := by
  unfold shortest_odd_cycle_step
  split
  · rename_i se hse
    rw [hse] at hne
    exact absurd rfl hne
  · rfl

/-- C26 (distributed minimum). In the branch `signed_edges.size() != 1`, when the signed
search meets its contract with the minimum odd closed walk weights `m`, for every
communicator size at least 1 and every splitting of the local vertices the tuple `best` of
rank 0 after the reduce exists iff `m` is defined at some vertex of the graph; then its
weight is a value of `m` and at most every value of `m`; and its exists flag and, when it
exists, its weight are those obtained with a communicator of size 1. -/
theorem distributed_minimum (g : Graph Edge) (weight_map : Edge → W)
    (wmax indeterminate : W) (to_edges : SpVecGF2 → List Edge)
    (to_indices : Finset Edge → List Nat) (of_indices : List Nat → Finset Edge)
    (search : SignedSearch Edge W) (vertices : List Nat) (size : Nat)
    (split split1 : Nat → Split) (k : Nat) (s : SpVecGF2) (m : Nat → Option W)
    (hs : 1 ≤ size) (hne : (to_edges s).length ≠ 1)
    (hc : signed_search_contract search (to_edges s).toFinset m) :
    ((shortest_odd_cycle_step g weight_map wmax indeterminate to_edges to_indices of_indices
        search vertices size split 0 k s).found = true ↔
      ∃ v, v ∈ vertices ∧ (m v).isSome = true) ∧
    ((shortest_odd_cycle_step g weight_map wmax indeterminate to_edges to_indices of_indices
        search vertices size split 0 k s).found = true →
      (∃ v, v ∈ vertices ∧ m v = some (shortest_odd_cycle_step g weight_map wmax indeterminate
        to_edges to_indices of_indices search vertices size split 0 k s).weight) ∧
      ∀ v, v ∈ vertices → ∀ x, m v = some x →
        (shortest_odd_cycle_step g weight_map wmax indeterminate to_edges to_indices
          of_indices search vertices size split 0 k s).weight ≤ x) ∧
    (shortest_odd_cycle_step g weight_map wmax indeterminate to_edges to_indices of_indices
        search vertices size split 0 k s).found =
      (shortest_odd_cycle_step g weight_map wmax indeterminate to_edges to_indices of_indices
        search vertices 1 split1 0 k s).found ∧
    ((shortest_odd_cycle_step g weight_map wmax indeterminate to_edges to_indices of_indices
        search vertices size split 0 k s).found = true →
      (shortest_odd_cycle_step g weight_map wmax indeterminate to_edges to_indices of_indices
        search vertices size split 0 k s).weight =
      (shortest_odd_cycle_step g weight_map wmax indeterminate to_edges to_indices of_indices
        search vertices 1 split1 0 k s).weight) := by
  rw [shortest_odd_cycle_step_distributed g weight_map wmax indeterminate to_edges to_indices
      of_indices search vertices size split 0 k s hne,
    shortest_odd_cycle_step_distributed g weight_map wmax indeterminate to_edges to_indices
      of_indices search vertices 1 split1 0 k s hne]
  have hp := distributed_step_min wmax indeterminate to_indices of_indices search vertices size
    split (to_edges s).toFinset m hs hc
  have h1 := distributed_step_min wmax indeterminate to_indices of_indices search vertices 1
    split1 (to_edges s).toFinset m (le_refl 1) hc
  generalize distributed_step wmax indeterminate to_indices of_indices search vertices size
    split (to_edges s).toFinset 0 = bp at hp
  generalize distributed_step wmax indeterminate to_indices of_indices search vertices 1
    split1 (to_edges s).toFinset 0 = b1 at h1
  have hfound : bp.found = b1.found := by
    cases hb : b1.found
    · cases hbp : bp.found
      · rfl
      · have := h1.1.mpr (hp.1.mp hbp)
        rw [hb] at this
        exact absurd this (by simp)
    · exact hp.1.mpr (h1.1.mp hb)
  refine ⟨hp.1, hp.2, hfound, fun hf => ?_⟩
  obtain ⟨⟨v, hv, he⟩, hle⟩ := hp.2 hf
  obtain ⟨⟨v1, hv1, he1⟩, hle1⟩ := h1.2 (by rw [← hfound]; exact hf)
  exact le_antisymm (hle v1 hv1 _ he1) (hle1 v hv _ he)

theorem distributed_minimum_witness :
    ((shortest_odd_cycle_step theta_graph theta_weight 1000 0 theta_to_edges
        (fun _ => []) (fun _ => ∅) theta_vertex_search [0, 1, 2] 2 (fun _ => Split.block) 0 0
        {0, 1}).weight = 5) ∧
      ((shortest_odd_cycle_step theta_graph theta_weight 1000 0 theta_to_edges
        (fun _ => []) (fun _ => ∅) theta_vertex_search [0, 1, 2] 2 (fun _ => Split.block) 0 0
        {0, 1}).found = true ↔
      ∃ v, v ∈ [0, 1, 2] ∧ (theta_walk_weight v).isSome = true) :=
  ⟨by decide,
    (distributed_minimum theta_graph theta_weight 1000 0 theta_to_edges
      (fun _ => []) (fun _ => ∅) theta_vertex_search [0, 1, 2] 2 (fun _ => Split.block)
      (fun _ => Split.block) 0 {0, 1} theta_walk_weight (by decide) (by decide)
      (by
        intro v use_limit limit
        unfold theta_vertex_search theta_walk_weight
        by_cases hv : v = 0 ∨ v = 1
        · by_cases hl : use_limit = true ∧ limit < 5
          · simp only [hv, hl, not_true_eq_false, and_false, if_false, if_true]
            refine ⟨fun h => absurd h (by simp), fun x hx hor => ?_⟩
            injection hx with hx
            rcases hor with h | h
            · exact absurd h (by simp)
            · omega
          · simp only [hv, hl, not_false_eq_true, and_self, if_true, implies_true, and_true]
        · simp only [hv, false_and, if_false]
          exact ⟨fun h => absurd h (by simp), fun x hx => absurd hx (by simp)⟩)).1⟩

end DistributedClaim

/-! ## Tree paths -/

section TreePaths

variable {Edge W : Type}

/-- A path to the root found with some fuel is found with any fuel above its length. -/
theorem SPTree.path_to_root_fuel (g : Graph Edge) (t : SPTree Edge W) (fuel : Nat) :
    ∀ (v : Nat) (p : List Edge), t.path_to_root g fuel v = some p →
      ∀ fuel', p.length < fuel' → t.path_to_root g fuel' v = some p := by
  induction fuel with
  | zero => intro v p h; simp [SPTree.path_to_root] at h
  | succ fuel ih =>
    intro v p h fuel' hlt
    obtain ⟨k, rfl⟩ : ∃ k, fuel' = k + 1 := ⟨fuel' - 1, by omega⟩
    rw [SPTree.path_to_root] at h ⊢
    cases hn : t.node v with
    | none => rw [hn] at h; simp at h
    | some n =>
      rw [hn] at h
      simp only at h ⊢
      by_cases hp : n.has_pred = true
      · rw [if_pos hp] at h ⊢
        obtain ⟨p', hp', hpe⟩ := Option.map_eq_some'.mp h
        subst hpe
        rw [ih _ p' hp' k (by simpa using hlt)]
        rfl
      · rw [if_neg hp] at h ⊢
        exact h

/-- The path to the root does not depend on the fuel. -/
theorem SPTree.path_to_root_unique (g : Graph Edge) (t : SPTree Edge W) (f1 f2 v : Nat)
    (p1 p2 : List Edge) (h1 : t.path_to_root g f1 v = some p1)
    (h2 : t.path_to_root g f2 v = some p2) : p1 = p2 := by
  have a1 := SPTree.path_to_root_fuel g t f1 v p1 h1 (p1.length + p2.length + 1) (by omega)
  have a2 := SPTree.path_to_root_fuel g t f2 v p2 h2 (p1.length + p2.length + 1) (by omega)
  rw [a1] at a2
  injection a2

/-- The first step of a path to the root. -/
theorem SPTree.path_to_root_cons (g : Graph Edge) (t : SPTree Edge W) (fuel v : Nat)
    (a : Edge) (q : List Edge) (h : t.path_to_root g fuel v = some (a :: q)) :
    ∃ n k, t.node v = some n ∧ n.has_pred = true ∧ n.pred = a ∧
      t.path_to_root g k (g.opposite a v) = some q := by
  cases fuel with
  | zero => simp [SPTree.path_to_root] at h
  | succ k =>
    rw [SPTree.path_to_root] at h
    cases hn : t.node v with
    | none => rw [hn] at h; simp at h
    | some n =>
      rw [hn] at h
      simp only at h
      by_cases hp : n.has_pred = true
      · rw [if_pos hp] at h
        obtain ⟨p', hp', hpe⟩ := Option.map_eq_some'.mp h
        injection hpe with h1 h2
        subst h1
        subst h2
        exact ⟨n, k, rfl, hp, rfl, hp'⟩
      · rw [if_neg hp] at h
        injection h with h
        exact absurd h (by simp)

/-- Every edge of a path to the root is the predecessor edge of a vertex whose own path to
the root is the rest of the path from that edge on. -/
theorem SPTree.path_to_root_owner (g : Graph Edge) (t : SPTree Edge W) :
    ∀ (p : List Edge) (v fuel : Nat), t.path_to_root g fuel v = some p → ∀ a, a ∈ p →
      ∃ u q k, t.path_to_root g k u = some (a :: q) ∧ List.IsSuffix (a :: q) p := by
  intro p
  induction p with
  | nil => intro v fuel _ a ha; simp at ha
  | cons b p' ih =>
    intro v fuel h a ha
    rcases List.mem_cons.mp ha with hab | hap
    · subst hab
      exact ⟨v, p', fuel, h, List.suffix_refl _⟩
    · obtain ⟨n, k, _, _, _, hq⟩ := SPTree.path_to_root_cons g t _ v b p' h
      obtain ⟨u, q, k', hu, hsuf⟩ := ih _ k hq a hap
      exact ⟨u, q, k', hu, hsuf.trans (List.suffix_cons b p')⟩

/-- Two vertices with the same predecessor edge, incident to both, that both have a path to
the root are the same vertex. -/
theorem SPTree.pred_injective (g : Graph Edge) (t : SPTree Edge W) (u u' f1 f2 : Nat)
    (a : Edge) (q q' : List Edge)
    (hu : g.source a = u ∨ g.target a = u) (hu' : g.source a = u' ∨ g.target a = u')
    (h1 : t.path_to_root g f1 u = some (a :: q))
    (h2 : t.path_to_root g f2 u' = some (a :: q')) : u = u' := by
  by_contra hne
  obtain ⟨_, k1, _, _, _, hq⟩ := SPTree.path_to_root_cons g t f1 u a q h1
  obtain ⟨_, k2, _, _, _, hq'⟩ := SPTree.path_to_root_cons g t f2 u' a q' h2
  have ho : g.opposite a u = u' := by
    unfold Graph.opposite
    rcases hu with h | h <;> rcases hu' with h' | h'
    · exact absurd (h.symm.trans h') hne
    · rw [if_pos h.symm]; exact h'
    · have hs : ¬ u = g.source a := fun hc => hne (hc.trans h')
      rw [if_neg hs, if_pos h.symm]; exact h'
    · exact absurd (h.symm.trans h') hne
  have ho' : g.opposite a u' = u := by
    unfold Graph.opposite
    rcases hu with h | h <;> rcases hu' with h' | h'
    · exact absurd (h.symm.trans h') hne
    · have hs : ¬ u' = g.source a := fun hc => hne (h.symm.trans hc.symm)
      rw [if_neg hs, if_pos h'.symm]; exact h
    · rw [if_pos h'.symm]; exact h
    · exact absurd (h.symm.trans h') hne
  rw [ho] at hq
  rw [ho'] at hq'
  have e1 := SPTree.path_to_root_unique g t _ _ _ _ _ hq h2
  have e2 := SPTree.path_to_root_unique g t _ _ _ _ _ hq' h1
  have hl1 := congrArg List.length e1
  have hl2 := congrArg List.length e2
  simp only [List.length_cons] at hl1 hl2
  omega

end TreePaths
section TreePathShape

variable {Edge W : Type}

theorem SPTree.path_to_root_head (g : Graph Edge) (t : SPTree Edge W) (fuel v : Nat)
    (p : List Edge) (n : SPNode Edge W) (h : t.path_to_root g fuel v = some p)
    (hn : t.node v = some n) :
    (n.has_pred = true → ∃ rest, p = n.pred :: rest) ∧ (n.has_pred = false → p = []) := by
  cases fuel with
  | zero => simp [SPTree.path_to_root] at h
  | succ k =>
    rw [SPTree.path_to_root, hn] at h
    simp only at h
    by_cases hp : n.has_pred = true
    · rw [if_pos hp] at h
      obtain ⟨p', _, hpe⟩ := Option.map_eq_some'.mp h
      exact ⟨fun _ => ⟨p', hpe.symm⟩, fun hf => absurd hp (by rw [hf]; simp)⟩
    · rw [if_neg hp] at h
      injection h with h
      exact ⟨fun ht => absurd ht hp, fun _ => h.symm⟩

/-- A tree path repeats no edge when the predecessor edges are incident to their
vertices. -/
theorem SPTree.path_to_root_nodup (g : Graph Edge) (t : SPTree Edge W)
    (hinc : t.pred_incident g) :
    ∀ (p : List Edge) (v fuel : Nat), t.path_to_root g fuel v = some p → p.Nodup := by
  intro p
  induction p with
  | nil => intro _ _ _; exact List.nodup_nil
  | cons a p' ih =>
    intro v fuel h
    obtain ⟨n, k, hn, hp, hpa, hq⟩ := SPTree.path_to_root_cons g t _ v a p' h
    refine List.nodup_cons.mpr ⟨fun hmem => ?_, ih _ k hq⟩
    obtain ⟨u, q, k', hu, hsuf⟩ := SPTree.path_to_root_owner g t p' _ k hq a hmem
    obtain ⟨n', _, hn', hp', hpa', _⟩ := SPTree.path_to_root_cons g t _ u a q hu
    have hv := hinc v (SPTree.node_lt t v n hn) n hn hp
    have hu' := hinc u (SPTree.node_lt t u n' hn') n' hn' hp'
    rw [hpa] at hv
    rw [hpa'] at hu'
    have heq := SPTree.pred_injective g t v u _ _ a p' q hv hu' h hu
    subst heq
    have := SPTree.path_to_root_unique g t _ _ _ _ _ h hu
    injection this with _ hq2
    rw [← hq2] at hsuf
    have := hsuf.length_le
    simp only [List.length_cons] at this
    omega

omit W in
theorem suffix_last (s pre : List Edge) (l : Edge) (hs : s ≠ [])
    (h : List.IsSuffix s (pre ++ [l])) : ∃ s', s = s' ++ [l] := by
  obtain ⟨t, ht⟩ := h
  rcases List.eq_nil_or_concat s with h0 | ⟨s', x, hx⟩
  · exact absurd h0 hs
  · rw [List.concat_eq_append] at hx
    rw [hx, ← List.append_assoc] at ht
    have := (List.append_inj' ht rfl).2
    injection this with hxl
    exact ⟨s', by rw [hx, hxl]⟩

/-- Two tree paths that share an edge end with the same edge. -/
theorem SPTree.path_to_root_share (g : Graph Edge) (t : SPTree Edge W)
    (hinc : t.pred_incident g) (v v' f f' : Nat) (pre pre' : List Edge) (l l' a : Edge)
    (h : t.path_to_root g f v = some (pre ++ [l]))
    (h' : t.path_to_root g f' v' = some (pre' ++ [l']))
    (ha : a ∈ pre ++ [l]) (ha' : a ∈ pre' ++ [l']) : l = l' := by
  obtain ⟨u, q, k, hu, hsuf⟩ := SPTree.path_to_root_owner g t _ _ _ h a ha
  obtain ⟨u', q', k', hu', hsuf'⟩ := SPTree.path_to_root_owner g t _ _ _ h' a ha'
  obtain ⟨n, _, hn, hp, hpa, _⟩ := SPTree.path_to_root_cons g t _ u a q hu
  obtain ⟨n', _, hn', hp', hpa', _⟩ := SPTree.path_to_root_cons g t _ u' a q' hu'
  have hv := hinc u (SPTree.node_lt t u n hn) n hn hp
  have hv' := hinc u' (SPTree.node_lt t u' n' hn') n' hn' hp'
  rw [hpa] at hv
  rw [hpa'] at hv'
  have heq := SPTree.pred_injective g t u u' _ _ a q q' hv hv' hu hu'
  subst heq
  have := SPTree.path_to_root_unique g t _ _ _ _ _ hu hu'
  injection this with _ hq2
  subst hq2
  obtain ⟨s1, hs1⟩ := suffix_last _ _ _ (List.cons_ne_nil a q) hsuf
  obtain ⟨s2, hs2⟩ := suffix_last _ _ _ (List.cons_ne_nil a q) hsuf'
  rw [hs1] at hs2
  have := (List.append_inj' hs2 rfl).2
  injection this

/-- On a well-formed tree, the path to the root from a vertex of the subtree of a child `c`
of the source ends with the predecessor edge of `c`. -/
theorem SPTree.path_to_root_subtree {g : Graph Edge} {t : SPTree Edge W} {ch : Forest}
    (hwf : t.well_formed g (Forest.cons t.source ch Forest.nil)) (q : Nat × Forest)
    (hq : q ∈ ch.trees) (u : Nat) (hu : u ∈ q.1 :: q.2.vertices) :
    ∃ pre nc, t.node q.1 = some nc ∧ nc.has_pred = true ∧
      t.path_to_root g t.tree_node_map.length u = some (pre ++ [nc.pred]) := by
  obtain ⟨⟨n0, hn0, hch0⟩, hshape_ch, _⟩ := hwf.shape
  have hn0 : t.node t.source = some n0 := hn0
  have hroot := hwf.root_pred n0 hn0
  have hqroot : q.1 ∈ n0.children := by
    rw [hch0, Forest.roots_eq_trees]
    exact List.mem_map.mpr ⟨q, hq, rfl⟩
  obtain ⟨nc, hnc, hpc, hoc⟩ := hwf.link t.source (SPTree.node_lt t _ n0 hn0) n0 hn0 q.1
    hqroot
  have hnc : t.node q.1 = some nc := hnc
  obtain ⟨d, hd, pre, hP⟩ := SPTree.depth_induction t
    (fun u d => ∃ pre, ∀ fuel, d < fuel →
      t.path_to_root g fuel u = some (pre ++ [nc.pred]))
    (by
      rintro u n x d hn hx ⟨pre, hpre⟩
      obtain ⟨nx, hnx, hp, ho⟩ := hwf.link u (SPTree.node_lt t u n hn) n hn x hx
      have hnx : t.node x = some nx := hnx
      refine ⟨nx.pred :: pre, fun fuel hfuel => ?_⟩
      obtain ⟨fuel', rfl⟩ : ∃ fuel', fuel = fuel' + 1 := ⟨fuel - 1, by omega⟩
      simp only [SPTree.path_to_root, hnx, hp, if_true, ho, hpre fuel' (by omega),
        Option.map_some', List.cons_append])
    (Forest.cons q.1 q.2 Forest.nil) 1 (SPTree.shape_tree t ch hshape_ch q hq)
    (by
      intro r hr
      simp only [Forest.roots, List.mem_singleton] at hr
      refine ⟨[], fun fuel hfuel => ?_⟩
      obtain ⟨fuel', rfl⟩ : ∃ fuel', fuel = fuel' + 2 := ⟨fuel - 2, by omega⟩
      rw [hr]
      simp [SPTree.path_to_root, hnc, hpc, hoc, hn0, hroot])
    u (by simpa [Forest.vertices] using hu)
  refine ⟨pre, nc, hnc, hpc, hP _ ?_⟩
  have h1 := Forest.height_le q.2
  have h2 := (Forest.tree_sublist ch q hq).length_le
  have h3 := SPTree.shape_length t _ hwf.shape hwf.nodup
  simp only [Forest.height, Forest.vertices, List.length_cons, List.append_nil] at hd h2 h3
  omega

/-- On a well-formed tree whose `_first_in_path` is the one `compute_first_in_path`
computes: the entry of the source is the source, and for every other vertex `v` with a tree
node the entry is a vertex other than the source whose predecessor edge ends the path from
`v` to the root. -/
theorem SPTree.first_last_edge {g : Graph Edge} {t : SPTree Edge W} {f : Forest}
    (hwf : t.well_formed g f) (hfp : t.compute_first_in_path = some t) :
    t.first t.source = t.source ∧
    ∀ v, (t.node v).isSome = true → v ≠ t.source →
      t.first v ≠ t.source ∧
      ∃ pre nc, t.node (t.first v) = some nc ∧ nc.has_pred = true ∧
        t.path_to_root g t.tree_node_map.length v = some (pre ++ [nc.pred]) := by
  obtain ⟨ch, hf⟩ := Forest.eq_of_roots_singleton f _ hwf.roots
  subst hf
  obtain ⟨t', hrun, _, _, _, _, hroot, hsub⟩ := SPTree.compute_first_in_path_result hwf
  rw [hfp] at hrun
  injection hrun with hrun
  subst hrun
  refine ⟨hroot, fun v hnode hv => ?_⟩
  obtain ⟨n, hn⟩ := Option.isSome_iff_exists.mp hnode
  have hvf := hwf.cover v (SPTree.node_lt t v n hn) hnode
  simp only [Forest.vertices, List.append_nil, List.mem_cons] at hvf
  rcases hvf with h | h
  · exact absurd h hv
  · obtain ⟨q, hq, hvq⟩ := Forest.mem_vertices_trees ch v h
    rw [hsub q hq v hvq]
    refine ⟨fun hc => ?_, SPTree.path_to_root_subtree hwf q hq v hvq⟩
    have hnd := hwf.nodup
    simp only [Forest.vertices, List.append_nil, List.nodup_cons] at hnd
    apply hnd.1
    rw [← hc]
    exact (Forest.tree_sublist ch q hq).subset (List.mem_cons_self _ _)

end TreePathShape
/-! ## Claims about the first-hop filter and the simple candidates -/

section FirstHop

variable {Edge W : Type} [DecidableEq Edge]

/-- C23, counterexample: a self-loop at the source. Both endpoints are the source, so the
two `_first_in_path` entries are equal and the edge is discarded, but both tree paths are
empty and the closed walk is the edge alone, which repeats nothing. -/
theorem first_hop_filter_counterexample :
    loop_tree.well_formed loop_graph
        (Forest.cons 0 (Forest.cons 1 Forest.nil Forest.nil) Forest.nil) ∧
      loop_tree.compute_first_in_path = some loop_tree ∧
      (1 : Fin 2) ∉ loop_tree.tree_edges 2 ∧
      (loop_tree.node (loop_graph.source 1)).isSome = true ∧
      (loop_tree.node (loop_graph.target 1)).isSome = true ∧
      loop_tree.first (loop_graph.source 1) = loop_tree.first (loop_graph.target 1) ∧
      loop_tree.create_candidate_cycles loop_graph (fun _ => 1) [1] = [] ∧
      loop_tree.path_to_root loop_graph 2 (loop_graph.source 1) = some [] ∧
      loop_tree.path_to_root loop_graph 2 (loop_graph.target 1) = some [] ∧
      (([] : List (Fin 2)).reverse ++ 1 :: []).Nodup :=
  ⟨⟨by decide, by decide, by decide, by decide, by decide, by decide, by decide, by decide⟩,
    by decide, by decide, by decide, by decide, by decide, by decide, by decide, by decide,
    by decide⟩

/-- C23, amended. On a tree as the constructor builds it, for an edge `e = (x, y)` with
both endpoints in the tree that are not both the source, if the `_first_in_path` entries of
`x` and `y` are equal then `create_candidate_cycles` discards `e` and the closed walk made
of the tree path from the root to `x`, the edge `e` and the tree path from `y` to the root
repeats an edge. -/
theorem first_hop_filter_sound [Add W] (g : Graph Edge) (weight_map : Edge → W)
    (t : SPTree Edge W) (f : Forest) (e : Edge)
    (hwf : t.well_formed g f) (hfp : t.compute_first_in_path = some t)
    (hx : (t.node (g.source e)).isSome = true) (hy : (t.node (g.target e)).isSome = true)
    (hns : ¬ (g.source e = t.source ∧ g.target e = t.source))
    (heq : t.first (g.source e) = t.first (g.target e)) :
    t.create_candidate_cycles g weight_map [e] = [] ∧
    ∃ px py, t.path_to_root g t.tree_node_map.length (g.source e) = some px ∧
      t.path_to_root g t.tree_node_map.length (g.target e) = some py ∧
      ¬ (px.reverse ++ e :: py).Nodup := by
  obtain ⟨hroot, hnon⟩ := SPTree.first_last_edge hwf hfp
  obtain ⟨x, hx'⟩ := Option.isSome_iff_exists.mp hx
  obtain ⟨y, hy'⟩ := Option.isSome_iff_exists.mp hy
  constructor
  · unfold SPTree.create_candidate_cycles
    rw [create_candidate_cycles_loop]
    split
    · rfl
    · simp only [hx', hy', hwf.vertex _ (SPTree.node_lt t _ x hx') x hx',
        hwf.vertex _ (SPTree.node_lt t _ y hy') y hy', heq, if_true]
      rfl
  · have hsrc : g.source e ≠ t.source := by
      intro hc
      have htgt : g.target e ≠ t.source := fun h => hns ⟨hc, h⟩
      have h1 := (hnon _ hy htgt).1
      rw [← heq, hc, hroot] at h1
      exact h1 rfl
    have htgt : g.target e ≠ t.source := by
      intro hc
      have h1 := (hnon _ hx hsrc).1
      rw [heq, hc, hroot] at h1
      exact h1 rfl
    obtain ⟨_, pre, nc, hnc, _, hpx⟩ := hnon _ hx hsrc
    obtain ⟨_, pre', nc', hnc', _, hpy⟩ := hnon _ hy htgt
    rw [heq, hnc'] at hnc
    injection hnc with hnc
    subst hnc
    refine ⟨_, _, hpx, hpy, fun hnd => ?_⟩
    rw [List.nodup_append] at hnd
    exact hnd.2.2 (List.mem_reverse.mpr (List.mem_append_right _ (List.mem_singleton_self _)))
      (List.mem_cons_of_mem _ (List.mem_append_right _ (List.mem_singleton_self _)))

theorem first_hop_filter_sound_witness :
    sample_tree.create_candidate_cycles sample_graph sample_weight [5] = [] ∧
      ∃ px py, sample_tree.path_to_root sample_graph sample_tree.tree_node_map.length
          (sample_graph.source 5) = some px ∧
        sample_tree.path_to_root sample_graph sample_tree.tree_node_map.length
          (sample_graph.target 5) = some py ∧
        ¬ (px.reverse ++ 5 :: py).Nodup :=
  first_hop_filter_sound sample_graph sample_weight sample_tree sample_forest 5
    ⟨by decide, by decide, by decide, by decide, by decide, by decide, by decide, by decide⟩
    (by decide) (by decide) (by decide) (by decide) (by decide)

end FirstHop
/-! ## The postcondition of the cycle builder -/

section BuilderPostcondition

variable {Edge W : Type} [DecidableEq Edge] [Add W] [LinearOrder W]

omit [DecidableEq Edge] [Add W] [LinearOrder W] in
theorem mem_scanl_cons {A B : Type} (f : B → A → B) (b : B) (a : A) (l : List A) (x : B) :
    x ∈ List.scanl f b (a :: l) ↔ x = b ∨ x ∈ List.scanl f (f b a) l := by
  rw [List.scanl_cons]
  simp

omit [DecidableEq Edge] [Add W] [LinearOrder W] in
theorem mem_scanl_self {A B : Type} (f : B → A → B) (b : B) (l : List A) :
    b ∈ List.scanl f b l := by
  cases l with
  | nil => simp [List.scanl]
  | cons a l => rw [mem_scanl_cons]; exact Or.inl rfl

omit [DecidableEq Edge] [Add W] [LinearOrder W] in
theorem mem_scanl_append {A B : Type} (f : B → A → B) (l1 l2 : List A) :
    ∀ (b x : B), x ∈ List.scanl f b (l1 ++ l2) ↔
      x ∈ List.scanl f b l1 ∨ x ∈ List.scanl f (List.foldl f b l1) l2 := by
  induction l1 with
  | nil =>
    intro b x
    simp only [List.nil_append, List.foldl_nil, List.scanl_nil, List.mem_singleton]
    constructor
    · exact fun h => Or.inr h
    · rintro (h | h)
      · rw [h]; exact mem_scanl_self f b l2
      · exact h
  | cons a l1 ih =>
    intro b x
    rw [List.cons_append, mem_scanl_cons, mem_scanl_cons, ih, List.foldl_cons, or_assoc]

omit [DecidableEq Edge] [Add W] [LinearOrder W] in
theorem foldl_mem_scanl {A B : Type} (f : B → A → B) (l : List A) :
    ∀ b : B, List.foldl f b l ∈ List.scanl f b l := by
  induction l with
  | nil => intro b; simp [List.scanl]
  | cons a l ih =>
    intro b
    rw [mem_scanl_cons, List.foldl_cons]
    exact Or.inr (ih _)

omit [DecidableEq Edge] [Add W] [LinearOrder W] in
/-- With exact addition the weights accumulated one by one are the start value plus the sum
of the weights. -/
theorem foldl_add_weight {M : Type} [AddMonoid M] (weight_map : Edge → M) (l : List Edge) :
    ∀ c : M, List.foldl (fun acc a => acc + weight_map a) c l =
      c + (l.map weight_map).sum := by
  induction l with
  | nil => intro c; simp
  | cons a l ih =>
    intro c
    rw [List.foldl_cons, ih, List.map_cons, List.sum_cons, add_assoc]

/-- A predecessor walk along a tree path `p`, started with an accumulated weight within the
bound: it ends valid, with the edges of the path added and their weights accumulated, when
the path has no repeated edge, none of its edges is in the set already and no accumulated
weight exceeds the bound; otherwise it ends invalid. -/
theorem pred_walk_of_path (g : Graph Edge) (weight_map : Edge → W) (t : SPTree Edge W)
    (b : Bool) (limit : W) (fuel : Nat) :
    ∀ (w : Nat) (p : List Edge) (result : Finset Edge) (cw : W),
      t.path_to_root g fuel w = some p → (b = true → cw ≤ limit) →
      ((p.Nodup ∧ (∀ a, a ∈ p → a ∉ result) ∧
          (b = true → ∀ acc, acc ∈ List.scanl (fun acc a => acc + weight_map a) cw p →
            acc ≤ limit)) →
        pred_walk g weight_map t b limit fuel w result cw =
          some (true, result ∪ p.toFinset,
            List.foldl (fun acc a => acc + weight_map a) cw p)) ∧
      (¬ (p.Nodup ∧ (∀ a, a ∈ p → a ∉ result) ∧
          (b = true → ∀ acc, acc ∈ List.scanl (fun acc a => acc + weight_map a) cw p →
            acc ≤ limit)) →
        ∃ r c, pred_walk g weight_map t b limit fuel w result cw = some (false, r, c)) := by
  induction fuel with
  | zero => intro w p result cw h; simp [SPTree.path_to_root] at h
  | succ fuel ih =>
    intro w p result cw hp hcw
    rw [SPTree.path_to_root] at hp
    rw [pred_walk]
    cases hn : t.node w with
    | none => rw [hn] at hp; simp at hp
    | some ws =>
      rw [hn] at hp
      simp only at hp ⊢
      by_cases hpred : ws.has_pred = true
      · rw [if_pos hpred] at hp ⊢
        obtain ⟨p', hp', hpe⟩ := Option.map_eq_some'.mp hp
        subst hpe
        by_cases hmem : ws.pred ∈ result
        · rw [if_pos hmem]
          exact ⟨fun hc => absurd hmem (hc.2.1 _ (List.mem_cons_self _ _)),
            fun _ => ⟨_, _, rfl⟩⟩
        · rw [if_neg hmem]
          by_cases hlim : (b && decide (cw + weight_map ws.pred > limit)) = true
          · rw [if_pos hlim]
            refine ⟨fun hc => ?_, fun _ => ⟨_, _, rfl⟩⟩
            simp only [Bool.and_eq_true, decide_eq_true_eq] at hlim
            have := hc.2.2 hlim.1 (cw + weight_map ws.pred) (by
              rw [mem_scanl_cons]
              exact Or.inr (mem_scanl_self _ _ _))
            exact absurd hlim.2 (not_lt_of_le this)
          · rw [if_neg hlim]
            have hcw' : b = true → cw + weight_map ws.pred ≤ limit := by
              intro hb
              simp only [Bool.and_eq_true, decide_eq_true_eq, not_and, not_lt] at hlim
              exact hlim hb
            obtain ⟨ih1, ih2⟩ := ih (g.opposite ws.pred w) p' (insert ws.pred result)
              (cw + weight_map ws.pred) hp' hcw'
            have hiff : (p'.Nodup ∧ (∀ a, a ∈ p' → a ∉ insert ws.pred result) ∧
                (b = true → ∀ acc, acc ∈ List.scanl (fun acc a => acc + weight_map a)
                  (cw + weight_map ws.pred) p' → acc ≤ limit)) ↔
                ((ws.pred :: p').Nodup ∧ (∀ a, a ∈ ws.pred :: p' → a ∉ result) ∧
                (b = true → ∀ acc, acc ∈ List.scanl (fun acc a => acc + weight_map a) cw
                  (ws.pred :: p') → acc ≤ limit)) := by
              constructor
              · rintro ⟨h1, h2, h3⟩
                refine ⟨List.nodup_cons.mpr ⟨fun hin => h2 _ hin (Finset.mem_insert_self _ _),
                  h1⟩, ?_, ?_⟩
                · intro a ha
                  rcases List.mem_cons.mp ha with h | h
                  · rw [h]; exact hmem
                  · exact fun hr => h2 a h (Finset.mem_insert_of_mem hr)
                · intro hb acc hacc
                  rcases (mem_scanl_cons _ _ _ _ _).mp hacc with h | h
                  · rw [h]; exact hcw hb
                  · exact h3 hb acc h
              · rintro ⟨h1, h2, h3⟩
                refine ⟨(List.nodup_cons.mp h1).2, ?_, ?_⟩
                · intro a ha hins
                  rcases Finset.mem_insert.mp hins with h | h
                  · rw [h] at ha
                    exact (List.nodup_cons.mp h1).1 ha
                  · exact h2 a (List.mem_cons_of_mem _ ha) h
                · intro hb acc hacc
                  exact h3 hb acc ((mem_scanl_cons _ _ _ _ _).mpr (Or.inr hacc))
            refine ⟨fun hc => ?_, fun hc => ih2 (fun h => hc (hiff.mp h))⟩
            have hset : insert ws.pred result ∪ p'.toFinset =
                result ∪ (ws.pred :: p').toFinset := by
              ext a
              simp only [Finset.mem_union, Finset.mem_insert, List.mem_toFinset, List.mem_cons]
              constructor
              · rintro ((h | h) | h)
                · exact Or.inr (Or.inl h)
                · exact Or.inl h
                · exact Or.inr (Or.inr h)
              · rintro (h | h | h)
                · exact Or.inl (Or.inr h)
                · exact Or.inl (Or.inl h)
                · exact Or.inr h
            rw [ih1 (hiff.mpr hc), List.foldl_cons, hset]
      · rw [if_neg hpred] at hp ⊢
        injection hp with hp
        subst hp
        refine ⟨fun _ => ?_, fun hc => absurd ⟨List.nodup_nil, fun a ha => by simp at ha,
          fun hb acc hacc => ?_⟩ hc⟩
        · simp
        · simp only [List.scanl_nil, List.mem_singleton] at hacc
          rw [hacc]
          exact hcw hb

end BuilderPostcondition
section BuilderPostconditionClaim

variable {Edge W : Type} [DecidableEq Edge] [Add W] [Zero W] [LinearOrder W]

/-- The builder on a candidate whose two tree paths are known, in terms of the paths: the
weight it returns is the weight of the edge with the weights of the path edges added one by
one in walk order, in any weight type. -/
theorem builder_of_paths (g : Graph Edge) (weight_map : Edge → W)
    (trees : List (SPTree Edge W)) (t : SPTree Edge W) (c : CandidateCycle Edge W)
    (signed_edges : Finset Edge) (b : Bool) (limit : W) (x y : SPNode Edge W)
    (px py : List Edge) (ht : trees.get? c.tree = some t)
    (hx : t.node (g.source c.edge) = some x) (hy : t.node (g.target c.edge) = some y)
    (hpx : t.path_to_root g (g.edges.card + 1) (g.source c.edge) = some px)
    (hpy : t.path_to_root g (g.edges.card + 1) (g.target c.edge) = some py) :
    ((xor (xor x.parity y.parity) (decide (c.edge ∈ signed_edges)) = true ∧
        (c.edge :: (px ++ py)).Nodup ∧
        (b = true → ∀ acc, acc ∈ List.scanl (fun acc a => acc + weight_map a)
          (weight_map c.edge) (px ++ py) → acc ≤ limit)) →
      CandidateCycleBuilder g weight_map trees c signed_edges b limit =
        some { edges := insert c.edge (px ++ py).toFinset
               weight := List.foldl (fun acc a => acc + weight_map a) (weight_map c.edge)
                 (px ++ py)
               found := true }) ∧
    (¬ (xor (xor x.parity y.parity) (decide (c.edge ∈ signed_edges)) = true ∧
        (c.edge :: (px ++ py)).Nodup ∧
        (b = true → ∀ acc, acc ∈ List.scanl (fun acc a => acc + weight_map a)
          (weight_map c.edge) (px ++ py) → acc ≤ limit)) →
      CandidateCycleBuilder g weight_map trees c signed_edges b limit =
        some (sentinel Edge W)) := by
  unfold CandidateCycleBuilder
  rw [ht]
  simp only [hx, hy]
  by_cases htest : xor (xor x.parity y.parity) (decide (c.edge ∈ signed_edges)) = true
  swap
  · rw [if_neg htest]
    exact ⟨fun hc => absurd hc.1 htest, fun _ => rfl⟩
  rw [if_pos htest]
  by_cases hlim : (b && decide (weight_map c.edge > limit)) = true
  · rw [if_pos hlim]
    simp only [Bool.and_eq_true, decide_eq_true_eq] at hlim
    refine ⟨fun hc => ?_, fun _ => rfl⟩
    have := hc.2.2 hlim.1 _ (mem_scanl_self _ _ _)
    exact absurd hlim.2 (not_lt_of_le this)
  rw [if_neg hlim]
  have hcw : b = true → weight_map c.edge ≤ limit := by
    intro hb
    simp only [Bool.and_eq_true, decide_eq_true_eq, not_and, not_lt] at hlim
    exact hlim hb
  obtain ⟨hw1, hw1'⟩ := pred_walk_of_path g weight_map t b limit _ _ px {c.edge}
    (weight_map c.edge) hpx hcw
  by_cases hc1 : px.Nodup ∧ (∀ a, a ∈ px → a ∉ ({c.edge} : Finset Edge)) ∧
      (b = true → ∀ acc, acc ∈ List.scanl (fun acc a => acc + weight_map a)
        (weight_map c.edge) px → acc ≤ limit)
  swap
  · obtain ⟨r, cw, hwalk⟩ := hw1' hc1
    rw [hwalk]
    refine ⟨fun hc => absurd ?_ hc1, fun _ => rfl⟩
    obtain ⟨_, hnd, hacc⟩ := hc
    rw [List.nodup_cons, List.nodup_append] at hnd
    refine ⟨hnd.2.1, ?_, fun hb acc h => hacc hb acc ?_⟩
    · intro a ha hmem
      rw [Finset.mem_singleton] at hmem
      rw [hmem] at ha
      exact hnd.1 (List.mem_append_left _ ha)
    · rw [mem_scanl_append]
      exact Or.inl h
  rw [hw1 hc1]
  simp only [Bool.not_true, Bool.false_eq_true, if_false]
  have hcw1 : b = true → List.foldl (fun acc a => acc + weight_map a) (weight_map c.edge) px ≤
      limit := fun hb => hc1.2.2 hb _ (foldl_mem_scanl _ _ _)
  obtain ⟨hw2, hw2'⟩ := pred_walk_of_path g weight_map t b limit _ _ py
    ({c.edge} ∪ px.toFinset)
    (List.foldl (fun acc a => acc + weight_map a) (weight_map c.edge) px) hpy hcw1
  by_cases hc2 : py.Nodup ∧ (∀ a, a ∈ py → a ∉ ({c.edge} ∪ px.toFinset : Finset Edge)) ∧
      (b = true → ∀ acc, acc ∈ List.scanl (fun acc a => acc + weight_map a)
        (List.foldl (fun acc a => acc + weight_map a) (weight_map c.edge) px) py →
        acc ≤ limit)
  swap
  · obtain ⟨r, cw, hwalk⟩ := hw2' hc2
    rw [hwalk]
    refine ⟨fun hc => absurd ?_ hc2, fun _ => rfl⟩
    obtain ⟨_, hnd, hacc⟩ := hc
    rw [List.nodup_cons, List.nodup_append] at hnd
    refine ⟨hnd.2.2.1, ?_, fun hb acc h => hacc hb acc ?_⟩
    · intro a ha hmem
      rcases Finset.mem_union.mp hmem with h | h
      · rw [Finset.mem_singleton] at h
        rw [h] at ha
        exact hnd.1 (List.mem_append_right _ ha)
      · exact hnd.2.2.2 (List.mem_toFinset.mp h) ha
    · rw [mem_scanl_append]
      exact Or.inr h
  rw [hw2 hc2]
  simp only [Bool.not_true, Bool.false_eq_true, if_false]
  refine ⟨fun _ => ?_, fun hc => absurd ⟨htest, ?_, fun hb acc h => ?_⟩ hc⟩
  · rw [← List.foldl_append]
    congr 2
    ext a
    simp only [Finset.mem_union, Finset.mem_singleton, List.mem_toFinset, Finset.mem_insert,
      List.mem_append, or_assoc]
  · rw [List.nodup_cons, List.nodup_append]
    refine ⟨fun hmem => ?_, hc1.1, hc2.1, fun a ha1 ha2 => ?_⟩
    · rcases List.mem_append.mp hmem with h | h
      · exact hc1.2.1 _ h (Finset.mem_singleton_self _)
      · exact hc2.2.1 _ h (Finset.mem_union_left _ (Finset.mem_singleton_self _))
    · exact hc2.2.1 a ha2 (Finset.mem_union_right _ (List.mem_toFinset.mpr ha1))
  · rcases (mem_scanl_append _ _ _ _ _).mp h with h1 | h1
    · exact hc1.2.2 hb acc h1
    · exact hc2.2.2 hb acc h1

end BuilderPostconditionClaim
section BuilderPostconditionStatement

variable {Edge W : Type} [DecidableEq Edge] [Add W] [Zero W] [LinearOrder W]

/-- C25, counterexample: the candidate of the edge 4 = (2, 0) of the rounding graph, whose
weight is 2^53. The builder adds the weights 1 and 1 of the two predecessor edges one by
one, each sum rounds back to 2^53, and it returns the weight 2^53; the sum of the weights
of the three returned edges is 2^53 + 2, which is a value of the weight type and is what
the addition gives when the two small weights are added first. -/
theorem builder_postcondition_counterexample :
    CandidateCycleBuilder rounding_graph rounding_weight [rounding_tree]
        ⟨0, 4, ⟨9007199254740994⟩⟩ {4} false 0 =
      some { edges := {0, 1, 4}, weight := ⟨9007199254740992⟩, found := true } ∧
    ({0, 1, 4} : Finset (Fin 5)).sum (fun e => (rounding_weight e).val) = 9007199254740994 ∧
    round_to_double 9007199254740994 = 9007199254740994 ∧
    rounding_weight 4 + (rounding_weight 1 + rounding_weight 0) = ⟨9007199254740994⟩ ∧
    (rounding_weight 4 + rounding_weight 1) + rounding_weight 0 = ⟨9007199254740992⟩ :=
  ⟨by decide, by decide, by decide, by decide, by decide⟩

/-- C25, amended (postcondition of `CandidateCycleBuilder`). For a candidate
`(t, e = (x, y))` whose endpoints are tree nodes and whose predecessor walks from `x` and
from `y` reach the root along the edge lists `px` and `py`, the builder returns a result;
its `exists` flag is set iff the parity test is odd, the edges `e`, `px`, `py` are pairwise
different, and (with the weight limit on) none of the accumulated weights exceeds the limit.
In that case the result is the set of `e` and the edges of both walks, and its weight is the
weight of `e` with the weights of the edges of `px` and then of `py` added one by one in the
weight type; in every other case it is the sentinel. This holds for every weight type, with
exact or with rounding addition. -/
theorem builder_postcondition (g : Graph Edge) (weight_map : Edge → W)
    (trees : List (SPTree Edge W)) (t : SPTree Edge W) (c : CandidateCycle Edge W)
    (signed_edges : Finset Edge) (b : Bool) (limit : W) (x y : SPNode Edge W)
    (px py : List Edge) (ht : trees.get? c.tree = some t)
    (hx : t.node (g.source c.edge) = some x) (hy : t.node (g.target c.edge) = some y)
    (hpx : t.path_to_root g (g.edges.card + 1) (g.source c.edge) = some px)
    (hpy : t.path_to_root g (g.edges.card + 1) (g.target c.edge) = some py) :
    ∃ R, CandidateCycleBuilder g weight_map trees c signed_edges b limit = some R ∧
      (R.found = true ↔
        (xor (xor x.parity y.parity) (decide (c.edge ∈ signed_edges)) = true ∧
          (c.edge :: (px ++ py)).Nodup ∧
          (b = true → ∀ acc, acc ∈ List.scanl (fun acc a => acc + weight_map a)
            (weight_map c.edge) (px ++ py) → acc ≤ limit))) ∧
      (R.found = true →
        R = { edges := insert c.edge (px ++ py).toFinset
              weight := List.foldl (fun acc a => acc + weight_map a) (weight_map c.edge)
                (px ++ py)
              found := true }) ∧
      (R.found = false → R = sentinel Edge W) := by
  obtain ⟨hyes, hno⟩ := builder_of_paths g weight_map trees t c signed_edges b limit x y px py
    ht hx hy hpx hpy
  by_cases hc : xor (xor x.parity y.parity) (decide (c.edge ∈ signed_edges)) = true ∧
      (c.edge :: (px ++ py)).Nodup ∧
      (b = true → ∀ acc, acc ∈ List.scanl (fun acc a => acc + weight_map a)
        (weight_map c.edge) (px ++ py) → acc ≤ limit)
  · exact ⟨_, hyes hc, ⟨fun _ => hc, fun _ => rfl⟩, fun _ => rfl,
      fun h => absurd h (by simp)⟩
  · refine ⟨_, hno hc, ⟨fun h => absurd h (by simp [sentinel]), fun h => absurd h hc⟩,
      fun h => absurd h (by simp [sentinel]), fun _ => rfl⟩

/-- Witness of C25 on the rounding graph, with the weight limit 2^53: the candidate of the
edge 4 is accepted with the weight 2^53 that the one-by-one additions give. -/
theorem builder_postcondition_witness :
    (CandidateCycleBuilder rounding_graph rounding_weight [rounding_tree]
        ⟨0, 4, ⟨9007199254740994⟩⟩ {4} true ⟨9007199254740992⟩ =
      some { edges := {0, 1, 4}, weight := ⟨9007199254740992⟩, found := true }) ∧
    ∃ R, CandidateCycleBuilder rounding_graph rounding_weight [rounding_tree]
        ⟨0, 4, ⟨9007199254740994⟩⟩ {4} true ⟨9007199254740992⟩ = some R ∧
      (R.found = true ↔
        (xor (xor false false) (decide ((4 : Fin 5) ∈ ({4} : Finset (Fin 5)))) = true ∧
          ((4 : Fin 5) :: ([1, 0] ++ [])).Nodup ∧
          (true = true → ∀ acc, acc ∈ List.scanl (fun acc a => acc + rounding_weight a)
            (rounding_weight 4) ([1, 0] ++ []) → acc ≤ ⟨9007199254740992⟩))) ∧
      (R.found = true →
        R = { edges := insert 4 ([1, 0] ++ [] : List (Fin 5)).toFinset
              weight := List.foldl (fun acc a => acc + rounding_weight a) (rounding_weight 4)
                ([1, 0] ++ [])
              found := true }) ∧
      (R.found = false → R = sentinel (Fin 5) RoundedWeight) :=
  ⟨by decide,
    builder_postcondition rounding_graph rounding_weight [rounding_tree] rounding_tree
      ⟨0, 4, ⟨9007199254740994⟩⟩ {4} true ⟨9007199254740992⟩ _ _ [1, 0] [] rfl rfl rfl
      (by decide) (by decide)⟩

end BuilderPostconditionStatement
section SimpleCandidates

variable {Edge W : Type} [DecidableEq Edge] [LinearOrderedAddCommMonoid W]

omit [DecidableEq Edge] [LinearOrderedAddCommMonoid W] in
/-- The edges of a tree path are predecessor edges of tree nodes. -/
theorem SPTree.path_to_root_tree_edges (g : Graph Edge) (t : SPTree Edge W) (fuel v : Nat)
    (p : List Edge) (h : t.path_to_root g fuel v = some p) (a : Edge) (ha : a ∈ p) :
    ∃ u n, t.node u = some n ∧ n.has_pred = true ∧ n.pred = a := by
  obtain ⟨u, q, k, hu, _⟩ := SPTree.path_to_root_owner g t p v fuel h a ha
  obtain ⟨n, _, hn, hp, hpa, _⟩ := SPTree.path_to_root_cons g t _ u a q hu
  exact ⟨u, n, hn, hp, hpa⟩

/-- C24 (emitted candidates are simple). On a tree as the constructor builds it, with
predecessor edges that are edges of the graph incident to their vertices, for every
candidate `(t, e = (x, y))` of `create_candidate_cycles` the tree paths from `x` and from
`y` to the root repeat no edge, share no edge and do not contain `e`; the builder without
weight limit then returns the cycle made of `e` and the two paths, with the sum of their
weights, when the parity test is odd, and the sentinel when it is even. -/
theorem candidates_simple (g : Graph Edge) (weight_map : Edge → W)
    (trees : List (SPTree Edge W)) (t : SPTree Edge W) (f : Forest) (edges : List Edge)
    (signed_edges : Finset Edge) (c : CandidateCycle Edge W)
    (hwf : t.well_formed g f) (hfp : t.compute_first_in_path = some t)
    (hinc : t.pred_incident g)
    (hpred : ∀ v, v < t.tree_node_map.length → ∀ n, n ∈ t.node v →
      n.has_pred = true → n.pred ∈ g.edges)
    (ht : trees.get? c.tree = some t)
    (hc : c ∈ t.create_candidate_cycles g weight_map edges) :
    ∃ x y px py, t.node (g.source c.edge) = some x ∧ t.node (g.target c.edge) = some y ∧
      t.path_to_root g t.tree_node_map.length (g.source c.edge) = some px ∧
      t.path_to_root g t.tree_node_map.length (g.target c.edge) = some py ∧
      (c.edge :: (px ++ py)).Nodup ∧
      (xor (xor x.parity y.parity) (decide (c.edge ∈ signed_edges)) = true →
        reconstruct g weight_map trees signed_edges c =
          some { edges := insert c.edge (px ++ py).toFinset
                 weight := weight_map c.edge + ((px ++ py).map weight_map).sum
                 found := true }) ∧
      (xor (xor x.parity y.parity) (decide (c.edge ∈ signed_edges)) = false →
        reconstruct g weight_map trees signed_edges c = some (sentinel Edge W)) := by
  obtain ⟨_, _, hnt, x, y, hx, hy, hfirst, _⟩ :=
    mem_create_candidate_cycles_loop g weight_map t _ edges c hc
  rw [hwf.vertex _ (SPTree.node_lt t _ x hx) x hx,
    hwf.vertex _ (SPTree.node_lt t _ y hy) y hy] at hfirst
  have hxs : (t.node (g.source c.edge)).isSome = true := by rw [hx]; rfl
  have hys : (t.node (g.target c.edge)).isSome = true := by rw [hy]; rfl
  obtain ⟨px, hpx⟩ := Option.isSome_iff_exists.mp (SPTree.path_to_root_isSome hwf _
    (hwf.cover _ (SPTree.node_lt t _ x hx) hxs))
  obtain ⟨py, hpy⟩ := Option.isSome_iff_exists.mp (SPTree.path_to_root_isSome hwf _
    (hwf.cover _ (SPTree.node_lt t _ y hy) hys))
  obtain ⟨hroot, hnon⟩ := SPTree.first_last_edge hwf hfp
  -- the candidate edge is on neither path
  have hnot : ∀ v p, t.path_to_root g t.tree_node_map.length v = some p → c.edge ∉ p := by
    intro v p hp hmem
    obtain ⟨u, n, hn, hhas, hpa⟩ := SPTree.path_to_root_tree_edges g t _ v p hp _ hmem
    exact hnt ((SPTree.mem_tree_edges t c.edge _).mpr
      ⟨u, SPTree.node_lt t u n hn, n, hn, hhas, hpa⟩)
  -- the two paths share no edge
  have hdisj : ∀ a, a ∈ px → a ∈ py → False := by
    intro a hax hay
    have hsrc : g.source c.edge ≠ t.source := by
      intro hs
      have hn0 : t.node t.source = some x := by rw [← hs]; exact hx
      have := (SPTree.path_to_root_head g t _ _ px x hpx hx).2 (hwf.root_pred x hn0)
      rw [this] at hax
      exact absurd hax (List.not_mem_nil a)
    have htgt : g.target c.edge ≠ t.source := by
      intro hs
      have hn0 : t.node t.source = some y := by rw [← hs]; exact hy
      have := (SPTree.path_to_root_head g t _ _ py y hpy hy).2 (hwf.root_pred y hn0)
      rw [this] at hay
      exact absurd hay (List.not_mem_nil a)
    obtain ⟨_, pre, nc, hnc, hpc, hpx'⟩ := hnon _ hxs hsrc
    obtain ⟨_, pre', nc', hnc', hpc', hpy'⟩ := hnon _ hys htgt
    rw [hpx] at hpx'
    rw [hpy] at hpy'
    injection hpx' with hpx'
    injection hpy' with hpy'
    subst hpx'
    subst hpy'
    have hlast := SPTree.path_to_root_share g t hinc _ _ _ _ pre pre' _ _ a hpx hpy hax hay
    have hc1 : (t.node (t.first (g.source c.edge))).isSome = true := by rw [hnc]; rfl
    have hc2 : (t.node (t.first (g.target c.edge))).isSome = true := by rw [hnc']; rfl
    obtain ⟨p1, hp1⟩ := Option.isSome_iff_exists.mp (SPTree.path_to_root_isSome hwf _
      (hwf.cover _ (SPTree.node_lt t _ nc hnc) hc1))
    obtain ⟨p2, hp2⟩ := Option.isSome_iff_exists.mp (SPTree.path_to_root_isSome hwf _
      (hwf.cover _ (SPTree.node_lt t _ nc' hnc') hc2))
    obtain ⟨r1, hr1⟩ := (SPTree.path_to_root_head g t _ _ p1 nc hp1 hnc).1 hpc
    obtain ⟨r2, hr2⟩ := (SPTree.path_to_root_head g t _ _ p2 nc' hp2 hnc').1 hpc'
    rw [hr1] at hp1
    rw [hr2, ← hlast] at hp2
    have hi1 := hinc _ (SPTree.node_lt t _ nc hnc) nc hnc hpc
    have hi2 := hinc _ (SPTree.node_lt t _ nc' hnc') nc' hnc' hpc'
    rw [← hlast] at hi2
    exact hfirst (SPTree.pred_injective g t _ _ _ _ nc.pred r1 r2 hi1 hi2 hp1 hp2)
  have hnd : (c.edge :: (px ++ py)).Nodup := by
    rw [List.nodup_cons, List.nodup_append]
    refine ⟨fun hmem => ?_, SPTree.path_to_root_nodup g t hinc px _ _ hpx,
      SPTree.path_to_root_nodup g t hinc py _ _ hpy, fun a ha hb => hdisj a ha hb⟩
    rcases List.mem_append.mp hmem with h | h
    · exact hnot _ px hpx h
    · exact hnot _ py hpy h
  -- the fuel of the builder is enough
  have hlen : ∀ v p, t.path_to_root g t.tree_node_map.length v = some p →
      t.path_to_root g (g.edges.card + 1) v = some p := by
    intro v p hp
    apply SPTree.path_to_root_fuel g t _ v p hp
    have hsub : p.toFinset ⊆ g.edges := by
      intro a ha
      obtain ⟨u, n, hn, hhas, hpa⟩ := SPTree.path_to_root_tree_edges g t _ v p hp a
        (List.mem_toFinset.mp ha)
      rw [← hpa]
      exact hpred u (SPTree.node_lt t u n hn) n hn hhas
    have hcard := Finset.card_le_card hsub
    rw [List.toFinset_card_of_nodup (SPTree.path_to_root_nodup g t hinc p _ _ hp)] at hcard
    omega
  obtain ⟨hyes, hno⟩ := builder_of_paths g weight_map trees t c signed_edges false 0 x y px py
    ht hx hy (hlen _ px hpx) (hlen _ py hpy)
  refine ⟨x, y, px, py, hx, hy, hpx, hpy, hnd, fun htest => ?_, fun htest => ?_⟩
  · rw [← foldl_add_weight]
    exact hyes ⟨htest, hnd, fun h => absurd h (by simp)⟩
  · exact hno (fun h => by rw [htest] at h; exact absurd h.1 (by simp))

theorem candidates_simple_witness :
    ∃ x y px py, sample_tree_signed.node (sample_graph.source 4) = some x ∧
      sample_tree_signed.node (sample_graph.target 4) = some y ∧
      sample_tree_signed.path_to_root sample_graph sample_tree_signed.tree_node_map.length
        (sample_graph.source 4) = some px ∧
      sample_tree_signed.path_to_root sample_graph sample_tree_signed.tree_node_map.length
        (sample_graph.target 4) = some py ∧
      ((4 : Fin 6) :: (px ++ py)).Nodup ∧
      (xor (xor x.parity y.parity) (decide ((4 : Fin 6) ∈ ({1} : Finset (Fin 6)))) = true →
        reconstruct sample_graph sample_weight [sample_tree_signed] {1} ⟨0, 4, 6⟩ =
          some { edges := insert 4 (px ++ py).toFinset
                 weight := sample_weight 4 + ((px ++ py).map sample_weight).sum
                 found := true }) ∧
      (xor (xor x.parity y.parity) (decide ((4 : Fin 6) ∈ ({1} : Finset (Fin 6)))) = false →
        reconstruct sample_graph sample_weight [sample_tree_signed] {1} ⟨0, 4, 6⟩ =
          some (sentinel (Fin 6) Nat)) :=
  candidates_simple sample_graph sample_weight [sample_tree_signed] sample_tree_signed
    sample_forest [0, 1, 2, 3, 4, 5] {1} ⟨0, 4, 6⟩
    ⟨by decide, by decide, by decide, by decide, by decide, by decide, by decide, by decide⟩
    (by decide) (by decide) (by decide) rfl (by decide)

end SimpleCandidates

/-! ## The order of the candidates -/

section CandidateOrder

variable {Edge W : Type} [DecidableEq Edge] [LinearOrderedAddCommMonoid W]

/-- The unsorted sequential lookup that finds no cycle returns the default-constructed
tuple it starts from. -/
theorem unsorted_scan_not_found (g : Graph Edge) (weight_map : Edge → W)
    (hw : ∀ e, 0 ≤ weight_map e) (trees trees' : List (SPTree Edge W))
    (cycles : List (CandidateCycle Edge W)) (signed_edges : Finset Edge)
    (hupd : update_all_parities signed_edges trees = some trees')
    (hrec : ∀ c, c ∈ cycles →
      (reconstruct g weight_map trees' signed_edges c).isSome = true)
    (R : cycle_t Edge W)
    (hR : compute_shortest_odd_cycle g weight_map trees cycles false signed_edges = some R)
    (hf : R.found = false) : R = { edges := ∅, weight := 0, found := false } := by
  have hB : ∀ c, c ∈ cycles → reconstruct g weight_map trees' signed_edges c =
      some ((reconstruct g weight_map trees' signed_edges c).getD (sentinel Edge W)) := by
    intro c hc
    obtain ⟨R, hR⟩ := Option.isSome_iff_exists.mp (hrec c hc)
    rw [hR]
    rfl
  have hscan := sequential_scan_unsorted_eq g weight_map hw trees' signed_edges _ cycles hB
    { edges := ∅, weight := 0, found := false }
  have hspec := (foldl_keep_min_spec
    (fun c => (reconstruct g weight_map trees' signed_edges c).getD (sentinel Edge W)) cycles
    { edges := ∅, weight := 0, found := false }).1
  unfold compute_shortest_odd_cycle at hR
  rw [hupd] at hR
  simp only at hR
  rw [hscan] at hR
  injection hR with hR
  rw [hR] at hspec
  rcases hspec with h | ⟨c, _, hfc, he⟩
  · exact h
  · rw [he, hfc] at hf
    exact absurd hf (by simp)

/-- C21, counterexample: two candidates of the sample tree that both reconstruct to odd
cycles of weight 4 under the signed edge 1. The unsorted lookup keeps the first cycle of
minimum weight, so the edge set it returns changes when the two candidates are swapped. -/
theorem lookup_order_counterexample :
    sample_tree.weight_consistent sample_graph tie_weight ∧
      List.Perm [(⟨0, 2, 4⟩ : CandidateCycle (Fin 6) Nat), ⟨0, 4, 4⟩]
        [⟨0, 4, 4⟩, ⟨0, 2, 4⟩] ∧
      compute_shortest_odd_cycle sample_graph tie_weight [sample_tree]
        [⟨0, 2, 4⟩, ⟨0, 4, 4⟩] false {1} =
          some { edges := {1, 0, 2}, weight := 4, found := true } ∧
      compute_shortest_odd_cycle sample_graph tie_weight [sample_tree]
        [⟨0, 4, 4⟩, ⟨0, 2, 4⟩] false {1} =
          some { edges := {1, 3, 0, 4}, weight := 4, found := true } ∧
      compute_shortest_odd_cycle sample_graph tie_weight [sample_tree]
        [⟨0, 2, 4⟩, ⟨0, 4, 4⟩] false {1} ≠
      compute_shortest_odd_cycle sample_graph tie_weight [sample_tree]
        [⟨0, 4, 4⟩, ⟨0, 2, 4⟩] false {1} :=
  ⟨by decide, List.Perm.swap _ _ _, by decide, by decide, by decide⟩

/-- C21, amended. With non-negative weights, on trees as the constructor builds them whose
predecessor edges are edges of the graph, and for candidates whose endpoints have tree
nodes, the unsorted lookup returns on a candidate list and on every permutation of it
tuples with the same exists flag and the same weight; the two tuples are equal when no
cycle is found, and when any two candidates that reconstruct to existing cycles of the
same weight reconstruct to the same cycle. -/
theorem lookup_permutation (g : Graph Edge) (weight_map : Edge → W)
    (hw : ∀ e, 0 ≤ weight_map e) (trees : List (SPTree Edge W))
    (cycles cycles' : List (CandidateCycle Edge W)) (signed_edges : Finset Edge)
    (hwf : ∀ t, t ∈ trees → ∃ f, t.well_formed g f)
    (hpred : ∀ t, t ∈ trees → ∀ v, v < t.tree_node_map.length → ∀ n, n ∈ t.node v →
      n.has_pred = true → n.pred ∈ g.edges)
    (hcand : ∀ c, c ∈ cycles → ∃ t, t ∈ trees.get? c.tree ∧
      (t.node (g.source c.edge)).isSome = true ∧ (t.node (g.target c.edge)).isSome = true)
    (hperm : cycles.Perm cycles') :
    ∃ trees' R R', update_all_parities signed_edges trees = some trees' ∧
      compute_shortest_odd_cycle g weight_map trees cycles false signed_edges = some R ∧
      compute_shortest_odd_cycle g weight_map trees cycles' false signed_edges = some R' ∧
      R.found = R'.found ∧ R.weight = R'.weight ∧
      (R.found = false → R = R') ∧
      ((∀ c1 c2 R1 R2, c1 ∈ cycles → c2 ∈ cycles →
          reconstruct g weight_map trees' signed_edges c1 = some R1 →
          reconstruct g weight_map trees' signed_edges c2 = some R2 →
          R1.found = true → R2.found = true → R1.weight = R2.weight → R1 = R2) →
        R = R') := by
  obtain ⟨trees', hupd, _, hrec⟩ :=
    lookup_returns g weight_map trees cycles signed_edges hwf hpred hcand
  have hrec' : ∀ c, c ∈ cycles' →
      (reconstruct g weight_map trees' signed_edges c).isSome = true :=
    fun c hc => hrec c (hperm.mem_iff.mpr hc)
  obtain ⟨R, h1, h2, h3⟩ :=
    unsorted_scan_min g weight_map hw trees trees' cycles signed_edges hupd hrec
  obtain ⟨R', h1', h2', h3'⟩ :=
    unsorted_scan_min g weight_map hw trees trees' cycles' signed_edges hupd hrec'
  have hfound : R.found = R'.found := by
    apply Bool.eq_iff_iff.mpr
    rw [h2, h2']
    constructor
    · rintro ⟨c, hc, h⟩
      exact ⟨c, hperm.mem_iff.mp hc, h⟩
    · rintro ⟨c, hc, h⟩
      exact ⟨c, hperm.mem_iff.mpr hc, h⟩
  have hnone : R.found = false → R = R' := by
    intro hf
    rw [unsorted_scan_not_found g weight_map hw trees trees' cycles signed_edges hupd hrec
        R h1 hf,
      unsorted_scan_not_found g weight_map hw trees trees' cycles' signed_edges hupd hrec'
        R' h1' (by rw [← hfound]; exact hf)]
  refine ⟨trees', R, R', hupd, h1, h1', hfound, ?_, hnone, ?_⟩
  · cases hf : R.found
    · rw [hnone hf]
    · have hf' : R'.found = true := by rw [← hfound]; exact hf
      obtain ⟨⟨c, hc, hcR⟩, hmin⟩ := h3 hf
      obtain ⟨⟨c', hc', hcR'⟩, hmin'⟩ := h3' hf'
      exact le_antisymm (hmin c' (hperm.mem_iff.mpr hc') R' hcR' hf')
        (hmin' c (hperm.mem_iff.mp hc) R hcR hf)
  · intro htie
    cases hf : R.found
    · exact hnone hf
    · have hf' : R'.found = true := by rw [← hfound]; exact hf
      obtain ⟨⟨c, hc, hcR⟩, hmin⟩ := h3 hf
      obtain ⟨⟨c', hc', hcR'⟩, hmin'⟩ := h3' hf'
      exact htie c c' R R' hc (hperm.mem_iff.mpr hc') hcR hcR' hf hf'
        (le_antisymm (hmin c' (hperm.mem_iff.mpr hc') R' hcR' hf')
          (hmin' c (hperm.mem_iff.mp hc) R hcR hf))

theorem lookup_permutation_witness :
    List.Perm [(⟨0, 4, 6⟩ : CandidateCycle (Fin 6) Nat), ⟨0, 2, 3⟩] [⟨0, 2, 3⟩, ⟨0, 4, 6⟩] ∧
      ∃ trees' R R', update_all_parities {1} [sample_tree] = some trees' ∧
        compute_shortest_odd_cycle sample_graph sample_weight [sample_tree]
          [⟨0, 4, 6⟩, ⟨0, 2, 3⟩] false {1} = some R ∧
        compute_shortest_odd_cycle sample_graph sample_weight [sample_tree]
          [⟨0, 2, 3⟩, ⟨0, 4, 6⟩] false {1} = some R' ∧
        R.found = R'.found ∧ R.weight = R'.weight ∧
        (R.found = false → R = R') ∧
        ((∀ c1 c2 R1 R2, c1 ∈ [(⟨0, 4, 6⟩ : CandidateCycle (Fin 6) Nat), ⟨0, 2, 3⟩] →
            c2 ∈ [(⟨0, 4, 6⟩ : CandidateCycle (Fin 6) Nat), ⟨0, 2, 3⟩] →
            reconstruct sample_graph sample_weight trees' {1} c1 = some R1 →
            reconstruct sample_graph sample_weight trees' {1} c2 = some R2 →
            R1.found = true → R2.found = true → R1.weight = R2.weight → R1 = R2) →
          R = R') :=
  ⟨List.Perm.swap _ _ _,
    lookup_permutation sample_graph sample_weight (fun e => Nat.zero_le _)
      [sample_tree] [⟨0, 4, 6⟩, ⟨0, 2, 3⟩] [⟨0, 2, 3⟩, ⟨0, 4, 6⟩] {1}
      (fun t ht => ⟨sample_forest, by
        rw [List.mem_singleton.mp ht]
        exact ⟨by decide, by decide, by decide, by decide, by decide, by decide, by decide,
          by decide⟩⟩)
      (by decide) (by decide) (List.Perm.swap _ _ _)⟩

end CandidateOrder

/-! ## The lookup with rounding weights -/

/-- C18, counterexample: on the rounding graph the candidate of the edge 4 = (2, 0) carries
the weight `w(e) + d(x) + d(y) = 2^53 + 2`, the node weight `d(x) = 2` being summed from
the root, while the builder sums from the edge towards the root, `(2^53 + 1) + 1`, and
returns the existing cycle with weight 2^53, which is less. -/
theorem builder_weight_lower_bound_counterexample :
    rounding_tree.well_formed rounding_graph rounding_forest ∧
    rounding_tree.weight_consistent rounding_graph rounding_weight ∧
    (⟨0, 4, ⟨9007199254740994⟩⟩ : CandidateCycle (Fin 5) RoundedWeight) ∈
      rounding_tree.create_candidate_cycles rounding_graph rounding_weight [0, 1, 2, 3, 4] ∧
    CandidateCycleBuilder rounding_graph rounding_weight [rounding_tree]
        ⟨0, 4, ⟨9007199254740994⟩⟩ {4} false 0 =
      some { edges := {0, 1, 4}, weight := ⟨9007199254740992⟩, found := true } ∧
    ¬ ((⟨9007199254740994⟩ : RoundedWeight) ≤ ⟨9007199254740992⟩) :=
  ⟨⟨by decide, by decide, by decide, by decide, by decide, by decide, by decide, by decide⟩,
    by decide, by decide, by decide, by decide⟩

/-- C16, counterexample: on the rounding graph the candidates of the edges 3 and 4, as
`create_candidate_cycles` lists them, both carry the weight 2^53 + 2, so the list is sorted.
With the signed edges 3 and 4 both are valid; the first reconstructs to weight 2^53 + 2 and
the second to weight 2^53. The sorted lookup returns the first, the full scan the
second. -/
theorem sorted_cycles_fast_path_counterexample :
    (∀ e, 0 ≤ rounding_weight e) ∧
    rounding_tree.well_formed rounding_graph rounding_forest ∧
    rounding_tree.weight_consistent rounding_graph rounding_weight ∧
    rounding_tree.create_candidate_cycles rounding_graph rounding_weight [0, 1, 2, 3, 4] =
      [⟨0, 3, ⟨9007199254740994⟩⟩, ⟨0, 4, ⟨9007199254740994⟩⟩] ∧
    List.Pairwise (fun a b => a.weight ≤ b.weight)
      [(⟨0, 3, ⟨9007199254740994⟩⟩ : CandidateCycle (Fin 5) RoundedWeight),
        ⟨0, 4, ⟨9007199254740994⟩⟩] ∧
    compute_shortest_odd_cycle rounding_graph rounding_weight [rounding_tree]
        [⟨0, 3, ⟨9007199254740994⟩⟩, ⟨0, 4, ⟨9007199254740994⟩⟩] true {3, 4} =
      some { edges := {2, 3}, weight := ⟨9007199254740994⟩, found := true } ∧
    compute_shortest_odd_cycle rounding_graph rounding_weight [rounding_tree]
        [⟨0, 3, ⟨9007199254740994⟩⟩, ⟨0, 4, ⟨9007199254740994⟩⟩] false {3, 4} =
      some { edges := {0, 1, 4}, weight := ⟨9007199254740992⟩, found := true } ∧
    (⟨9007199254740994⟩ : RoundedWeight) ≠ ⟨9007199254740992⟩ :=
  ⟨by decide,
    ⟨by decide, by decide, by decide, by decide, by decide, by decide, by decide, by decide⟩,
    by decide, by decide, by decide, by decide, by decide, by decide⟩

/-! ## Minimum cycle basis of the embedded step -/

section Walks

variable {Edge : Type} [DecidableEq Edge]

theorem odd_edges_subset (p : List Edge) : odd_edges p ⊆ p.toFinset := by
  induction p with
  | nil => simp [odd_edges]
  | cons e es ih =>
    intro x hx
    rw [odd_edges, Finset.mem_symmDiff] at hx
    rw [List.toFinset_cons, Finset.mem_insert]
    rcases hx with h | h
    · exact Or.inl (Finset.mem_singleton.mp h.1)
    · exact Or.inr (ih h.1)

theorem odd_edges_of_nodup (p : List Edge) (h : p.Nodup) : odd_edges p = p.toFinset := by
  induction p with
  | nil => simp [odd_edges]
  | cons e es ih =>
    rw [List.nodup_cons] at h
    rw [odd_edges, ih h.2, List.toFinset_cons]
    ext x
    simp only [Finset.mem_symmDiff, Finset.mem_singleton, List.mem_toFinset, Finset.mem_insert]
    constructor
    · rintro (h1 | h1)
      · exact Or.inl h1.1
      · exact Or.inr h1.1
    · rintro (h1 | h1)
      · exact Or.inl ⟨h1, fun hx => h.1 (h1 ▸ hx)⟩
      · exact Or.inr ⟨h1, fun hx => h.1 (hx ▸ h1)⟩

omit [DecidableEq Edge] in
theorem Graph.walk_subset (g : Graph Edge) (p : List Edge) :
    ∀ u v, g.walk u p v → ∀ e, e ∈ p → e ∈ g.edges := by
  induction p with
  | nil => intro u v _ e he; exact absurd he (List.not_mem_nil e)
  | cons a p ih =>
    intro u v h e he
    rw [Graph.walk] at h
    rcases List.mem_cons.mp he with h1 | h1
    · rw [h1]; exact h.1
    · exact ih _ _ h.2.2 e h1

theorem Graph.degree_singleton (g : Graph Edge) (e : Edge) (x : Nat) :
    g.degree {e} x = (if g.source e = x then 1 else 0) + (if g.target e = x then 1 else 0) := by
  unfold Graph.degree
  rw [Finset.filter_singleton, Finset.filter_singleton]
  by_cases h1 : g.source e = x <;> by_cases h2 : g.target e = x <;> simp [h1, h2]

/-- The degrees of the odd edges of a walk are odd at its two ends, when they differ, and
even everywhere else. -/
theorem Graph.walk_degree (g : Graph Edge) (p : List Edge) :
    ∀ u v, g.walk u p v → ∀ x,
      g.degree (odd_edges p) x % 2 =
        ((if u = x then 1 else 0) + (if v = x then 1 else 0)) % 2 := by
  induction p with
  | nil =>
    intro u v h x
    rw [Graph.walk] at h
    subst h
    unfold odd_edges Graph.degree
    by_cases hx : u = x <;> simp [hx]
  | cons e p ih =>
    intro u v h x
    rw [Graph.walk] at h
    obtain ⟨_, hinc, hw⟩ := h
    have h1 := ih _ _ hw x
    rw [odd_edges, Graph.degree_symmDiff, Graph.degree_singleton]
    unfold Graph.opposite at h1
    by_cases hs : u = g.source e
    · rw [if_pos hs] at h1
      subst hs
      split_ifs at h1 ⊢ <;> omega
    · rw [if_neg hs] at h1
      have ht : u = g.target e := by
        rcases hinc with h | h
        · exact absurd h.symm hs
        · exact h.symm
      rw [if_pos ht] at h1
      subst ht
      split_ifs at h1 ⊢ <;> omega

end Walks

section WalkParity

variable {Edge : Type} [DecidableEq Edge]

theorem inter_symmDiff_distrib {α : Type} [DecidableEq α] (x y S : Finset α) :
    symmDiff x y ∩ S = symmDiff (x ∩ S) (y ∩ S) := by
  ext a
  simp only [Finset.mem_inter, Finset.mem_symmDiff]
  constructor
  · rintro ⟨h | h, hs⟩
    · exact Or.inl ⟨⟨h.1, hs⟩, fun h' => h.2 h'.1⟩
    · exact Or.inr ⟨⟨h.1, hs⟩, fun h' => h.2 h'.1⟩
  · rintro (⟨⟨h1, hs⟩, h2⟩ | ⟨⟨h1, hs⟩, h2⟩)
    · exact ⟨Or.inl ⟨h1, fun h' => h2 ⟨h', hs⟩⟩, hs⟩
    · exact ⟨Or.inr ⟨h1, fun h' => h2 ⟨h', hs⟩⟩, hs⟩

/-- The number of signed edges among the odd edges of a list has the parity of the number
of signed entries of the list. -/
theorem odd_edges_inter_card (S : Finset Edge) (p : List Edge) :
    (odd_edges p ∩ S).card % 2 = (p.filter (fun e => decide (e ∈ S))).length % 2 := by
  induction p with
  | nil => simp [odd_edges]
  | cons e es ih =>
    rw [odd_edges, inter_symmDiff_distrib]
    have hc := card_symmDiff_add ({e} ∩ S) (odd_edges es ∩ S)
    by_cases he : e ∈ S
    · have h1 : ({e} ∩ S : Finset Edge) = {e} := by
        ext a
        simp only [Finset.mem_inter, Finset.mem_singleton]
        exact ⟨fun h => h.1, fun h => ⟨h, h ▸ he⟩⟩
      rw [h1] at hc ⊢
      rw [List.filter_cons_of_pos (by simpa using he), List.length_cons]
      rw [Finset.card_singleton] at hc
      omega
    · have h1 : ({e} ∩ S : Finset Edge) = ∅ := by
        ext a
        simp only [Finset.mem_inter, Finset.mem_singleton, Finset.not_mem_empty, iff_false,
          not_and]
        exact fun h => h ▸ he
      rw [h1] at hc ⊢
      rw [List.filter_cons_of_neg (by simpa using he)]
      rw [Finset.card_empty] at hc
      simp only [Finset.empty_inter, Finset.card_empty] at hc
      omega

theorem signed_parity_iff (S : Finset Edge) (p : List Edge) :
    signed_parity S p = true ↔ (odd_edges p ∩ S).card % 2 = 1 := by
  unfold signed_parity
  rw [decide_eq_true_eq, odd_edges_inter_card]

/-- The odd edges of a closed walk are an element of the cycle space. -/
theorem Graph.closed_walk_in_cycle_space (g : Graph Edge) (p : List Edge) (v : Nat)
    (h : g.walk v p v) : g.in_cycle_space (odd_edges p) := by
  rw [Graph.in_cycle_space_iff]
  refine ⟨fun e he => g.walk_subset p v v h e (List.mem_toFinset.mp (odd_edges_subset p he)),
    fun x => ?_⟩
  rw [g.walk_degree p v v h x]
  split_ifs <;> rfl

/-- An element of the cycle space with an odd number of signed edges contains a cycle with
an odd number of signed edges. -/
theorem Graph.exists_odd_cycle (g : Graph Edge) (S : Finset Edge) :
    ∀ (n : Nat) (Z : Finset Edge), Z.card ≤ n → g.in_cycle_space Z → (Z ∩ S).card % 2 = 1 →
      ∃ D, D ⊆ Z ∧ g.is_cycle D ∧ (D ∩ S).card % 2 = 1 := by
  intro n
  induction n with
  | zero =>
    intro Z hn _ hodd
    have : Z = ∅ := Finset.card_eq_zero.mp (Nat.le_zero.mp hn)
    rw [this] at hodd
    simp at hodd
  | succ n ih =>
    intro Z hn hZ hodd
    have hne : Z.Nonempty := by
      rw [Finset.nonempty_iff_ne_empty]
      intro h
      rw [h] at hodd
      simp at hodd
    by_cases hcyc : g.is_cycle Z
    · exact ⟨Z, Finset.Subset.refl Z, hcyc, hodd⟩
    · unfold Graph.is_cycle at hcyc
      push_neg at hcyc
      obtain ⟨F, hF, hFne, hFc, hFZ⟩ := hcyc hne hZ
      have hsub : F ⊆ Z := Finset.mem_powerset.mp hF
      have hlt : F.card < Z.card :=
        Finset.card_lt_card (Finset.ssubset_iff_subset_ne.mpr ⟨hsub, hFZ⟩)
      have hsd : symmDiff Z F = Z \ F := by
        ext a
        simp only [Finset.mem_symmDiff, Finset.mem_sdiff]
        constructor
        · rintro (h | h)
          · exact h
          · exact absurd (hsub h.1) h.2
        · exact fun h => Or.inl h
      have hZF : g.in_cycle_space (Z \ F) := by
        rw [← hsd]
        exact g.in_cycle_space_symmDiff Z F hZ hFc
      have hlt' : (Z \ F).card < Z.card := by
        apply Finset.card_lt_card
        rw [Finset.ssubset_iff_subset_ne]
        refine ⟨Finset.sdiff_subset, fun h => ?_⟩
        obtain ⟨a, ha⟩ := hFne
        have : a ∈ Z \ F := by rw [h]; exact hsub ha
        exact (Finset.mem_sdiff.mp this).2 ha
      have hsplit : (Z ∩ S).card = (F ∩ S).card + ((Z \ F) ∩ S).card := by
        rw [← Finset.card_union_of_disjoint]
        · congr 1
          ext a
          simp only [Finset.mem_inter, Finset.mem_union, Finset.mem_sdiff]
          constructor
          · rintro ⟨h1, h2⟩
            by_cases ha : a ∈ F
            · exact Or.inl ⟨ha, h2⟩
            · exact Or.inr ⟨⟨h1, ha⟩, h2⟩
          · rintro (⟨h1, h2⟩ | ⟨⟨h1, _⟩, h2⟩)
            · exact ⟨hsub h1, h2⟩
            · exact ⟨h1, h2⟩
        · rw [Finset.disjoint_left]
          intro a h1 h2
          exact (Finset.mem_sdiff.mp (Finset.mem_inter.mp h2).1).2 (Finset.mem_inter.mp h1).1
      by_cases hFodd : (F ∩ S).card % 2 = 1
      · obtain ⟨D, hD, hDc, hDo⟩ := ih F (by omega) hFc hFodd
        exact ⟨D, hD.trans hsub, hDc, hDo⟩
      · obtain ⟨D, hD, hDc, hDo⟩ := ih (Z \ F) (by omega) hZF (by omega)
        exact ⟨D, hD.trans Finset.sdiff_subset, hDc, hDo⟩

end WalkParity

section WalkWeight

variable {Edge W : Type} [DecidableEq Edge] [LinearOrderedCancelAddCommMonoid W]

/-- With non-negative weights the edge set of a list weighs at most the list. -/
theorem sum_toFinset_le (w : Edge → W) (p : List Edge) (hw : ∀ e, e ∈ p → 0 ≤ w e) :
    p.toFinset.sum w ≤ (p.map w).sum := by
  induction p with
  | nil => simp
  | cons e es ih =>
    have ih1 := ih (fun a ha => hw a (List.mem_cons_of_mem e ha))
    rw [List.toFinset_cons, List.map_cons, List.sum_cons]
    by_cases he : e ∈ es.toFinset
    · rw [Finset.insert_eq_of_mem he]
      exact ih1.trans (le_add_of_nonneg_left (hw e (List.mem_cons_self e es)))
    · rw [Finset.sum_insert he]
      exact add_le_add_left ih1 _

theorem sum_toFinset_of_nodup (w : Edge → W) (p : List Edge) (h : p.Nodup) :
    p.toFinset.sum w = (p.map w).sum := by
  rw [List.sum_toFinset w h]

/-- With positive weights, a list that weighs at most a subset of its edge set has this
subset as its edge set, and weighs the same. -/
theorem toFinset_eq_of_sum_le (w : Edge → W) (p : List Edge) (D : Finset Edge)
    (hpos : ∀ e, e ∈ p → 0 < w e) (hD : D ⊆ p.toFinset) (hle : (p.map w).sum ≤ D.sum w) :
    p.toFinset = D ∧ (p.map w).sum = D.sum w := by
  have h1 := sum_toFinset_le w p (fun e he => le_of_lt (hpos e he))
  have h2 : D.sum w ≤ p.toFinset.sum w :=
    Finset.sum_le_sum_of_subset_of_nonneg hD
      (fun e he _ => le_of_lt (hpos e (List.mem_toFinset.mp he)))
  have heq : p.toFinset = D := by
    by_contra hne
    have hss : D ⊂ p.toFinset :=
      Finset.ssubset_iff_subset_ne.mpr ⟨hD, fun h => hne h.symm⟩
    obtain ⟨a, ha, hna⟩ := Finset.exists_of_ssubset hss
    have hlt : D.sum w < p.toFinset.sum w :=
      Finset.sum_lt_sum_of_subset hD ha hna (hpos a (List.mem_toFinset.mp ha))
        (fun e he _ => le_of_lt (hpos e (List.mem_toFinset.mp he)))
    exact absurd (hlt.trans_le (h1.trans hle)) (lt_irrefl _)
  refine ⟨heq, le_antisymm hle ?_⟩
  rw [← heq]
  exact h1

end WalkWeight

section CycleWalk

variable {Edge : Type} [DecidableEq Edge]

theorem symmDiff_eq_sdiff {α : Type} [DecidableEq α] (Z F : Finset α) (h : F ⊆ Z) :
    symmDiff Z F = Z \ F := by
  ext a
  simp only [Finset.mem_symmDiff, Finset.mem_sdiff]
  constructor
  · rintro (h1 | h1)
    · exact h1
    · exact absurd (h h1.1) h1.2
  · exact fun h1 => Or.inl h1

omit [DecidableEq Edge] in
theorem Graph.opposite_target (g : Graph Edge) (e : Edge) :
    g.opposite e (g.target e) = g.source e := by
  unfold Graph.opposite
  by_cases h : g.target e = g.source e
  · rw [if_pos h, h]
  · rw [if_neg h, if_pos rfl]

omit [DecidableEq Edge] in
theorem Graph.opposite_source (g : Graph Edge) (e : Edge) :
    g.opposite e (g.source e) = g.target e := by
  unfold Graph.opposite
  rw [if_pos rfl]

omit [DecidableEq Edge] in
theorem Graph.opposite_opposite (g : Graph Edge) (e : Edge) (x : Nat)
    (h : g.source e = x ∨ g.target e = x) :
    (g.source e = g.opposite e x ∨ g.target e = g.opposite e x) ∧
      g.opposite e (g.opposite e x) = x := by
  rcases h with h | h
  · rw [← h, g.opposite_source, g.opposite_target]
    exact ⟨Or.inr rfl, rfl⟩
  · rw [← h, g.opposite_target, g.opposite_source]
    exact ⟨Or.inl rfl, rfl⟩

/-- A set of edges with odd degree at a vertex has an edge at this vertex. -/
theorem Graph.exists_edge_of_degree (g : Graph Edge) (R : Finset Edge) (x : Nat)
    (h : g.degree R x % 2 = 1) : ∃ f, f ∈ R ∧ (g.source f = x ∨ g.target f = x) := by
  unfold Graph.degree at h
  by_cases h1 : (R.filter (fun e => g.source e = x)).Nonempty
  · obtain ⟨f, hf⟩ := h1
    rw [Finset.mem_filter] at hf
    exact ⟨f, hf.1, Or.inl hf.2⟩
  · by_cases h2 : (R.filter (fun e => g.target e = x)).Nonempty
    · obtain ⟨f, hf⟩ := h2
      rw [Finset.mem_filter] at hf
      exact ⟨f, hf.1, Or.inr hf.2⟩
    · rw [Finset.not_nonempty_iff_eq_empty] at h1 h2
      rw [h1, h2] at h
      simp at h

/-- A trail inside a cycle without the edge `e` that ends at the target of `e` extends to
one that starts at the source of `e`. -/
theorem Graph.trail_extend (g : Graph Edge) (D : Finset Edge) (hD : g.in_cycle_space D)
    (e : Edge) (he : e ∈ D) :
    ∀ (n : Nat) (q : List Edge) (x : Nat), (D.erase e).card - q.length ≤ n →
      g.walk x q (g.target e) → q.Nodup → (∀ f, f ∈ q → f ∈ D.erase e) →
      ∃ q', g.walk (g.source e) q' (g.target e) ∧ q'.Nodup ∧ ∀ f, f ∈ q' → f ∈ D.erase e := by
  intro n
  induction n with
  | zero =>
    intro q x hn hw hnd hsub
    by_cases hx : g.source e = x
    · exact ⟨q, hx ▸ hw, hnd, hsub⟩
    · exfalso
      have hU : q.toFinset ⊆ D.erase e := fun f hf => hsub f (List.mem_toFinset.mp hf)
      have hdD := ((g.in_cycle_space_iff D).mp hD).2 x
      have hdU := g.walk_degree q x _ hw x
      rw [odd_edges_of_nodup q hnd] at hdU
      have hdE : g.degree (D.erase e) x % 2 = (g.degree D x + g.degree {e} x) % 2 := by
        rw [← g.degree_symmDiff, symmDiff_eq_sdiff _ _ (Finset.singleton_subset_iff.mpr he),
          Finset.sdiff_singleton_eq_erase]
      have hdR : g.degree (D.erase e \ q.toFinset) x % 2 =
          (g.degree (D.erase e) x + g.degree q.toFinset x) % 2 := by
        rw [← g.degree_symmDiff, symmDiff_eq_sdiff _ _ hU]
      rw [g.degree_singleton, if_neg hx] at hdE
      rw [if_pos rfl] at hdU
      have hodd : g.degree (D.erase e \ q.toFinset) x % 2 = 1 := by
        split_ifs at hdE hdU <;> omega
      obtain ⟨f, hf, _⟩ := g.exists_edge_of_degree _ x hodd
      have hlt : q.toFinset.card < (D.erase e).card := by
        apply Finset.card_lt_card
        rw [Finset.ssubset_iff_subset_ne]
        refine ⟨hU, fun h => ?_⟩
        rw [← h] at hf
        exact (Finset.mem_sdiff.mp hf).2 (Finset.mem_sdiff.mp hf).1
      rw [List.toFinset_card_of_nodup hnd] at hlt
      omega
  | succ n ih =>
    intro q x hn hw hnd hsub
    by_cases hx : g.source e = x
    · exact ⟨q, hx ▸ hw, hnd, hsub⟩
    · have hU : q.toFinset ⊆ D.erase e := fun f hf => hsub f (List.mem_toFinset.mp hf)
      have hdD := ((g.in_cycle_space_iff D).mp hD).2 x
      have hdU := g.walk_degree q x _ hw x
      rw [odd_edges_of_nodup q hnd] at hdU
      have hdE : g.degree (D.erase e) x % 2 = (g.degree D x + g.degree {e} x) % 2 := by
        rw [← g.degree_symmDiff, symmDiff_eq_sdiff _ _ (Finset.singleton_subset_iff.mpr he),
          Finset.sdiff_singleton_eq_erase]
      have hdR : g.degree (D.erase e \ q.toFinset) x % 2 =
          (g.degree (D.erase e) x + g.degree q.toFinset x) % 2 := by
        rw [← g.degree_symmDiff, symmDiff_eq_sdiff _ _ hU]
      rw [g.degree_singleton, if_neg hx] at hdE
      rw [if_pos rfl] at hdU
      have hodd : g.degree (D.erase e \ q.toFinset) x % 2 = 1 := by
        split_ifs at hdE hdU <;> omega
      obtain ⟨f, hf, hinc⟩ := g.exists_edge_of_degree _ x hodd
      rw [Finset.mem_sdiff, List.mem_toFinset] at hf
      obtain ⟨hinc', hopp⟩ := g.opposite_opposite f x hinc
      apply ih (f :: q) (g.opposite f x)
      · rw [List.length_cons]; omega
      · rw [Graph.walk]
        refine ⟨hD.1 (Finset.mem_of_mem_erase hf.1), ?_, ?_⟩
        · exact hinc'
        · rw [hopp]; exact hw
      · exact List.nodup_cons.mpr ⟨hf.2, hnd⟩
      · intro f' hf'
        rcases List.mem_cons.mp hf' with h | h
        · rw [h]; exact hf.1
        · exact hsub f' h

/-- A cycle without one of its edges is the edge set of a trail from the source to the
target of that edge. -/
theorem Graph.cycle_walk (g : Graph Edge) (D : Finset Edge) (hD : g.is_cycle D) (e : Edge)
    (he : e ∈ D) :
    ∃ q, g.walk (g.source e) q (g.target e) ∧ q.Nodup ∧ q.toFinset = D.erase e := by
  obtain ⟨q, hw, hnd, hsub⟩ := g.trail_extend D hD.2.1 e he _ [] (g.target e) (le_refl _) rfl
    List.nodup_nil (fun f hf => absurd hf (List.not_mem_nil f))
  refine ⟨q, hw, hnd, ?_⟩
  have heq : e ∉ q := fun h => (Finset.mem_erase.mp (hsub e h)).1 rfl
  have hnd' : (e :: q).Nodup := List.nodup_cons.mpr ⟨heq, hnd⟩
  have hclosed : g.walk (g.target e) (e :: q) (g.target e) := by
    rw [Graph.walk, g.opposite_target]
    exact ⟨hD.2.1.1 he, Or.inr rfl, hw⟩
  have hcs := g.closed_walk_in_cycle_space _ _ hclosed
  rw [odd_edges_of_nodup _ hnd', List.toFinset_cons] at hcs
  have hsubD : insert e q.toFinset ⊆ D := by
    intro f hf
    rcases Finset.mem_insert.mp hf with h | h
    · rw [h]; exact he
    · exact Finset.mem_of_mem_erase (hsub f (List.mem_toFinset.mp h))
  have := hD.2.2 _ (Finset.mem_powerset.mpr hsubD) (Finset.insert_nonempty _ _) hcs
  rw [← this, Finset.erase_insert (fun h => heq (List.mem_toFinset.mp h))]

end CycleWalk

section SearchResults

variable {Edge W : Type} [LinearOrder W]

/-- The scan of a block returns the value it starts from or a found result of the
search at one of the vertices of the block. -/
theorem vertex_scan_source (search : SignedSearch Edge W) (S : Finset Edge) :
    ∀ (vs : List Nat) (running_min : cycle_t Edge W),
      vertex_scan search S vs running_min = running_min ∨
      ∃ v, v ∈ vs ∧ ∃ use_limit limit,
        vertex_scan search S vs running_min =
          search S ∅ false v true v false use_limit limit ∧
        (search S ∅ false v true v false use_limit limit).found = true := by
  intro vs
  induction vs with
  | nil => intro rm; exact Or.inl rfl
  | cons v vs ih =>
    intro rm
    rw [vertex_scan]
    split
    · rename_i hc
      rcases ih (search S ∅ false v true v false rm.found rm.weight) with h | ⟨v', hv', ul, lim, h⟩
      · right
        refine ⟨v, List.mem_cons_self v vs, rm.found, rm.weight, h, ?_⟩
        simp only [Bool.and_eq_true] at hc
        exact hc.1
      · exact Or.inr ⟨v', List.mem_cons_of_mem v hv', ul, lim, h⟩
    · rcases ih rm with h | ⟨v', hv', ul, lim, h⟩
      · exact Or.inl h
      · exact Or.inr ⟨v', List.mem_cons_of_mem v hv', ul, lim, h⟩

theorem cycle_min_eq_or (c1 c2 : cycle_t Edge W) :
    cycle_min c1 c2 = c1 ∨ cycle_min c1 c2 = c2 := by
  unfold cycle_min
  split_ifs <;> simp

theorem min_op_eq_or (c1 c2 : SerializableMinOddCycle W) :
    SerializableMinOddCycleMinOp c1 c2 = c1 ∨ SerializableMinOddCycleMinOp c1 c2 = c2 := by
  unfold SerializableMinOddCycleMinOp
  split_ifs <;> simp

/-- A found value of the parallel reduce over vertices is a found result of the search at
one of the vertices. -/
theorem vertex_reduce_source (search : SignedSearch Edge W) (S : Finset Edge) (wmax : W)
    (split : Split) :
    ∀ vs : List Nat, (vertex_reduce search S wmax split vs).found = true →
      ∃ v, v ∈ vs ∧ ∃ use_limit limit,
        vertex_reduce search S wmax split vs =
          search S ∅ false v true v false use_limit limit ∧
        (search S ∅ false v true v false use_limit limit).found = true := by
  induction split with
  | block =>
    intro vs hf
    rw [vertex_reduce] at hf ⊢
    rcases vertex_scan_source search S vs (not_found Edge wmax) with h | h
    · rw [h] at hf
      exact absurd hf (by simp [not_found])
    · exact h
  | join k l r ihl ihr =>
    intro vs hf
    rw [vertex_reduce] at hf ⊢
    rcases cycle_min_eq_or (vertex_reduce search S wmax l (vs.take k))
      (vertex_reduce search S wmax r (vs.drop k)) with h | h
    · rw [h] at hf ⊢
      obtain ⟨v, hv, rest⟩ := ihl _ hf
      exact ⟨v, List.mem_of_mem_take hv, rest⟩
    · rw [h] at hf ⊢
      obtain ⟨v, hv, rest⟩ := ihr _ hf
      exact ⟨v, List.mem_of_mem_drop hv, rest⟩

omit [LinearOrder W] in
/-- The reduce with an operation that returns one of its arguments returns the value of one
of the ranks. -/
theorem mpi_reduce_source {T : Type} (op : T → T → T) (hop : ∀ a b, op a b = a ∨ op a b = b)
    (value : Nat → T) : ∀ n, ∃ r, r < n + 1 ∧ mpi_reduce op value (n + 1) = value r := by
  intro n
  induction n with
  | zero => exact ⟨0, Nat.lt_succ_self 0, by simp [mpi_reduce]⟩
  | succ n ih =>
    have hred : mpi_reduce op value (n + 1 + 1) =
        op (mpi_reduce op value (n + 1)) (value (n + 1)) := by
      simp only [mpi_reduce, Nat.add_sub_cancel, List.range_succ, List.foldl_append,
        List.foldl_cons, List.foldl_nil]
    rw [hred]
    obtain ⟨r, hr, he⟩ := ih
    rcases hop (mpi_reduce op value (n + 1)) (value (n + 1)) with h | h
    · exact ⟨r, by omega, by rw [h, he]⟩
    · exact ⟨n + 1, by omega, h⟩

/-- A found tuple `best` of rank 0 after the reduce is a found result of the search at a
vertex of the graph, its edges converted to indices and back. -/
theorem distributed_step_source (wmax indeterminate : W)
    (to_indices : Finset Edge → List Nat) (of_indices : List Nat → Finset Edge)
    (search : SignedSearch Edge W) (vertices : List Nat) (size : Nat) (split : Nat → Split)
    (S : Finset Edge) (hs : 1 ≤ size)
    (hf : (distributed_step wmax indeterminate to_indices of_indices search vertices size
      split S 0).found = true) :
    ∃ v, v ∈ vertices ∧ ∃ use_limit limit,
      (search S ∅ false v true v false use_limit limit).found = true ∧
      (distributed_step wmax indeterminate to_indices of_indices search vertices size
        split S 0).edges =
        of_indices (to_indices (search S ∅ false v true v false use_limit limit).edges) ∧
      (distributed_step wmax indeterminate to_indices of_indices search vertices size
        split S 0).weight = (search S ∅ false v true v false use_limit limit).weight := by
  obtain ⟨n, rfl⟩ : ∃ n, size = n + 1 := ⟨size - 1, by omega⟩
  obtain ⟨r, hr, hred⟩ := mpi_reduce_source SerializableMinOddCycleMinOp min_op_eq_or
    (local_min_odd_cycle wmax to_indices search vertices (n + 1) split S) n
  simp only [distributed_step, if_true] at hf ⊢
  rw [hred] at hf ⊢
  simp only [local_min_odd_cycle, serialize] at hf ⊢
  obtain ⟨v, hv, ul, lim, he, hfound⟩ := vertex_reduce_source search S wmax (split r) _ hf
  refine ⟨v, ?_, ul, lim, hfound, by rw [he], by rw [he]⟩
  apply (mem_local_vertices vertices (n + 1) hs v).mp
  rw [List.mem_flatMap]
  exact ⟨r, List.mem_range.mpr hr, hv⟩

end SearchResults

section StepCorrect

variable {Edge W : Type} [DecidableEq Edge] [LinearOrderedCancelAddCommMonoid W]

/-- The parity of a list without repetition is the parity of the number of its signed
edges. -/
theorem signed_parity_of_nodup (S : Finset Edge) (p : List Edge) (h : p.Nodup) :
    signed_parity S p = true ↔ (p.toFinset ∩ S).card % 2 = 1 := by
  rw [signed_parity_iff, odd_edges_of_nodup p h]

/-- A cycle is the edge set of a closed trail at the target of one of its edges. -/
theorem Graph.cycle_closed_walk (g : Graph Edge) (D : Finset Edge) (hD : g.is_cycle D) :
    ∃ e q, e ∈ D ∧ g.walk (g.target e) q (g.target e) ∧ q.Nodup ∧ q.toFinset = D := by
  obtain ⟨e, he⟩ := hD.1
  obtain ⟨q, hw, hnd, hq⟩ := g.cycle_walk D hD e he
  have heq : e ∉ q := fun h => by
    have := List.mem_toFinset.mpr h
    rw [hq] at this
    exact (Finset.mem_erase.mp this).1 rfl
  refine ⟨e, e :: q, he, ?_, List.nodup_cons.mpr ⟨heq, hnd⟩, ?_⟩
  · rw [Graph.walk, g.opposite_target]
    exact ⟨hD.2.1.1 he, Or.inr rfl, hw⟩
  · rw [List.toFinset_cons, hq, Finset.insert_erase he]

/-- With positive weights, a closed walk with an odd number of signed edges that weighs at
most every cycle with an odd number of signed edges is such a cycle, traversed once. -/
theorem Graph.closed_walk_cycle (g : Graph Edge) (w : Edge → W)
    (hpos : ∀ e, e ∈ g.edges → 0 < w e) (S : Finset Edge) (v : Nat) (p : List Edge)
    (hp : g.walk v p v) (hodd : signed_parity S p = true)
    (hmin : ∀ D, g.is_cycle D → (D ∩ S).card % 2 = 1 → (p.map w).sum ≤ D.sum w) :
    g.is_cycle p.toFinset ∧ (p.map w).sum = p.toFinset.sum w ∧
      (p.toFinset ∩ S).card % 2 = 1 := by
  obtain ⟨D, hD, hcyc, hDodd⟩ := g.exists_odd_cycle S _ (odd_edges p) (le_refl _)
    (g.closed_walk_in_cycle_space p v hp) ((signed_parity_iff S p).mp hodd)
  obtain ⟨heq, hsum⟩ := toFinset_eq_of_sum_le w p D
    (fun e he => hpos e (g.walk_subset p v v hp e he)) (hD.trans (odd_edges_subset p))
    (hmin D hcyc hDodd)
  rw [heq]
  exact ⟨hcyc, hsum, hDodd⟩

/-- A search that meets the contract of the signed search meets it in the form used for the
distributed minimum: the minimum weights of the odd closed walks are the weights it reports
without bound. -/
theorem signed_search_contract_of_walks (g : Graph Edge) (w : Edge → W)
    (search : SignedSearch Edge W) (hsearch : signed_dijkstra_contract g w search)
    (S : Finset Edge) :
    ∃ m, signed_search_contract search S m ∧
      ∀ v q, g.walk v q v → signed_parity S q = true →
        ∃ x, m v = some x ∧ x ≤ (q.map w).sum := by
  classical
  refine ⟨fun v => if ∃ q, g.walk v q v ∧ signed_parity S q = true then
    some (search S ∅ false v true v false false 0).weight else none, ?_, ?_⟩
  · intro v ul lim
    constructor
    · intro hf
      obtain ⟨p, hp, hodd, _, hwp, hminp⟩ := hsearch.closed_sound S v ul lim hf
      have hf0 := hsearch.closed_complete S v false 0 p hp hodd (Or.inl rfl)
      obtain ⟨p0, hp0, hodd0, _, hwp0, hminp0⟩ := hsearch.closed_sound S v false 0 hf0
      simp only
      rw [if_pos ⟨p, hp, hodd⟩]
      congr 1
      apply le_antisymm
      · rw [hwp]; exact hminp0 p hp hodd
      · rw [hwp0]; exact hminp p0 hp0 hodd0
    · intro x hx hlim
      simp only at hx
      split at hx
      · rename_i hex
        obtain ⟨q, hq, hodd⟩ := hex
        injection hx with hx
        have hf0 := hsearch.closed_complete S v false 0 q hq hodd (Or.inl rfl)
        obtain ⟨p0, hp0, hodd0, _, hwp0, _⟩ := hsearch.closed_sound S v false 0 hf0
        apply hsearch.closed_complete S v ul lim p0 hp0 hodd0
        rcases hlim with h | h
        · exact Or.inl h
        · right
          rw [← hwp0, hx]
          exact h
      · exact absurd hx (by simp)
  · intro v q hq hodd
    have hf0 := hsearch.closed_complete S v false 0 q hq hodd (Or.inl rfl)
    obtain ⟨_, _, _, _, _, hmin0⟩ := hsearch.closed_sound S v false 0 hf0
    refine ⟨_, ?_, hmin0 q hq hodd⟩
    simp only
    rw [if_pos ⟨q, hq, hodd⟩]

/-- The branch `signed_edges.size() != 1` under the contract of the search: when the graph
has a cycle with an odd number of signed edges, the tuple `best` of rank 0 is such a cycle
with its weight, and no such cycle weighs less. -/
theorem distributed_step_min_odd (g : Graph Edge) (w : Edge → W)
    (hpos : ∀ e, e ∈ g.edges → 0 < w e) (wmax indeterminate : W)
    (to_indices : Finset Edge → List Nat) (of_indices : List Nat → Finset Edge)
    (search : SignedSearch Edge W) (vertices : List Nat) (size : Nat) (split : Nat → Split)
    (S : Finset Edge) (hs : 1 ≤ size) (hsearch : signed_dijkstra_contract g w search)
    (hrt : ∀ F, F ⊆ g.edges → of_indices (to_indices F) = F)
    (hv : ∀ e, e ∈ g.edges → g.source e ∈ vertices ∧ g.target e ∈ vertices)
    (hex : ∃ D, g.is_cycle D ∧ (D ∩ S).card % 2 = 1) :
    (distributed_step wmax indeterminate to_indices of_indices search vertices size split
        S 0).found = true ∧
      g.is_cycle (distributed_step wmax indeterminate to_indices of_indices search vertices
        size split S 0).edges ∧
      (distributed_step wmax indeterminate to_indices of_indices search vertices size split
        S 0).weight =
        (distributed_step wmax indeterminate to_indices of_indices search vertices size split
          S 0).edges.sum w ∧
      ((distributed_step wmax indeterminate to_indices of_indices search vertices size split
        S 0).edges ∩ S).card % 2 = 1 ∧
      ∀ D, g.is_cycle D → (D ∩ S).card % 2 = 1 →
        (distributed_step wmax indeterminate to_indices of_indices search vertices size split
          S 0).weight ≤ D.sum w := by
  obtain ⟨m, hm, hmle⟩ := signed_search_contract_of_walks g w search hsearch S
  have hmin := distributed_step_min wmax indeterminate to_indices of_indices search vertices
    size split S m hs hm
  have hcyc : ∀ D, g.is_cycle D → (D ∩ S).card % 2 = 1 →
      ∃ v x, v ∈ vertices ∧ m v = some x ∧ x ≤ D.sum w := by
    intro D hD hodd
    obtain ⟨e, q, he, hq, hnd, hqD⟩ := g.cycle_closed_walk D hD
    obtain ⟨x, hx, hle⟩ := hmle _ q hq
      ((signed_parity_of_nodup S q hnd).mpr (by rw [hqD]; exact hodd))
    refine ⟨_, x, (hv e (hD.2.1.1 he)).2, hx, ?_⟩
    rw [← hqD, List.sum_toFinset w hnd]
    exact hle
  have hfound : (distributed_step wmax indeterminate to_indices of_indices search vertices
      size split S 0).found = true := by
    obtain ⟨D, hD, hodd⟩ := hex
    obtain ⟨v, x, hvv, hx, _⟩ := hcyc D hD hodd
    exact hmin.1.mpr ⟨v, hvv, by rw [hx]; rfl⟩
  have hle : ∀ D, g.is_cycle D → (D ∩ S).card % 2 = 1 →
      (distributed_step wmax indeterminate to_indices of_indices search vertices size split
        S 0).weight ≤ D.sum w := by
    intro D hD hodd
    obtain ⟨v, x, hvv, hx, hxle⟩ := hcyc D hD hodd
    exact ((hmin.2 hfound).2 v hvv x hx).trans hxle
  obtain ⟨v, _, ul, lim, hf, hedges, hweight⟩ := distributed_step_source wmax indeterminate
    to_indices of_indices search vertices size split S hs hfound
  obtain ⟨p, hp, hodd, hpe, hpw, _⟩ := hsearch.closed_sound S v ul lim hf
  rw [hpe, hrt _ (fun e he => g.walk_subset p v v hp e (List.mem_toFinset.mp he))] at hedges
  rw [hpw] at hweight
  obtain ⟨h1, h2, h3⟩ := g.closed_walk_cycle w hpos S v p hp hodd
    (fun D hD hDodd => by rw [← hweight]; exact hle D hD hDodd)
  refine ⟨hfound, ?_, ?_, ?_, hle⟩
  · rw [hedges]; exact h1
  · rw [hedges, hweight]; exact h2
  · rw [hedges]; exact h3

end StepCorrect

section StepCorrect2

variable {Edge W : Type} [DecidableEq Edge] [LinearOrderedCancelAddCommMonoid W]

theorem signed_parity_cons_singleton (se : Edge) (p : List Edge) (h : se ∉ p) :
    signed_parity {se} (se :: p) = true := by
  unfold signed_parity
  have hnil : p.filter (fun e => decide (e ∈ ({se} : Finset Edge))) = [] := by
    rw [List.filter_eq_nil_iff]
    intro a ha
    simp only [Finset.mem_singleton, decide_eq_true_eq]
    exact fun hc => h (hc ▸ ha)
  rw [List.filter_cons_of_pos (by simp), hnil]
  rfl

/-- The branch `signed_edges.size() == 1` under the contract of the search: when the two
ends of the signed edge `se` are joined by a walk that avoids `se`, the tuple `best` of rank
0 is a cycle through `se` with its weight, and no cycle through `se` weighs less. -/
theorem single_edge_step_min_odd (g : Graph Edge) (w : Edge → W)
    (hpos : ∀ e, e ∈ g.edges → 0 < w e) (wmax : W) (search : SignedSearch Edge W)
    (hsearch : signed_dijkstra_contract g w search) (se : Edge) (hse : se ∈ g.edges)
    (hpath : ∃ p, g.walk (g.source se) p (g.target se) ∧ se ∉ p) :
    (single_edge_step g w wmax search 0 {se} se).found = true ∧
      g.is_cycle (single_edge_step g w wmax search 0 {se} se).edges ∧
      (single_edge_step g w wmax search 0 {se} se).weight =
        (single_edge_step g w wmax search 0 {se} se).edges.sum w ∧
      ((single_edge_step g w wmax search 0 {se} se).edges ∩ {se}).card % 2 = 1 ∧
      ∀ D, g.is_cycle D → (D ∩ {se}).card % 2 = 1 →
        (single_edge_step g w wmax search 0 {se} se).weight ≤ D.sum w := by
  obtain ⟨p0, hp0, hse0⟩ := hpath
  have havoid : ∀ q : List Edge, se ∉ q → ∀ e, e ∈ q → e ∉ ({se} : Finset Edge) :=
    fun q hq e he hc => hq (Finset.mem_singleton.mp hc ▸ he)
  have hf := hsearch.path_complete {se} (g.source se) (g.target se) false wmax p0 hp0
    (havoid p0 hse0) (Or.inl rfl)
  obtain ⟨p, hp, hpa, hpe, hpw, hpmin⟩ :=
    hsearch.path_sound {se} (g.source se) (g.target se) false wmax hf
  have hsep : se ∉ p := fun h => hpa se h (Finset.mem_singleton_self se)
  have hnot : se ∉ (search ∅ {se} true (g.source se) true (g.target se) true false
      wmax).edges := by
    rw [hpe, List.mem_toFinset]
    exact hsep
  have hbest : single_edge_step g w wmax search 0 {se} se =
      { edges := insert se p.toFinset, weight := (p.map w).sum + w se, found := true } := by
    have hd : decide (se ∉ p.toFinset) = true := by
      rw [decide_eq_true_eq, List.mem_toFinset]
      exact hsep
    simp only [single_edge_step, not_found, if_true, hf, hpe, hpw, hd, Bool.and_self,
      Bool.not_false, Bool.true_or]
  have hclosed : g.walk (g.target se) (se :: p) (g.target se) := by
    rw [Graph.walk, g.opposite_target]
    exact ⟨hse, Or.inr rfl, hp⟩
  have hsum : ((se :: p).map w).sum = (p.map w).sum + w se := by
    rw [List.map_cons, List.sum_cons, add_comm]
  have hmem : ∀ D : Finset Edge, (D ∩ {se}).card % 2 = 1 → se ∈ D := by
    intro D hD
    by_contra hn
    have : D ∩ {se} = ∅ := by
      ext a
      simp only [Finset.mem_inter, Finset.mem_singleton, Finset.not_mem_empty, iff_false,
        not_and]
      exact fun ha hc => hn (hc ▸ ha)
    rw [this] at hD
    simp at hD
  have hle : ∀ D, g.is_cycle D → (D ∩ {se}).card % 2 = 1 →
      (p.map w).sum + w se ≤ D.sum w := by
    intro D hD hodd
    have hseD := hmem D hodd
    obtain ⟨q, hq, hnd, hqD⟩ := g.cycle_walk D hD se hseD
    have hseq : se ∉ q := fun h => by
      have := List.mem_toFinset.mpr h
      rw [hqD] at this
      exact (Finset.mem_erase.mp this).1 rfl
    have h1 := hpmin q hq (havoid q hseq)
    rw [hpw, ← List.sum_toFinset w hnd, hqD] at h1
    rw [← Finset.sum_erase_add D w hseD]
    exact add_le_add_right h1 _
  obtain ⟨h1, h2, h3⟩ := g.closed_walk_cycle w hpos {se} _ (se :: p) hclosed
    (signed_parity_cons_singleton se p hsep) (fun D hD hodd => by
      rw [hsum]; exact hle D hD hodd)
  rw [List.toFinset_cons] at h1 h2 h3
  rw [hbest]
  refine ⟨rfl, h1, ?_, h3, hle⟩
  show (p.map w).sum + w se = (insert se p.toFinset).sum w
  rw [← h2, hsum]

/-- The dot product of a support vector with the characteristic vector of a set of edges is
the parity of the number of signed edges of the set. -/
theorem dot_eq_card_inter (g : Graph Edge) (csd : Nat)
    (convert_edges : Finset Edge → Finset Nat) (tree : Finset Edge) (index : Edge → Nat)
    (to_edges : SpVecGF2 → List Edge) (to_indices : Finset Edge → List Nat)
    (of_indices : List Nat → Finset Edge)
    (hfi : forest_index_contract g csd convert_edges tree index)
    (hcv : forest_index_conversions g csd tree index to_edges to_indices of_indices)
    (s : SpVecGF2) (hs : s ⊆ Finset.range csd) (D : Finset Edge) (hD : D ⊆ g.edges) :
    SpVecGF2.dot s (convert_edges D) = (D ∩ (to_edges s).toFinset).card % 2 := by
  unfold SpVecGF2.dot
  have himg : s ∩ convert_edges D = (D ∩ (to_edges s).toFinset).image index := by
    ext i
    simp only [Finset.mem_inter, Finset.mem_image, List.mem_toFinset]
    constructor
    · rintro ⟨his, hic⟩
      obtain ⟨e, he, hnt, hidx⟩ :=
        (hfi.convert D hD i (Finset.mem_range.mp (hs his))).mp hic
      exact ⟨e, ⟨he, (hcv.to_edges_mem s hs e).mpr ⟨hD he, hnt, by rw [hidx]; exact his⟩⟩,
        hidx⟩
    · rintro ⟨e, ⟨he, hes⟩, hidx⟩
      obtain ⟨_, hnt, his⟩ := (hcv.to_edges_mem s hs e).mp hes
      rw [hidx] at his
      exact ⟨his, (hfi.convert D hD i (Finset.mem_range.mp (hs his))).mpr ⟨e, he, hnt, hidx⟩⟩
  rw [himg, Finset.card_image_of_injOn]
  intro e he e' he' heq
  simp only [Finset.coe_inter, Set.mem_inter_iff, Finset.mem_coe, List.mem_toFinset] at he he'
  obtain ⟨h1, h2, _⟩ := (hcv.to_edges_mem s hs e).mp he.2
  obtain ⟨h1', h2', _⟩ := (hcv.to_edges_mem s hs e').mp he'.2
  exact hfi.index_inj e h1 h2 e' h1' h2' heq

/-- The shortest-odd-cycle step under the contracts of the forest index and of the signed
search, for positive weights: for a support vector with an index below `csd` the tuple
`best` of rank 0 holds a minimum-weight cycle with dot product 1 with the vector. -/
theorem shortest_odd_cycle_step_min_odd_cycle (g : Graph Edge) (w : Edge → W)
    (hpos : ∀ e, e ∈ g.edges → 0 < w e) (wmax indeterminate : W) (csd : Nat)
    (convert_edges : Finset Edge → Finset Nat) (tree : Finset Edge) (index : Edge → Nat)
    (to_edges : SpVecGF2 → List Edge) (to_indices : Finset Edge → List Nat)
    (of_indices : List Nat → Finset Edge) (search : SignedSearch Edge W)
    (vertices : List Nat) (size : Nat) (split : Nat → Split) (hsize : 1 ≤ size)
    (hfi : forest_index_contract g csd convert_edges tree index)
    (hcv : forest_index_conversions g csd tree index to_edges to_indices of_indices)
    (hsearch : signed_dijkstra_contract g w search)
    (hv : ∀ e, e ∈ g.edges → g.source e ∈ vertices ∧ g.target e ∈ vertices)
    (k : Nat) (s : SpVecGF2) (hs : s ⊆ Finset.range csd) (i : Nat) (hi : i ∈ s) :
    min_odd_cycle g w convert_edges s
      (shortest_odd_cycle_step g w wmax indeterminate to_edges to_indices of_indices search
        vertices size split 0 k s) := by
  obtain ⟨e0, he0, hnt0, hidx0⟩ := hcv.index_surj i (Finset.mem_range.mp (hs hi))
  have he0s : e0 ∈ to_edges s := (hcv.to_edges_mem s hs e0).mpr ⟨he0, hnt0, by rw [hidx0]; exact hi⟩
  obtain ⟨p0, hp0, hp0t⟩ := hcv.spanning e0 he0 hnt0
  have hdisj : ∀ e, e ∈ to_edges s → e ∉ p0 := fun e he hp =>
    ((hcv.to_edges_mem s hs e).mp he).2.1 (hp0t e hp)
  have key : ∀ best : cycle_t Edge W,
      (best.found = true ∧ g.is_cycle best.edges ∧ best.weight = best.edges.sum w ∧
        (best.edges ∩ (to_edges s).toFinset).card % 2 = 1 ∧
        ∀ D, g.is_cycle D → (D ∩ (to_edges s).toFinset).card % 2 = 1 →
          best.weight ≤ D.sum w) →
      min_odd_cycle g w convert_edges s best := by
    rintro best ⟨h1, h2, h3, h4, h5⟩
    refine ⟨h1, h2, h3, ?_, fun D hD hdot => h5 D hD ?_⟩
    · rw [dot_eq_card_inter g csd convert_edges tree index to_edges to_indices of_indices
        hfi hcv s hs _ h2.2.1.1]
      exact h4
    · rw [dot_eq_card_inter g csd convert_edges tree index to_edges to_indices of_indices
        hfi hcv s hs _ hD.2.1.1] at hdot
      exact hdot
  apply key
  by_cases hlen : (to_edges s).length = 1
  · obtain ⟨se, hse⟩ := List.length_eq_one.mp hlen
    have hstep : shortest_odd_cycle_step g w wmax indeterminate to_edges to_indices
        of_indices search vertices size split 0 k s =
        single_edge_step g w wmax search 0 {se} se := by
      unfold shortest_odd_cycle_step
      rw [hse]
    have hT : (to_edges s).toFinset = {se} := by
      rw [hse]
      rfl
    have hee : e0 = se := by
      rw [hse] at he0s
      exact List.mem_singleton.mp he0s
    rw [hstep, hT]
    apply single_edge_step_min_odd g w hpos wmax search hsearch se (hee ▸ he0)
    refine ⟨p0, hee ▸ hp0, ?_⟩
    rw [← hee]
    exact hdisj e0 he0s
  · rw [shortest_odd_cycle_step_distributed g w wmax indeterminate to_edges to_indices
      of_indices search vertices size split 0 k s hlen]
    apply distributed_step_min_odd g w hpos wmax indeterminate to_indices of_indices search
      vertices size split _ hsize hsearch hcv.round_trip hv
    have hclosed : g.walk (g.target e0) (e0 :: p0) (g.target e0) := by
      rw [Graph.walk, g.opposite_target]
      exact ⟨he0, Or.inr rfl, hp0⟩
    have hodd : signed_parity (to_edges s).toFinset (e0 :: p0) = true := by
      unfold signed_parity
      have hnil : p0.filter (fun e => decide (e ∈ (to_edges s).toFinset)) = [] := by
        rw [List.filter_eq_nil_iff]
        intro a ha
        simp only [List.mem_toFinset, decide_eq_true_eq]
        exact fun hc => hdisj a hc ha
      rw [List.filter_cons_of_pos (by simpa using he0s), hnil]
      rfl
    obtain ⟨D, _, hD, hDodd⟩ := g.exists_odd_cycle _ _ (odd_edges (e0 :: p0)) (le_refl _)
      (g.closed_walk_in_cycle_space _ _ hclosed) ((signed_parity_iff _ _).mp hodd)
    exact ⟨D, hD, hDodd⟩

end StepCorrect2

section MinimumBasis

variable {Edge W : Type} [DecidableEq Edge] [LinearOrderedCancelAddCommMonoid W]

/-- C3, amended (minimality). For a graph with positive weights in a weight type with exact
addition, if `ForestIndex` with `convert_edges` and `bidirectional_signed_dijkstra` meet
their contracts, then for every communicator size and every splitting of the vertex ranges
the `csd` cycles that `mcb_sva_mpi` writes to `out` on rank 0 form a cycle basis of the
graph, the returned value is the total weight of this basis, and it is at most the total
weight of any cycle basis of the graph. -/
theorem mcb_sva_mpi_minimum_cycle_basis (g : Graph Edge) (w : Edge → W)
    (hpos : ∀ e, e ∈ g.edges → 0 < w e) (wmax indeterminate : W) (csd : Nat)
    (convert_edges : Finset Edge → Finset Nat) (tree : Finset Edge) (index : Edge → Nat)
    (to_edges : SpVecGF2 → List Edge) (to_indices : Finset Edge → List Nat)
    (of_indices : List Nat → Finset Edge) (search : SignedSearch Edge W)
    (vertices : List Nat) (size : Nat) (split : Nat → Split) (hsize : 1 ≤ size)
    (hfi : forest_index_contract g csd convert_edges tree index)
    (hcv : forest_index_conversions g csd tree index to_edges to_indices of_indices)
    (hsearch : signed_dijkstra_contract g w search)
    (hv : ∀ e, e ∈ g.edges → g.source e ∈ vertices ∧ g.target e ∈ vertices) :
    g.is_cycle_basis csd (fun k => (mcb_sva_mpi convert_edges
        (shortest_odd_cycle_step g w wmax indeterminate to_edges to_indices of_indices search
          vertices size split) csd 0).out.getD k ∅) ∧
      (mcb_sva_mpi convert_edges
        (shortest_odd_cycle_step g w wmax indeterminate to_edges to_indices of_indices search
          vertices size split) csd 0).mcb_weight =
        (Finset.range csd).sum
          (fun k => ((mcb_sva_mpi convert_edges
            (shortest_odd_cycle_step g w wmax indeterminate to_edges to_indices of_indices
              search vertices size split) csd 0).out.getD k ∅).sum w) ∧
      ∀ n b, g.is_cycle_basis n b →
        (mcb_sva_mpi convert_edges
          (shortest_odd_cycle_step g w wmax indeterminate to_edges to_indices of_indices
            search vertices size split) csd 0).mcb_weight ≤
          (Finset.range n).sum (fun i => (b i).sum w) := by
  apply minimum_cycle_basis_of_steps g w (fun e he => le_of_lt (hpos e he)) convert_edges _
    csd tree index hfi
  intro k hk
  exact shortest_odd_cycle_step_min_odd_cycle g w hpos wmax indeterminate csd convert_edges
    tree index to_edges to_indices of_indices search vertices size split hsize hfi hcv
    hsearch hv k _ (support_subset_range convert_edges _ csd k k) k
    (support_unitriangular convert_edges _ csd k k hk).1

end MinimumBasis

section ThetaWitness

theorem theta_cycles : ∀ S D : Finset (Fin 3), theta_graph.is_cycle D →
    (D ∩ S).card % 2 = 1 →
    (theta_closed S).found = true ∧ (theta_closed S).weight ≤ D.sum theta_weight := by
  decide

theorem theta_closed_walk : ∀ S : Finset (Fin 3), (theta_closed S).found = true →
    ∃ e f : Fin 3, (theta_closed S).edges = [e, f].toFinset ∧
      (theta_closed S).weight = ([e, f].map theta_weight).sum ∧
      signed_parity S [e, f] = true := by
  decide

theorem theta_round_trip : ∀ F : Finset (Fin 3), theta_of_indices (theta_to_indices F) = F := by
  decide


/-- With non-negative weights a closed walk with an odd number of signed edges weighs at
least some cycle with an odd number of signed edges. -/
theorem Graph.odd_walk_cycle_le {Edge W : Type} [DecidableEq Edge]
    [LinearOrderedCancelAddCommMonoid W] (g : Graph Edge) (w : Edge → W)
    (hw : ∀ e, e ∈ g.edges → 0 ≤ w e) (S : Finset Edge) (v : Nat) (q : List Edge)
    (hq : g.walk v q v) (hodd : signed_parity S q = true) :
    ∃ D, g.is_cycle D ∧ (D ∩ S).card % 2 = 1 ∧ D ⊆ q.toFinset ∧ D.sum w ≤ (q.map w).sum := by
  obtain ⟨D, hD, hcyc, hDodd⟩ := g.exists_odd_cycle S _ (odd_edges q) (le_refl _)
    (g.closed_walk_in_cycle_space q v hq) ((signed_parity_iff S q).mp hodd)
  have hnn : ∀ e, e ∈ q → 0 ≤ w e := fun e he => hw e (g.walk_subset q v v hq e he)
  refine ⟨D, hcyc, hDodd, hD.trans (odd_edges_subset q), ?_⟩
  exact (Finset.sum_le_sum_of_subset_of_nonneg (hD.trans (odd_edges_subset q))
    (fun e he _ => hnn e (List.mem_toFinset.mp he))).trans (sum_toFinset_le w q hnn)

theorem theta_walk_end (q : List (Fin 3)) :
    ∀ u v, theta_graph.walk u q v → (u = 0 ∨ u = 1) → (v = 0 ∨ v = 1) := by
  induction q with
  | nil =>
    intro u v h hu
    rw [Graph.walk] at h
    exact h ▸ hu
  | cons e q ih =>
    intro u v h hu
    rw [Graph.walk] at h
    apply ih _ v h.2.2
    rcases hu with hu | hu
    · right; rw [hu]; rfl
    · left; rw [hu]; rfl

theorem theta_walk_start (e : Fin 3) (q : List (Fin 3)) (u v : Nat)
    (h : theta_graph.walk u (e :: q) v) : u = 0 ∨ u = 1 := by
  rw [Graph.walk] at h
  rcases h.2.1 with h1 | h1
  · exact Or.inl h1.symm
  · exact Or.inr h1.symm

theorem theta_two_walks : ∀ e f : Fin 3,
    theta_graph.walk 0 [e, f] 0 ∧ theta_graph.walk 1 [e, f] 1 := by
  decide

theorem theta_one_walk : ∀ e : Fin 3, theta_graph.walk 0 [e] 1 ∧ theta_graph.walk 1 [e] 0 := by
  decide

theorem signed_parity_nil_false {Edge : Type} [DecidableEq Edge] (S : Finset Edge) :
    signed_parity S ([] : List Edge) = false := by
  simp [signed_parity]

/-- The search `theta_dijkstra` meets the contract of the signed search on the theta
graph. -/
theorem theta_dijkstra_contract :
    signed_dijkstra_contract theta_graph theta_weight theta_dijkstra where
  closed_sound := by
    intro S v ul lim hf
    by_cases hv : v = 0 ∨ v = 1
    · have he : theta_dijkstra S ∅ false v true v false ul lim = theta_closed S := by
        simp [theta_dijkstra, hv]
      rw [he] at hf ⊢
      obtain ⟨e, f, hedges, hweight, hpar⟩ := theta_closed_walk S hf
      refine ⟨[e, f], ?_, hpar, hedges, hweight, ?_⟩
      · rcases hv with hv | hv
        · rw [hv]; exact (theta_two_walks e f).1
        · rw [hv]; exact (theta_two_walks e f).2
      · intro q hq hodd
        obtain ⟨D, hD, hDodd, _, hle⟩ := theta_graph.odd_walk_cycle_le theta_weight
          (fun e _ => Nat.zero_le _) S v q hq hodd
        exact ((theta_cycles S D hD hDodd).2).trans hle
    · have he : theta_dijkstra S ∅ false v true v false ul lim =
          { edges := ∅, weight := 0, found := false } := by
        simp [theta_dijkstra, hv]
      rw [he] at hf
      exact absurd hf (by simp)
  closed_complete := by
    intro S v ul lim q hq hodd _
    have hv : v = 0 ∨ v = 1 := by
      cases q with
      | nil => rw [signed_parity_nil_false] at hodd; exact absurd hodd (by simp)
      | cons e q => exact theta_walk_start e q v v hq
    have he : theta_dijkstra S ∅ false v true v false ul lim = theta_closed S := by
      simp [theta_dijkstra, hv]
    rw [he]
    obtain ⟨D, hD, hDodd, _, _⟩ := theta_graph.odd_walk_cycle_le theta_weight
      (fun e _ => Nat.zero_le _) S v q hq hodd
    exact (theta_cycles S D hD hDodd).1
  path_sound := by
    intro H a b ul lim hf
    by_cases hab : a = b
    · subst hab
      have he : theta_dijkstra ∅ H true a true a true ul lim =
          { edges := ∅, weight := 0, found := true } := by
        simp [theta_dijkstra]
      rw [he]
      exact ⟨[], rfl, fun e he => absurd he (List.not_mem_nil e), rfl, rfl,
        fun q _ _ => Nat.zero_le _⟩
    · by_cases hends : (a = 0 ∧ b = 1) ∨ (a = 1 ∧ b = 0)
      · have hmin : ∀ (x : Fin 3) (c : Nat), x ∉ H → (∀ y : Fin 3, y ∉ H → c ≤ theta_weight y) →
            theta_dijkstra ∅ H true a true b true ul lim =
              { edges := {x}, weight := c, found := true } → c = theta_weight x →
            ∃ p, theta_graph.walk a p b ∧ (∀ e, e ∈ p → e ∉ H) ∧
              (theta_dijkstra ∅ H true a true b true ul lim).edges = p.toFinset ∧
              (theta_dijkstra ∅ H true a true b true ul lim).weight =
                (p.map theta_weight).sum ∧
              ∀ q, theta_graph.walk a q b → (∀ e, e ∈ q → e ∉ H) →
                (theta_dijkstra ∅ H true a true b true ul lim).weight ≤
                  (q.map theta_weight).sum := by
          intro x c hx hc he hcx
          rw [he]
          refine ⟨[x], ?_, ?_, rfl, ?_, ?_⟩
          · rcases hends with ⟨h1, h2⟩ | ⟨h1, h2⟩
            · rw [h1, h2]; exact (theta_one_walk x).1
            · rw [h1, h2]; exact (theta_one_walk x).2
          · intro e he'
            rw [List.mem_singleton.mp he']
            exact hx
          · simp [hcx]
          · intro q hq hav
            cases q with
            | nil => rw [Graph.walk] at hq; exact absurd hq hab
            | cons y q =>
              rw [List.map_cons, List.sum_cons]
              exact (hc y (hav y (List.mem_cons_self y q))).trans (Nat.le_add_right _ _)
        by_cases h0 : (0 : Fin 3) ∈ H
        · by_cases h1 : (1 : Fin 3) ∈ H
          · by_cases h2 : (2 : Fin 3) ∈ H
            · have he : theta_dijkstra ∅ H true a true b true ul lim =
                  { edges := ∅, weight := 0, found := false } := by
                simp [theta_dijkstra, hab, hends, h0, h1, h2]
              rw [he] at hf
              exact absurd hf (by simp)
            · apply hmin 2 5 h2
              · intro y hy
                fin_cases y
                · exact absurd h0 hy
                · exact absurd h1 hy
                · decide
              · simp [theta_dijkstra, hab, hends, h0, h1, h2]
              · rfl
          · apply hmin 1 3 h1
            · intro y hy
              fin_cases y
              · exact absurd h0 hy
              · decide
              · decide
            · simp [theta_dijkstra, hab, hends, h0, h1]
            · rfl
        · apply hmin 0 2 h0
          · intro y _
            fin_cases y <;> decide
          · simp [theta_dijkstra, hab, hends, h0]
          · rfl
      · have he : theta_dijkstra ∅ H true a true b true ul lim =
            { edges := ∅, weight := 0, found := false } := by
          simp [theta_dijkstra, hab, hends]
        rw [he] at hf
        exact absurd hf (by simp)
  path_complete := by
    intro H a b ul lim q hq hav _
    by_cases hab : a = b
    · simp [theta_dijkstra, hab]
    · cases q with
      | nil => rw [Graph.walk] at hq; exact absurd hq hab
      | cons y q =>
        have ha := theta_walk_start y q a b hq
        have hb := theta_walk_end (y :: q) a b hq ha
        have hends : (a = 0 ∧ b = 1) ∨ (a = 1 ∧ b = 0) := by
          rcases ha with ha | ha <;> rcases hb with hb | hb
          · exact absurd (ha.trans hb.symm) hab
          · exact Or.inl ⟨ha, hb⟩
          · exact Or.inr ⟨ha, hb⟩
          · exact absurd (ha.trans hb.symm) hab
        have hy := hav y (List.mem_cons_self y q)
        by_cases h0 : (0 : Fin 3) ∈ H
        · by_cases h1 : (1 : Fin 3) ∈ H
          · by_cases h2 : (2 : Fin 3) ∈ H
            · exfalso
              fin_cases y
              · exact hy h0
              · exact hy h1
              · exact hy h2
            · simp [theta_dijkstra, hab, hends, h0, h1, h2]
          · simp [theta_dijkstra, hab, hends, h0, h1]
        · simp [theta_dijkstra, hab, hends, h0]

/-- The conversions of the theta graph with the tree edge 2 meet the contract of the forest
index. -/
theorem theta_conversions :
    forest_index_conversions theta_graph 2 {2} theta_edge_index theta_signed_edges
      theta_to_indices theta_of_indices where
  tree_sub := by decide
  index_surj := by decide
  spanning := fun e _ _ => ⟨[2], (theta_one_walk 2).1, by decide⟩
  to_edges_nodup := by
    intro s
    unfold theta_signed_edges
    exact List.Nodup.filter _ (by decide)
  to_edges_mem := by
    intro s _ e
    unfold theta_signed_edges theta_edge_index
    fin_cases e <;> simp [theta_graph]
  round_trip := fun F _ => theta_round_trip F

theorem theta_forest_index :
    forest_index_contract theta_graph 2 theta_cycle_indices {2} theta_edge_index :=
  ⟨by decide, by decide, by decide, by decide⟩

/-- Witness of C3: the theta graph with the weights 2, 3, 5 (end-to-end scenario 2 of the
spec), the tree edge 2, two ranks and the search `theta_dijkstra`. Iteration 0 runs the
branch with one signed edge and emits the cycle `{0, 1}` of weight 5; iteration 1 has the
two signed edges 0 and 1, runs the distributed branch and emits `{0, 2}` of weight 7. -/
theorem mcb_sva_mpi_minimum_cycle_basis_witness :
    (mcb_sva_mpi theta_cycle_indices
        (shortest_odd_cycle_step theta_graph theta_weight 1000 0 theta_signed_edges
          theta_to_indices theta_of_indices theta_dijkstra [0, 1] 2 (fun _ => Split.block))
        2 0).out = [{0, 1}, {0, 2}] ∧
      (mcb_sva_mpi theta_cycle_indices
        (shortest_odd_cycle_step theta_graph theta_weight 1000 0 theta_signed_edges
          theta_to_indices theta_of_indices theta_dijkstra [0, 1] 2 (fun _ => Split.block))
        2 0).mcb_weight = 12 ∧
      (theta_graph.is_cycle_basis 2 (fun k => (mcb_sva_mpi theta_cycle_indices
        (shortest_odd_cycle_step theta_graph theta_weight 1000 0 theta_signed_edges
          theta_to_indices theta_of_indices theta_dijkstra [0, 1] 2 (fun _ => Split.block))
        2 0).out.getD k ∅) ∧
      (mcb_sva_mpi theta_cycle_indices
        (shortest_odd_cycle_step theta_graph theta_weight 1000 0 theta_signed_edges
          theta_to_indices theta_of_indices theta_dijkstra [0, 1] 2 (fun _ => Split.block))
        2 0).mcb_weight =
        (Finset.range 2).sum
          (fun k => ((mcb_sva_mpi theta_cycle_indices
            (shortest_odd_cycle_step theta_graph theta_weight 1000 0 theta_signed_edges
              theta_to_indices theta_of_indices theta_dijkstra [0, 1] 2
              (fun _ => Split.block)) 2 0).out.getD k ∅).sum theta_weight) ∧
      ∀ n b, theta_graph.is_cycle_basis n b →
        (mcb_sva_mpi theta_cycle_indices
          (shortest_odd_cycle_step theta_graph theta_weight 1000 0 theta_signed_edges
            theta_to_indices theta_of_indices theta_dijkstra [0, 1] 2
            (fun _ => Split.block)) 2 0).mcb_weight ≤
          (Finset.range n).sum (fun i => (b i).sum theta_weight)) :=
  ⟨by decide, by decide,
    mcb_sva_mpi_minimum_cycle_basis theta_graph theta_weight (by decide) 1000 0 2
      theta_cycle_indices {2} theta_edge_index theta_signed_edges theta_to_indices
      theta_of_indices theta_dijkstra [0, 1] 2 (fun _ => Split.block) (by decide)
      theta_forest_index theta_conversions theta_dijkstra_contract (by decide)⟩

end ThetaWitness

section ZeroWeight

theorem loop_cycles : ∀ D : Finset (Fin 2), loop_graph.is_cycle D → D = {1} := by
  decide

theorem loop_walk_start (e : Fin 2) (q : List (Fin 2)) (u v : Nat)
    (h : loop_graph.walk u (e :: q) v) : u = 0 ∨ u = 1 := by
  rw [Graph.walk] at h
  have h1 := h.2.1
  fin_cases e
  · rcases h1 with h1 | h1
    · exact Or.inl h1.symm
    · exact Or.inr h1.symm
  · rcases h1 with h1 | h1
    · exact Or.inl h1.symm
    · exact Or.inl h1.symm

theorem loop_walk_end (q : List (Fin 2)) :
    ∀ u v, loop_graph.walk u q v → (u = 0 ∨ u = 1) → (v = 0 ∨ v = 1) := by
  induction q with
  | nil =>
    intro u v h hu
    rw [Graph.walk] at h
    exact h ▸ hu
  | cons e q ih =>
    intro u v h hu
    rw [Graph.walk] at h
    apply ih _ v h.2.2
    fin_cases e <;> rcases hu with hu | hu <;> rw [hu] <;> decide

theorem loop_walk_stay (q : List (Fin 2)) :
    ∀ u v, loop_graph.walk u q v → (0 : Fin 2) ∉ q → u = v := by
  induction q with
  | nil =>
    intro u v h _
    rw [Graph.walk] at h
    exact h
  | cons e q ih =>
    intro u v h h0
    rw [Graph.walk] at h
    have he : e = 1 := by
      fin_cases e
      · exact absurd (List.mem_cons_self _ _) h0
      · rfl
    subst he
    have hu : u = 0 := by
      rcases h.2.1 with h1 | h1
      · exact h1.symm
      · exact h1.symm
    subst hu
    exact ih _ v h.2.2 (fun hm => h0 (List.mem_cons_of_mem _ hm))

theorem loop_walks :
    loop_graph.walk 0 [1] 0 ∧ loop_graph.walk 1 [0, 1, 0] 1 ∧ loop_graph.walk 0 [0, 0] 0 ∧
      loop_graph.walk 1 [0, 0] 1 ∧ loop_graph.walk 0 [0] 1 ∧ loop_graph.walk 1 [0] 0 := by
  decide

/-- The search `lollipop_search` meets the contract of the signed search on the loop graph
with the weights 0 and 1. -/
theorem lollipop_search_contract :
    signed_dijkstra_contract loop_graph lollipop_weight lollipop_search where
  closed_sound := by
    intro S v ul lim hf
    have hmin : ∀ q, loop_graph.walk v q v → signed_parity S q = true →
        1 ≤ (q.map lollipop_weight).sum := by
      intro q hq hodd
      obtain ⟨D, hD, _, _, hle⟩ := loop_graph.odd_walk_cycle_le lollipop_weight
        (fun e _ => Nat.zero_le _) S v q hq hodd
      rw [loop_cycles D hD] at hle
      exact hle
    by_cases h1 : (1 : Fin 2) ∈ S
    · by_cases hv0 : v = 0
      · have he : lollipop_search S ∅ false v true v false ul lim =
            { edges := {1}, weight := 1, found := true } := by
          simp [lollipop_search, h1, hv0]
        rw [he]
        refine ⟨[1], ?_, ?_, rfl, rfl, hmin⟩
        · rw [hv0]; exact loop_walks.1
        · simp [signed_parity, h1]
      · by_cases hv1 : v = 1
        · have he : lollipop_search S ∅ false v true v false ul lim =
              { edges := {0, 1}, weight := 1, found := true } := by
            simp [lollipop_search, h1, hv1]
          rw [he]
          refine ⟨[0, 1, 0], ?_, ?_, by decide, rfl, hmin⟩
          · rw [hv1]; exact loop_walks.2.1
          · by_cases h0 : (0 : Fin 2) ∈ S <;> simp [signed_parity, h1, h0]
        · have he : lollipop_search S ∅ false v true v false ul lim =
              { edges := ∅, weight := 0, found := false } := by
            simp [lollipop_search, h1, hv0, hv1]
          rw [he] at hf
          exact absurd hf (by simp)
    · have he : lollipop_search S ∅ false v true v false ul lim =
          { edges := ∅, weight := 0, found := false } := by
        simp [lollipop_search, h1]
      rw [he] at hf
      exact absurd hf (by simp)
  closed_complete := by
    intro S v ul lim q hq hodd _
    obtain ⟨D, hD, hDodd, _, _⟩ := loop_graph.odd_walk_cycle_le lollipop_weight
      (fun e _ => Nat.zero_le _) S v q hq hodd
    rw [loop_cycles D hD] at hDodd
    have h1 : (1 : Fin 2) ∈ S := by
      by_contra hn
      rw [Finset.singleton_inter_of_not_mem hn] at hDodd
      simp at hDodd
    have hv : v = 0 ∨ v = 1 := by
      cases q with
      | nil => rw [signed_parity_nil_false] at hodd; exact absurd hodd (by simp)
      | cons e q => exact loop_walk_start e q v v hq
    rcases hv with hv | hv <;> simp [lollipop_search, h1, hv]
  path_sound := by
    intro H a b ul lim hf
    by_cases hab : a = b
    · subst hab
      by_cases hc : (a = 0 ∨ a = 1) ∧ (0 : Fin 2) ∉ H
      · have he : lollipop_search ∅ H true a true a true ul lim =
            { edges := {0}, weight := 0, found := true } := by
          simp only [lollipop_search, if_true, if_pos hc]
        rw [he]
        refine ⟨[0, 0], ?_, ?_, by decide, rfl, fun q _ _ => Nat.zero_le _⟩
        · rcases hc.1 with h | h
          · rw [h]; exact loop_walks.2.2.1
          · rw [h]; exact loop_walks.2.2.2.1
        · intro e he'
          have : e = 0 := by
            rcases List.mem_cons.mp he' with h | h
            · exact h
            · exact List.mem_singleton.mp h
          rw [this]
          exact hc.2
      · have he : lollipop_search ∅ H true a true a true ul lim =
            { edges := ∅, weight := 0, found := true } := by
          simp only [lollipop_search, if_true, if_neg hc]
        rw [he]
        exact ⟨[], rfl, fun e he => absurd he (List.not_mem_nil e), rfl, rfl,
          fun q _ _ => Nat.zero_le _⟩
    · by_cases hc : ((a = 0 ∧ b = 1) ∨ (a = 1 ∧ b = 0)) ∧ (0 : Fin 2) ∉ H
      · have he : lollipop_search ∅ H true a true b true ul lim =
            { edges := {0}, weight := 0, found := true } := by
          simp only [lollipop_search, if_true, if_neg hab, if_pos hc]
        rw [he]
        refine ⟨[0], ?_, ?_, rfl, rfl, fun q _ _ => Nat.zero_le _⟩
        · rcases hc.1 with ⟨h1, h2⟩ | ⟨h1, h2⟩
          · rw [h1, h2]; exact loop_walks.2.2.2.2.1
          · rw [h1, h2]; exact loop_walks.2.2.2.2.2
        · intro e he'
          rw [List.mem_singleton.mp he']
          exact hc.2
      · have he : lollipop_search ∅ H true a true b true ul lim =
            { edges := ∅, weight := 0, found := false } := by
          simp only [lollipop_search, if_true, if_neg hab, if_neg hc]
        rw [he] at hf
        exact absurd hf (by simp)
  path_complete := by
    intro H a b ul lim q hq hav _
    by_cases hab : a = b
    · subst hab
      simp only [lollipop_search, if_true]
      split <;> rfl
    · have h0 : (0 : Fin 2) ∈ q := by
        by_contra hn
        exact hab (loop_walk_stay q a b hq hn)
      cases q with
      | nil => exact absurd h0 (List.not_mem_nil _)
      | cons y q =>
        have ha := loop_walk_start y q a b hq
        have hb := loop_walk_end (y :: q) a b hq ha
        have hends : (a = 0 ∧ b = 1) ∨ (a = 1 ∧ b = 0) := by
          rcases ha with ha | ha <;> rcases hb with hb | hb
          · exact absurd (ha.trans hb.symm) hab
          · exact Or.inl ⟨ha, hb⟩
          · exact Or.inr ⟨ha, hb⟩
          · exact absurd (ha.trans hb.symm) hab
        simp only [lollipop_search, if_true, if_neg hab, if_pos (And.intro hends (hav 0 h0))]

/-- The conversions of the loop graph meet the contract of the forest index. -/
theorem lollipop_conversions :
    forest_index_conversions loop_graph 1 {0} lollipop_index lollipop_to_edges
      lollipop_to_indices lollipop_of_indices where
  tree_sub := by decide
  index_surj := by decide
  spanning := by
    intro e _ he
    fin_cases e
    · exact absurd (Finset.mem_singleton_self _) he
    · exact ⟨[], rfl, fun f hf => absurd hf (List.not_mem_nil f)⟩
  to_edges_nodup := by
    intro s
    unfold lollipop_to_edges
    split <;> simp
  to_edges_mem := by
    intro s _ e
    unfold lollipop_to_edges lollipop_index
    by_cases h0 : 0 ∈ s <;> fin_cases e <;> simp [h0, loop_graph]
  round_trip := by
    intro F _
    revert F
    decide

theorem lollipop_forest_index :
    forest_index_contract loop_graph 1 lollipop_convert_edges {0} lollipop_index :=
  ⟨by decide, by decide, by decide, by decide⟩

/-- C3, counterexample: the loop graph with the weight 0 on the edge 0 = (0,1) and the
weight 1 on the self-loop 1 at the vertex 0. The weights are non-negative, the forest index
and the search meet their contracts; the search from the vertex 0 to itself that avoids the
self-loop returns the walk along the edge 0 and back, which weighs 0 as the empty walk does.
`mcb_sva_mpi` adds the self-loop and emits `{1, 0}`, which is not a cycle, so what it emits
is not a cycle basis. -/
theorem mcb_sva_mpi_minimum_cycle_basis_counterexample :
    (∀ e, 0 ≤ lollipop_weight e) ∧
    forest_index_contract loop_graph 1 lollipop_convert_edges {0} lollipop_index ∧
    forest_index_conversions loop_graph 1 {0} lollipop_index lollipop_to_edges
      lollipop_to_indices lollipop_of_indices ∧
    signed_dijkstra_contract loop_graph lollipop_weight lollipop_search ∧
    (∀ e, e ∈ loop_graph.edges →
      loop_graph.source e ∈ [0, 1] ∧ loop_graph.target e ∈ [0, 1]) ∧
    lollipop_search ∅ {1} true 0 true 0 true false 1000 =
      { edges := {0}, weight := 0, found := true } ∧
    (mcb_sva_mpi lollipop_convert_edges
      (shortest_odd_cycle_step loop_graph lollipop_weight 1000 0 lollipop_to_edges
        lollipop_to_indices lollipop_of_indices lollipop_search [0, 1] 1
        (fun _ => Split.block)) 1 0).out = [{1, 0}] ∧
    ¬ loop_graph.is_cycle {1, 0} ∧
    ¬ loop_graph.is_cycle_basis 1 (fun k => (mcb_sva_mpi lollipop_convert_edges
      (shortest_odd_cycle_step loop_graph lollipop_weight 1000 0 lollipop_to_edges
        lollipop_to_indices lollipop_of_indices lollipop_search [0, 1] 1
        (fun _ => Split.block)) 1 0).out.getD k ∅) :=
  ⟨fun e => Nat.zero_le _, lollipop_forest_index, lollipop_conversions,
    lollipop_search_contract, by decide, by decide, by decide, by decide,
    fun h => absurd (h.1 0 (by decide)) (by decide)⟩

end ZeroWeight

end ParMCB
